import Mathlib

/-! # ParTcl: a shallow embedding of `tcl.c`

The C source works on `char` buffers through pointers.  In this development

* a byte (`char`) is a Lean `Char`; the bytes of interest are the ASCII ones,
* a memory block is a `List Char`; reading past the end of a block yields NUL
  (every block the interpreter allocates is NUL terminated, and the bytes that
  follow a block are not modelled),
* a pointer into a block is the block together with an offset (`Nat`),
* a nullable `tcl_value_t *` is an `Option (List Char)`,
* `malloc` always succeeds and `free` is a no-op (blocks are immutable lists),
* `size_t`, `unsigned` and `int` sizes and indices are natural numbers; buffers
  are assumed to be shorter than `2 ^ 31` bytes, so index arithmetic does not
  wrap (the one place where the source subtracts from a `size_t` that may be
  zero is modelled with the wrap),
* `long` is a 64-bit two's complement integer: an `Int` kept in range by `wrapLong`
  (arithmetic that overflows, `LONG_MIN / -1` included, is undefined in C and is
  given the wrapped value here),
* `unsigned short` fields are stored little-endian,
* `assert` is not modelled: the definitions give what the code does when it is
  compiled with `NDEBUG`, so `tcl_free(NULL)` does nothing; in the default build
  a failed assertion stops a run that goes on here.  A read through a NULL
  pointer gives no result (`none`).
-/

namespace Partcl

/-! ## Bytes and memory -/

/-- A memory block. -/
abbrev Mem := List Char

/-- The NUL byte. -/
def NUL : Char := '\x00'

/-- The lead byte of the binary encoding: `#define BIN_TOKEN '\x01'`. -/
def BIN_TOKEN : Char := '\x01'

/-- Read the byte at offset `i` of block `m`, as in `m[i]`. -/
def rd (m : Mem) (i : Nat) : Char := m.getD i NUL

/-- The `len` bytes of `m` that start at offset `off` (the source of a `memcpy`). -/
def slice (m : Mem) (off len : Nat) : Mem := (m.drop off).take len

/-- `BIN_SIZE(s)`: the `unsigned short` stored at `s + 1`, read little-endian. -/
def BIN_SIZE (m : Mem) (s : Nat) : Nat := (rd m (s + 1)).toNat + 256 * (rd m (s + 2)).toNat

/-- `strlen`: the number of bytes before the first NUL. -/
def strlen (m : Mem) (off : Nat) : Nat := ((m.drop off).takeWhile (fun c => c != NUL)).length

/-- The C string at `m + off`: the bytes before the first NUL. -/
def cstr (m : Mem) (off : Nat) : Mem := (m.drop off).takeWhile (fun c => c != NUL)

/-- `isdigit` in the C locale. -/
def isdigit (c : Char) : Bool := decide ('0'.toNat ≤ c.toNat) && decide (c.toNat ≤ '9'.toNat)

/-- `isxdigit` in the C locale. -/
def isxdigit (c : Char) : Bool :=
  isdigit c || (decide ('a'.toNat ≤ c.toNat) && decide (c.toNat ≤ 'f'.toNat))
    || (decide ('A'.toNat ≤ c.toNat) && decide (c.toNat ≤ 'F'.toNat))

/-- `isalpha` in the C locale. -/
def isalpha (c : Char) : Bool :=
  (decide ('a'.toNat ≤ c.toNat) && decide (c.toNat ≤ 'z'.toNat))
    || (decide ('A'.toNat ≤ c.toNat) && decide (c.toNat ≤ 'Z'.toNat))

/-- `isspace` in the C locale: space, `\t`, `\n`, `\v`, `\f`, `\r`. -/
def isspace (c : Char) : Bool := c == ' ' || (decide (9 ≤ c.toNat) && decide (c.toNat ≤ 13))

/-! ## Token, flow and flag constants -/

/-- The token kinds: `enum { TERROR, TCMD, TWORD, TPART }`. -/
inductive Token where
  | TERROR
  | TCMD
  | TWORD
  | TPART
  deriving DecidableEq, Repr

/-- Flow code `FERROR`. -/
def FERROR : Nat := 0
/-- Flow code `FNORMAL`. -/
def FNORMAL : Nat := 1
/-- Flow code `FRETURN`. -/
def FRETURN : Nat := 2
/-- Flow code `FBREAK`. -/
def FBREAK : Nat := 3
/-- Flow code `FAGAIN`. -/
def FAGAIN : Nat := 4

/-- `MARKFLOW(f, e)`: `(f) | ((e) << 8)`. -/
def MARKFLOW (f e : Nat) : Nat := f ||| (e <<< 8)

/-- `FLOW(r)`: `(r) & 0xff`. -/
def FLOW (r : Nat) : Nat := r &&& 0xff

/-- Lexer flag: inside a double-quote section. -/
def LEX_QUOTE : Nat := 0x01
/-- Lexer flag: special mode for parsing variable names. -/
def LEX_VAR : Nat := 0x02
/-- Lexer flag: no comment allowed here. -/
def LEX_NO_CMT : Nat := 0x04

/-- Clear the bits of `mask` in `flags`: `flags & ~mask`. -/
def clearFlag (flags mask : Nat) : Nat := flags ^^^ (flags &&& mask)

/-! ## Character classes of the lexer -/

/-- The source's `tcl_is_operator`. -/
def tcl_is_operator (c : Char) : Bool :=
  c == '|' || c == '&' || c == '~' || c == '<' || c == '>' ||
  c == '=' || c == '!' || c == '-' || c == '+' || c == '*' ||
  c == '/' || c == '%' || c == '?' || c == ':' || c == '(' || c == ')'

/-- The source's `tcl_is_special`. -/
def tcl_is_special (c : Char) (quote : Bool) : Bool :=
  c == '$' || c == '[' || c == ']' || c == '"' || c == NUL ||
  (!quote && (c == '{' || c == '}' || c == ';' || c == '\r' || c == '\n'))

/-- The source's `tcl_is_space`. -/
def tcl_is_space (c : Char) : Bool := c == ' ' || c == '\t'

/-- The source's `tcl_is_end`. -/
def tcl_is_end (c : Char) : Bool := c == '\n' || c == '\r' || c == ';' || c == NUL

/-! ## Values -/

/-- The value types returned by `tcl_type`.  The enumeration is declared in a
header that is not among the sources; only its four names are used. -/
inductive TclType where
  | TCLTYPE_EMPTY
  | TCLTYPE_BLOB
  | TCLTYPE_INT
  | TCLTYPE_STRING
  deriving DecidableEq, Repr

/-- The offset reached by `while (pred(*p)) { p++; }` started at offset `p`. -/
def skipWhile (pred : Char → Bool) (m : Mem) (p : Nat) : Nat :=
  p + ((m.drop p).takeWhile pred).length

/-- The source's `tcl_type`. -/
def tcl_type (v : Option Mem) : TclType :=
  match v with
  | none => TclType.TCLTYPE_EMPTY
  | some m =>
    if rd m 0 = BIN_TOKEN then TclType.TCLTYPE_BLOB
    else
      let p := skipWhile tcl_is_space m 0
      let p := if rd m p = '-' then p + 1 else p
      let p :=
        if rd m p = '0' ∧ (rd m (p + 1) = 'x' ∨ rd m (p + 1) = 'X') then
          skipWhile isxdigit m (p + 2)
        else
          skipWhile isdigit m p
      let p := skipWhile tcl_is_space m p
      if rd m p = NUL then TclType.TCLTYPE_INT else TclType.TCLTYPE_STRING

/-- The source's `tcl_string`, as the offset of the payload in the block. -/
def tcl_string (v : Mem) : Nat := if rd v 0 = BIN_TOKEN then 3 else 0

/-- The source's `tcl_length`. -/
def tcl_length (v : Option Mem) : Nat :=
  match v with
  | none => 0
  | some m => if rd m 0 = BIN_TOKEN then BIN_SIZE m 0 else strlen m 0

/-- The source's `tcl_binary`, on the `len` bytes at `blob + off`. -/
def tcl_binary (blob : Mem) (off len : Nat) : Bool :=
  if len = 0 then false
  else if rd blob off = BIN_TOKEN then true
  else (List.range len).any (fun k => rd blob (off + k) == NUL)

/-- The source's `tcl_append_string`; `data` is the `len` bytes at `dmem + doff`. -/
def tcl_append_string (v : Option Mem) (dmem : Mem) (doff len : Nat) (binary : Bool) : Mem :=
  let n := tcl_length v
  let hdrsz : Nat :=
    if binary || tcl_binary (v.getD []) 0 n || tcl_binary dmem doff len then 3 else 0
  let sz := n + len
  let hdr : Mem :=
    if hdrsz ≠ 0 then [BIN_TOKEN, Char.ofNat (sz % 256), Char.ofNat (sz / 256 % 256)] else []
  let old : Mem :=
    match v with
    | none => []
    | some m => if n > 0 then slice m (tcl_string m) n else []
  hdr ++ old ++ slice dmem doff len ++ [NUL]

/-- The source's `tcl_append`. -/
def tcl_append (v : Option Mem) (tail : Mem) : Mem :=
  let tlen := tcl_length (some tail)
  tcl_append_string v tail (tcl_string tail) tlen (tcl_binary tail 0 tlen)

/-- The source's `tcl_value`. -/
def tcl_value (data : Mem) (doff len : Nat) (binary : Bool) : Mem :=
  tcl_append_string none data doff len binary

/-- The source's `tcl_dup`. -/
def tcl_dup (value : Mem) : Mem :=
  let vlen := tcl_length (some value)
  tcl_value value (tcl_string value) vlen (tcl_binary value 0 vlen)

/-- The payload of a value: the `tcl_length` bytes at `tcl_string`. -/
def payload (v : Mem) : Mem := slice v (tcl_string v) (tcl_length (some v))

/-- A value is binary-encoded when its block starts with the sentinel. -/
def is_binary_encoded (v : Mem) : Bool := rd v 0 == BIN_TOKEN

/-- The text encoding of a payload: the bytes, then the terminator. -/
def text_encoding (t : Mem) : Mem := t ++ [NUL]

/-- The binary encoding of a payload: sentinel, 16-bit little-endian payload
length, payload, terminator. -/
def blob_encoding (p : Mem) : Mem :=
  BIN_TOKEN :: Char.ofNat (p.length % 256) :: Char.ofNat (p.length / 256 % 256) :: (p ++ [NUL])

/-- A well-formed text value: NUL-free bytes that do not begin with the
sentinel, in the text encoding. -/
def is_text_value (v : Mem) : Prop :=
  ∃ t : Mem, v = text_encoding t ∧ NUL ∉ t ∧ t.head? ≠ some BIN_TOKEN

/-- A well-formed binary value: at most 65535 bytes in the binary encoding. -/
def is_blob_value (v : Mem) : Prop :=
  ∃ p : Mem, v = blob_encoding p ∧ p.length ≤ 65535

/-- The blocks that `tcl_value` and `tcl_append` produce. -/
def is_value (v : Mem) : Prop := is_text_value v ∨ is_blob_value v

/-- The integer format checked by `tcl_type`, as the specification words it:
optional spaces and tabs, an optional single `-`, then decimal digits or
`0x`/`0X` followed by hexadecimal digits, then optional spaces and tabs, and
nothing else.  The digit runs may be empty. -/
def is_int_text (t : Mem) : Prop :=
  ∃ sp1 sign body sp2 : Mem, t = sp1 ++ sign ++ body ++ sp2 ∧
    (∀ c ∈ sp1, tcl_is_space c = true) ∧ (sign = [] ∨ sign = ['-']) ∧
    ((∀ c ∈ body, isdigit c = true) ∨
      ∃ x hs, body = '0' :: x :: hs ∧ (x = 'x' ∨ x = 'X') ∧ ∀ c ∈ hs, isxdigit c = true) ∧
    (∀ c ∈ sp2, tcl_is_space c = true)

/-- The part of the scan of `tcl_type` that follows the sign, phrased on the
rest of the block instead of on offsets. -/
def int_scan_digits (s2 : Mem) : Bool :=
  let s3 :=
    if s2.headD NUL = '0' ∧ ((s2.drop 1).headD NUL = 'x' ∨ (s2.drop 1).headD NUL = 'X') then
      (s2.drop 2).dropWhile isxdigit
    else
      s2.dropWhile isdigit
  let s4 := s3.dropWhile tcl_is_space
  s4.headD NUL == NUL

/-- The scan of `tcl_type`, phrased on the rest of the block instead of on offsets. -/
def int_scan (s : Mem) : Bool :=
  let s1 := s.dropWhile tcl_is_space
  int_scan_digits (if s1.headD NUL = '-' then s1.drop 1 else s1)

/-! ## The lexer -/

/-- The number of iterations of a loop `for (; length > 0 && pred(*string); string++, length--)`. -/
def run_length (m : Mem) (pred : Char → Bool) : Nat → Nat → Nat
  | 0, _ => 0
  | length + 1, string =>
    if pred (rd m string) then run_length m pred length (string + 1) + 1 else 0

/-- `length - 1` on a `size_t`: zero wraps around. -/
def size_pred (length : Nat) : Nat := (length + 2 ^ 64 - 1) % 2 ^ 64

/-- The loop of `tcl_next` that looks for the closing bracket or brace: started at
`i = 1`, `depth = 1`, it returns the final `i` and `depth`.  Every iteration
advances `i`, so `fuel = length` iterations are enough. -/
def brace_loop (m : Mem) (string length : Nat) (opn cls : Char) : Nat → Nat → Nat → Nat × Nat
  | 0, i, depth => (i, depth)
  | fuel + 1, i, depth =>
    if i < length ∧ depth ≠ 0 then
      if rd m (string + i) = '\\' ∧ i + 1 < length ∧
          (rd m (string + (i + 1)) = opn ∨ rd m (string + (i + 1)) = cls) then
        brace_loop m string length opn cls fuel (i + 1 + 1) depth
      else if rd m (string + i) = opn then
        brace_loop m string length opn cls fuel (i + 1) (depth + 1)
      else if rd m (string + i) = cls then
        brace_loop m string length opn cls fuel (i + 1) (depth - 1)
      else if rd m (string + i) = BIN_TOKEN ∧ i + 3 < length then
        if i + BIN_SIZE m (string + i) + 2 < length then
          brace_loop m string length opn cls fuel (i + (BIN_SIZE m (string + i) + 2) + 1) depth
        else
          brace_loop m string length opn cls fuel (i + 1) depth
      else
        brace_loop m string length opn cls fuel (i + 1) depth
    else (i, depth)

/-- The loop of `tcl_next` over the bytes of a bare word: it returns the final `i`. -/
def bare_loop (m : Mem) (string : Nat) (quote isvar : Bool) : Nat → Nat → Nat
  | 0, i => i
  | remaining + 1, i =>
    if (quote || !tcl_is_space (rd m (string + i))) &&
        !(isvar && tcl_is_operator (rd m (string + i))) &&
        !tcl_is_special (rd m (string + i)) quote then
      bare_loop m string quote isvar remaining (i + 1)
    else i

/-- What one call of `tcl_next` leaves behind: the token it returns, the value
stored through `from`, the value stored through `to` (`none` when the call
returns before it stores one) and the new flags. -/
structure LexOut where
  token : Token
  from_ : Nat
  to_ : Option Nat
  flags : Nat
  deriving DecidableEq, Repr

/-- The end of `tcl_next`, from `*to = string + i` on. -/
def tcl_next_finish (m : Mem) (string length i depth : Nat) (quote : Bool) (from_ flags : Nat) :
    LexOut :=
  if i > length ∨ (i = length ∧ depth ≠ 0) then
    ⟨Token.TERROR, from_, some (string + i), flags⟩
  else if quote then
    ⟨Token.TPART, from_, some (string + i), flags⟩
  else if tcl_is_space (rd m (string + i)) || tcl_is_end (rd m (string + i)) then
    ⟨Token.TWORD, from_, some (string + i), flags⟩
  else
    ⟨Token.TPART, from_, some (string + i), flags⟩

/-- The first part of `tcl_next`: leading spaces are skipped when not quoted,
then a comment and the spaces after it when a comment may start here.  It
returns the new `string` and `length`. -/
def tcl_next_skip (m : Mem) (string0 length0 flags0 : Nat) : Nat × Nat :=
  let quote : Bool := (flags0 &&& LEX_QUOTE) != 0
  let k := if quote then 0 else run_length m tcl_is_space length0 string0
  let string1 := string0 + k
  let length1 := length0 - k
  if rd m string1 = '#' ∧ (flags0 &&& LEX_NO_CMT) = 0 then
    let k1 := run_length m (fun c => c != '\n' && c != '\r') length1 string1
    let k2 := run_length m tcl_is_space (length1 - k1) (string1 + k1)
    (string1 + k1 + k2, length1 - k1 - k2)
  else
    (string1, length1)

/-- The second part of `tcl_next`, from `*from = string` on.  `quote` is the
local variable of that name, `flags` is `*flags` after `LEX_NO_CMT` has been
set, and `inner` is what the recursive call
`tcl_next(string + 1, length - 1, to, to, flags)` leaves behind (its `from`
and `to` both point to the caller's `*to`). -/
def tcl_next_token (m : Mem) (inner : LexOut) (string length : Nat) (quote : Bool)
    (flags : Nat) : LexOut :=
  if quote = false ∧ length > 0 ∧ tcl_is_end (rd m string) = true then
    ⟨Token.TCMD, string, some (string + 1), clearFlag flags LEX_NO_CMT⟩
  else if rd m string = '$' then
    if tcl_is_space (rd m (string + 1)) = true ∨ rd m (string + 1) = '"' ∨
        (flags &&& LEX_VAR) ≠ 0 then
      ⟨Token.TERROR, string, none, flags⟩
    else
      ⟨if inner.token = Token.TWORD ∧ quote = true then Token.TPART else inner.token,
        string, some (inner.to_.getD inner.from_), flags⟩
  else if rd m string = '[' ∨ (quote = false ∧ rd m string = '{') then
    let opn := rd m string
    let cls := if opn = '[' then ']' else '}'
    let r := brace_loop m string length opn cls length 1 1
    tcl_next_finish m string length r.1 r.2 quote string flags
  else if rd m string = '"' then
    if ((flags ^^^ LEX_QUOTE) &&& LEX_QUOTE) ≠ 0 then
      ⟨Token.TPART, string + 1, some (string + 1), flags ^^^ LEX_QUOTE⟩
    else if length < 2 ∨
        (tcl_is_space (rd m (string + 1)) = false ∧ tcl_is_end (rd m (string + 1)) = false) then
      ⟨Token.TERROR, string + 1, some (string + 1), flags ^^^ LEX_QUOTE⟩
    else
      ⟨Token.TWORD, string + 1, some (string + 1), flags ^^^ LEX_QUOTE⟩
  else if rd m string = ']' ∨ rd m string = '}' then
    ⟨Token.TERROR, string, none, flags⟩
  else if rd m string = BIN_TOKEN then
    if BIN_SIZE m string + 3 ≥ length then
      ⟨Token.TERROR, string, none, flags⟩
    else
      tcl_next_finish m string length (BIN_SIZE m string + 3) 0 quote string flags
  else
    let isvar : Bool := (flags &&& LEX_VAR) != 0
    let i := bare_loop m string quote isvar length 0
    tcl_next_finish m string length i 0 quote string flags

/-- The source's `tcl_next` on the `length0` bytes at offset `string0` of block
`m`.  `fuel` bounds the depth of the recursion on `$`: the recursive call runs
with `LEX_VAR` set, which makes a second `$` an error, so one unit is enough
and the result at `fuel = 0` is never used. -/
def tcl_next_go (m : Mem) : Nat → Nat → Nat → Nat → LexOut
  | 0, string0, length0, flags0 =>
    tcl_next_token m ⟨Token.TERROR, 0, none, 0⟩
      (tcl_next_skip m string0 length0 flags0).1 (tcl_next_skip m string0 length0 flags0).2
      ((flags0 &&& LEX_QUOTE) != 0) (flags0 ||| LEX_NO_CMT)
  | fuel + 1, string0, length0, flags0 =>
    tcl_next_token m
      (tcl_next_go m fuel ((tcl_next_skip m string0 length0 flags0).1 + 1)
        (size_pred (tcl_next_skip m string0 length0 flags0).2)
        (clearFlag (flags0 ||| LEX_NO_CMT) LEX_QUOTE ||| LEX_VAR))
      (tcl_next_skip m string0 length0 flags0).1 (tcl_next_skip m string0 length0 flags0).2
      ((flags0 &&& LEX_QUOTE) != 0) (flags0 ||| LEX_NO_CMT)

/-- The source's `tcl_next`: `to_` is the value `*to` holds before the call. -/
def tcl_next (m : Mem) (string length to_ flags : Nat) : Token × Nat × Nat × Nat :=
  let r := tcl_next_go m 1 string length flags
  (r.token, r.from_, r.to_.getD to_, r.flags)

/-- The value of the local `string` of `tcl_next` once the leading spaces and a
comment are skipped: the position of the first byte that is not skipped. -/
def tcl_next_string (m : Mem) (string0 length0 flags0 : Nat) : Nat :=
  (tcl_next_skip m string0 length0 flags0).1

/-- The value of the local `length` of `tcl_next` once the leading spaces and a
comment are skipped. -/
def tcl_next_length (m : Mem) (string0 length0 flags0 : Nat) : Nat :=
  (tcl_next_skip m string0 length0 flags0).2

/-- The recursive call `tcl_next(string + 1, length - 1, to, to, flags)` that
`tcl_next` makes on a `$`, with quoting off and variable-name mode on. -/
def tcl_next_tail (m : Mem) (string0 length0 flags0 : Nat) : LexOut :=
  tcl_next_go m 1 (tcl_next_string m string0 length0 flags0 + 1)
    (size_pred (tcl_next_length m string0 length0 flags0))
    (clearFlag (flags0 ||| LEX_NO_CMT) LEX_QUOTE ||| LEX_VAR)

/-- A byte that ends a bare token: white space when not quoted, an expression
operator in variable-name mode, or a special byte. -/
def bare_stop (quote isvar : Bool) (c : Char) : Bool :=
  (!quote && tcl_is_space c) || (isvar && tcl_is_operator c) || tcl_is_special c quote

/-- The three bytes that precede the payload of a binary blob of `n` bytes: the
sentinel and the 16-bit little-endian length. -/
def blob_header (n : Nat) : List Char :=
  [BIN_TOKEN, Char.ofNat (n % 256), Char.ofNat (n / 256 % 256)]

/-- The 16-bit little-endian length stored in the two bytes at the head of `bs`. -/
def span_blob_size (bs : List Char) : Nat := (bs.getD 0 NUL).toNat + 256 * (bs.getD 1 NUL).toNat

/-- The end of a balanced span, as the specification describes it.  `bs` is the
text of the slice after the opening byte `opn`, read one byte at a time: `skip`
bytes are passed over unread; a backslash right before `opn` or `cls` makes the
next byte pass unread; `opn` adds one to the nesting depth and `cls` takes one
off; a binary sentinel followed by its two length bytes and a payload that lies
in the slice (with at least one byte after the length bytes) makes them pass
unread.  The result is the number of bytes of `bs` up to and including the `cls`
that brings the depth to zero, or `none` when the slice ends before. -/
def span_close (opn cls : Char) : List Char → Nat → Nat → Option Nat
  | [], _, _ => none
  | _ :: rest, depth, skip + 1 => (span_close opn cls rest depth skip).map (· + 1)
  | c :: rest, depth, 0 =>
    if c = '\\' ∧ (rest.head? = some opn ∨ rest.head? = some cls) then
      (span_close opn cls rest depth 1).map (· + 1)
    else if c = opn then (span_close opn cls rest (depth + 1) 0).map (· + 1)
    else if c = cls then
      if depth ≤ 1 then some 1 else (span_close opn cls rest (depth - 1) 0).map (· + 1)
    else if c = BIN_TOKEN ∧ 3 ≤ rest.length ∧ span_blob_size rest + 2 ≤ rest.length then
      (span_close opn cls rest depth (span_blob_size rest + 2)).map (· + 1)
    else (span_close opn cls rest depth 0).map (· + 1)

/-- The source's `struct tcl_parser`, the state of a `tcl_each` loop. -/
structure tcl_each_state where
  from_ : Nat
  to_ : Nat
  start : Nat
  end_ : Nat
  flags : Nat
  token : Token
  deriving DecidableEq, Repr

/-- The source's `init_tcl_parser`. -/
def tcl_each_init (start end_ : Nat) (token : Token) : tcl_each_state :=
  ⟨0, 0, start, end_, 0, token⟩

/-- The call of `tcl_next` in the condition of `tcl_each`. -/
def tcl_each_next (m : Mem) (p : tcl_each_state) : tcl_each_state :=
  let r := tcl_next m p.start (p.end_ - p.start) p.to_ p.flags
  { p with token := r.1, from_ := r.2.1, to_ := r.2.2.1, flags := r.2.2.2 }

/-! ## Lists -/

/-- The source's `tcl_list_alloc`. -/
def tcl_list_alloc : Mem := tcl_value [] 0 0 false

/-- The loop of `tcl_list_count`; `none` when it does not end within `fuel` iterations. -/
def tcl_list_count_loop (m : Mem) : Nat → tcl_each_state → Nat → Option Nat
  | fuel, p, count =>
    if p.start < p.end_ then
      match fuel with
      | 0 => none
      | fuel + 1 =>
        let p1 := tcl_each_next m p
        if p1.token = Token.TERROR then some count
        else
          tcl_list_count_loop m fuel { p1 with start := p1.to_ }
            (if p1.token = Token.TWORD then count + 1 else count)
    else some count

/-- The source's `tcl_list_count`; `none` when its loop does not terminate.  A
loop that ends makes at most one iteration per byte. -/
def tcl_list_count (list : Mem) : Option Nat :=
  tcl_list_count_loop list (tcl_length (some list) + 2)
    (tcl_each_init (tcl_string list) (tcl_string list + (tcl_length (some list) + 1)) Token.TERROR) 0

/-- The loop of `tcl_list_size`. -/
def tcl_list_size_loop (m : Mem) : Nat → Nat → Nat
  | 0, p => p
  | fuel + 1, p =>
    if rd m p = NUL then p
    else if rd m p = BIN_TOKEN then tcl_list_size_loop m fuel (p + (BIN_SIZE m p + 3))
    else tcl_list_size_loop m fuel (p + 1)

/-- The source's `tcl_list_size`. -/
def tcl_list_size (list : Option Mem) : Nat :=
  match list with
  | none => 0
  | some m => tcl_list_size_loop m m.length 0

/-- The loop of `tcl_list_at`: `none` when it does not end within `fuel`
iterations, `some none` when it returns NULL. -/
def tcl_list_at_loop (m : Mem) (index : Nat) : Nat → tcl_each_state → Nat → Option (Option Mem)
  | fuel, p, i =>
    if p.start < p.end_ then
      match fuel with
      | 0 => none
      | fuel + 1 =>
        let p1 := tcl_each_next m p
        if p1.token = Token.TERROR then some none
        else if p1.token = Token.TWORD then
          if i = index then
            let data := p1.from_
            let sz := p1.to_ - p1.from_
            if rd m data = '{' then
              some (some (tcl_value m (data + 1) (sz - 2) (tcl_binary m (data + 1) (sz - 2))))
            else
              some (some (tcl_value m data sz (tcl_binary m data sz)))
          else
            tcl_list_at_loop m index fuel { p1 with start := p1.to_ } (i + 1)
        else
          tcl_list_at_loop m index fuel { p1 with start := p1.to_ } i
    else some none

/-- The source's `tcl_list_at`: `none` when its loop does not terminate, `some
none` when it returns NULL. -/
def tcl_list_at (list : Mem) (index : Nat) : Option (Option Mem) :=
  tcl_list_at_loop list index (tcl_length (some list) + 2)
    (tcl_each_init (tcl_string list) (tcl_string list + (tcl_length (some list) + 1)) Token.TERROR) 0

/-- The source's `tcl_list_append`. -/
def tcl_list_append (list : Mem) (tail : Mem) : Mem :=
  let listsz := tcl_list_size (some list)
  let separator : Bool := listsz > 0
  let taillen := tcl_length (some tail)
  let quote : Bool :=
    if taillen > 0 then
      if tcl_binary tail 0 taillen then false
      else (cstr tail (tcl_string tail)).any (fun c => tcl_is_space c || tcl_is_special c false)
    else true
  let hdr := if tcl_binary tail 0 taillen then 3 else 0
  slice list 0 listsz ++ (if separator then [' '] else []) ++ (if quote then ['{'] else []) ++
    (if taillen > 0 then slice tail 0 (taillen + hdr) else []) ++
    (if quote then ['}'] else []) ++ [NUL]

/-- The list built from the words `W`: `tcl_list_alloc()`, then one
`tcl_list_append` per word, each word given as the text value
`tcl_value(w, |w|, false)`. -/
def list_build (W : List Mem) : Mem :=
  W.foldl (fun list w => tcl_list_append list (tcl_value w 0 w.length false)) tcl_list_alloc

/-- The condition under which `tcl_list_append` wraps a text item in braces: the
item is empty or holds a space, a tab or a special byte. -/
def needs_brace (w : Mem) : Bool :=
  w.isEmpty || w.any (fun c => tcl_is_space c || tcl_is_special c false)

/-- The text `tcl_list_append` writes for the text item `w`. -/
def list_item_text (w : Mem) : Mem := if needs_brace w then '{' :: (w ++ ['}']) else w

/-- A byte that the list code passes through unchanged: not NUL, not a brace, not
a backslash and not the binary sentinel. -/
def list_safe_byte (c : Char) : Bool :=
  c != NUL && c != '{' && c != '}' && c != '\\' && c != BIN_TOKEN

/-- The text of the items that follow the first one: each is preceded by one space. -/
def list_tail_text : List Mem → Mem
  | [] => []
  | w :: ws => ' ' :: (list_item_text w ++ list_tail_text ws)

/-- The text of the list built from the text items `W`, without the terminator. -/
def list_text : List Mem → Mem
  | [] => []
  | w :: ws => list_item_text w ++ list_tail_text ws

/-! ## Interpreter state -/

/-- Modelled from the spec: the error kinds `TCLERR_*` are declared in a header
that is not among the sources.  The seven kinds of the specification's error
taxonomy (SYNTAX, VARUNKNOWN, VARNAME, CMDUNKNOWN, PARAM, EXPR, MEMORY) are
numbered from 1 in that order; 0 is the code of `no error`, which is what the
source compares `errorcode` with. -/
def TCLERR_SYNTAX : Nat := 1
/-- Modelled from the spec: see `TCLERR_SYNTAX`. -/
def TCLERR_VARUNKNOWN : Nat := 2
/-- Modelled from the spec: see `TCLERR_SYNTAX`. -/
def TCLERR_VARNAME : Nat := 3
/-- Modelled from the spec: see `TCLERR_SYNTAX`. -/
def TCLERR_CMDUNKNOWN : Nat := 4
/-- Modelled from the spec: see `TCLERR_SYNTAX`. -/
def TCLERR_PARAM : Nat := 5
/-- Modelled from the spec: see `TCLERR_SYNTAX`. -/
def TCLERR_EXPR : Nat := 6
/-- Modelled from the spec: see `TCLERR_SYNTAX`. -/
def TCLERR_MEMORY : Nat := 7

/-- The source's `struct tcl_var`, without the `next` link. -/
structure tcl_var_t where
  name : Mem
  value : Mem
  elements : Nat
  global : Bool
  deriving DecidableEq, Repr

/-- The variables of one `struct tcl_env`, the most recently created first (the
chain of `next` links). -/
abbrev tcl_env := List tcl_var_t

/-- The handlers a `struct tcl_cmd` may point to. -/
inductive tcl_cmd_fn where
  | tcl_cmd_set | tcl_cmd_global | tcl_cmd_subst | tcl_cmd_proc | tcl_cmd_if | tcl_cmd_while
  | tcl_cmd_flow | tcl_cmd_expr | tcl_cmd_incr | tcl_cmd_scan | tcl_cmd_puts | tcl_user_proc
  deriving DecidableEq, Repr

/-- The source's `struct tcl_cmd`, without the `next` link. -/
structure tcl_cmd where
  name : Mem
  arity : Nat
  fn : tcl_cmd_fn
  user : Option Mem
  declpos : Nat
  deriving DecidableEq, Repr

/-- The interpreter context `struct tcl` as `tcl.c` uses it: `env` is the current
frame and `parents` the chain of its `parent` links (the last one is the root
frame); `cmds` is the registry, the most recently registered command first;
`result` is `none` when `tcl->result` is NULL.

The last field, `written`, is a history variable of this development and has no
counterpart in `struct tcl`: `tcl_var` adds to it the name of every variable it
writes through a global alias, the most recent first.  No definition reads it. -/
structure tcl where
  env : tcl_env
  parents : List tcl_env
  cmds : List tcl_cmd
  result : Option Mem
  nestlevel : Nat
  errorcode : Nat
  errorpos : Nat
  written : List Mem
  deriving DecidableEq, Repr

/-- The source's `tcl_findvar`: the position in the frame of the first variable
whose name compares equal (`strcmp`) to `name`. -/
def tcl_findvar (env : tcl_env) (name : Mem) : Option Nat :=
  env.findIdx? (fun v => cstr v.name (tcl_string v.name) == cstr name (tcl_string name))

/-- The source's `tcl_env_var`: a new variable with the empty value at the head of the frame. -/
def tcl_env_var (env : tcl_env) (name : Mem) : tcl_env :=
  { name := tcl_dup name, value := tcl_value [] 0 0 false, elements := 0, global := false } :: env

/-- The source's `tcl_result`: it returns the new context and `FLOW(flow)`.  The
new result is `none` when the pointer passed is NULL. -/
def tcl_result (t : tcl) (flow : Nat) (result : Option Mem) : tcl × Nat :=
  ({ t with
      result := result,
      errorcode := if FLOW flow = FERROR ∧ t.errorcode = 0 then flow >>> 8 else t.errorcode },
    FLOW flow)

/-- The source's `tcl_error_result`. -/
def tcl_error_result (t : tcl) (flow : Nat) : tcl × Nat :=
  tcl_result t flow (some (tcl_value [] 0 0 false))

/-- The frame number `f` of the context: 0 is the current frame, then its parents. -/
def tcl_frame (t : tcl) (f : Nat) : tcl_env := (t.env :: t.parents).getD f []

/-- The context with frame number `f` replaced. -/
def tcl_set_frame (t : tcl) (f : Nat) (env : tcl_env) : tcl :=
  match f with
  | 0 => { t with env := env }
  | f + 1 => { t with parents := t.parents.set f env }

/-- The source's `tcl_var`: it returns the new context and the value of the
variable (the block `var->value` points to).  When the variable found in the
current frame is a global alias, the variable of that name is found in the root
frame and a value is given, the write goes through the alias, and the name is
added to the history variable `written`. -/
def tcl_var (t : tcl) (name : Mem) (value : Option Mem) : tcl × Mem :=
  let root := t.parents.length
  let loc0 : Option (Nat × Nat) := (tcl_findvar t.env name).map (fun k => (0, k))
  let loc1 : Option (Nat × Nat) :=
    match loc0 with
    | some (_, k) =>
      if (t.env.getD k ⟨[], [], 0, false⟩).global then
        (tcl_findvar (tcl_frame t root) name).map (fun j => (root, j))
      else loc0
    | none => none
  let t1 : tcl :=
    match loc1 with
    | some _ => t
    | none =>
      let t0 := if value.isNone then (tcl_error_result t (MARKFLOW FERROR TCLERR_VARUNKNOWN)).1 else t
      { t0 with env := tcl_env_var t0.env name }
  let loc : Nat × Nat := loc1.getD (0, 0)
  let aliased : Bool :=
    match loc0 with
    | some (_, k) => (t.env.getD k ⟨[], [], 0, false⟩).global && loc1.isSome
    | none => false
  let t2 : tcl :=
    match value with
    | some v =>
      let t3 : tcl :=
        tcl_set_frame t1 loc.1
          ((tcl_frame t1 loc.1).modify (fun var => { var with value := tcl_dup v }) loc.2)
      if aliased then { t3 with written := cstr name (tcl_string name) :: t3.written } else t3
    | none => t1
  (t2, ((tcl_frame t2 loc.1).getD loc.2 ⟨[], [], 0, false⟩).value)

/-! ## Substitution -/

/-- `MAX_VAR_LENGTH`. -/
def MAX_VAR_LENGTH : Nat := 256

/-- `len - 2` on a `size_t`: a length below 2 wraps around. -/
def size_sub2 (len : Nat) : Nat := (len + 2 ^ 64 - 2) % 2 ^ 64

/-- The source's `tcl_subst` on the `len` bytes at offset `s` of block `m`: the
context afterwards and the flow it returns.  `ev` stands for `tcl_eval`, which
the case `[` calls on the text between the brackets; the result is `none` when
that call does not return. -/
def tcl_subst (ev : tcl → Mem → Nat → Nat → Option (tcl × Nat)) (t : tcl) (m : Mem)
    (s len : Nat) : Option (tcl × Nat) :=
  if len = 0 then some (tcl_result t FNORMAL (tcl_value [] 0 0 false))
  else if rd m s = '{' then
    if len ≤ 1 then some (tcl_error_result t (MARKFLOW FERROR TCLERR_SYNTAX))
    else
      some (tcl_result t FNORMAL (tcl_value m (s + 1) (len - 2) (tcl_binary m (s + 1) (len - 2))))
  else if rd m s = '$' then
    if len ≥ MAX_VAR_LENGTH then some (tcl_error_result t (MARKFLOW FERROR TCLERR_VARNAME))
    else
      let name := tcl_value m (s + 1) (len - 1) false
      let r := tcl_var t name none
      some (tcl_result r.1 FNORMAL (tcl_dup r.2))
  else if rd m s = '[' then
    let expr := tcl_value m (s + 1) (size_sub2 len) (tcl_binary m (s + 1) (size_sub2 len))
    (ev t expr (tcl_string expr) (tcl_length (some expr) + 1)).map (fun r => (r.1, FLOW r.2))
  else some (tcl_result t FNORMAL (tcl_value m s len (tcl_binary m s len)))

/-! ## `long` arithmetic and `strtol` -/

/-- `LONG_MAX` of a 64-bit `long`. -/
def LONG_MAX : Int := 2 ^ 63 - 1

/-- `LONG_MIN` of a 64-bit `long`. -/
def LONG_MIN : Int := -(2 ^ 63)

/-- The value of an arithmetic result once stored in a `long`: reduced modulo
`2 ^ 64` into the range `LONG_MIN .. LONG_MAX`. -/
def wrapLong (x : Int) : Int := Int.bmod x (2 ^ 64)

/-- The value of a byte as a digit, 36 when it is not a digit of any base. -/
def digit_value (c : Char) : Nat :=
  if isdigit c then c.toNat - '0'.toNat
  else if 'a'.toNat ≤ c.toNat ∧ c.toNat ≤ 'z'.toNat then c.toNat - 'a'.toNat + 10
  else if 'A'.toNat ≤ c.toNat ∧ c.toNat ≤ 'Z'.toNat then c.toNat - 'A'.toNat + 10
  else 36

/-- The digit run of `strtol`: the accumulated value and the rest of the string. -/
def strtol_digits (base : Nat) : List Char → Nat → Nat × List Char
  | [], acc => (acc, [])
  | c :: s, acc =>
    if digit_value c < base then strtol_digits base s (acc * base + digit_value c)
    else (acc, c :: s)

/-- A value out of the range of `long` is replaced by `LONG_MAX` or `LONG_MIN`. -/
def clampLong (v : Int) : Int :=
  if v > LONG_MAX then LONG_MAX else if v < LONG_MIN then LONG_MIN else v

/-- Whether `strtol` with base 0 or 16 finds the prefix `0x` or `0X` of a
hexadecimal number at the head of `s2`. -/
def strtol_hex_prefix (base : Nat) (s2 : List Char) : Bool :=
  (base == 0 || base == 16) && s2.headD NUL == '0' &&
    ((s2.drop 1).headD NUL == 'x' || (s2.drop 1).headD NUL == 'X') &&
    decide (digit_value ((s2.drop 2).headD NUL) < 16)

/-- The base `strtol` reads the digits in: with base 0, hexadecimal after `0x`,
octal after `0` and decimal otherwise. -/
def strtol_base (base : Nat) (s2 : List Char) : Nat :=
  if strtol_hex_prefix base s2 then 16
  else if base = 0 then (if s2.headD NUL = '0' then 8 else 10)
  else base

/-- The part of `strtol` after the sign: the value of the digits and the rest of
the string, `none` when there is no digit. -/
def strtol_unsigned (base : Nat) (s2 : List Char) : Option (Nat × List Char) :=
  let s3 := if strtol_hex_prefix base s2 then s2.drop 2 else s2
  let r := strtol_digits (strtol_base base s2) s3 0
  if r.2.length = s3.length then none else some r

/-- The C library's `strtol(s, &end, base)` for `base` 0, 10 or 16: the value and
the rest of the string `end` points to.  White space is skipped, a sign is
accepted, base 0 selects the base from the prefix, a value out of range is
replaced by `LONG_MAX` or `LONG_MIN`, and without any digit the value is 0 and
`end` is `s`. -/
def strtol (s : List Char) (base : Nat) : Int × List Char :=
  let s1 := s.dropWhile isspace
  let s2 := if s1.headD NUL = '-' ∨ s1.headD NUL = '+' then s1.drop 1 else s1
  match strtol_unsigned base s2 with
  | none => (0, s)
  | some r => (clampLong (if s1.headD NUL = '-' then -(r.1 : Int) else (r.1 : Int)), r.2)

/-! ## The expression evaluator -/

/-- Expression token `TOK_END_EXPR`. -/
def TOK_END_EXPR : Nat := 0
/-- Expression token `TOK_NUMBER`. -/
def TOK_NUMBER : Nat := 256
/-- Expression token `TOK_VARIABLE`. -/
def TOK_VARIABLE : Nat := 257
/-- Expression token `TOK_OR`, `||`. -/
def TOK_OR : Nat := 258
/-- Expression token `TOK_AND`, `&&`. -/
def TOK_AND : Nat := 259
/-- Expression token `TOK_EQ`, `==`. -/
def TOK_EQ : Nat := 260
/-- Expression token `TOK_NE`, `!=`. -/
def TOK_NE : Nat := 261
/-- Expression token `TOK_GE`, `>=`. -/
def TOK_GE : Nat := 262
/-- Expression token `TOK_LE`, `<=`. -/
def TOK_LE : Nat := 263
/-- Expression token `TOK_SHL`, `<<`. -/
def TOK_SHL : Nat := 264
/-- Expression token `TOK_SHR`, `>>`. -/
def TOK_SHR : Nat := 265
/-- Expression token `TOK_EXP`, `**`. -/
def TOK_EXP : Nat := 266

/-- Expression error `eNONE`. -/
def eNONE : Nat := 0
/-- Expression error `eNUM_EXPECT`. -/
def eNUM_EXPECT : Nat := 1
/-- Expression error `eINVALID_NUM`. -/
def eINVALID_NUM : Nat := 2
/-- Expression error `ePARENTHESES`. -/
def ePARENTHESES : Nat := 3
/-- Expression error `eEXTRA_CHARS`. -/
def eEXTRA_CHARS : Nat := 4
/-- Expression error `eINVALID_CHAR`. -/
def eINVALID_CHAR : Nat := 5
/-- Expression error `eDIV0`. -/
def eDIV0 : Nat := 6

/-- The source's `struct expr`.  `pos` is the rest of the expression string: the
bytes from the current position up to the terminator, which is not stored. -/
structure expr where
  pos : List Char
  token : Nat
  lexflag : Nat
  lnumber : Int
  error : Nat
  tcl : tcl
  deriving DecidableEq, Repr

/-- The byte `*expr->pos`. -/
def expr_cur (e : expr) : Char := e.pos.headD NUL

/-- The source's `expr_error`. -/
def expr_error (e : expr) (number : Nat) : expr :=
  { e with
      error := if e.error = eNONE then number else e.error,
      pos := e.pos.dropWhile (fun c => c != NUL) }

/-- The first loop of `expr_skip`: up to `number` bytes are skipped. -/
def expr_skip_count : Nat → List Char → List Char
  | 0, p => p
  | _ + 1, [] => []
  | n + 1, c :: p => if c = NUL then c :: p else expr_skip_count n p

/-- The condition of the second loop of `expr_skip`: `*pos != 0 && *pos <= 32`
(a `char` is taken to be non-negative). -/
def expr_is_blank (c : Char) : Bool := c != NUL && decide (c.toNat ≤ ' '.toNat)

/-- The source's `expr_skip`. -/
def expr_skip (e : expr) (number : Nat) : expr :=
  { e with pos := (expr_skip_count number e.pos).dropWhile expr_is_blank }

/-- The bytes of `special` in `expr_lex`. -/
def expr_special : List Char := "|&^~<>=!-+*/%(){}".toList

/-- The token and the rest of the string after a punctuation byte `c` has been
read: the `switch` of `expr_lex` on multi-character operators.  `p` is the
string after `c`. -/
def expr_lex_operator (c : Char) (p : List Char) : Nat × List Char :=
  let n := p.headD NUL
  if c = '|' then (if n = '|' then (TOK_OR, p.drop 1) else (c.toNat, p))
  else if c = '&' then (if n = '&' then (TOK_AND, p.drop 1) else (c.toNat, p))
  else if c = '=' then (if n = '=' then (TOK_EQ, p.drop 1) else (c.toNat, p))
  else if c = '!' then (if n = '=' then (TOK_NE, p.drop 1) else (c.toNat, p))
  else if c = '<' then
    (if n = '=' then (TOK_LE, p.drop 1) else if n = '<' then (TOK_SHL, p.drop 1) else (c.toNat, p))
  else if c = '>' then
    (if n = '=' then (TOK_GE, p.drop 1) else if n = '>' then (TOK_SHR, p.drop 1) else (c.toNat, p))
  else if c = '*' then (if n = '*' then (TOK_EXP, p.drop 1) else (c.toNat, p))
  else (c.toNat, p)

/-- The source's `expr_lex`: the new state, whose `token` is the value returned. -/
def expr_lex (e : expr) : expr :=
  let c := expr_cur e
  if c = NUL then
    { e with token := TOK_END_EXPR }
  else if c ∈ expr_special then
    let r := expr_lex_operator c (e.pos.drop 1)
    expr_skip { e with token := r.1, pos := r.2 } 0
  else if isdigit c then
    let r := strtol e.pos 0
    let e1 : expr := { e with token := TOK_NUMBER, lnumber := r.1, pos := r.2 }
    let e2 :=
      if isalpha (expr_cur e1) || expr_cur e1 == '.' || expr_cur e1 == ',' then
        expr_error e1 eINVALID_NUM
      else e1
    expr_skip e2 0
  else if c = '$' then
    let quote : Bool := c == '{'
    let close : Char := if quote then '}' else NUL
    let p1 := e.pos.drop 1
    let p2 := if quote then p1.drop 1 else p1
    let name := (p2.take 255).takeWhile (fun d =>
      d != close && (quote || !tcl_is_space d) && !tcl_is_operator d && !tcl_is_special d quote)
    let p3 := p2.drop name.length
    let p4 := if quote ∧ p3.headD NUL = close then p3.drop 1 else p3
    let e1 := expr_skip { e with pos := p4 } 0
    let varname := tcl_value name 0 (strlen name 0) false
    let r := tcl_var e1.tcl varname none
    { e1 with tcl := r.1, token := TOK_VARIABLE, lnumber := (strtol r.2 10).1 }
  else
    { expr_error e eINVALID_CHAR with token := TOK_END_EXPR }

/-- The macro `lex(e)`: the new state, whose `token` is the value of the macro. -/
def lex (e : expr) : expr := if e.lexflag ≠ 0 then { e with lexflag := 0 } else expr_lex e

/-- The macro `unlex(e)`. -/
def unlex (e : expr) : expr := { e with lexflag := 1 }

/-- The value of a C comparison or logical operator. -/
def c_bool (b : Bool) : Int := if b then 1 else 0

/-- The loop `v1 = 1; while (v2--) v1 *= n;` of `expr_power`, for `v2 >= 0`. -/
def expr_power_mul (n : Int) : Nat → Int → Int
  | 0, v1 => v1
  | v2 + 1, v1 => expr_power_mul n v2 (wrapLong (v1 * n))

/-- The result `expr_power` stores in `v1` for the operands `v1` and `v2`. -/
def expr_power_value (v1 v2 : Int) : Int :=
  if v2 < 0 then 0 else expr_power_mul v1 v2.toNat 1

/-- `v1 << v2` on `long`; a count outside `0..63` is undefined in C and is taken
modulo 64, as the x86-64 shift instructions do. -/
def long_shl (v1 v2 : Int) : Int := wrapLong (v1 * 2 ^ (v2 % 64).toNat)

/-- `v1 >> v2` on `long` (arithmetic shift); the count is taken modulo 64. -/
def long_shr (v1 v2 : Int) : Int := v1 / 2 ^ (v2 % 64).toNat

mutual

/-- The source's `expr_primary`; `none` when `fuel` does not cover the depth of the calls. -/
def expr_primary : Nat → expr → Option (Int × expr)
  | 0, _ => none
  | fuel + 1, e0 =>
    let e := lex e0
    if e.token = '-'.toNat then
      (expr_primary fuel e).map (fun r => (wrapLong (-r.1), r.2))
    else if e.token = '+'.toNat then
      (expr_primary fuel e).map (fun r => (wrapLong (-r.1), r.2))
    else if e.token = '!'.toNat then
      (expr_primary fuel e).map (fun r => (c_bool (r.1 == 0), r.2))
    else if e.token = '~'.toNat then
      (expr_primary fuel e).map (fun r => (-r.1 - 1, r.2))
    else if e.token = '('.toNat ∨ e.token = '{'.toNat then
      let tok_close := if e.token = '('.toNat then ')'.toNat else '}'.toNat
      (expr_logic_or fuel e).map (fun r =>
        let e1 := lex r.2
        (r.1, if e1.token ≠ tok_close then expr_error e1 ePARENTHESES else e1))
    else if e.token = TOK_VARIABLE ∨ e.token = TOK_NUMBER then
      some (e.lnumber, e)
    else
      some (0, expr_error e eNUM_EXPECT)

/-- The source's `expr_power`. -/
def expr_power : Nat → expr → Option (Int × expr)
  | 0, _ => none
  | fuel + 1, e => (expr_primary fuel e).bind (fun r => expr_power_loop fuel r.1 r.2)

/-- The `while` loop of `expr_power` and the `unlex` after it. -/
def expr_power_loop : Nat → Int → expr → Option (Int × expr)
  | 0, _, _ => none
  | fuel + 1, v1, e0 =>
    let e := lex e0
    if e.token = TOK_EXP then
      (expr_power fuel e).bind (fun r => expr_power_loop fuel (expr_power_value v1 r.1) r.2)
    else some (v1, unlex e)

/-- The source's `expr_product`. -/
def expr_product : Nat → expr → Option (Int × expr)
  | 0, _ => none
  | fuel + 1, e => (expr_power fuel e).bind (fun r => expr_product_loop fuel r.1 r.2)

/-- The `while` loop of `expr_product` and the `unlex` after it. -/
def expr_product_loop : Nat → Int → expr → Option (Int × expr)
  | 0, _, _ => none
  | fuel + 1, v1, e0 =>
    let e := lex e0
    if e.token = '*'.toNat ∨ e.token = '/'.toNat ∨ e.token = '%'.toNat then
      (expr_power fuel e).bind (fun r =>
        if e.token = '*'.toNat then expr_product_loop fuel (wrapLong (v1 * r.1)) r.2
        else if r.1 ≠ 0 then
          if e.token = '/'.toNat then expr_product_loop fuel (wrapLong (Int.tdiv v1 r.1)) r.2
          else expr_product_loop fuel (Int.tmod v1 r.1) r.2
        else expr_product_loop fuel v1 (expr_error r.2 eDIV0))
    else some (v1, unlex e)

/-- The source's `expr_sum`. -/
def expr_sum : Nat → expr → Option (Int × expr)
  | 0, _ => none
  | fuel + 1, e => (expr_product fuel e).bind (fun r => expr_sum_loop fuel r.1 r.2)

/-- The `while` loop of `expr_sum` and the `unlex` after it. -/
def expr_sum_loop : Nat → Int → expr → Option (Int × expr)
  | 0, _, _ => none
  | fuel + 1, v1, e0 =>
    let e := lex e0
    if e.token = '+'.toNat ∨ e.token = '-'.toNat then
      (expr_product fuel e).bind (fun r =>
        if e.token = '+'.toNat then expr_sum_loop fuel (wrapLong (v1 + r.1)) r.2
        else expr_sum_loop fuel (wrapLong (v1 - r.1)) r.2)
    else some (v1, unlex e)

/-- The source's `expr_shift`. -/
def expr_shift : Nat → expr → Option (Int × expr)
  | 0, _ => none
  | fuel + 1, e => (expr_sum fuel e).bind (fun r => expr_shift_loop fuel r.1 r.2)

/-- The `while` loop of `expr_shift` and the `unlex` after it. -/
def expr_shift_loop : Nat → Int → expr → Option (Int × expr)
  | 0, _, _ => none
  | fuel + 1, v1, e0 =>
    let e := lex e0
    if e.token = TOK_SHL ∨ e.token = TOK_SHR then
      (expr_sum fuel e).bind (fun r =>
        if e.token = TOK_SHL then expr_shift_loop fuel (long_shl v1 r.1) r.2
        else expr_shift_loop fuel (long_shr v1 r.1) r.2)
    else some (v1, unlex e)

/-- The source's `expr_relational`. -/
def expr_relational : Nat → expr → Option (Int × expr)
  | 0, _ => none
  | fuel + 1, e => (expr_shift fuel e).bind (fun r => expr_relational_loop fuel r.1 r.2)

/-- The `while` loop of `expr_relational` and the `unlex` after it. -/
def expr_relational_loop : Nat → Int → expr → Option (Int × expr)
  | 0, _, _ => none
  | fuel + 1, v1, e0 =>
    let e := lex e0
    if e.token = '<'.toNat ∨ e.token = '>'.toNat ∨ e.token = TOK_LE ∨ e.token = TOK_GE then
      (expr_shift fuel e).bind (fun r =>
        if e.token = '<'.toNat then expr_relational_loop fuel (c_bool (decide (v1 < r.1))) r.2
        else if e.token = '>'.toNat then expr_relational_loop fuel (c_bool (decide (v1 > r.1))) r.2
        else if e.token = TOK_LE then expr_relational_loop fuel (c_bool (decide (v1 ≤ r.1))) r.2
        else expr_relational_loop fuel (c_bool (decide (v1 ≥ r.1))) r.2)
    else some (v1, unlex e)

/-- The source's `expr_equality`. -/
def expr_equality : Nat → expr → Option (Int × expr)
  | 0, _ => none
  | fuel + 1, e => (expr_relational fuel e).bind (fun r => expr_equality_loop fuel r.1 r.2)

/-- The `while` loop of `expr_equality` and the `unlex` after it. -/
def expr_equality_loop : Nat → Int → expr → Option (Int × expr)
  | 0, _, _ => none
  | fuel + 1, v1, e0 =>
    let e := lex e0
    if e.token = TOK_EQ ∨ e.token = TOK_NE then
      (expr_relational fuel e).bind (fun r =>
        if e.token = TOK_EQ then expr_equality_loop fuel (c_bool (v1 == r.1)) r.2
        else expr_equality_loop fuel (c_bool (v1 != r.1)) r.2)
    else some (v1, unlex e)

/-- The source's `expr_binary_and`. -/
def expr_binary_and : Nat → expr → Option (Int × expr)
  | 0, _ => none
  | fuel + 1, e => (expr_equality fuel e).bind (fun r => expr_binary_and_loop fuel r.1 r.2)

/-- The `while` loop of `expr_binary_and` and the `unlex` after it. -/
def expr_binary_and_loop : Nat → Int → expr → Option (Int × expr)
  | 0, _, _ => none
  | fuel + 1, v1, e0 =>
    let e := lex e0
    if e.token = '&'.toNat then
      (expr_equality fuel e).bind (fun r => expr_binary_and_loop fuel (Int.land v1 r.1) r.2)
    else some (v1, unlex e)

/-- The source's `expr_binary_xor`. -/
def expr_binary_xor : Nat → expr → Option (Int × expr)
  | 0, _ => none
  | fuel + 1, e => (expr_binary_and fuel e).bind (fun r => expr_binary_xor_loop fuel r.1 r.2)

/-- The `while` loop of `expr_binary_xor` and the `unlex` after it. -/
def expr_binary_xor_loop : Nat → Int → expr → Option (Int × expr)
  | 0, _, _ => none
  | fuel + 1, v1, e0 =>
    let e := lex e0
    if e.token = '^'.toNat then
      (expr_binary_and fuel e).bind (fun r => expr_binary_xor_loop fuel (Int.xor v1 r.1) r.2)
    else some (v1, unlex e)

/-- The source's `expr_binary_or`. -/
def expr_binary_or : Nat → expr → Option (Int × expr)
  | 0, _ => none
  | fuel + 1, e => (expr_binary_xor fuel e).bind (fun r => expr_binary_or_loop fuel r.1 r.2)

/-- The `while` loop of `expr_binary_or` and the `unlex` after it. -/
def expr_binary_or_loop : Nat → Int → expr → Option (Int × expr)
  | 0, _, _ => none
  | fuel + 1, v1, e0 =>
    let e := lex e0
    if e.token = '|'.toNat then
      (expr_binary_xor fuel e).bind (fun r => expr_binary_or_loop fuel (Int.lor v1 r.1) r.2)
    else some (v1, unlex e)

/-- The source's `expr_logic_and`. -/
def expr_logic_and : Nat → expr → Option (Int × expr)
  | 0, _ => none
  | fuel + 1, e => (expr_binary_or fuel e).bind (fun r => expr_logic_and_loop fuel r.1 r.2)

/-- The `while` loop of `expr_logic_and` and the `unlex` after it. -/
def expr_logic_and_loop : Nat → Int → expr → Option (Int × expr)
  | 0, _, _ => none
  | fuel + 1, v1, e0 =>
    let e := lex e0
    if e.token = TOK_AND then
      (expr_binary_or fuel e).bind (fun r =>
        expr_logic_and_loop fuel (c_bool (v1 != 0 && r.1 != 0)) r.2)
    else some (v1, unlex e)

/-- The source's `expr_logic_or`. -/
def expr_logic_or : Nat → expr → Option (Int × expr)
  | 0, _ => none
  | fuel + 1, e => (expr_logic_and fuel e).bind (fun r => expr_logic_or_loop fuel r.1 r.2)

/-- The `while` loop of `expr_logic_or` and the `unlex` after it. -/
def expr_logic_or_loop : Nat → Int → expr → Option (Int × expr)
  | 0, _, _ => none
  | fuel + 1, v1, e0 =>
    let e := lex e0
    if e.token = TOK_OR then
      (expr_logic_and fuel e).bind (fun r =>
        expr_logic_or_loop fuel (c_bool (v1 != 0 || r.1 != 0)) r.2)
    else some (v1, unlex e)

end

/-- The source's `tcl_expression` with an explicit bound on the depth of the
calls: the error code, the value stored in `*result` and the interpreter
context afterwards; `none` when the bound is too small. -/
def tcl_expression_fuel (fuel : Nat) (t : tcl) (expression : List Char) : Option (Nat × Int × tcl) :=
  let e0 : expr := expr_skip ⟨expression, 0, 0, 0, 0, t⟩ 0
  (expr_logic_or fuel e0).map (fun r =>
    let e1 := expr_skip r.2 0
    let e2 :=
      if e1.error = eNONE then
        let e3 := lex e1
        if e3.token = ')'.toNat then expr_error e3 ePARENTHESES
        else if e3.token ≠ TOK_END_EXPR then expr_error e3 eEXTRA_CHARS
        else e3
      else e1
    (e2.error, r.1, e2.tcl))

/-- The source's `tcl_expression`, with the bound `16 * (length + 2)` on the depth
of the calls of the recursive-descent parser; the theorems on expressions show
that the bound is enough for the expressions they are about. -/
def tcl_expression (t : tcl) (expression : List Char) : Option (Nat × Int × tcl) :=
  tcl_expression_fuel (16 * (expression.length + 2)) t expression

/-! ## The grammar of expressions, as the specification gives it -/

/-- The binary operators of the expression grammar. -/
inductive expr_op where
  | lor | land | bor | bxor | band | eq | ne | lt | gt | le | ge | shl | shr
  | add | sub | mul | div | mod | pow
  deriving DecidableEq, Repr

/-- The text of a binary operator. -/
def expr_op.text : expr_op → List Char
  | .lor => ['|', '|'] | .land => ['&', '&'] | .bor => ['|'] | .bxor => ['^'] | .band => ['&']
  | .eq => ['=', '='] | .ne => ['!', '='] | .lt => ['<'] | .gt => ['>'] | .le => ['<', '=']
  | .ge => ['>', '='] | .shl => ['<', '<'] | .shr => ['>', '>'] | .add => ['+'] | .sub => ['-']
  | .mul => ['*'] | .div => ['/'] | .mod => ['%'] | .pow => ['*', '*']

/-- The token `expr_lex` returns for a binary operator. -/
def expr_op.token : expr_op → Nat
  | .lor => TOK_OR | .land => TOK_AND | .bor => '|'.toNat | .bxor => '^'.toNat
  | .band => '&'.toNat | .eq => TOK_EQ | .ne => TOK_NE | .lt => '<'.toNat | .gt => '>'.toNat
  | .le => TOK_LE | .ge => TOK_GE | .shl => TOK_SHL | .shr => TOK_SHR | .add => '+'.toNat
  | .sub => '-'.toNat | .mul => '*'.toNat | .div => '/'.toNat | .mod => '%'.toNat
  | .pow => TOK_EXP

/-- The grammar level of a binary operator, numbered from the lowest precedence:
0 `or`, 1 `and`, 2 `bor`, 3 `bxor`, 4 `band`, 5 `eq`, 6 `rel`, 7 `shift`,
8 `sum`, 9 `prod`, 10 `pow`. -/
def expr_op.level : expr_op → Nat
  | .lor => 0 | .land => 1 | .bor => 2 | .bxor => 3 | .band => 4 | .eq => 5 | .ne => 5
  | .lt => 6 | .gt => 6 | .le => 6 | .ge => 6 | .shl => 7 | .shr => 7 | .add => 8 | .sub => 8
  | .mul => 9 | .div => 9 | .mod => 9 | .pow => 10

/-- The value of `v1 op v2` in `long` arithmetic; `none` for a division or a
remainder by zero. -/
def expr_op.value (op : expr_op) (v1 v2 : Int) : Option Int :=
  match op with
  | .lor => some (c_bool (v1 != 0 || v2 != 0))
  | .land => some (c_bool (v1 != 0 && v2 != 0))
  | .bor => some (Int.lor v1 v2)
  | .bxor => some (Int.xor v1 v2)
  | .band => some (Int.land v1 v2)
  | .eq => some (c_bool (v1 == v2))
  | .ne => some (c_bool (v1 != v2))
  | .lt => some (c_bool (decide (v1 < v2)))
  | .gt => some (c_bool (decide (v1 > v2)))
  | .le => some (c_bool (decide (v1 ≤ v2)))
  | .ge => some (c_bool (decide (v1 ≥ v2)))
  | .shl => some (long_shl v1 v2)
  | .shr => some (long_shr v1 v2)
  | .add => some (wrapLong (v1 + v2))
  | .sub => some (wrapLong (v1 - v2))
  | .mul => some (wrapLong (v1 * v2))
  | .div => if v2 = 0 then none else some (wrapLong (Int.tdiv v1 v2))
  | .mod => if v2 = 0 then none else some (Int.tmod v1 v2)
  | .pow => some (expr_power_value v1 v2)

/-- The value of a run of decimal digits. -/
def dec_value (ds : List Char) : Nat := ds.foldl (fun acc c => acc * 10 + (c.toNat - '0'.toNat)) 0

/-- A decimal integer literal that fits a `long`: a non-empty run of decimal
digits without a leading zero (or the single digit `0`), of value at most
`LONG_MAX`. -/
def is_dec_literal (ds : List Char) : Prop :=
  ds ≠ [] ∧ (∀ c ∈ ds, isdigit c = true) ∧ (ds.head? = some '0' → ds = ['0']) ∧
    (dec_value ds : Int) ≤ LONG_MAX

/-- The text of an optional minus sign. -/
def sign_text (neg : Bool) : List Char := if neg then ['-'] else []

/-- The value of a run of decimal digits behind an optional minus sign. -/
def signed_value (neg : Bool) (ds : List Char) : Int :=
  if neg then -(dec_value ds : Int) else (dec_value ds : Int)

/-- The parser function of a grammar level: 0 is `expr_logic_or`, 10 is
`expr_power` and 11 (or more) is `expr_primary`. -/
def expr_level : Nat → Nat → expr → Option (Int × expr)
  | 0 => expr_logic_or
  | 1 => expr_logic_and
  | 2 => expr_binary_or
  | 3 => expr_binary_xor
  | 4 => expr_binary_and
  | 5 => expr_equality
  | 6 => expr_relational
  | 7 => expr_shift
  | 8 => expr_sum
  | 9 => expr_product
  | 10 => expr_power
  | _ => expr_primary

/-- The loop of the parser function of a grammar level. -/
def expr_level_loop : Nat → Nat → Int → expr → Option (Int × expr)
  | 0 => expr_logic_or_loop
  | 1 => expr_logic_and_loop
  | 2 => expr_binary_or_loop
  | 3 => expr_binary_xor_loop
  | 4 => expr_binary_and_loop
  | 5 => expr_equality_loop
  | 6 => expr_relational_loop
  | 7 => expr_shift_loop
  | 8 => expr_sum_loop
  | 9 => expr_product_loop
  | _ => expr_power_loop

/-- The tokens of the binary operators of a grammar level. -/
def expr_level_tokens : Nat → List Nat
  | 0 => [TOK_OR]
  | 1 => [TOK_AND]
  | 2 => ['|'.toNat]
  | 3 => ['^'.toNat]
  | 4 => ['&'.toNat]
  | 5 => [TOK_EQ, TOK_NE]
  | 6 => ['<'.toNat, '>'.toNat, TOK_LE, TOK_GE]
  | 7 => [TOK_SHL, TOK_SHR]
  | 8 => ['+'.toNat, '-'.toNat]
  | 9 => ['*'.toNat, '/'.toNat, '%'.toNat]
  | 10 => [TOK_EXP]
  | _ => []

/-- The parser function of level `k` returns `v` from state `e` and leaves the
token of state `e2` as the look-ahead, whenever the fuel is at least `N`. -/
def EvalsTo (k N : Nat) (e : expr) (v : Int) (e2 : expr) : Prop :=
  ∀ F, N ≤ F → expr_level k F e = some (v, unlex e2)

/-- The source's `expr_primary` returns `v` from state `e` and ends in state
`e1`, whenever the fuel is at least `N`. -/
def PrimTo (N : Nat) (e : expr) (v : Int) (e1 : expr) : Prop :=
  ∀ F, N ≤ F → expr_primary F e = some (v, e1)

/-- The state of the expression evaluator at the rest `pos` of the string, with
current token `token` and number `lnumber`, no pushed-back token and no error. -/
def expr_at (t : tcl) (pos : List Char) (token : Nat) (lnumber : Int) : expr :=
  ⟨pos, token, 0, lnumber, 0, t⟩

/-- A byte that ends a number in an expression: not a digit, a letter, a dot or a
comma, and not white space. -/
def expr_follower (c : Char) : Bool :=
  !isdigit c && !isalpha c && c != '.' && c != ',' && !expr_is_blank c

/-- A byte that may follow an operator without extending it, and that is not
white space. -/
def expr_operand_start (c : Char) : Bool :=
  c != '|' && c != '&' && c != '=' && c != '<' && c != '>' && c != '*' && !expr_is_blank c

/-! ## The command `expr` -/

/-- The `do ... while (value > 0)` loop of `tcl_int2string`: the digits are written
from the end of the buffer towards its start; `acc` is the text written so far.
A 64-byte buffer bounds the number of iterations. -/
def tcl_int2string_loop : Nat → Int → List Char → List Char
  | 0, _, acc => acc
  | fuel + 1, value, acc =>
    let acc1 := Char.ofNat (('0'.toNat : Int) + Int.tmod value 10).toNat :: acc
    let value1 := Int.tdiv value 10
    if value1 > 0 then tcl_int2string_loop fuel value1 acc1 else acc1

/-- The source's `tcl_int2string`: the text at the returned pointer, with its
terminator. -/
def tcl_int2string (value : Int) : Mem :=
  let neg : Bool := decide (value < 0)
  let value1 := if neg then wrapLong (-value) else value
  let digits := tcl_int2string_loop 63 value1 [NUL]
  if neg then '-' :: digits else digits

/-- One iteration of the loop of `tcl_cmd_expr` on the token `tok`: the text in
the buffer `expression` and the size `total` of the buffer afterwards.  The
allocation of the larger buffer succeeds. -/
def tcl_cmd_expr_step (st : List Char × Nat) (tok : Mem) : List Char × Nat :=
  let expression := st.1
  let total :=
    if expression.length + tcl_length (some tok) + 1 ≥ st.2 then 2 * st.2 else st.2
  if expression.length + tcl_length (some tok) < total then
    ((if expression.length > 0 then expression ++ [' '] else expression) ++
      cstr tok (tcl_string tok), total)
  else (expression, total)

/-- The loop `for (idx = 1; idx < count; idx++)` of `tcl_cmd_expr`, with `n`
iterations left; `none` when `tcl_list_at` does not return, or returns NULL (which
the source then dereferences). -/
def tcl_cmd_expr_loop (args : Mem) : Nat → Nat → List Char × Nat → Option (List Char × Nat)
  | 0, _, st => some st
  | n + 1, idx, st =>
    match tcl_list_at args idx with
    | some (some tok) => tcl_cmd_expr_loop args n (idx + 1) (tcl_cmd_expr_step st tok)
    | _ => none

/-- The source's `tcl_cmd_expr`: the context afterwards and the flow it returns;
`none` when one of its loops does not end. -/
def tcl_cmd_expr (t : tcl) (args : Mem) : Option (tcl × Nat) :=
  match tcl_list_count args with
  | none => none
  | some count =>
    match tcl_cmd_expr_loop args (count - 1) 1 ([], 256) with
    | none => none
    | some st =>
      match tcl_expression t st.1 with
      | none => none
      | some (err, result, t1) =>
        if err = eNONE then
          let retptr := tcl_int2string result
          some (tcl_result t1 FNORMAL (tcl_value retptr 0 (strlen retptr 0) false))
        else
          some (tcl_result t1 (MARKFLOW FERROR TCLERR_EXPR) (tcl_value [NUL] 0 0 false))

/-! ## The interpreter

The functions of this section return `none` where the source does not return a
result: a loop or a recursion does not end within the given number of steps, or
the source reads through a null pointer.  `tcl_eval` is passed to the functions
that call it as the parameter `ev`. -/

/-- The conversion of a `long` to `int`: the low 32 bits, as a signed number. -/
def wrapInt (x : Int) : Int := Int.bmod x (2 ^ 32)

/-- The value `(int)c` of a byte read through a `char` pointer; plain `char` is
taken as unsigned, as the comparisons of a `char` with `0xff` in the COBS code
take it. -/
def char_int (c : Char) : Int := (c.toNat : Int)

/-- A string literal of the source, with its terminator. -/
def c_string (s : String) : Mem := s.toList ++ [NUL]

/-- The source's `tcl_int`. -/
def tcl_int (v : Option Mem) : Int :=
  match v with
  | none => 0
  | some m => if tcl_type (some m) = TclType.TCLTYPE_INT then (strtol (cstr m 0) 0).1 else 0

/-- The source's `tcl_markposition`; the position is the offset in the script. -/
def tcl_markposition (t : tcl) (pos : Nat) : tcl :=
  if t.parents = [] ∧ t.nestlevel = 1 ∧ t.errorcode = 0 then { t with errorpos := pos } else t

/-- The source's `tcl_expect_args_ok`. -/
def tcl_expect_args_ok (args : Mem) (min_args max_args : Nat) : Option Bool :=
  (tcl_list_count args).map (fun n => decide (min_args ≤ n) && (decide (n ≤ max_args) || max_args == 0))

/-- The source's `tcl_register`; the name is the C string at `name + off`.  The
field `declpos`, which the source leaves as `malloc` returned it, is 0. -/
def tcl_register (t : tcl) (name : Mem) (off : Nat) (fn : tcl_cmd_fn) (arity : Nat)
    (user : Option Mem) : tcl :=
  { t with cmds :=
      { name := tcl_value name off (strlen name off) false, arity := arity, fn := fn,
        user := user, declpos := 0 } :: t.cmds }

/-- The source's `tcl_cmd_set`. -/
def tcl_cmd_set (t : tcl) (args : Mem) : Option (tcl × Nat) :=
  match tcl_expect_args_ok args 2 3 with
  | none => none
  | some false => some (tcl_error_result t (MARKFLOW FERROR TCLERR_PARAM))
  | some true =>
    match tcl_list_at args 1, tcl_list_at args 2 with
    | some (some var), some val =>
      let r := tcl_var t var val
      some (tcl_result r.1 FNORMAL (tcl_dup r.2))
    | _, _ => none

/-- The body of the loop of `tcl_cmd_global` for one name: the context and the
value of `r` afterwards.  The root frame is the last frame of the chain. -/
def tcl_cmd_global_name (t : tcl) (r : Nat) (name : Mem) : tcl × Nat :=
  if (tcl_findvar t.env name).isSome then
    tcl_error_result t (MARKFLOW FERROR TCLERR_VARNAME)
  else if (tcl_findvar (tcl_frame t t.parents.length) name).isNone then
    tcl_error_result t (MARKFLOW FERROR TCLERR_VARUNKNOWN)
  else
    let t1 := (tcl_var t name (some (tcl_value [] 0 0 false))).1
    match tcl_findvar t1.env name with
    | some k => ({ t1 with env := t1.env.modify (fun v => { v with global := true }) k }, r)
    | none => (t1, r)

/-- The loop `for (i = 1; i < n; i++)` of `tcl_cmd_global`, with `k` iterations left. -/
def tcl_cmd_global_loop (args : Mem) : Nat → Nat → tcl → Nat → Option (tcl × Nat)
  | 0, _, t, r => some (t, r)
  | k + 1, i, t, r =>
    match tcl_list_at args i with
    | some (some name) =>
      let s := tcl_cmd_global_name t r name
      tcl_cmd_global_loop args k (i + 1) s.1 s.2
    | _ => none

/-- The source's `tcl_cmd_global`. -/
def tcl_cmd_global (t : tcl) (args : Mem) : Option (tcl × Nat) :=
  match tcl_expect_args_ok args 2 0 with
  | none => none
  | some false => some (tcl_error_result t (MARKFLOW FERROR TCLERR_PARAM))
  | some true =>
    match tcl_list_count args with
    | none => none
    | some n => tcl_cmd_global_loop args (n - 1) 1 t FNORMAL

/-- The source's `tcl_cmd_subst`. -/
def tcl_cmd_subst (ev : tcl → Mem → Nat → Nat → Option (tcl × Nat)) (t : tcl) (args : Mem) :
    Option (tcl × Nat) :=
  match tcl_list_at args 1 with
  | some (some s) => tcl_subst ev t s (tcl_string s) (tcl_length (some s))
  | _ => none

/-- One conversion of `tcl_cmd_scan`, with `fp` at the `%` of the format `fm` and
`sp` the position in the string `sm`: the context, the two positions and the
count `match` afterwards. -/
def tcl_cmd_scan_conv (t : tcl) (args sm fm : Mem) (sp fp mt : Nat) :
    Option (tcl × Nat × Nat × Nat) :=
  let fp1 := fp + 1
  let hasw : Bool := isdigit (rd fm fp1)
  let wr := strtol (cstr fm fp1) 10
  let w : Int := if hasw then wrapInt wr.1 else 0
  let fp2 := if hasw then fp1 + ((cstr fm fp1).length - wr.2.length) else fp1
  let usew : Bool := hasw && decide (0 < w) && decide (w < 31)
  let buf : List Char := if usew then (cstr sm sp).take w.toNat else []
  let sp1 := if usew then sp + w.toNat else sp
  let c := rd fm fp2
  let fp3 := fp2 + 1
  let radix : Option Nat :=
    if c = 'd' then some 10 else if c = 'i' then some 0 else if c = 'x' then some 16 else none
  let vs : Int × Nat :=
    if c = 'c' then
      if buf ≠ [] then (char_int (buf.headD NUL), sp1) else (char_int (rd sm sp1), sp1 + 1)
    else
      match radix with
      | none => (0, sp1)
      | some rx =>
        if buf ≠ [] then (wrapInt (strtol buf rx).1, sp1)
        else
          let r := strtol (cstr sm sp1) rx
          (wrapInt r.1, sp1 + ((cstr sm sp1).length - r.2.length))
  let mt1 := mt + 1
  match tcl_list_at args (mt1 + 2) with
  | none => none
  | some none => some (t, vs.2, fp3, mt1)
  | some (some var) =>
    let p := tcl_int2string vs.1
    some ((tcl_var t var (some (tcl_value p 0 (strlen p 0) false))).1, vs.2, fp3, mt1)

/-- The loop `while (*fptr)` of `tcl_cmd_scan`: the context and the count `match`
when it ends. -/
def tcl_cmd_scan_loop (args sm fm : Mem) : Nat → tcl → Nat → Nat → Nat → Option (tcl × Nat)
  | fuel, t, sp, fp, mt =>
    if rd fm fp = NUL then some (t, mt)
    else
      match fuel with
      | 0 => none
      | fuel + 1 =>
        if rd fm fp = '%' then
          match tcl_cmd_scan_conv t args sm fm sp fp mt with
          | none => none
          | some (t1, sp1, fp1, mt1) => tcl_cmd_scan_loop args sm fm fuel t1 sp1 fp1 mt1
        else if rd fm fp = rd sm sp then tcl_cmd_scan_loop args sm fm fuel t (sp + 1) (fp + 1) mt
        else some (t, mt)

/-- The source's `tcl_cmd_scan`.  Each iteration of its loop moves the position in
the format forward, so one iteration per byte of the format is enough. -/
def tcl_cmd_scan (t : tcl) (args : Mem) : Option (tcl × Nat) :=
  match tcl_expect_args_ok args 3 0 with
  | none => none
  | some false => some (tcl_error_result t (MARKFLOW FERROR TCLERR_PARAM))
  | some true =>
    match tcl_list_at args 1, tcl_list_at args 2 with
    | some (some string), some (some format) =>
      match tcl_cmd_scan_loop args string format (format.length + 1) t (tcl_string string)
          (tcl_string format) 0 with
      | none => none
      | some (t1, mt) =>
        let p := tcl_int2string (mt : Int)
        some (tcl_result t1 FNORMAL (tcl_value p 0 (strlen p 0) false))
    | _, _ => none

/-- The source's `tcl_cmd_incr`. -/
def tcl_cmd_incr (t : tcl) (args : Mem) : Option (tcl × Nat) :=
  match tcl_expect_args_ok args 2 3 with
  | none => none
  | some false => some (tcl_error_result t (MARKFLOW FERROR TCLERR_PARAM))
  | some true =>
    match tcl_list_count args with
    | none => none
    | some n =>
      match (if n = 3 then (tcl_list_at args 2).map (fun incr => wrapInt (tcl_int incr))
             else some 1), tcl_list_at args 1 with
      | some val, some (some name) =>
        let r1 := tcl_var t name none
        let p := tcl_int2string (wrapLong (tcl_int (some r1.2) + val))
        let t2 := (tcl_var r1.1 name (some (tcl_value p 0 (strlen p 0) false))).1
        some (tcl_result t2 FNORMAL (tcl_value p 0 (strlen p 0) false))
      | _, _ => none

/-- The source's `tcl_cmd_puts`, without the output it writes. -/
def tcl_cmd_puts (t : tcl) (args : Mem) : Option (tcl × Nat) :=
  match tcl_list_at args 1 with
  | some (some text) => some (tcl_result t FNORMAL text)
  | _ => none

/-- The loop of `tcl_user_proc` that binds the parameters, with `k` iterations left. -/
def tcl_user_proc_loop (params args : Mem) : Nat → Nat → tcl → Option tcl
  | 0, _, t => some t
  | k + 1, i, t =>
    match tcl_list_at params i, tcl_list_at args (i + 1) with
    | some (some param), some v => tcl_user_proc_loop params args k (i + 1) (tcl_var t param v).1
    | _, _ => none

/-- The source's `tcl_user_proc`; `code` is its argument `arg`.  `tcl_env_alloc`
puts an empty frame in front of the chain and `tcl_env_free` removes it. -/
def tcl_user_proc (ev : tcl → Mem → Nat → Nat → Option (tcl × Nat)) (t : tcl) (args code : Mem) :
    Option (tcl × Nat) :=
  match tcl_list_at code 2, tcl_list_at code 3 with
  | some (some params), some (some body) =>
    match tcl_list_count params with
    | none => none
    | some n =>
      match tcl_user_proc_loop params args n 0 { t with env := [], parents := t.env :: t.parents } with
      | none => none
      | some t2 =>
        match ev t2 body (tcl_string body) (tcl_length (some body) + 1) with
        | none => none
        | some (t3, r) => some ({ t3 with env := t3.parents.headD [], parents := t3.parents.tail }, r)
  | _, _ => none

/-- The source's `tcl_cmd_proc`. -/
def tcl_cmd_proc (t : tcl) (args : Mem) : Option (tcl × Nat) :=
  match tcl_list_at args 1 with
  | some (some name) =>
    let t1 := tcl_register t name (tcl_string name) tcl_cmd_fn.tcl_user_proc 0 (some (tcl_dup args))
    let t2 : tcl :=
      match t1.cmds with
      | cmd :: cmds => { t1 with cmds := { cmd with declpos := t1.errorpos } :: cmds }
      | [] => t1
    some (tcl_result t2 FNORMAL (tcl_value [] 0 0 false))
  | _ => none

/-- The source's `tcl_make_condition_list`. -/
def tcl_make_condition_list (cond : Mem) : Mem :=
  tcl_list_append (tcl_list_append tcl_list_alloc (tcl_value (c_string "expr") 0 4 false)) cond

/-- The source's `(i < n) ? tcl_list_at(args, i++) : NULL`: the pointer and the
new value of `i`. -/
def tcl_cmd_if_arg (args : Mem) (i n : Nat) : Option (Option Mem × Nat) :=
  if i < n then (tcl_list_at args i).map (fun b => (b, i + 1)) else some (none, i)

/-- The loop `while (i < n)` of `tcl_cmd_if` together with the `return FLOW(r)`
that follows it.  `strcmp(tcl_string(branch), "then")` reads through `branch`,
so the result is `none` when `branch` is NULL there. -/
def tcl_cmd_if_loop (ev : tcl → Mem → Nat → Nat → Option (tcl × Nat)) (args : Mem) (n : Nat) :
    Nat → Nat → tcl → Nat → Option (tcl × Nat)
  | fuel, i, t, r =>
    if i < n then
      match fuel with
      | 0 => none
      | fuel + 1 =>
        match tcl_list_at args i, tcl_cmd_if_arg args (i + 1) n with
        | some (some c), some (some branch0, i2) =>
          let cond := tcl_make_condition_list c
          match (if cstr branch0 (tcl_string branch0) = "then".toList then tcl_cmd_if_arg args i2 n
                 else some (some branch0, i2)) with
          | none => none
          | some (branch, i3) =>
            match ev t cond (tcl_string cond) (tcl_length (some cond) + 1) with
            | none => none
            | some (t1, r1) =>
              if FLOW r1 ≠ FNORMAL then some (t1, FLOW r1)
              else
                match branch with
                | none => some (tcl_error_result t1 (MARKFLOW FERROR TCLERR_PARAM))
                | some br =>
                  if tcl_int t1.result ≠ 0 then
                    (ev t1 br (tcl_string br) (tcl_length (some br) + 1)).map
                      (fun x => (x.1, FLOW x.2))
                  else if i3 < n then
                    match tcl_list_at args i3 with
                    | some (some b) =>
                      if cstr b (tcl_string b) = "elseif".toList then
                        tcl_cmd_if_loop ev args n fuel (i3 + 1) t1 r1
                      else if cstr b (tcl_string b) = "else".toList then
                        if i3 + 1 < n then
                          match tcl_list_at args (i3 + 1) with
                          | some (some b2) =>
                            (ev t1 b2 (tcl_string b2) (tcl_length (some b2) + 1)).map
                              (fun x => (x.1, FLOW x.2))
                          | _ => none
                        else some (tcl_error_result t1 (MARKFLOW FERROR TCLERR_PARAM))
                      else if i3 + 1 < n then tcl_cmd_if_loop ev args n fuel i3 t1 r1
                      else
                        match ev t1 b (tcl_string b) (tcl_length (some b) + 1) with
                        | none => none
                        | some (t2, r2) => tcl_cmd_if_loop ev args n fuel (i3 + 1) t2 r2
                    | _ => none
                  else tcl_cmd_if_loop ev args n fuel i3 t1 r1
        | _, _ => none
    else some (t, FLOW r)

/-- The source's `tcl_cmd_if`.  Each iteration of its loop moves `i` forward, so
`n` iterations are enough. -/
def tcl_cmd_if (ev : tcl → Mem → Nat → Nat → Option (tcl × Nat)) (t : tcl) (args : Mem) :
    Option (tcl × Nat) :=
  match tcl_expect_args_ok args 3 0 with
  | none => none
  | some false => some (tcl_error_result t (MARKFLOW FERROR TCLERR_PARAM))
  | some true =>
    match tcl_list_count args with
    | none => none
    | some n => tcl_cmd_if_loop ev args n n 1 t FNORMAL

/-- The source's `tcl_cmd_flow`.  A `return` without a value passes the NULL that
`tcl_list_at(args, 1)` returns to `tcl_result`, which stores it as the result and
returns RETURN. -/
def tcl_cmd_flow (t : tcl) (args : Mem) : Option (tcl × Nat) :=
  match tcl_list_at args 0 with
  | some (some flowval) =>
    let flow := cstr flowval (tcl_string flowval)
    if flow = "break".toList then some (t, FBREAK)
    else if flow = "continue".toList then some (t, FAGAIN)
    else if flow = "return".toList then
      match tcl_list_at args 1 with
      | some v => some (tcl_result t FRETURN v)
      | none => none
    else some (t, FERROR)
  | _ => none

/-- The loop `for (;;)` of `tcl_cmd_while` on the condition list `cond` and the
body, with at most `fuel` iterations. -/
def tcl_cmd_while_loop (ev : tcl → Mem → Nat → Nat → Option (tcl × Nat)) (cond body : Mem) :
    Nat → tcl → Option (tcl × Nat)
  | 0, _ => none
  | fuel + 1, t =>
    match ev t cond (tcl_string cond) (tcl_length (some cond) + 1) with
    | none => none
    | some (t1, r1) =>
      if FLOW r1 ≠ FNORMAL then some (t1, FLOW r1)
      else if tcl_int t1.result = 0 then some (t1, FNORMAL)
      else
        match ev t1 body (tcl_string body) (tcl_length (some body) + 1) with
        | none => none
        | some (t2, r2) =>
          if FLOW r2 ≠ FAGAIN ∧ FLOW r2 ≠ FNORMAL then
            some (t2, if FLOW r2 = FBREAK then FNORMAL else FLOW r2)
          else tcl_cmd_while_loop ev cond body fuel t2

/-- The source's `tcl_cmd_while`, with at most `fuel` iterations of its loop. -/
def tcl_cmd_while (fuel : Nat) (ev : tcl → Mem → Nat → Nat → Option (tcl × Nat)) (t : tcl)
    (args : Mem) : Option (tcl × Nat) :=
  match tcl_list_at args 1, tcl_list_at args 2 with
  | some (some c), some (some body) =>
    tcl_cmd_while_loop ev (tcl_make_condition_list c) body fuel t
  | _, _ => none

/-- The call `cmd->fn(tcl, list, cmd->user)` of `tcl_exec_cmd`. -/
def tcl_cmd_call (fuel : Nat) (ev : tcl → Mem → Nat → Nat → Option (tcl × Nat)) (cmd : tcl_cmd)
    (t : tcl) (list : Mem) : Option (tcl × Nat) :=
  match cmd.fn with
  | .tcl_cmd_set => tcl_cmd_set t list
  | .tcl_cmd_global => tcl_cmd_global t list
  | .tcl_cmd_subst => tcl_cmd_subst ev t list
  | .tcl_cmd_proc => tcl_cmd_proc t list
  | .tcl_cmd_if => tcl_cmd_if ev t list
  | .tcl_cmd_while => tcl_cmd_while fuel ev t list
  | .tcl_cmd_flow => tcl_cmd_flow t list
  | .tcl_cmd_expr => tcl_cmd_expr t list
  | .tcl_cmd_incr => tcl_cmd_incr t list
  | .tcl_cmd_scan => tcl_cmd_scan t list
  | .tcl_cmd_puts => tcl_cmd_puts t list
  | .tcl_user_proc =>
    match cmd.user with
    | some code => tcl_user_proc ev t list code
    | none => none

/-- The loop of `tcl_exec_cmd` over the registry, from the record `cmds` starts
with; `call` is the call of a record's handler. -/
def tcl_exec_cmd_loop (call : tcl_cmd → tcl → Mem → Option (tcl × Nat)) (t : tcl) (list : Mem)
    (cmdname : Mem) : List tcl_cmd → Option (tcl × Nat)
  | [] => some (t, MARKFLOW FERROR TCLERR_CMDUNKNOWN)
  | cmd :: cmds =>
    if cstr cmdname (tcl_string cmdname) = cstr cmd.name (tcl_string cmd.name) then
      if cmd.arity = 0 then call cmd t list
      else
        match tcl_list_count list with
        | none => none
        | some n =>
          if cmd.arity = n then call cmd t list
          else tcl_exec_cmd_loop call t list cmdname cmds
    else tcl_exec_cmd_loop call t list cmdname cmds

/-- The source's `tcl_exec_cmd`: the context afterwards and the value it returns. -/
def tcl_exec_cmd (fuel : Nat) (ev : tcl → Mem → Nat → Nat → Option (tcl × Nat)) (t : tcl)
    (list : Mem) : Option (tcl × Nat) :=
  match tcl_list_at list 0 with
  | some (some cmdname) => tcl_exec_cmd_loop (tcl_cmd_call fuel ev) t list cmdname t.cmds
  | _ => none

/-- The body of the loop of `tcl_eval` up to the test of `result`, for the token
in `p`: the context, `list`, `cur` and `result` afterwards.  `tcl_dup(tcl->result)`
reads through the result, so there is no outcome when the result is NULL. -/
def tcl_eval_token (fuel : Nat) (ev : tcl → Mem → Nat → Nat → Option (tcl × Nat)) (m : Mem)
    (p : tcl_each_state) (t : tcl) (list : Mem) (cur : Option Mem) :
    Option (tcl × Mem × Option Mem × Nat) :=
  let t0 := tcl_markposition t p.from_
  match p.token with
  | Token.TERROR =>
    let r := tcl_error_result t0 (MARKFLOW FERROR TCLERR_SYNTAX)
    some (r.1, list, cur, r.2)
  | Token.TWORD =>
    match tcl_subst ev t0 m p.from_ (p.to_ - p.from_) with
    | none => none
    | some (t1, r) =>
      match t1.result with
      | none => none
      | some res =>
        let cur1 :=
          match cur with
          | some c => tcl_append (some c) (tcl_dup res)
          | none => tcl_dup res
        some (t1, tcl_list_append list cur1, none, r)
  | Token.TPART =>
    match tcl_subst ev t0 m p.from_ (p.to_ - p.from_) with
    | none => none
    | some (t1, r) =>
      match t1.result with
      | none => none
      | some res => some (t1, list, some (tcl_append cur (tcl_dup res)), r)
  | Token.TCMD =>
    match tcl_list_count list with
    | none => none
    | some n =>
      if n > 0 then
        match tcl_exec_cmd fuel ev t0 list with
        | none => none
        | some (t1, r) => some (t1, tcl_list_alloc, cur, r)
      else some (t0, list, cur, FNORMAL)

/-- The `tcl_each` loop of `tcl_eval`, with at most `n` iterations: the context,
`list` and `result` when the loop ends. -/
def tcl_eval_loop (fuel : Nat) (ev : tcl → Mem → Nat → Nat → Option (tcl × Nat)) (m : Mem) :
    Nat → tcl_each_state → tcl → Mem → Option Mem → Nat → Option (tcl × Mem × Nat)
  | n, p, t, list, cur, result =>
    if p.start < p.end_ then
      match n with
      | 0 => none
      | n + 1 =>
        let p1 := tcl_each_next m p
        match tcl_eval_token fuel ev m p1 t list cur with
        | none => none
        | some (t1, list1, cur1, r1) =>
          if FLOW r1 = FERROR then some ((tcl_error_result t1 r1).1, list1, r1)
          else tcl_eval_loop fuel ev m n { p1 with start := p1.to_ } t1 list1 cur1 r1
    else some (t, list, result)

/-- The body of `tcl_eval` on the `length` bytes at `m + s`, with `ev` for its
recursive calls and at most `fuel + 1` iterations of each loop. -/
def tcl_eval_body (fuel : Nat) (ev : tcl → Mem → Nat → Nat → Option (tcl × Nat)) (t : tcl)
    (m : Mem) (s length : Nat) : Option (tcl × Nat) :=
  match tcl_eval_loop fuel ev m (fuel + 1) (tcl_each_init s (s + length) Token.TERROR)
      { t with nestlevel := t.nestlevel + 1 } tcl_list_alloc none FNORMAL with
  | none => none
  | some (t1, list, result) =>
    let last : Option (tcl × Nat) :=
      if FLOW result = FNORMAL then
        match tcl_list_count list with
        | none => none
        | some n => if n > 0 then tcl_exec_cmd fuel ev t1 list else some (t1, result)
      else some (t1, result)
    match last with
    | none => none
    | some (t2, result2) =>
      let t3 : tcl := { t2 with nestlevel := t2.nestlevel - 1 }
      some (t3,
        if t3.nestlevel = 0 then (if t3.errorcode > 0 then FERROR else FLOW result2) else result2)

/-- The source's `tcl_eval` on the `length` bytes at `m + s`: the context
afterwards and the value it returns; `none` when the evaluation does not end
within `fuel` nested calls of `tcl_eval` and `fuel` iterations of each loop, or
reads through a null pointer. -/
def tcl_eval : Nat → tcl → Mem → Nat → Nat → Option (tcl × Nat)
  | 0, _, _, _, _ => none
  | fuel + 1, t, m, s, length => tcl_eval_body fuel (tcl_eval fuel) t m s length

/-- The source's `tcl_init`: the context it leaves. -/
def tcl_init : tcl :=
  let t0 : tcl := { env := [], parents := [], cmds := [], result := tcl_value [] 0 0 false,
                    nestlevel := 0, errorcode := 0, errorpos := 0, written := [] }
  let t1 := tcl_register t0 (c_string "set") 0 tcl_cmd_fn.tcl_cmd_set 0 none
  let t2 := tcl_register t1 (c_string "global") 0 tcl_cmd_fn.tcl_cmd_global 0 none
  let t3 := tcl_register t2 (c_string "subst") 0 tcl_cmd_fn.tcl_cmd_subst 2 none
  let t4 := tcl_register t3 (c_string "proc") 0 tcl_cmd_fn.tcl_cmd_proc 4 none
  let t5 := tcl_register t4 (c_string "if") 0 tcl_cmd_fn.tcl_cmd_if 0 none
  let t6 := tcl_register t5 (c_string "while") 0 tcl_cmd_fn.tcl_cmd_while 3 none
  let t7 := tcl_register t6 (c_string "return") 0 tcl_cmd_fn.tcl_cmd_flow 0 none
  let t8 := tcl_register t7 (c_string "break") 0 tcl_cmd_fn.tcl_cmd_flow 1 none
  let t9 := tcl_register t8 (c_string "continue") 0 tcl_cmd_fn.tcl_cmd_flow 1 none
  let t10 := tcl_register t9 (c_string "expr") 0 tcl_cmd_fn.tcl_cmd_expr 0 none
  let t11 := tcl_register t10 (c_string "incr") 0 tcl_cmd_fn.tcl_cmd_incr 0 none
  let t12 := tcl_register t11 (c_string "scan") 0 tcl_cmd_fn.tcl_cmd_scan 0 none
  tcl_register t12 (c_string "puts") 0 tcl_cmd_fn.tcl_cmd_puts 2 none

/-- The call `tcl_eval(tcl, script, strlen(script))` on a script given as text. -/
def tcl_eval_text (fuel : Nat) (t : tcl) (script : List Char) : Option (tcl × Nat) :=
  tcl_eval fuel t (script ++ [NUL]) 0 script.length

/-! ## The `if` command, as the specification gives it -/

/-- Specification of one `cond body` pair of an `if` command: the condition,
whether the keyword `then` stands between the condition and the body, the body,
and whether a keyword stands after the body (`elseif` in front of a further pair,
`else` in front of the final body). -/
structure if_spec_clause where
  cond : Mem
  then_kw : Bool
  body : Mem
  link_kw : Bool

/-- Specification of the words of an `if` command after the word `if`: the pairs
with their keywords, then the final else body if there is one. -/
def if_spec_words : List if_spec_clause → Option Mem → List Mem
  | [], els => els.toList
  | cl :: rest, els =>
    cl.cond :: ((if cl.then_kw then ["then".toList] else []) ++
      cl.body :: ((if cl.link_kw then [if rest.isEmpty then "else".toList else "elseif".toList]
                   else []) ++ if_spec_words rest els))

/-- Specification of the `if` commands the words stand for without ambiguity: a
body that follows its condition directly is not the word `then`; a keyword after
the last pair is followed by the else body; a condition or an else body that
follows a body directly is not one of the words `elseif` and `else`. -/
def if_spec_wf : List if_spec_clause → Option Mem → Prop
  | [], _ => True
  | cl :: rest, els =>
    (cl.then_kw = false → cl.body ≠ "then".toList) ∧
    (cl.link_kw = true → rest = [] → els ≠ none) ∧
    (cl.link_kw = false → (if_spec_words rest els).head? ≠ some "elseif".toList ∧
      (if_spec_words rest els).head? ≠ some "else".toList) ∧
    if_spec_wf rest els

/-- Specification of the evaluation of an `if` command, with `ev` in the place of
`tcl_eval`: the conditions are evaluated in order; the first one that does not
yield NORMAL ends the command with its flow; the first one that yields a result
other than zero has its body evaluated, which ends the command; when all
conditions are zero the else body is evaluated if there is one.  `r` is the value
of the last evaluation, NORMAL at the start. -/
def if_spec_eval (ev : tcl → Mem → Nat → Nat → Option (tcl × Nat)) :
    List if_spec_clause → Option Mem → tcl → Nat → Option (tcl × Nat)
  | [], none, t, r => some (t, FLOW r)
  | [], some e, t, _ =>
    (ev t (text_encoding e) (tcl_string (text_encoding e))
      (tcl_length (some (text_encoding e)) + 1)).map (fun x => (x.1, FLOW x.2))
  | cl :: rest, els, t, _ =>
    match ev t (tcl_make_condition_list (text_encoding cl.cond))
        (tcl_string (tcl_make_condition_list (text_encoding cl.cond)))
        (tcl_length (some (tcl_make_condition_list (text_encoding cl.cond))) + 1) with
    | none => none
    | some (t1, r1) =>
      if FLOW r1 ≠ FNORMAL then some (t1, FLOW r1)
      else if tcl_int t1.result ≠ 0 then
        (ev t1 (text_encoding cl.body) (tcl_string (text_encoding cl.body))
          (tcl_length (some (text_encoding cl.body)) + 1)).map (fun x => (x.1, FLOW x.2))
      else if_spec_eval ev rest els t1 r1

/-! ## Frames across a call -/

/-- Two frames hold the same bindings: the same names with the same flags, in the
same order; only the values may differ. -/
def same_bindings (a b : tcl_env) : Prop :=
  a.map (fun v => (v.name, v.elements, v.global)) = b.map (fun v => (v.name, v.elements, v.global))

/-- The chain `qs` of frames keeps the chain `ps`: it has the same length, every
frame but the last one (the root frame) is the same, and the root frame holds the
same bindings. -/
def frames_kept (ps qs : List tcl_env) : Prop :=
  qs.length = ps.length ∧ qs.dropLast = ps.dropLast ∧
    same_bindings (ps.getLastD []) (qs.getLastD [])

/-- A relation between the context before and the context after that every step
of the interpreter keeps: it is reflexive and transitive, it holds across
`tcl_result`, `tcl_var`, `tcl_markposition`, the setting of a global flag and a
change of the registry, and it holds across the nesting level and the frame that
`tcl_eval` and `tcl_user_proc` put around an evaluation and remove afterwards. -/
structure tcl_step_rel (R : tcl → tcl → Prop) : Prop where
  refl : ∀ t, R t t
  trans : ∀ a b c, R a b → R b c → R a c
  result : ∀ t flow v, R t (tcl_result t flow v).1
  var : ∀ t n v, R t (tcl_var t n v).1
  env_flag : ∀ t k, R t { t with env := t.env.modify (fun v => { v with global := true }) k }
  cmds : ∀ t cs, R t { t with cmds := cs }
  pos : ∀ t p, R t (tcl_markposition t p)
  nest : ∀ t t2, R { t with nestlevel := t.nestlevel + 1 } t2 →
    R t { t2 with nestlevel := t2.nestlevel - 1 }
  frame : ∀ t t3, R { t with env := [], parents := t.env :: t.parents } t3 →
    R t { t3 with env := t3.parents.headD [], parents := t3.parents.tail }

/-! ## The error position -/

/-- The loop of `tcl_errorpos`: the values of `*line` and `linebase` when it
ends.  `script` and `linebase` are offsets in the block of the script. -/
def tcl_errorpos_loop (m : Mem) (errorpos : Nat) : Nat → Nat → Nat → Nat → Nat × Nat
  | 0, _, line, linebase => (line, linebase)
  | fuel + 1, script, line, linebase =>
    if script < errorpos then
      if rd m script = '\r' ∨ rd m script = '\n' then
        tcl_errorpos_loop m errorpos fuel
          ((if rd m script = '\r' ∧ rd m (script + 1) = '\n' then script + 1 else script) + 1)
          (line + 1) (script + 1)
      else tcl_errorpos_loop m errorpos fuel (script + 1) line linebase
    else (line, linebase)

/-- The source's `tcl_errorpos`: the values it stores in `*line` and `*column`.
`tcl->errorpos` is an offset in the script; each iteration of the loop moves
`script` forward, so `errorpos` iterations are enough. -/
def tcl_errorpos (t : tcl) (script : Mem) : Int × Int :=
  let r := tcl_errorpos_loop script t.errorpos t.errorpos 0 1 0
  ((r.1 : Int), (t.errorpos : Int) - (r.2 : Int) + 1)

/-! ## COBS

The bytes are taken as unsigned: the comparisons `code == 0xff` and
`code != 0xff` of the source are between a `char` and 255. -/

/-- The write `m[i] = c` into a block that is extended as far as it is written. -/
def mem_write (m : Mem) (i : Nat) (c : Char) : Mem :=
  if i < m.length then m.set i c else m ++ List.replicate (i - m.length) NUL ++ [c]

/-- The `for` loop of `tcl_cobs_encode` over the bytes that are left: the buffer,
`encode`, `codep` (offsets in the buffer) and `code` when it ends. -/
def tcl_cobs_encode_loop : List Char → Mem → Nat → Nat → Nat → Mem × Nat × Nat × Nat
  | [], buf, encode, codep, code => (buf, encode, codep, code)
  | b :: bs, buf, encode, codep, code =>
    let buf1 := if b ≠ NUL then mem_write buf encode b else buf
    let encode1 := if b ≠ NUL then encode + 1 else encode
    let code1 := if b ≠ NUL then (code + 1) % 256 else code
    if b = NUL ∨ code1 = 255 then
      tcl_cobs_encode_loop bs (mem_write buf1 codep (Char.ofNat code1))
        (if b = NUL ∨ bs.length ≠ 0 then encode1 + 1 else encode1) encode1 1
    else tcl_cobs_encode_loop bs buf1 encode1 codep code1

/-- The source's `tcl_cobs_encode` on the `length` bytes at `bindata`: the bytes
it writes to the buffer it returns, and the value it stores in `*length`.  The
source allocates `binsz` bytes for the buffer, fewer than it writes; the block
here holds every byte written. -/
def tcl_cobs_encode (bindata : Mem) (length : Nat) : Mem × Nat :=
  let binsz := length
  let ascsz := (binsz + (binsz + 253) / 254 + 1) % 2 ^ 64
  let r := tcl_cobs_encode_loop ((List.range binsz).map (fun i => rd bindata i)) [] 1 0 1
  (mem_write (mem_write r.1 r.2.2.1 (Char.ofNat r.2.2.2)) r.2.1 NUL, ascsz)

/-- The `for` loop of `tcl_cobs_decode`: the bytes written to the output.  Each
iteration reads one byte, so `ascsz` iterations are enough. -/
def tcl_cobs_decode_loop (asciiz : Mem) (ascsz : Nat) : Nat → Nat → Mem → Nat → Nat → Mem
  | 0, _, out, _, _ => out
  | fuel + 1, byte, out, code, block =>
    if byte < ascsz then
      if block ≠ 0 then
        tcl_cobs_decode_loop asciiz ascsz fuel (byte + 1) (out ++ [rd asciiz byte]) code
          ((block + 255) % 256)
      else
        tcl_cobs_decode_loop asciiz ascsz fuel (byte + 1)
          (if code ≠ 255 then out ++ [NUL] else out) (rd asciiz byte).toNat
          (((rd asciiz byte).toNat + 255) % 256)
    else out

/-- The source's `tcl_cobs_decode` on the block `asciiz` with `*length = length`:
the bytes it writes to the buffer it returns, and the value it stores in
`*length` (the size it allocates for the buffer). -/
def tcl_cobs_decode (asciiz : Mem) (length : Nat) : Mem × Nat :=
  let ascsz := if length > 0 ∧ rd asciiz (length - 1) = NUL then length - 1 else length
  let binsz := 254 * ascsz % 2 ^ 64 / 255
  (tcl_cobs_decode_loop asciiz ascsz ascsz 0 [] 255 0, binsz)

/-! ## Values of the frames across a call -/

/-- The names written through a global alias between the context `t` and the
later context `t2`: what the history variable `written` has gained, the most
recent first. -/
def written_since (t t2 : tcl) : List Mem :=
  t2.written.take (t2.written.length - t.written.length)

/-- Frame `b` keeps frame `a` but for the names in `L`: it holds the same
bindings (the same names with the same flags, in the same order), and every
binding whose name (as `tcl_findvar` compares it) is not in `L` has the value it
has in `a`. -/
def values_kept (L : List Mem) (a b : tcl_env) : Prop :=
  List.Forall₂ (fun u v => v.name = u.name ∧ v.elements = u.elements ∧ v.global = u.global ∧
    (cstr u.name (tcl_string u.name) ∉ L → v.value = u.value)) a b

/-- The chain `qs` of frames keeps the chain `ps` but for the names in `L`: it has
the same length, every frame but the last one (the root frame) is the same, and
the root frame keeps its bindings and the values of the names not in `L`. -/
def frames_kept_except (L : List Mem) (ps qs : List tcl_env) : Prop :=
  qs.length = ps.length ∧ qs.dropLast = ps.dropLast ∧
    values_kept L (ps.getLastD []) (qs.getLastD [])

/-! ## The words of a list -/

/-- A word that the list code carries through unchanged: it holds no NUL and no
binary sentinel, and, when `tcl_list_append` wraps it in braces (`needs_brace`),
its braces balance as the scan of `tcl_next` counts them: the scan started after
the opening brace ends at the brace that `tcl_list_append` puts after the word.
A backslash right before a brace makes the scan pass over that brace, so a word
that is wrapped in braces and ends in a backslash does not qualify. -/
def list_word (w : Mem) : Bool :=
  w.all (fun c => c != NUL && c != BIN_TOKEN) &&
    (!needs_brace w || span_close '{' '}' (w ++ ['}']) 1 0 == some (w.length + 1))

/-- The first word of a list is not read as a comment: a first word that
`tcl_list_append` leaves bare does not begin with `#`. -/
def list_first_word (W : List Mem) : Bool :=
  match W with
  | [] => true
  | w :: _ => needs_brace w || w.head? != some '#'

/-! # Properties -/

/-! ## Memory reads -/

theorem toNat_ofNat_byte (n : Nat) (h : n < 256) : (Char.ofNat n).toNat = n := by
  have : ∀ k : Fin 256, (Char.ofNat k.val).toNat = k.val := by decide!
  exact this ⟨n, h⟩

theorem rd_cons_zero (c : Char) (m : Mem) : rd (c :: m) 0 = c := rfl

theorem rd_cons_succ (c : Char) (m : Mem) (i : Nat) : rd (c :: m) (i + 1) = rd m i := rfl

theorem rd_nil (i : Nat) : rd [] i = NUL := rfl

theorem rd_of_lt (a : Mem) (i : Nat) (h : i < a.length) : rd a i = a[i] := by
  unfold rd
  simp [List.getD_eq_getElem?_getD, h]

theorem rd_append_right (a b : Mem) (i : Nat) : rd (a ++ b) (a.length + i) = rd b i := by
  unfold rd
  simp [List.getD_eq_getElem?_getD, List.getElem?_append_right]

theorem rd_append_left (a b : Mem) (i : Nat) (h : i < a.length) : rd (a ++ b) i = rd a i := by
  unfold rd
  simp [List.getD_eq_getElem?_getD, List.getElem?_append_left h]

theorem rd_eq_headD_drop (m : Mem) (p : Nat) : rd m p = (m.drop p).headD NUL := by
  unfold rd
  induction m generalizing p with
  | nil => simp
  | cons c t ih =>
    cases p with
    | zero => simp
    | succ p => simp [ih p]

theorem takeWhile_ne_nul_append (t r : Mem) (h : NUL ∉ t) :
    (t ++ NUL :: r).takeWhile (fun c => c != NUL) = t := by
  induction t with
  | nil => simp
  | cons c t ih =>
    have hc : c ≠ NUL := fun e => h (by simp [e])
    have ht : NUL ∉ t := fun e => h (by simp [e])
    simp [List.takeWhile_cons, hc, ih ht]

theorem strlen_text (t r : Mem) (h : NUL ∉ t) : strlen (t ++ NUL :: r) 0 = t.length := by
  simp [strlen, takeWhile_ne_nul_append t r h]

/-- The C string of a block made of NUL-free bytes followed by nothing or by a NUL. -/
theorem cstr_of_parts (t tl : Mem) (h : NUL ∉ t) (htl : tl.headD NUL = NUL) :
    cstr (t ++ tl) 0 = t := by
  unfold cstr
  cases tl with
  | nil =>
    simp only [List.append_nil, List.drop_zero]
    rw [List.takeWhile_eq_self_iff]
    intro c hc
    have : c ≠ NUL := fun e => h (e ▸ hc)
    simpa using this
  | cons c r =>
    have : c = NUL := by simpa using htl
    subst this
    simpa using takeWhile_ne_nul_append t r h

/-- Every block splits into its C string and a rest that is empty or begins with NUL. -/
theorem cstr_split (m : Mem) :
    ∃ tl : Mem, m = cstr m 0 ++ tl ∧ tl.headD NUL = NUL ∧ NUL ∉ cstr m 0 := by
  refine ⟨m.dropWhile (fun c => c != NUL), ?_, ?_, ?_⟩
  · simp [cstr]
  · cases h : m.dropWhile (fun c => c != NUL) with
    | nil => rfl
    | cons c r =>
      have := List.head_dropWhile_not (fun c => c != NUL) m (by simp [h])
      simpa [h] using this
  · intro hmem
    have := List.mem_takeWhile_imp (by simpa [cstr] using hmem)
    simp at this

theorem drop_length_takeWhile (pred : Char → Bool) (xs : Mem) :
    xs.drop (xs.takeWhile pred).length = xs.dropWhile pred := by
  induction xs with
  | nil => simp
  | cons c t ih =>
    by_cases h : pred c = true
    · simp [List.takeWhile_cons, List.dropWhile_cons, h, ih]
    · simp [List.takeWhile_cons, List.dropWhile_cons, h]

theorem drop_skipWhile (pred : Char → Bool) (m : Mem) (p : Nat) :
    m.drop (skipWhile pred m p) = (m.drop p).dropWhile pred := by
  unfold skipWhile
  rw [← List.drop_drop, drop_length_takeWhile]

theorem dropWhile_append_all (P : Char → Bool) (xs rest : Mem) (h : ∀ c ∈ xs, P c = true) :
    (xs ++ rest).dropWhile P = rest.dropWhile P := by
  induction xs with
  | nil => rfl
  | cons c t ih =>
    have hc : P c = true := h c (by simp)
    simp only [List.cons_append, List.dropWhile_cons, hc, if_true]
    exact ih (fun d hd => h d (by simp [hd]))

theorem dropWhile_stop (P : Char → Bool) (rest : Mem) (h : P (rest.headD NUL) = false) :
    rest.dropWhile P = rest := by
  cases rest with
  | nil => rfl
  | cons c t =>
    have : P c = false := by simpa using h
    simp [List.dropWhile_cons, this]

theorem headD_eq_cons (s : Mem) (c : Char) (h : s.headD NUL = c) (hc : c ≠ NUL) :
    s = c :: s.drop 1 := by
  cases s with
  | nil => exact absurd h.symm hc
  | cons d t => simp at h; simp [h]

theorem takeWhile_all (P : Char → Bool) (s : Mem) : ∀ c ∈ s.takeWhile P, P c = true :=
  fun _ hc => List.mem_takeWhile_imp hc

/-! ## Values: construction, accessors, concatenation -/

theorem bin_size_header (sz : Nat) (h : sz ≤ 65535) (r : Mem) :
    BIN_SIZE (BIN_TOKEN :: Char.ofNat (sz % 256) :: Char.ofNat (sz / 256 % 256) :: r) 0 = sz := by
  simp only [BIN_SIZE, rd_cons_succ, rd_cons_zero, zero_add]
  rw [toNat_ofNat_byte _ (Nat.mod_lt _ (by norm_num)),
    toNat_ofNat_byte _ (Nat.mod_lt _ (by norm_num))]
  omega

/-- The source's `tcl_binary` on a buffer lying in the middle of a block. -/
theorem tcl_binary_mid (pre B post : Mem) :
    tcl_binary (pre ++ B ++ post) pre.length B.length = true ↔
      (NUL ∈ B ∨ B.head? = some BIN_TOKEN) := by
  unfold tcl_binary
  cases B with
  | nil => simp
  | cons c t =>
    have h0 : rd (pre ++ c :: t ++ post) pre.length = c := by
      have := rd_append_right pre (c :: t ++ post) 0
      simpa [List.append_assoc] using this
    simp only [List.length_cons, Nat.add_one_ne_zero, if_false, h0, List.head?_cons,
      Option.some.injEq]
    by_cases hc : c = BIN_TOKEN
    · simp [hc]
    · simp only [hc, if_false, or_false]
      simp only [List.any_eq_true, List.mem_range, beq_iff_eq]
      constructor
      · rintro ⟨k, hk, e⟩
        have : rd (pre ++ c :: t ++ post) (pre.length + k) = rd (c :: t) k := by
          rw [List.append_assoc, rd_append_right, rd_append_left _ _ _ (by simpa using hk)]
        rw [this, rd_of_lt _ k (by simpa using hk)] at e
        rw [← e]; exact List.getElem_mem _
      · intro h
        obtain ⟨k, hk, e⟩ := List.getElem_of_mem h
        refine ⟨k, by simpa using hk, ?_⟩
        rw [List.append_assoc, rd_append_right, rd_append_left _ _ _ hk, rd_of_lt _ k hk, e]

theorem tcl_binary_buffer (B : Mem) :
    tcl_binary B 0 B.length = true ↔ (NUL ∈ B ∨ B.head? = some BIN_TOKEN) := by
  have := tcl_binary_mid [] B []
  simpa using this

theorem tcl_binary_front (B post : Mem) :
    tcl_binary (B ++ post) 0 B.length = true ↔ (NUL ∈ B ∨ B.head? = some BIN_TOKEN) := by
  have := tcl_binary_mid [] B post
  simpa using this

/-- What the accessors return on a well-formed text value. -/
theorem text_value_facts (t : Mem) (hn : NUL ∉ t) (hh : t.head? ≠ some BIN_TOKEN) :
    rd (text_encoding t) 0 ≠ BIN_TOKEN ∧ tcl_length (some (text_encoding t)) = t.length ∧
    tcl_string (text_encoding t) = 0 ∧ payload (text_encoding t) = t ∧
    tcl_binary (text_encoding t) 0 t.length = false := by
  unfold text_encoding
  have h0 : rd (t ++ [NUL]) 0 ≠ BIN_TOKEN := by
    cases t with
    | nil => simp [rd, NUL, BIN_TOKEN]
    | cons c t => intro h; exact hh (by simpa [rd_cons_zero] using h)
  have hl : tcl_length (some (t ++ [NUL])) = t.length := by
    simp only [tcl_length, h0, if_false]; exact strlen_text t [] hn
  have hs : tcl_string (t ++ [NUL]) = 0 := by simp [tcl_string, h0]
  refine ⟨h0, hl, hs, ?_, ?_⟩
  · simp [payload, hl, hs, slice]
  · have := tcl_binary_front t [NUL]
    by_contra hne
    have ht : tcl_binary (t ++ [NUL]) 0 t.length = true := by simpa using hne
    rcases this.mp ht with h | h
    · exact hn h
    · exact hh h

/-- What the accessors return on a well-formed binary value. -/
theorem blob_value_facts (p : Mem) (hp : p.length ≤ 65535) :
    rd (blob_encoding p) 0 = BIN_TOKEN ∧ tcl_length (some (blob_encoding p)) = p.length ∧
    tcl_string (blob_encoding p) = 3 ∧ payload (blob_encoding p) = p ∧
    tcl_binary (blob_encoding p) 0 p.length = decide (p ≠ []) := by
  have h0 : rd (blob_encoding p) 0 = BIN_TOKEN := rfl
  have hl : tcl_length (some (blob_encoding p)) = p.length := by
    simp only [tcl_length, h0, if_true]
    exact bin_size_header p.length hp (p ++ [NUL])
  have hs : tcl_string (blob_encoding p) = 3 := by simp [tcl_string, h0]
  refine ⟨h0, hl, hs, ?_, ?_⟩
  · rw [payload, hl, hs]; simp [blob_encoding, slice]
  · unfold tcl_binary
    rw [h0]
    cases p <;> simp

/-- The facts used about a well-formed value `v` with payload `p`. -/
theorem value_facts (v : Mem) (hv : is_value v) :
    ∃ p : Mem,
      tcl_length (some v) = p.length ∧ payload v = p ∧
      (tcl_binary v 0 p.length = (is_binary_encoded v && decide (p ≠ []))) ∧
      (tcl_binary v (tcl_string v) p.length = true ↔ (NUL ∈ p ∨ p.head? = some BIN_TOKEN)) ∧
      (is_binary_encoded v = false → NUL ∉ p ∧ p.head? ≠ some BIN_TOKEN) := by
  rcases hv with ⟨t, rfl, hn, hh⟩ | ⟨p, rfl, hp⟩
  · obtain ⟨h0, hl, hs, hpay, hb⟩ := text_value_facts t hn hh
    refine ⟨t, hl, hpay, ?_, ?_, fun _ => ⟨hn, hh⟩⟩
    · simp [hb, is_binary_encoded, h0]
    · rw [hs, hb]; simp [hn, hh]
  · obtain ⟨h0, hl, hs, hpay, hb⟩ := blob_value_facts p hp
    refine ⟨p, hl, hpay, ?_, ?_, ?_⟩
    · simp [hb, is_binary_encoded, h0]
    · rw [hs]
      have := tcl_binary_mid [BIN_TOKEN, Char.ofNat (p.length % 256),
        Char.ofNat (p.length / 256 % 256)] p [NUL]
      simpa [blob_encoding] using this
    · intro h; simp [is_binary_encoded, h0] at h

/-- The value built by `tcl_value` from a whole buffer, in closed form. -/
theorem tcl_value_eq (B : Mem) (f : Bool) :
    tcl_value B 0 B.length f =
      if f = true ∨ NUL ∈ B ∨ B.head? = some BIN_TOKEN then blob_encoding B
      else text_encoding B := by
  have hb := tcl_binary_buffer B
  unfold tcl_value tcl_append_string blob_encoding text_encoding
  simp only [tcl_length, zero_add, Option.getD_none, slice, List.drop_zero, List.take_length]
  have h0 : tcl_binary [] 0 0 = false := rfl
  simp only [h0, Bool.or_false]
  by_cases hf : f = true
  · simp [hf]
  · have hf2 : f = false := by simpa using hf
    subst hf2
    by_cases hbin : tcl_binary B 0 B.length = true
    · have := hb.mp hbin
      simp [hbin, this]
    · have hn : ¬ (NUL ∈ B ∨ B.head? = some BIN_TOKEN) := fun h => hbin (hb.mpr h)
      have hbin2 : tcl_binary B 0 B.length = false := by simpa using hbin
      simp [hbin2, hn]

/-- The block built by `tcl_append`, in closed form. -/
theorem tcl_append_eq (a b : Mem) :
    tcl_append (some a) b =
      (if (tcl_binary b 0 (tcl_length (some b)) || tcl_binary a 0 (tcl_length (some a))
            || tcl_binary b (tcl_string b) (tcl_length (some b))) = true then
        [BIN_TOKEN, Char.ofNat ((tcl_length (some a) + tcl_length (some b)) % 256),
          Char.ofNat ((tcl_length (some a) + tcl_length (some b)) / 256 % 256)]
      else []) ++ payload a ++ payload b ++ [NUL] := by
  have hold : (if tcl_length (some a) > 0 then slice a (tcl_string a) (tcl_length (some a)) else [])
      = payload a := by
    unfold payload
    by_cases h : tcl_length (some a) > 0
    · rw [if_pos h]
    · have : tcl_length (some a) = 0 := by omega
      rw [if_neg h, this]; simp [slice]
  unfold tcl_append tcl_append_string
  simp only [Option.getD_some, hold]
  by_cases hc : (tcl_binary b 0 (tcl_length (some b)) || tcl_binary a 0 (tcl_length (some a))
            || tcl_binary b (tcl_string b) (tcl_length (some b))) = true
  · simp only [hc, if_true]; simp [payload]
  · simp only [hc, if_false]; simp [payload]

/-- C9: for every buffer `B` of at most 65535 bytes and every flag `f`, the value
`tcl_value(B, |B|, f)` has length `|B|` and payload `B`; it is binary-encoded
(sentinel, little-endian 16-bit length, payload, NUL) exactly when `f` is set,
some byte of `B` is NUL or the first byte of `B` is the sentinel, and is the
plain text encoding otherwise. -/
theorem tcl_value_roundtrip (B : Mem) (f : Bool) (hn : B.length ≤ 65535) :
    tcl_length (some (tcl_value B 0 B.length f)) = B.length ∧
    slice (tcl_value B 0 B.length f) (tcl_string (tcl_value B 0 B.length f)) B.length = B ∧
    (is_binary_encoded (tcl_value B 0 B.length f) = true ↔
      (f = true ∨ NUL ∈ B ∨ B.head? = some BIN_TOKEN)) ∧
    (is_binary_encoded (tcl_value B 0 B.length f) = true →
      tcl_value B 0 B.length f = blob_encoding B) ∧
    (is_binary_encoded (tcl_value B 0 B.length f) = false →
      tcl_value B 0 B.length f = text_encoding B) := by
  rw [tcl_value_eq]
  by_cases hc : f = true ∨ NUL ∈ B ∨ B.head? = some BIN_TOKEN
  · rw [if_pos hc]
    obtain ⟨h0, hl, hs, hpay, -⟩ := blob_value_facts B hn
    refine ⟨hl, ?_, ?_, fun _ => rfl, ?_⟩
    · have := hpay; rw [payload, hl] at this; exact this
    · simp [is_binary_encoded, h0, hc]
    · simp [is_binary_encoded, h0]
  · rw [if_neg hc]
    have hnul : NUL ∉ B := fun h => hc (Or.inr (Or.inl h))
    have hhd : B.head? ≠ some BIN_TOKEN := fun h => hc (Or.inr (Or.inr h))
    obtain ⟨h0, hl, hs, hpay, -⟩ := text_value_facts B hnul hhd
    refine ⟨hl, ?_, ?_, ?_, fun _ => rfl⟩
    · have := hpay; rw [payload, hl] at this; exact this
    · simp [is_binary_encoded, h0, hc]
    · intro h; simp [is_binary_encoded, h0] at h

/-- The value round trip at the three-byte buffer `a NUL b`, which is promoted to
the binary encoding although the flag is clear. -/
theorem tcl_value_roundtrip_witness :
    ['a', NUL, 'b'].length ≤ 65535 ∧
    tcl_length (some (tcl_value ['a', NUL, 'b'] 0 3 false)) = 3 ∧
    slice (tcl_value ['a', NUL, 'b'] 0 3 false)
      (tcl_string (tcl_value ['a', NUL, 'b'] 0 3 false)) 3 = ['a', NUL, 'b'] ∧
    is_binary_encoded (tcl_value ['a', NUL, 'b'] 0 3 false) = true :=
  ⟨by decide, (tcl_value_roundtrip ['a', NUL, 'b'] false (by decide)).1,
    (tcl_value_roundtrip ['a', NUL, 'b'] false (by decide)).2.1, by decide⟩

/-- C10 as stated fails: appending the text value `x` to the empty binary value
yields a text value, although the first operand is binary-encoded. -/
theorem tcl_append_empty_blob_becomes_text :
    is_value (tcl_value [] 0 0 true) ∧ is_value (tcl_value ['x'] 0 1 false) ∧
    is_binary_encoded (tcl_value [] 0 0 true) = true ∧
    tcl_append (some (tcl_value [] 0 0 true)) (tcl_value ['x'] 0 1 false) = ['x', NUL] ∧
    is_binary_encoded (tcl_append (some (tcl_value [] 0 0 true)) (tcl_value ['x'] 0 1 false))
      = false :=
  ⟨Or.inr ⟨[], by decide, by decide⟩, Or.inl ⟨['x'], by decide, by decide, by decide⟩,
    by decide, by decide, by decide⟩

/-- C10, amended: for all well-formed values `a` and `b` whose payload lengths
sum to at most 65535, `tcl_append(a, b)` is a well-formed value whose payload is
the payload of `a` followed by the payload of `b`, whose length is the sum of
the two lengths, and which is binary-encoded whenever `a` or `b` is
binary-encoded with a non-empty payload. -/
theorem tcl_append_payload (a b : Mem) (ha : is_value a) (hb : is_value b)
    (hlen : tcl_length (some a) + tcl_length (some b) ≤ 65535) :
    is_value (tcl_append (some a) b) ∧
    payload (tcl_append (some a) b) = payload a ++ payload b ∧
    tcl_length (some (tcl_append (some a) b)) = tcl_length (some a) + tcl_length (some b) ∧
    ((is_binary_encoded a = true ∧ 0 < tcl_length (some a)) ∨
      (is_binary_encoded b = true ∧ 0 < tcl_length (some b)) →
        is_binary_encoded (tcl_append (some a) b) = true) := by
  obtain ⟨pa, hla, hpa, hba, -, hta⟩ := value_facts a ha
  obtain ⟨pb, hlb, hpb, hbb, hdb, htb⟩ := value_facts b hb
  rw [tcl_append_eq, hla, hlb, hpa, hpb, hba, hbb]
  rw [hla, hlb] at hlen
  have hlen2 : (pa ++ pb).length ≤ 65535 := by simpa using hlen
  have hble : [BIN_TOKEN, Char.ofNat ((pa.length + pb.length) % 256),
      Char.ofNat ((pa.length + pb.length) / 256 % 256)] ++ pa ++ pb ++ [NUL]
        = blob_encoding (pa ++ pb) := by simp [blob_encoding]
  have htxt : ([] : Mem) ++ pa ++ pb ++ [NUL] = text_encoding (pa ++ pb) := by
    simp [text_encoding]
  by_cases hc : ((is_binary_encoded b && decide (pb ≠ []))
      || (is_binary_encoded a && decide (pa ≠ []))
      || tcl_binary b (tcl_string b) pb.length) = true
  · rw [if_pos hc, hble]
    obtain ⟨h0, hl, -, hpay, -⟩ := blob_value_facts (pa ++ pb) hlen2
    refine ⟨Or.inr ⟨_, rfl, hlen2⟩, hpay, by simpa using hl, fun _ => ?_⟩
    simp [is_binary_encoded, h0]
  · rw [if_neg hc, htxt]
    simp only [Bool.or_eq_true, Bool.and_eq_true, decide_eq_true_eq, not_or, not_and] at hc
    obtain ⟨⟨hc1, hc2⟩, hc3⟩ := hc
    have hc3 : ¬ (NUL ∈ pb ∨ pb.head? = some BIN_TOKEN) := fun h => hc3 (hdb.mpr h)
    have hnb : NUL ∉ pb := fun h => hc3 (Or.inl h)
    have hhb : pb.head? ≠ some BIN_TOKEN := fun h => hc3 (Or.inr h)
    have hna : NUL ∉ pa ∧ pa.head? ≠ some BIN_TOKEN := by
      by_cases hbin : is_binary_encoded a = true
      · have : pa = [] := by
          by_contra hne
          exact hc2 hbin hne
        subst this; simp
      · exact hta (by simpa using hbin)
    have hn : NUL ∉ pa ++ pb := by
      simp only [List.mem_append, not_or]; exact ⟨hna.1, hnb⟩
    have hh : (pa ++ pb).head? ≠ some BIN_TOKEN := by
      cases pa with
      | nil => simpa using hhb
      | cons c t => simpa using hna.2
    obtain ⟨h0, hl, -, hpay, -⟩ := text_value_facts (pa ++ pb) hn hh
    refine ⟨Or.inl ⟨_, rfl, hn, hh⟩, hpay, by simpa using hl, ?_⟩
    rintro (⟨h1, h2⟩ | ⟨h1, h2⟩)
    · exact absurd (List.ne_nil_of_length_pos h2) (by simpa using hc2 h1)
    · exact absurd (List.ne_nil_of_length_pos h2) (by simpa using hc1 h1)

/-- The amended concatenation property at the text value `ab` and the binary
value holding the single byte NUL. -/
theorem tcl_append_payload_witness :
    is_value (text_encoding ['a', 'b']) ∧ is_value (blob_encoding [NUL]) ∧
    payload (tcl_append (some (text_encoding ['a', 'b'])) (blob_encoding [NUL]))
      = payload (text_encoding ['a', 'b']) ++ payload (blob_encoding [NUL]) ∧
    is_binary_encoded (tcl_append (some (text_encoding ['a', 'b'])) (blob_encoding [NUL])) = true :=
  ⟨Or.inl ⟨_, rfl, by decide, by decide⟩, Or.inr ⟨_, rfl, by decide⟩,
    (tcl_append_payload (text_encoding ['a', 'b']) (blob_encoding [NUL])
      (Or.inl ⟨_, rfl, by decide, by decide⟩) (Or.inr ⟨_, rfl, by decide⟩) (by decide)).2.1,
    (tcl_append_payload (text_encoding ['a', 'b']) (blob_encoding [NUL])
      (Or.inl ⟨_, rfl, by decide, by decide⟩) (Or.inr ⟨_, rfl, by decide⟩) (by decide)).2.2.2
      (Or.inr ⟨by decide, by decide⟩)⟩

/-! ## Type classification -/

theorem tcl_type_int_iff_scan (m : Mem) (h : rd m 0 ≠ BIN_TOKEN) :
    tcl_type (some m) = TclType.TCLTYPE_INT ↔ int_scan m = true := by
  unfold tcl_type int_scan int_scan_digits
  simp only [h, if_false]
  simp only [rd_eq_headD_drop]
  have e1 : m.drop (skipWhile tcl_is_space m 0) = m.dropWhile tcl_is_space := by
    rw [drop_skipWhile]; simp
  rw [e1]
  have e2 : m.drop (if (m.dropWhile tcl_is_space).headD NUL = '-' then skipWhile tcl_is_space m 0 + 1
      else skipWhile tcl_is_space m 0) =
      (if (m.dropWhile tcl_is_space).headD NUL = '-' then (m.dropWhile tcl_is_space).drop 1
        else m.dropWhile tcl_is_space) := by
    split
    · rw [← List.drop_drop, e1]
    · exact e1
  generalize hp2 : (if (m.dropWhile tcl_is_space).headD NUL = '-' then skipWhile tcl_is_space m 0 + 1
      else skipWhile tcl_is_space m 0) = p2 at e2 ⊢
  generalize (if (m.dropWhile tcl_is_space).headD NUL = '-' then (m.dropWhile tcl_is_space).drop 1
        else m.dropWhile tcl_is_space) = s2 at e2 ⊢
  have e21 : m.drop (p2 + 1) = s2.drop 1 := by rw [← e2, List.drop_drop, Nat.add_comm]
  have e22 : m.drop (p2 + 2) = s2.drop 2 := by rw [← e2, List.drop_drop, Nat.add_comm]
  rw [e2, e21]
  have e3 : m.drop (if s2.headD NUL = '0' ∧ ((s2.drop 1).headD NUL = 'x' ∨ (s2.drop 1).headD NUL = 'X')
      then skipWhile isxdigit m (p2 + 2) else skipWhile isdigit m p2) =
      (if s2.headD NUL = '0' ∧ ((s2.drop 1).headD NUL = 'x' ∨ (s2.drop 1).headD NUL = 'X')
      then (s2.drop 2).dropWhile isxdigit else s2.dropWhile isdigit) := by
    split
    · rw [drop_skipWhile, e22]
    · rw [drop_skipWhile, e2]
  generalize (if s2.headD NUL = '0' ∧ ((s2.drop 1).headD NUL = 'x' ∨ (s2.drop 1).headD NUL = 'X')
      then skipWhile isxdigit m (p2 + 2) else skipWhile isdigit m p2) = p3 at e3 ⊢
  generalize (if s2.headD NUL = '0' ∧ ((s2.drop 1).headD NUL = 'x' ∨ (s2.drop 1).headD NUL = 'X')
      then (s2.drop 2).dropWhile isxdigit else s2.dropWhile isdigit) = s3 at e3 ⊢
  rw [drop_skipWhile, e3]
  by_cases hz : (s3.dropWhile tcl_is_space).headD NUL = NUL
  · simp [hz]
  · simp [hz]

/-- The head of `sp2 ++ tl` is a space, a tab or NUL. -/
theorem head_spaces_tail (sp2 tl : Mem) (h2 : ∀ c ∈ sp2, tcl_is_space c = true)
    (htl : tl.headD NUL = NUL) :
    tcl_is_space ((sp2 ++ tl).headD NUL) = true ∨ (sp2 ++ tl).headD NUL = NUL := by
  cases sp2 with
  | nil => right; simpa using htl
  | cons c t => left; simpa using h2 c (by simp)

theorem not_digit_of_space_or_nul (c : Char) (h : tcl_is_space c = true ∨ c = NUL) :
    isdigit c = false ∧ isxdigit c = false ∧ c ≠ '-' ∧ c ≠ '0' ∧ c ≠ 'x' ∧ c ≠ 'X' := by
  rcases h with h | h
  · have : c = ' ' ∨ c = '\t' := by simpa [tcl_is_space] using h
    rcases this with rfl | rfl <;> decide
  · subst h; decide

theorem digit_facts (c : Char) (h : isdigit c = true) :
    tcl_is_space c = false ∧ c ≠ '-' ∧ c ≠ 'x' ∧ c ≠ 'X' ∧ c ≠ NUL := by
  refine ⟨?_, ?_, ?_, ?_, ?_⟩
  · by_contra hs
    have : c = ' ' ∨ c = '\t' := by
      have hs2 : tcl_is_space c = true := by simpa using hs
      simpa [tcl_is_space] using hs2
    rcases this with rfl | rfl <;> revert h <;> decide
  all_goals (intro e; subst e; revert h; decide)

theorem int_scan_digits_accepts (body sp2 tl : Mem)
    (hb : (∀ c ∈ body, isdigit c = true) ∨
      ∃ x hs, body = '0' :: x :: hs ∧ (x = 'x' ∨ x = 'X') ∧ ∀ c ∈ hs, isxdigit c = true)
    (h2 : ∀ c ∈ sp2, tcl_is_space c = true) (htl : tl.headD NUL = NUL) :
    int_scan_digits (body ++ (sp2 ++ tl)) = true := by
  have hR := head_spaces_tail sp2 tl h2 htl
  obtain ⟨hRd, hRx, -, hR0, hRsx, hRX⟩ := not_digit_of_space_or_nul _ hR
  have hs4 : (sp2 ++ tl).dropWhile tcl_is_space = tl := by
    rw [dropWhile_append_all _ _ _ h2]
    exact dropWhile_stop _ _ (by rw [htl]; decide)
  generalize hRdef : sp2 ++ tl = R at hRd hRx hR0 hRsx hRX hs4
  unfold int_scan_digits
  rcases hb with hdec | ⟨x, hs, rfl, hx, hhs⟩
  · have htest : ¬ ((body ++ R).headD NUL = '0' ∧
        (((body ++ R).drop 1).headD NUL = 'x' ∨ ((body ++ R).drop 1).headD NUL = 'X')) := by
      rintro ⟨h0, h1⟩
      cases body with
      | nil => exact hR0 (by simpa using h0)
      | cons c t =>
        cases t with
        | nil =>
          simp only [List.cons_append, List.nil_append, List.drop_succ_cons, List.drop_zero] at h1
          rcases h1 with h1 | h1
          · exact hRsx h1
          · exact hRX h1
        | cons d u =>
          have hd := digit_facts d (hdec d (by simp))
          simp only [List.cons_append, List.drop_succ_cons, List.drop_zero, List.headD_cons] at h1
          rcases h1 with h1 | h1
          · exact hd.2.2.1 h1
          · exact hd.2.2.2.1 h1
    rw [if_neg htest]
    rw [dropWhile_append_all _ _ _ hdec, dropWhile_stop _ _ hRd]
    simp only [hs4, htl]
    rfl
  · have htest : (('0' :: x :: hs ++ R).headD NUL = '0' ∧
        ((('0' :: x :: hs ++ R).drop 1).headD NUL = 'x' ∨
          (('0' :: x :: hs ++ R).drop 1).headD NUL = 'X')) := by
      simpa using hx
    rw [if_pos htest]
    have : ('0' :: x :: hs ++ R).drop 2 = hs ++ R := by simp
    rw [this, dropWhile_append_all _ _ _ hhs, dropWhile_stop _ _ hRx]
    simp only [hs4, htl]
    rfl

theorem int_scan_accepts (sp1 sign body sp2 tl : Mem)
    (h1 : ∀ c ∈ sp1, tcl_is_space c = true) (hsign : sign = [] ∨ sign = ['-'])
    (hb : (∀ c ∈ body, isdigit c = true) ∨
      ∃ x hs, body = '0' :: x :: hs ∧ (x = 'x' ∨ x = 'X') ∧ ∀ c ∈ hs, isxdigit c = true)
    (h2 : ∀ c ∈ sp2, tcl_is_space c = true) (htl : tl.headD NUL = NUL) :
    int_scan (sp1 ++ sign ++ body ++ sp2 ++ tl) = true := by
  have hacc := int_scan_digits_accepts body sp2 tl hb h2 htl
  have hre : sp1 ++ sign ++ body ++ sp2 ++ tl = sp1 ++ (sign ++ (body ++ (sp2 ++ tl))) := by
    simp [List.append_assoc]
  rw [hre]
  unfold int_scan
  simp only []
  rw [dropWhile_append_all _ _ _ h1]
  rcases hsign with rfl | rfl
  · -- no sign
    simp only [List.nil_append]
    cases hbody : body with
    | nil =>
      subst hbody
      simp only [List.nil_append] at hacc ⊢
      have hs4 : (sp2 ++ tl).dropWhile tcl_is_space = tl := by
        rw [dropWhile_append_all _ _ _ h2]
        exact dropWhile_stop _ _ (by rw [htl]; decide)
      rw [hs4]
      have hne : ¬ tl.headD NUL = '-' := by rw [htl]; decide
      simp only [hne, if_false]
      have := int_scan_digits_accepts [] [] tl (Or.inl (by simp)) (by simp) htl
      simpa using this
    | cons c t =>
      have hc : tcl_is_space c = false ∧ c ≠ '-' := by
        rcases hb with hdec | ⟨x, hs, hbe, -, -⟩
        · have := digit_facts c (hdec c (by simp [hbody]))
          exact ⟨this.1, this.2.1⟩
        · rw [hbody] at hbe
          have : c = '0' := by injection hbe
          subst this; exact ⟨by decide, by decide⟩
      rw [← hbody, dropWhile_stop]
      · have : ¬ (body ++ (sp2 ++ tl)).headD NUL = '-' := by
          rw [hbody]; simpa using hc.2
        simp only [this, if_false]; exact hacc
      · rw [hbody]; simpa using hc.1
  · -- a minus sign
    have : (['-'] ++ (body ++ (sp2 ++ tl))).dropWhile tcl_is_space = '-' :: (body ++ (sp2 ++ tl)) := by
      rw [dropWhile_stop]
      · rfl
      · simp only [List.singleton_append, List.headD_cons]; decide
    rw [this]
    simpa using hacc

theorem int_scan_digits_parts (s2 : Mem) (h : int_scan_digits s2 = true) :
    ∃ body sp2 s4 : Mem, s2 = body ++ sp2 ++ s4 ∧
      ((∀ c ∈ body, isdigit c = true) ∨
        ∃ x hs, body = '0' :: x :: hs ∧ (x = 'x' ∨ x = 'X') ∧ ∀ c ∈ hs, isxdigit c = true) ∧
      (∀ c ∈ sp2, tcl_is_space c = true) ∧ s4.headD NUL = NUL := by
  unfold int_scan_digits at h
  by_cases htest : s2.headD NUL = '0' ∧ ((s2.drop 1).headD NUL = 'x' ∨ (s2.drop 1).headD NUL = 'X')
  · rw [if_pos htest] at h
    have e0 := headD_eq_cons s2 '0' htest.1 (by decide)
    have hx : ∃ x, (x = 'x' ∨ x = 'X') ∧ s2.drop 1 = x :: s2.drop 2 := by
      rcases htest.2 with hx | hx
      · refine ⟨'x', Or.inl rfl, ?_⟩
        have := headD_eq_cons (s2.drop 1) 'x' hx (by decide)
        simpa using this
      · refine ⟨'X', Or.inr rfl, ?_⟩
        have := headD_eq_cons (s2.drop 1) 'X' hx (by decide)
        simpa using this
    obtain ⟨x, hxx, e1⟩ := hx
    refine ⟨'0' :: x :: (s2.drop 2).takeWhile isxdigit,
      ((s2.drop 2).dropWhile isxdigit).takeWhile tcl_is_space,
      ((s2.drop 2).dropWhile isxdigit).dropWhile tcl_is_space, ?_, ?_, ?_, ?_⟩
    · rw [List.append_assoc, List.takeWhile_append_dropWhile]
      simp only [List.cons_append, List.takeWhile_append_dropWhile]
      rw [← e1]; exact e0
    · exact Or.inr ⟨x, _, rfl, hxx, takeWhile_all _ _⟩
    · exact takeWhile_all _ _
    · simpa using h
  · rw [if_neg htest] at h
    refine ⟨s2.takeWhile isdigit, (s2.dropWhile isdigit).takeWhile tcl_is_space,
      (s2.dropWhile isdigit).dropWhile tcl_is_space, ?_, ?_, ?_, ?_⟩
    · rw [List.append_assoc, List.takeWhile_append_dropWhile, List.takeWhile_append_dropWhile]
    · exact Or.inl (takeWhile_all _ _)
    · exact takeWhile_all _ _
    · simpa using h

theorem int_scan_parts (m : Mem) (h : int_scan m = true) :
    ∃ sp1 sign body sp2 s4 : Mem, m = sp1 ++ sign ++ body ++ sp2 ++ s4 ∧
      (∀ c ∈ sp1, tcl_is_space c = true) ∧ (sign = [] ∨ sign = ['-']) ∧
      ((∀ c ∈ body, isdigit c = true) ∨
        ∃ x hs, body = '0' :: x :: hs ∧ (x = 'x' ∨ x = 'X') ∧ ∀ c ∈ hs, isxdigit c = true) ∧
      (∀ c ∈ sp2, tcl_is_space c = true) ∧ s4.headD NUL = NUL := by
  unfold int_scan at h
  simp only [] at h
  by_cases hm : (m.dropWhile tcl_is_space).headD NUL = '-'
  · rw [if_pos hm] at h
    obtain ⟨body, sp2, s4, e, hb, h2, h4⟩ := int_scan_digits_parts _ h
    refine ⟨m.takeWhile tcl_is_space, ['-'], body, sp2, s4, ?_, takeWhile_all _ _, Or.inr rfl,
      hb, h2, h4⟩
    have e0 := headD_eq_cons _ '-' hm (by decide)
    rw [e] at e0
    calc m = m.takeWhile tcl_is_space ++ m.dropWhile tcl_is_space :=
          (List.takeWhile_append_dropWhile _ _).symm
      _ = m.takeWhile tcl_is_space ++ ('-' :: (body ++ sp2 ++ s4)) := by rw [← e0]
      _ = _ := by simp [List.append_assoc]
  · rw [if_neg hm] at h
    obtain ⟨body, sp2, s4, e, hb, h2, h4⟩ := int_scan_digits_parts _ h
    refine ⟨m.takeWhile tcl_is_space, [], body, sp2, s4, ?_, takeWhile_all _ _, Or.inl rfl,
      hb, h2, h4⟩
    calc m = m.takeWhile tcl_is_space ++ m.dropWhile tcl_is_space :=
          (List.takeWhile_append_dropWhile _ _).symm
      _ = m.takeWhile tcl_is_space ++ (body ++ sp2 ++ s4) := by rw [← e]
      _ = _ := by simp [List.append_assoc]


theorem space_ne_nul (c : Char) (h : tcl_is_space c = true) : c ≠ NUL := by
  intro e; subst e; revert h; decide

theorem xdigit_ne_nul (c : Char) (h : isxdigit c = true) : c ≠ NUL := by
  intro e; subst e; revert h; decide

/-- The scan accepts a block exactly when its C string has the integer format. -/
theorem int_scan_iff (m : Mem) : int_scan m = true ↔ is_int_text (cstr m 0) := by
  constructor
  · intro h
    obtain ⟨sp1, sign, body, sp2, s4, e, h1, hsign, hb, h2, h4⟩ := int_scan_parts m h
    have hnul : NUL ∉ sp1 ++ sign ++ body ++ sp2 := by
      simp only [List.mem_append, not_or]
      refine ⟨⟨⟨fun hm => space_ne_nul _ (h1 _ hm) rfl, ?_⟩, ?_⟩,
        fun hm => space_ne_nul _ (h2 _ hm) rfl⟩
      · rcases hsign with rfl | rfl <;> decide
      · rcases hb with hdec | ⟨x, hs, rfl, hx, hhs⟩
        · exact fun hm => (digit_facts _ (hdec _ hm)).2.2.2.2 rfl
        · intro hm
          simp only [List.mem_cons] at hm
          rcases hm with hm | hm | hm
          · revert hm; decide
          · rcases hx with rfl | rfl <;> revert hm <;> decide
          · exact xdigit_ne_nul _ (hhs _ hm) rfl
    have hc : cstr m 0 = sp1 ++ sign ++ body ++ sp2 := by
      rw [e]; exact cstr_of_parts _ _ hnul h4
    rw [hc]
    exact ⟨sp1, sign, body, sp2, rfl, h1, hsign, hb, h2⟩
  · rintro ⟨sp1, sign, body, sp2, e, h1, hsign, hb, h2⟩
    obtain ⟨tl, hm, htl, -⟩ := cstr_split m
    rw [hm, e]
    exact int_scan_accepts sp1 sign body sp2 tl h1 hsign hb h2 htl

/-- C8 as stated fails: the zero-length text value is classified INT, not EMPTY. -/
theorem tcl_type_zero_length_is_int :
    tcl_length (some (tcl_value [] 0 0 false)) = 0 ∧
    tcl_type (some (tcl_value [] 0 0 false)) = TclType.TCLTYPE_INT ∧
    tcl_type (some (tcl_value [] 0 0 false)) ≠ TclType.TCLTYPE_EMPTY := by
  decide

/-- C8, amended: `tcl_type` returns EMPTY exactly for the null value, BLOB
exactly for a block that starts with the sentinel, INT exactly when the block
does not start with the sentinel and its text is optional spaces and tabs, an
optional single `-`, then a possibly empty run of decimal digits or `0x`/`0X`
followed by a possibly empty run of hexadecimal digits, then optional spaces
and tabs and nothing else (so the zero-length text is INT), and STRING in every
other case. -/
theorem tcl_type_classifies :
    tcl_type none = TclType.TCLTYPE_EMPTY ∧
    ∀ m : Mem,
      tcl_type (some m) ≠ TclType.TCLTYPE_EMPTY ∧
      (tcl_type (some m) = TclType.TCLTYPE_BLOB ↔ rd m 0 = BIN_TOKEN) ∧
      (tcl_type (some m) = TclType.TCLTYPE_INT ↔
        (rd m 0 ≠ BIN_TOKEN ∧ is_int_text (cstr m 0))) ∧
      (tcl_type (some m) = TclType.TCLTYPE_STRING ↔
        (rd m 0 ≠ BIN_TOKEN ∧ ¬ is_int_text (cstr m 0))) := by
  refine ⟨rfl, fun m => ?_⟩
  by_cases hb : rd m 0 = BIN_TOKEN
  · have ht : tcl_type (some m) = TclType.TCLTYPE_BLOB := by simp [tcl_type, hb]
    rw [ht]
    simp [hb]
  · have hi := (tcl_type_int_iff_scan m hb).trans (int_scan_iff m)
    have hcases : tcl_type (some m) = TclType.TCLTYPE_INT ∨
        tcl_type (some m) = TclType.TCLTYPE_STRING := by
      unfold tcl_type
      simp only [hb, if_false]
      exact ite_eq_or_eq _ _ _
    by_cases ht : is_int_text (cstr m 0)
    · have h1 := hi.mpr ht
      rw [h1]
      simp [hb, ht]
    · have h1 : tcl_type (some m) = TclType.TCLTYPE_STRING := by
        rcases hcases with h | h
        · exact absurd (hi.mp h) ht
        · exact h
      rw [h1]
      simp [hb, ht]

/-! ## The lexer on the text of a list -/

theorem rd_drop (m : Mem) (s k : Nat) : rd (m.drop s) k = rd m (s + k) := by
  unfold rd
  simp [List.getD_eq_getElem?_getD, List.getElem?_drop]

theorem rd_of_drop_eq (m : Mem) (s : Nat) (c : Char) (r : Mem) (h : m.drop s = c :: r) :
    rd m s = c ∧ m.drop (s + 1) = r := by
  constructor
  · rw [rd_eq_headD_drop, h]; rfl
  · have : m.drop (s + 1) = (m.drop s).drop 1 := by rw [List.drop_drop, Nat.add_comm]
    rw [this, h]; rfl

theorem run_length_prefix (m : Mem) (pred : Char → Bool) (sp rest : Mem)
    (hsp : ∀ c ∈ sp, pred c = true) (hrest : pred (rest.headD NUL) = false) :
    ∀ (s len : Nat), m.drop s = sp ++ rest → sp.length < len →
      run_length m pred len s = sp.length := by
  induction sp with
  | nil =>
    intro s len h hlen
    cases len with
    | zero => rfl
    | succ l =>
      have : rd m s = rest.headD NUL := by rw [rd_eq_headD_drop, h]; rfl
      simp only [run_length, this, hrest, Bool.false_eq_true, if_false, List.length_nil]
  | cons c t ih =>
    intro s len h hlen
    cases len with
    | zero => simp at hlen
    | succ l =>
      obtain ⟨h0, h1⟩ := rd_of_drop_eq m s c (t ++ rest) (by simpa using h)
      have hc : pred c = true := hsp c (by simp)
      simp only [run_length, h0, hc, if_true, List.length_cons]
      rw [ih (fun d hd => hsp d (by simp [hd])) (s + 1) l h1 (by simpa using hlen)]

/-- A byte of a bare word: neither a space or tab nor a special byte. -/
theorem bare_loop_run (m : Mem) (string : Nat) (w rest : Mem)
    (hw : ∀ c ∈ w, (tcl_is_space c || tcl_is_special c false) = false)
    (hrest : (tcl_is_space (rest.headD NUL) || tcl_is_special (rest.headD NUL) false) = true) :
    ∀ (i rem : Nat), m.drop (string + i) = w ++ rest → w.length < rem →
      bare_loop m string false false rem i = i + w.length := by
  induction w with
  | nil =>
    intro i rem h hlen
    cases rem with
    | zero => rfl
    | succ l =>
      have : rd m (string + i) = rest.headD NUL := by rw [rd_eq_headD_drop, h]; rfl
      have h2 := hrest
      simp only [Bool.or_eq_true] at h2
      rcases h2 with h2 | h2 <;>
        simp only [bare_loop, this, h2, Bool.false_or, Bool.not_true, Bool.false_and,
          Bool.and_false, Bool.false_eq_true, if_false, List.length_nil, Nat.add_zero]
  | cons c t ih =>
    intro i rem h hlen
    cases rem with
    | zero => simp at hlen
    | succ l =>
      obtain ⟨h0, h1⟩ := rd_of_drop_eq m (string + i) c (t ++ rest) (by simpa using h)
      have hc := hw c (by simp)
      simp only [Bool.or_eq_false_iff] at hc
      simp only [bare_loop, h0, hc.1, hc.2, Bool.false_or, Bool.not_false, Bool.false_and,
        Bool.and_self, if_true, List.length_cons]
      rw [ih (fun d hd => hw d (by simp [hd])) (i + 1) l h1 (by simpa using hlen)]
      omega

theorem brace_loop_run (m : Mem) (string length : Nat) (w rest : Mem)
    (hw : ∀ c ∈ w, list_safe_byte c = true) :
    ∀ (i fuel : Nat), m.drop (string + i) = w ++ '}' :: rest → i + w.length < length →
      w.length < fuel →
      brace_loop m string length '{' '}' fuel i 1 = (i + w.length + 1, 0) := by
  induction w with
  | nil =>
    intro i fuel h hlen hfuel
    cases fuel with
    | zero => simp at hfuel
    | succ f =>
      obtain ⟨h0, -⟩ := rd_of_drop_eq m (string + i) '}' rest (by simpa using h)
      have hi : i < length := by simpa using hlen
      rw [brace_loop]
      simp only [hi, h0, ne_eq, one_ne_zero, not_false_eq_true, and_self, if_true]
      have e1 : ¬ ('}' = '\\' ∧ i + 1 < length ∧
          (rd m (string + (i + 1)) = '{' ∨ rd m (string + (i + 1)) = '}')) := by
        intro h; exact absurd h.1 (by decide)
      rw [if_neg e1, if_neg (by decide)]
      cases f with
      | zero => rfl
      | succ g => simp [brace_loop]
  | cons c t ih =>
    intro i fuel h hlen hfuel
    cases fuel with
    | zero => simp at hfuel
    | succ f =>
      obtain ⟨h0, h1⟩ := rd_of_drop_eq m (string + i) c (t ++ '}' :: rest) (by simpa using h)
      have hc := hw c (by simp)
      simp only [list_safe_byte, Bool.and_eq_true, bne_iff_ne, ne_eq] at hc
      obtain ⟨⟨⟨⟨-, hc1⟩, hc2⟩, hc3⟩, hc4⟩ := hc
      have hi : i < length := by simp at hlen; omega
      rw [brace_loop]
      simp only [hi, h0, ne_eq, one_ne_zero, not_false_eq_true, and_self, if_true]
      rw [if_neg (fun h => hc3 h.1), if_neg hc1, if_neg hc2, if_neg (fun h => hc4 h.1)]
      rw [ih (fun d hd => hw d (by simp [hd])) (i + 1) f h1 (by simp at hlen ⊢; omega)
        (by simpa using hfuel)]
      simp only [List.length_cons]
      congr 1
      omega

theorem flags_cases (flags : Nat) (h : flags = 4 ∨ flags = 0) :
    (flags &&& LEX_QUOTE) = 0 ∧ (flags ||| LEX_NO_CMT) = 4 ∧ (flags &&& LEX_VAR) = 0 := by
  rcases h with rfl | rfl <;> decide

/-- The first byte of the text of a list item is not a space, and the bytes of
the item are followed by the rest. -/
theorem list_item_text_head (w : Mem) :
    ∃ c r, list_item_text w = c :: r ∧ tcl_is_space c = false ∧
      (needs_brace w = true → c = '{') ∧ (needs_brace w = false → w = c :: r) := by
  unfold list_item_text
  by_cases hb : needs_brace w = true
  · rw [if_pos hb]
    exact ⟨'{', w ++ ['}'], rfl, by decide, fun _ => rfl, fun h => by simp [hb] at h⟩
  · have hb2 : needs_brace w = false := by simpa using hb
    rw [if_neg hb]
    cases w with
    | nil => simp [needs_brace] at hb2
    | cons c r =>
      refine ⟨c, r, rfl, ?_, fun h => by simp [hb2] at h, fun _ => rfl⟩
      simp only [needs_brace, List.isEmpty_cons, Bool.false_or, List.any_cons,
        Bool.or_eq_false_iff] at hb2
      exact hb2.1.1

theorem tcl_next_skip_word (m : Mem) (s length flags : Nat) (sp item tl : Mem)
    (hm : m.drop s = sp ++ item ++ tl)
    (hsp : ∀ c ∈ sp, tcl_is_space c = true)
    (hitem : tcl_is_space ((item ++ tl).headD NUL) = false)
    (hlen : sp.length < length)
    (hflags : (flags &&& LEX_QUOTE) = 0 ∧
      ((flags &&& LEX_NO_CMT) ≠ 0 ∨ (item ++ tl).headD NUL ≠ '#')) :
    tcl_next_skip m s length flags = (s + sp.length, length - sp.length) := by
  have hk : run_length m tcl_is_space length s = sp.length :=
    run_length_prefix m tcl_is_space sp (item ++ tl) hsp hitem s length
      (by rw [hm, List.append_assoc]) hlen
  have hrd : rd m (s + sp.length) = (item ++ tl).headD NUL := by
    rw [rd_eq_headD_drop, ← List.drop_drop, hm, List.append_assoc, List.drop_left]
  unfold tcl_next_skip
  simp only [hflags.1, bne_self_eq_false, Bool.false_eq_true, if_false, hk, hrd]
  rw [if_neg]
  rintro ⟨h1, h2⟩
  rcases hflags.2 with h | h
  · exact h h2
  · exact h h1

theorem rd_drop_append (m : Mem) (s : Nat) (a b : Mem) (h : m.drop s = a ++ b) :
    rd m (s + a.length) = b.headD NUL := by
  rw [rd_eq_headD_drop, ← List.drop_drop, h, List.drop_left]

theorem special_facts (c : Char) (h : tcl_is_special c false = false) :
    c ≠ '$' ∧ c ≠ '[' ∧ c ≠ ']' ∧ c ≠ '"' ∧ c ≠ '{' ∧ c ≠ '}' ∧ tcl_is_end c = false := by
  refine ⟨?_, ?_, ?_, ?_, ?_, ?_, ?_⟩
  any_goals (intro e; subst e; revert h; decide)
  by_contra he
  have he2 : tcl_is_end c = true := by simpa using he
  have : c = '\n' ∨ c = '\r' ∨ c = ';' ∨ c = NUL := by
    simpa [tcl_is_end, or_assoc] using he2
  rcases this with rfl | rfl | rfl | rfl <;> revert h <;> decide

theorem tail_head_facts (c : Char) (h : tcl_is_space c = true ∨ c = NUL) :
    (tcl_is_space c || tcl_is_special c false) = true ∧
    (tcl_is_space c || tcl_is_end c) = true := by
  rcases h with h | h
  · simp [h]
  · subst h; decide

theorem tcl_next_token_word (m : Mem) (inner : LexOut) (string length : Nat) (w tl : Mem)
    (hm : m.drop string = list_item_text w ++ tl)
    (htl : tcl_is_space (tl.headD NUL) = true ∨ tl.headD NUL = NUL)
    (hw : ∀ c ∈ w, list_safe_byte c = true)
    (hlen : (list_item_text w).length < length) :
    tcl_next_token m inner string length false 4 =
      ⟨Token.TWORD, string, some (string + (list_item_text w).length), 4⟩ := by
  obtain ⟨ht1, ht2⟩ := tail_head_facts _ htl
  have hend : rd m (string + (list_item_text w).length) = tl.headD NUL :=
    rd_drop_append m string _ _ hm
  by_cases hb : needs_brace w = true
  · -- a braced item
    have hitem : list_item_text w = '{' :: (w ++ ['}']) := by simp [list_item_text, hb]
    rw [hitem] at hm hlen hend ⊢
    obtain ⟨h0, h1⟩ := rd_of_drop_eq m string '{' (w ++ '}' :: tl) (by simpa using hm)
    have hloop := brace_loop_run m string length w tl hw 1 length h1
      (by simp at hlen; omega) (by simp at hlen; omega)
    unfold tcl_next_token
    have hne : tcl_is_end '{' = false := by decide
    rw [if_neg (by rw [h0, hne]; simp), if_neg (by rw [h0]; decide),
      if_pos (Or.inr ⟨rfl, h0⟩)]
    simp only [h0]
    rw [if_neg (by decide), hloop]
    have hlen2 : (1 + w.length + 1) = ('{' :: (w ++ ['}'])).length := by simp; omega
    simp only [hlen2]
    unfold tcl_next_finish
    rw [if_neg (by simp at hlen ⊢; omega), if_neg (by simp), hend, ht2]
    simp
  · -- a bare item
    have hb2 : needs_brace w = false := by simpa using hb
    have hitem : list_item_text w = w := by simp [list_item_text, hb2]
    rw [hitem] at hm hlen hend ⊢
    have hall : ∀ c ∈ w, (tcl_is_space c || tcl_is_special c false) = false := by
      intro c hc
      simp only [needs_brace, Bool.or_eq_false_iff, List.any_eq_false] at hb2
      simpa using hb2.2 c hc
    cases hwc : w with
    | nil => simp [needs_brace, hwc] at hb2
    | cons c r =>
      have hc := hall c (by simp [hwc])
      simp only [Bool.or_eq_false_iff] at hc
      obtain ⟨n1, n2, n3, n4, n5, n6, n7⟩ := special_facts c hc.2
      have hsafe := hw c (by simp [hwc])
      simp only [list_safe_byte, Bool.and_eq_true, bne_iff_ne, ne_eq] at hsafe
      obtain ⟨h0, -⟩ := rd_of_drop_eq m string c (r ++ tl) (by simpa [hwc] using hm)
      have hloop := bare_loop_run m string w tl hall ht1 0 length (by simpa using hm) hlen
      unfold tcl_next_token
      rw [if_neg (by rw [h0, n7]; simp), if_neg (by rw [h0]; exact n1),
        if_neg (by rw [h0]; rintro (h | ⟨-, h⟩); exact n2 h; exact n5 h),
        if_neg (by rw [h0]; exact n4),
        if_neg (by rw [h0]; rintro (h | h); exact n3 h; exact n6 h),
        if_neg (by rw [h0]; exact hsafe.2)]
      have hv : ((4 &&& LEX_VAR) != 0) = false := by decide
      simp only [hv, hloop, Nat.zero_add]
      unfold tcl_next_finish
      rw [← hwc, if_neg (by omega), if_neg (by simp), hend, ht2]
      simp

theorem tcl_next_go_word (m : Mem) (s length flags : Nat) (sp w tl : Mem)
    (hm : m.drop s = sp ++ list_item_text w ++ tl)
    (hsp : ∀ c ∈ sp, tcl_is_space c = true)
    (htl : tcl_is_space (tl.headD NUL) = true ∨ tl.headD NUL = NUL)
    (hw : ∀ c ∈ w, list_safe_byte c = true)
    (hlen : sp.length + (list_item_text w).length < length)
    (hflags : flags = 4 ∨ (flags = 0 ∧ w.head? ≠ some '#')) :
    tcl_next_go m 1 s length flags =
      ⟨Token.TWORD, s + sp.length, some (s + sp.length + (list_item_text w).length), 4⟩ := by
  obtain ⟨hq, hnc, hv⟩ := flags_cases flags
    (by rcases hflags with h | h; exact Or.inl h; exact Or.inr h.1)
  obtain ⟨c, r, hcr, hcs, hcb, hcw⟩ := list_item_text_head w
  have hhead : (list_item_text w ++ tl).headD NUL = c := by rw [hcr]; rfl
  have hskip := tcl_next_skip_word m s length flags sp (list_item_text w) tl hm hsp
    (by rw [hhead]; exact hcs) (by omega)
    ⟨hq, by
      rcases hflags with h | ⟨h, hh⟩
      · left; subst h; decide
      · right
        rw [hhead]
        intro hc
        by_cases hb : needs_brace w = true
        · have := hcb hb; rw [this] at hc; revert hc; decide
        · have := hcw (by simpa using hb)
          rw [this, hc] at hh
          exact hh rfl⟩
  rw [tcl_next_go, hskip, hq, hnc]
  have hm2 : m.drop (s + sp.length) = list_item_text w ++ tl := by
    rw [← List.drop_drop, hm, List.append_assoc, List.drop_left]
  exact tcl_next_token_word m _ (s + sp.length) (length - sp.length) w tl hm2 htl hw (by omega)

/-! ## Building a list and reading it back -/

/-- The source's `tcl_binary` reads the block only from the offset on. -/
theorem tcl_binary_drop (m : Mem) (s len : Nat) :
    tcl_binary m s len = tcl_binary (m.drop s) 0 len := by
  unfold tcl_binary
  simp only [rd_drop, Nat.add_zero, Nat.zero_add]

theorem safe_bytes_facts (w : Mem) (hw : ∀ c ∈ w, list_safe_byte c = true) :
    NUL ∉ w ∧ BIN_TOKEN ∉ w ∧ w.head? ≠ some BIN_TOKEN := by
  have h1 : NUL ∉ w := fun h => by have := hw _ h; revert this; decide
  have h2 : BIN_TOKEN ∉ w := fun h => by have := hw _ h; revert this; decide
  refine ⟨h1, h2, fun h => h2 ?_⟩
  cases w with
  | nil => simp at h
  | cons c t => simp at h; simp [h]

/-- The value made of the bytes `B` found at offset `s` of a block. -/
theorem tcl_value_at (m : Mem) (s : Nat) (B post : Mem) (f : Bool) (h : m.drop s = B ++ post) :
    tcl_value m s B.length f =
      if f = true ∨ NUL ∈ B ∨ B.head? = some BIN_TOKEN then blob_encoding B
      else text_encoding B := by
  have hb : tcl_binary m s B.length = true ↔ (NUL ∈ B ∨ B.head? = some BIN_TOKEN) := by
    rw [tcl_binary_drop, h]; exact tcl_binary_front B post
  have hs : slice m s B.length = B := by simp [slice, h]
  unfold tcl_value tcl_append_string blob_encoding text_encoding
  simp only [tcl_length, zero_add, Option.getD_none, hs]
  have h0 : tcl_binary [] 0 0 = false := rfl
  simp only [h0, Bool.or_false]
  by_cases hf : f = true
  · simp [hf]
  · have hf2 : f = false := by simpa using hf
    subst hf2
    by_cases hbin : tcl_binary m s B.length = true
    · have := hb.mp hbin
      simp [hbin, this]
    · have hn : ¬ (NUL ∈ B ∨ B.head? = some BIN_TOKEN) := fun h => hbin (hb.mpr h)
      have hbin2 : tcl_binary m s B.length = false := by simpa using hbin
      simp [hbin2, hn]

/-- The word `tcl_list_at` extracts from an item of safe bytes. -/
theorem tcl_value_at_safe (m : Mem) (s : Nat) (w post : Mem) (h : m.drop s = w ++ post)
    (hw : ∀ c ∈ w, list_safe_byte c = true) :
    tcl_value m s w.length (tcl_binary m s w.length) = text_encoding w := by
  obtain ⟨h1, -, h3⟩ := safe_bytes_facts w hw
  have hb : tcl_binary m s w.length = false := by
    have : ¬ tcl_binary m s w.length = true := by
      rw [tcl_binary_drop, h, tcl_binary_front]
      rintro (h | h)
      · exact h1 h
      · exact h3 h
    simpa using this
  rw [tcl_value_at m s w post _ h, hb]
  simp [h1, h3]

theorem tcl_list_size_loop_text (m : Mem) (T rest : Mem)
    (hT : ∀ c ∈ T, c ≠ NUL ∧ c ≠ BIN_TOKEN) :
    ∀ (p fuel : Nat), m.drop p = T ++ NUL :: rest → T.length ≤ fuel →
      tcl_list_size_loop m fuel p = p + T.length := by
  induction T with
  | nil =>
    intro p fuel h _
    obtain ⟨h0, -⟩ := rd_of_drop_eq m p NUL rest (by simpa using h)
    cases fuel with
    | zero => rfl
    | succ f => simp [tcl_list_size_loop, h0]
  | cons c t ih =>
    intro p fuel h hf
    obtain ⟨h0, h1⟩ := rd_of_drop_eq m p c (t ++ NUL :: rest) (by simpa using h)
    obtain ⟨hc1, hc2⟩ := hT c (by simp)
    cases fuel with
    | zero => simp at hf
    | succ f =>
      simp only [tcl_list_size_loop, h0, hc1, hc2, if_false, List.length_cons]
      rw [ih (fun d hd => hT d (by simp [hd])) (p + 1) f h1 (by simpa using hf)]
      omega

theorem tcl_list_size_text (T : Mem) (hT : ∀ c ∈ T, c ≠ NUL ∧ c ≠ BIN_TOKEN) :
    tcl_list_size (some (T ++ [NUL])) = T.length := by
  unfold tcl_list_size
  have := tcl_list_size_loop_text (T ++ [NUL]) T [] hT 0 (T ++ [NUL]).length (by simp) (by simp)
  simpa using this

theorem list_item_text_ne_nil (w : Mem) : list_item_text w ≠ [] := by
  obtain ⟨c, r, h, -⟩ := list_item_text_head w
  rw [h]; simp

theorem list_item_text_length_pos (w : Mem) : 0 < (list_item_text w).length :=
  List.length_pos.mpr (list_item_text_ne_nil w)

theorem list_item_text_bytes (w : Mem) (hw : ∀ c ∈ w, list_safe_byte c = true) :
    ∀ c ∈ list_item_text w, c ≠ NUL ∧ c ≠ BIN_TOKEN := by
  intro c hc
  have hsafe : ∀ d ∈ w, d ≠ NUL ∧ d ≠ BIN_TOKEN := by
    intro d hd
    have := hw d hd
    simp only [list_safe_byte, Bool.and_eq_true, bne_iff_ne, ne_eq] at this
    exact ⟨this.1.1.1.1, this.2⟩
  unfold list_item_text at hc
  split at hc
  · simp only [List.mem_cons, List.mem_append, List.mem_singleton, List.not_mem_nil,
      or_false] at hc
    rcases hc with rfl | hc | rfl
    · exact ⟨by decide, by decide⟩
    · exact hsafe c hc
    · exact ⟨by decide, by decide⟩
  · exact hsafe c hc

theorem list_tail_text_bytes (W : List Mem) (hW : ∀ w ∈ W, ∀ c ∈ w, list_safe_byte c = true) :
    ∀ c ∈ list_tail_text W, c ≠ NUL ∧ c ≠ BIN_TOKEN := by
  induction W with
  | nil => intro c hc; simp [list_tail_text] at hc
  | cons w ws ih =>
    intro c hc
    simp only [list_tail_text, List.mem_cons, List.mem_append] at hc
    rcases hc with rfl | hc | hc
    · exact ⟨by decide, by decide⟩
    · exact list_item_text_bytes w (hW w (by simp)) c hc
    · exact ih (fun v hv => hW v (by simp [hv])) c hc

theorem list_text_bytes (W : List Mem) (hW : ∀ w ∈ W, ∀ c ∈ w, list_safe_byte c = true) :
    ∀ c ∈ list_text W, c ≠ NUL ∧ c ≠ BIN_TOKEN := by
  cases W with
  | nil => intro c hc; simp [list_text] at hc
  | cons w ws =>
    intro c hc
    simp only [list_text, List.mem_append] at hc
    rcases hc with hc | hc
    · exact list_item_text_bytes w (hW w (by simp)) c hc
    · exact list_tail_text_bytes ws (fun v hv => hW v (by simp [hv])) c hc

theorem list_tail_text_snoc (A : List Mem) (w : Mem) :
    list_tail_text (A ++ [w]) = list_tail_text A ++ ' ' :: list_item_text w := by
  induction A with
  | nil => simp [list_tail_text]
  | cons a A ih => simp [list_tail_text, ih]

theorem list_text_snoc (P : List Mem) (w : Mem) :
    list_text (P ++ [w]) =
      list_text P ++ (if (list_text P).length > 0 then [' '] else []) ++ list_item_text w := by
  cases P with
  | nil => simp [list_text, list_tail_text]
  | cons p P =>
    have hpos : (list_text (p :: P)).length > 0 := by
      have := list_item_text_length_pos p
      simp only [list_text, List.length_append]; omega
    simp only [hpos, if_true]
    simp [list_text, list_tail_text_snoc]

theorem tcl_next_go_end (m : Mem) (s length flags : Nat) (hm : rd m s = NUL) (hlen : 0 < length)
    (hflags : flags = 4 ∨ flags = 0) :
    tcl_next_go m 1 s length flags = ⟨Token.TCMD, s, some (s + 1), 0⟩ := by
  obtain ⟨hq, hnc, -⟩ := flags_cases flags hflags
  have hk : run_length m tcl_is_space length s = 0 := by
    cases length with
    | zero => rfl
    | succ l =>
      have : tcl_is_space NUL = false := by decide
      simp [run_length, hm, this]
  have hskip : tcl_next_skip m s length flags = (s, length) := by
    unfold tcl_next_skip
    simp only [hq, bne_self_eq_false, Bool.false_eq_true, if_false, hk, Nat.add_zero,
      Nat.sub_zero, hm]
    rw [if_neg]
    rintro ⟨h, -⟩
    revert h; decide
  rw [tcl_next_go, hskip, hq, hnc]
  unfold tcl_next_token
  have he : tcl_is_end NUL = true := by decide
  rw [if_pos ⟨by decide, hlen, by rw [hm]; exact he⟩]
  rfl

/-- One iteration of the loop of `tcl_list_at` on an item of safe bytes. -/
theorem tcl_list_at_loop_word (m : Mem) (index fuel i : Nat) (p : tcl_each_state) (sp w tl : Mem)
    (hm : m.drop p.start = sp ++ list_item_text w ++ tl)
    (hsp : ∀ c ∈ sp, tcl_is_space c = true)
    (htl : tcl_is_space (tl.headD NUL) = true ∨ tl.headD NUL = NUL)
    (hw : ∀ c ∈ w, list_safe_byte c = true)
    (hlen : sp.length + (list_item_text w).length < p.end_ - p.start)
    (hflags : p.flags = 4 ∨ (p.flags = 0 ∧ w.head? ≠ some '#')) :
    tcl_list_at_loop m index (fuel + 1) p i =
      if i = index then some (some (text_encoding w))
      else
        tcl_list_at_loop m index fuel
          ⟨p.start + sp.length, p.start + sp.length + (list_item_text w).length,
            p.start + sp.length + (list_item_text w).length, p.end_, 4, Token.TWORD⟩ (i + 1) := by
  have hstep := tcl_next_go_word m p.start (p.end_ - p.start) p.flags sp w tl hm hsp htl hw hlen
    hflags
  have hnext : tcl_each_next m p =
      ⟨p.start + sp.length, p.start + sp.length + (list_item_text w).length, p.start, p.end_, 4,
        Token.TWORD⟩ := by
    simp [tcl_each_next, tcl_next, hstep]
  have hlt : p.start < p.end_ := by omega
  rw [tcl_list_at_loop]
  simp only [hlt, if_true, hnext]
  rw [if_neg (by decide : ¬ Token.TWORD = Token.TERROR)]
  have hm2 : m.drop (p.start + sp.length) = list_item_text w ++ tl := by
    rw [← List.drop_drop, hm, List.append_assoc, List.drop_left]
  by_cases hi : i = index
  · rw [if_pos hi, if_pos hi]
    by_cases hb : needs_brace w = true
    · have hitem : list_item_text w = '{' :: (w ++ ['}']) := by simp [list_item_text, hb]
      rw [hitem] at hm2 ⊢
      obtain ⟨h0, h1⟩ := rd_of_drop_eq m _ '{' (w ++ '}' :: tl) (by simpa using hm2)
      rw [if_pos h0]
      have hsz : p.start + sp.length + ('{' :: (w ++ ['}'])).length - (p.start + sp.length) - 2
          = w.length := by simp
      rw [hsz, tcl_value_at_safe m _ w ('}' :: tl) h1 hw]
    · have hb2 : needs_brace w = false := by simpa using hb
      have hitem : list_item_text w = w := by simp [list_item_text, hb2]
      rw [hitem] at hm2 ⊢
      have h0 : rd m (p.start + sp.length) ≠ '{' := by
        cases hwc : w with
        | nil => simp [needs_brace, hwc] at hb2
        | cons c r =>
          obtain ⟨h0, -⟩ := rd_of_drop_eq m _ c (r ++ tl) (by simpa [hwc] using hm2)
          rw [h0]
          have := hw c (by simp [hwc])
          intro e; subst e; revert this; decide
      rw [if_neg h0]
      have hsz : p.start + sp.length + w.length - (p.start + sp.length) = w.length := by omega
      rw [hsz, tcl_value_at_safe m _ w tl hm2 hw]
  · rw [if_neg hi, if_neg hi]

theorem tcl_list_at_loop_done (m : Mem) (index fuel i : Nat) (p : tcl_each_state)
    (h : ¬ p.start < p.end_) : tcl_list_at_loop m index fuel p i = some none := by
  cases fuel <;> simp [tcl_list_at_loop, h]

theorem list_tail_text_head (ws : List Mem) :
    tcl_is_space ((list_tail_text ws ++ [NUL]).headD NUL) = true ∨
      (list_tail_text ws ++ [NUL]).headD NUL = NUL := by
  cases ws with
  | nil => right; rfl
  | cons w ws => left; rfl

/-- The loop of `tcl_list_at` over the items that follow the first one. -/
theorem tcl_list_at_loop_tail (m : Mem) (index : Nat) (ws : List Mem) :
    ∀ (fuel i : Nat) (p : tcl_each_state),
      m.drop p.start = list_tail_text ws ++ [NUL] →
      (∀ w ∈ ws, ∀ c ∈ w, list_safe_byte c = true) →
      p.end_ = p.start + (list_tail_text ws).length + 1 → p.flags = 4 →
      ws.length + 1 ≤ fuel → i ≤ index →
      tcl_list_at_loop m index fuel p i = some ((ws[index - i]?).map text_encoding) := by
  induction ws with
  | nil =>
    intro fuel i p hm _ hend hfl hfuel _
    obtain ⟨f, rfl⟩ : ∃ f, fuel = f + 1 := ⟨fuel - 1, by omega⟩
    have h0 : rd m p.start = NUL := by rw [rd_eq_headD_drop, hm]; rfl
    have hstep := tcl_next_go_end m p.start (p.end_ - p.start) p.flags h0
      (by simp [list_tail_text] at hend; omega) (Or.inl hfl)
    have hnext : tcl_each_next m p = ⟨p.start, p.start + 1, p.start, p.end_, 0, Token.TCMD⟩ := by
      simp [tcl_each_next, tcl_next, hstep]
    have hlt : p.start < p.end_ := by omega
    rw [tcl_list_at_loop]
    simp only [hlt, if_true, hnext]
    rw [if_neg (by decide), if_neg (by decide)]
    simp only [list_tail_text, List.length_nil, Nat.add_zero] at hend
    rw [tcl_list_at_loop_done]
    · simp
    · simp [hend]
  | cons w ws ih =>
    intro fuel i p hm hW hend hfl hfuel hi
    obtain ⟨f, rfl⟩ : ∃ f, fuel = f + 1 := ⟨fuel - 1, by omega⟩
    have hm2 : m.drop p.start = [' '] ++ list_item_text w ++ (list_tail_text ws ++ [NUL]) := by
      rw [hm]; simp [list_tail_text]
    have hlen : ([' '] : Mem).length + (list_item_text w).length < p.end_ - p.start := by
      rw [hend]; simp [list_tail_text]; omega
    rw [tcl_list_at_loop_word m index f i p [' '] w (list_tail_text ws ++ [NUL]) hm2
      (by intro c hc; simp at hc; subst hc; decide) (list_tail_text_head ws)
      (hW w (by simp)) hlen (Or.inl hfl)]
    by_cases hidx : i = index
    · rw [if_pos hidx, hidx]; simp
    · rw [if_neg hidx]
      have hdrop : m.drop (p.start + ([' '] : Mem).length + (list_item_text w).length)
          = list_tail_text ws ++ [NUL] := by
        rw [Nat.add_assoc, ← List.drop_drop, hm2]
        exact List.drop_left' (by simp; omega)
      rw [ih f (i + 1) _ hdrop (fun v hv => hW v (by simp [hv]))
        (by simp [hend, list_tail_text]; omega) rfl (by simpa using hfuel) (by omega)]
      have : index - i = (index - (i + 1)) + 1 := by omega
      rw [this]; simp

theorem list_tail_text_length (ws : List Mem) : ws.length ≤ (list_tail_text ws).length := by
  induction ws with
  | nil => simp
  | cons w ws ih => simp only [list_tail_text, List.length_cons, List.length_append]; omega

/-- Reading a list of safe words back, at every index. -/
theorem tcl_list_at_list_text (W : List Mem) (index : Nat)
    (hW : ∀ w ∈ W, ∀ c ∈ w, list_safe_byte c = true)
    (hfirst : ∀ w, W.head? = some w → w.head? ≠ some '#') :
    tcl_list_at (list_text W ++ [NUL]) index = some ((W[index]?).map text_encoding) := by
  have hbytes := list_text_bytes W hW
  have hnul : NUL ∉ list_text W := fun h => (hbytes _ h).1 rfl
  have hhd : (list_text W).head? ≠ some BIN_TOKEN := by
    intro h
    cases hT : list_text W with
    | nil => simp [hT] at h
    | cons c t =>
      rw [hT] at h
      have : c ∈ list_text W := by simp [hT]
      exact (hbytes c this).2 (by simpa using h)
  obtain ⟨-, hl, hs, -, -⟩ := text_value_facts (list_text W) hnul hhd
  unfold text_encoding at hl hs
  unfold tcl_list_at
  rw [hl, hs]
  cases W with
  | nil =>
    have hstep := tcl_next_go_end [NUL] 0 1 0 rfl (by decide) (Or.inr rfl)
    simp only [list_text, List.nil_append, List.length_nil, tcl_each_init]
    rw [tcl_list_at_loop]
    simp [tcl_each_next, tcl_next, hstep, tcl_list_at_loop]
  | cons w ws =>
    simp only [list_text, tcl_each_init]
    have hlenw := list_item_text_length_pos w
    have hlent := list_tail_text_length ws
    obtain ⟨f, hf⟩ : ∃ f, (list_item_text w ++ list_tail_text ws).length + 2 = f + 1 := ⟨_, rfl⟩
    rw [hf]
    rw [tcl_list_at_loop_word _ index f 0 _ [] w (list_tail_text ws ++ [NUL])
      (by simp) (by simp) (list_tail_text_head ws) (hW w (by simp))
      (by simp; omega) (Or.inr ⟨rfl, hfirst w rfl⟩)]
    by_cases hidx : 0 = index
    · rw [if_pos hidx, ← hidx]; simp
    · rw [if_neg hidx]
      rw [tcl_list_at_loop_tail _ index ws f 1 _ (by simp)
        (fun v hv => hW v (by simp [hv])) (by simp) rfl
        (by simp at hf; omega) (by omega)]
      have : index = (index - 1) + 1 := by omega
      rw [this]; simp

/-! ## The expression lexer on literals and operators -/

theorem digit_value_of_digit (c : Char) (h : isdigit c = true) :
    digit_value c = c.toNat - '0'.toNat ∧ digit_value c < 8 + 2 ∧ digit_value c < 10 ∧
      (c ≠ '0' → 0 < digit_value c) := by
  have h1 : digit_value c = c.toNat - '0'.toNat := by simp [digit_value, h]
  simp only [isdigit, Bool.and_eq_true, decide_eq_true_eq] at h
  have h48 : '0'.toNat = 48 := rfl
  have h57 : '9'.toNat = 57 := rfl
  rw [h48, h57] at h
  refine ⟨h1, by rw [h1, h48]; omega, by rw [h1, h48]; omega, fun hne => ?_⟩
  rw [h1, h48]
  have : c.toNat ≠ 48 := by
    intro e
    apply hne
    apply Char.ext
    apply UInt32.ext
    exact e
  omega

theorem digit_value_not_digit (c : Char) (h1 : isdigit c = false) (h2 : isalpha c = false) :
    digit_value c = 36 := by
  unfold digit_value
  rw [if_neg (by simp [h1])]
  simp only [isalpha, Bool.or_eq_false_iff, Bool.and_eq_false_iff, decide_eq_false_iff_not] at h2
  rw [if_neg (by intro h; rcases h2.1 with h3 | h3 <;> [exact h3 h.1; exact h3 h.2]),
    if_neg (by intro h; rcases h2.2 with h3 | h3 <;> [exact h3 h.1; exact h3 h.2])]

theorem strtol_digits_dec (ds rest : List Char) (hds : ∀ c ∈ ds, isdigit c = true)
    (hrest : ¬ digit_value (rest.headD NUL) < 10) :
    ∀ acc : Nat, strtol_digits 10 (ds ++ rest) acc =
      (ds.foldl (fun acc c => acc * 10 + (c.toNat - '0'.toNat)) acc, rest) := by
  induction ds with
  | nil =>
    intro acc
    cases rest with
    | nil => rfl
    | cons c r =>
      have : ¬ digit_value c < 10 := by simpa using hrest
      simp [strtol_digits, this]
  | cons c t ih =>
    intro acc
    obtain ⟨h1, -, h2, -⟩ := digit_value_of_digit c (hds c (by simp))
    rw [List.cons_append, strtol_digits, if_pos h2, List.foldl_cons,
      ih (fun d hd => hds d (by simp [hd])), h1]

theorem follower_not_x (c : Char) (ha : isalpha c = false) : c ≠ 'x' ∧ c ≠ 'X' := by
  constructor <;> (intro e; subst e; revert ha; decide)

/-- The unsigned part of `strtol` on a decimal literal followed by a byte that is
neither a digit nor a letter, in base 0 and in base 10. -/
theorem strtol_unsigned_dec_literal (base : Nat) (hbase : base = 0 ∨ base = 10)
    (ds rest : List Char) (hlit : is_dec_literal ds)
    (hd : isdigit (rest.headD NUL) = false) (ha : isalpha (rest.headD NUL) = false) :
    strtol_unsigned base (ds ++ rest) = some (dec_value ds, rest) := by
  obtain ⟨hne, hds, hzero, -⟩ := hlit
  obtain ⟨c, t, rfl⟩ := List.exists_cons_of_ne_nil hne
  have hrest36 := digit_value_not_digit _ hd ha
  have hx := follower_not_x _ ha
  have hhex : strtol_hex_prefix base (c :: t ++ rest) = false := by
    unfold strtol_hex_prefix
    by_cases h0 : c = '0'
    · have ht : t = [] := by have := hzero (by simp [h0]); simp at this; exact this.2
      subst ht
      have e1 : ((c :: [] ++ rest).drop 1).headD NUL = rest.headD NUL := rfl
      rw [e1]
      have : (rest.headD NUL == 'x' || rest.headD NUL == 'X') = false := by
        simp only [Bool.or_eq_false_iff, beq_eq_false_iff_ne, ne_eq]; exact hx
      rw [this]; simp
    · have : ((c :: t ++ rest).headD NUL == '0') = false := by
        simpa using h0
      rw [this]; simp
  have hlen : ∀ (r : List Char), r = rest → ¬ r.length = (c :: t ++ rest).length := by
    intro r hr; subst hr; simp; omega
  unfold strtol_unsigned
  simp only [hhex, Bool.false_eq_true, if_false]
  by_cases h0 : c = '0'
  · have ht : t = [] := by have := hzero (by simp [h0]); simp at this; exact this.2
    subst ht; subst h0
    rcases hbase with rfl | rfl
    · have hb : strtol_base 0 (['0'] ++ rest) = 8 := by
        simp only [strtol_base, hhex, Bool.false_eq_true, if_false, if_true]
        rfl
      have hloop : strtol_digits 8 (['0'] ++ rest) 0 = (0, rest) := by
        show strtol_digits 8 ('0' :: rest) 0 = (0, rest)
        rw [strtol_digits, if_pos (by decide)]
        cases rest with
        | nil => rfl
        | cons d r =>
          have h36 : digit_value d = 36 := hrest36
          rw [strtol_digits, if_neg (by rw [h36]; decide)]
          rfl
      rw [hb, hloop, if_neg (hlen _ rfl)]
      rfl
    · have hb : strtol_base 10 (['0'] ++ rest) = 10 := by
        simp only [strtol_base, hhex, Bool.false_eq_true, if_false]
        rfl
      have hloop := strtol_digits_dec ['0'] rest hds (by rw [hrest36]; decide) 0
      rw [hb, hloop, if_neg (hlen _ rfl)]
      rfl
  · have hb : strtol_base base (c :: t ++ rest) = 10 := by
      simp only [strtol_base, hhex, Bool.false_eq_true, if_false]
      rcases hbase with rfl | rfl
      · have : ¬ (c :: t ++ rest).headD NUL = '0' := h0
        rw [if_pos rfl, if_neg this]
      · rfl
    have hloop := strtol_digits_dec (c :: t) rest hds (by rw [hrest36]; decide) 0
    rw [hb, hloop, if_neg (hlen _ rfl)]
    rfl

theorem digit_not_space_sign (c : Char) (hc : isdigit c = true) :
    isspace c = false ∧ c ≠ '-' ∧ c ≠ '+' := by
  refine ⟨?_, ?_, ?_⟩
  · simp only [isdigit, Bool.and_eq_true, decide_eq_true_eq] at hc
    have h48 : '0'.toNat = 48 := rfl
    rw [h48] at hc
    have hne32 : c ≠ ' ' := by intro e; subst e; revert hc; decide
    simp only [isspace, Bool.or_eq_false_iff, beq_eq_false_iff_ne, ne_eq, hne32, not_false_eq_true,
      Bool.and_eq_false_iff, decide_eq_false_iff_not, true_and]
    right; omega
  all_goals (intro e; subst e; revert hc; decide)

/-- `strtol` on a decimal literal followed by a byte that is neither a digit nor
a letter, in base 0 and in base 10. -/
theorem strtol_dec_literal (base : Nat) (hbase : base = 0 ∨ base = 10)
    (ds rest : List Char) (hlit : is_dec_literal ds)
    (hd : isdigit (rest.headD NUL) = false) (ha : isalpha (rest.headD NUL) = false) :
    strtol (ds ++ rest) base = ((dec_value ds : Int), rest) := by
  have hu := strtol_unsigned_dec_literal base hbase ds rest hlit hd ha
  obtain ⟨hne, hds, -, hmax⟩ := hlit
  obtain ⟨c, t, rfl⟩ := List.exists_cons_of_ne_nil hne
  obtain ⟨hsp, hm, hp⟩ := digit_not_space_sign c (hds c (by simp))
  have hs1 : (c :: t ++ rest).dropWhile isspace = c :: t ++ rest :=
    dropWhile_stop _ _ hsp
  have hhead : (c :: t ++ rest).headD NUL = c := rfl
  unfold strtol
  simp only [hs1, hhead, hm, hp, or_self, if_false, hu]
  have hmin : ¬ ((dec_value (c :: t) : Int) < LONG_MIN) := by
    have : (0 : Int) ≤ (dec_value (c :: t) : Int) := Int.ofNat_nonneg _
    have h2 : LONG_MIN < 0 := by decide
    omega
  simp only [clampLong, if_neg (not_lt.mpr hmax), if_neg hmin]

/-- A byte that may follow a number in an expression: not a digit, a letter, a
dot or a comma. -/
theorem digit_facts_lex (c : Char) (hc : isdigit c = true) :
    c ≠ NUL ∧ c ∉ expr_special ∧ expr_is_blank c = false := by
  simp only [isdigit, Bool.and_eq_true, decide_eq_true_eq] at hc
  have h48 : '0'.toNat = 48 := rfl
  rw [h48] at hc
  refine ⟨?_, ?_, ?_⟩
  · intro e; subst e; revert hc; decide
  · intro hmem
    simp only [expr_special, String.toList, List.mem_cons, List.mem_singleton,
      List.not_mem_nil, or_false] at hmem
    rcases hmem with h | h | h | h | h | h | h | h | h | h | h | h | h | h | h | h | h <;>
      (subst h; revert hc; decide)
  · simp only [expr_is_blank, Bool.and_eq_false_iff, decide_eq_false_iff_not]
    right
    have : ' '.toNat = 32 := rfl
    omega

/-- The lexer on a decimal literal. -/
theorem lex_dec_literal (e : expr) (ds rest : List Char) (hflag : e.lexflag = 0)
    (hpos : e.pos = ds ++ rest) (hlit : is_dec_literal ds)
    (hd : isdigit (rest.headD NUL) = false) (ha : isalpha (rest.headD NUL) = false)
    (hdot : rest.headD NUL ≠ '.') (hcomma : rest.headD NUL ≠ ',') :
    lex e = { e with token := TOK_NUMBER, lnumber := (dec_value ds : Int),
                     pos := rest.dropWhile expr_is_blank } := by
  have hstr := strtol_dec_literal 0 (Or.inl rfl) ds rest hlit hd ha
  obtain ⟨hne, hds, -, -⟩ := hlit
  obtain ⟨c, t, rfl⟩ := List.exists_cons_of_ne_nil hne
  have hc := hds c (by simp)
  obtain ⟨hc1, hc2, -⟩ := digit_facts_lex c hc
  have hcur : expr_cur e = c := by simp [expr_cur, hpos]
  unfold lex
  rw [if_neg (by simp [hflag])]
  unfold expr_lex
  simp only [hcur, hc1, hc2, hc, if_false, if_true, hpos, hstr]
  simp only [expr_cur, ha, beq_eq_false_iff_ne.mpr hdot, beq_eq_false_iff_ne.mpr hcomma,
    Bool.or_self, Bool.false_eq_true, if_false]
  rfl

/-- The lexer at the end of the expression. -/
theorem lex_end (e : expr) (hflag : e.lexflag = 0) (hpos : e.pos.headD NUL = NUL) :
    lex e = { e with token := TOK_END_EXPR } := by
  unfold lex
  rw [if_neg (by simp [hflag])]
  unfold expr_lex
  simp only [expr_cur, hpos, if_true]

/-- The lexer on a punctuation byte that does not begin a two-byte operator. -/
theorem lex_byte (e : expr) (c : Char) (rest : List Char) (hflag : e.lexflag = 0)
    (hpos : e.pos = c :: rest) (hc : c ∈ expr_special)
    (hop : expr_lex_operator c rest = (c.toNat, rest)) :
    lex e = { e with token := c.toNat, pos := rest.dropWhile expr_is_blank } := by
  have hnul : c ≠ NUL := by
    intro h; subst h; revert hc; decide
  have hcur : expr_cur e = c := by simp [expr_cur, hpos]
  unfold lex
  rw [if_neg (by simp [hflag])]
  unfold expr_lex
  simp only [hcur, hnul, hc, if_false, if_true, hpos, List.drop_succ_cons, List.drop_zero, hop]
  rfl

/-- The lexer on a binary operator that is followed by a byte which cannot
extend it. -/
theorem lex_operator (e : expr) (op : expr_op) (rest : List Char) (hflag : e.lexflag = 0)
    (hpos : e.pos = op.text ++ rest)
    (hfollow : rest.headD NUL ∉ ['|', '&', '=', '<', '>', '*']) :
    lex e = { e with token := op.token, pos := rest.dropWhile expr_is_blank } := by
  simp only [List.mem_cons, List.mem_singleton, List.not_mem_nil, or_false, not_or] at hfollow
  obtain ⟨f1, f2, f3, f4, f5, f6⟩ := hfollow
  simp only [List.headD_eq_head?_getD, NUL] at f1 f2 f3 f4 f5 f6
  unfold lex
  rw [if_neg (by simp [hflag])]
  unfold expr_lex
  cases op <;>
    simp [expr_op.text, expr_op.token, expr_cur, hpos, NUL, expr_special, expr_lex_operator,
      expr_skip, expr_skip_count, f1, f2, f3, f4, f5, f6, TOK_OR, TOK_AND, TOK_EQ, TOK_NE,
      TOK_GE, TOK_LE, TOK_SHL, TOK_SHR, TOK_EXP]

/-! ## The parser, level by level -/

theorem expr_level_zero (k : Nat) (e : expr) : expr_level k 0 e = none := by
  unfold expr_level
  split <;> rfl

theorem expr_level_succ (k : Nat) (hk : k ≤ 10) (f : Nat) (e : expr) :
    expr_level k (f + 1) e =
      (expr_level (k + 1) f e).bind (fun r => expr_level_loop k f r.1 r.2) := by
  interval_cases k <;> rfl

theorem expr_level_loop_zero (k : Nat) (v : Int) (e : expr) : expr_level_loop k 0 v e = none := by
  unfold expr_level_loop
  split <;> rfl

theorem expr_level_loop_stop (k : Nat) (hk : k ≤ 10) (f : Nat) (v1 : Int) (e0 : expr)
    (h : (lex e0).token ∉ expr_level_tokens k) :
    expr_level_loop k (f + 1) v1 e0 = some (v1, unlex (lex e0)) := by
  interval_cases k <;>
    simp [expr_level_tokens, TOK_OR, TOK_AND, TOK_EQ, TOK_NE, TOK_GE, TOK_LE, TOK_SHL, TOK_SHR,
      TOK_EXP] at h <;>
    simp [expr_level_loop, expr_logic_or_loop, expr_logic_and_loop, expr_binary_or_loop,
      expr_binary_xor_loop, expr_binary_and_loop, expr_equality_loop, expr_relational_loop,
      expr_shift_loop, expr_sum_loop, expr_product_loop, expr_power_loop, h,
      TOK_OR, TOK_AND, TOK_EQ, TOK_NE, TOK_GE, TOK_LE, TOK_SHL, TOK_SHR, TOK_EXP]

/-- One iteration of the loop of a level below `expr_power`, on an operator of that level. -/
theorem expr_level_loop_op (op : expr_op) (hop : op.level ≤ 9) (f : Nat) (v1 : Int) (e0 : expr)
    (h : (lex e0).token = op.token) :
    expr_level_loop op.level (f + 1) v1 e0 =
      (expr_level (op.level + 1) f (lex e0)).bind (fun r =>
        match op.value v1 r.1 with
        | some v => expr_level_loop op.level f v r.2
        | none => expr_level_loop op.level f v1 (expr_error r.2 eDIV0)) := by
  cases op <;>
    simp [expr_op.level, expr_op.token, TOK_OR, TOK_AND, TOK_EQ, TOK_NE, TOK_GE, TOK_LE,
      TOK_SHL, TOK_SHR, TOK_EXP] at h hop <;>
    simp [expr_level_loop, expr_level, expr_op.level, expr_op.value, expr_logic_or_loop,
      expr_logic_and_loop, expr_binary_or_loop, expr_binary_xor_loop, expr_binary_and_loop,
      expr_equality_loop, expr_relational_loop, expr_shift_loop, expr_sum_loop,
      expr_product_loop, h, TOK_OR, TOK_AND, TOK_EQ, TOK_NE, TOK_GE, TOK_LE, TOK_SHL, TOK_SHR,
      TOK_EXP] <;>
    (congr 1; funext a; by_cases h0 : a.1 = 0 <;> simp [h0])

theorem expr_power_loop_exp (f : Nat) (v1 : Int) (e0 : expr) (h : (lex e0).token = TOK_EXP) :
    expr_level_loop 10 (f + 1) v1 e0 =
      (expr_level 10 f (lex e0)).bind (fun r =>
        expr_level_loop 10 f (expr_power_value v1 r.1) r.2) := by
  simp [expr_level_loop, expr_level, expr_power_loop, h]

theorem lex_unlex (e2 : expr) (h : e2.lexflag = 0) : lex (unlex e2) = e2 := by
  cases e2
  simp only at h
  subst h
  rfl

/-- A level below `expr_power` hands on the result of the next level when the
look-ahead token is not one of its operators. -/
theorem EvalsTo.lift (k N : Nat) (hk : k ≤ 9) (e : expr) (v : Int) (e2 : expr)
    (h : EvalsTo (k + 1) N e v e2) (hflag : e2.lexflag = 0)
    (htok : e2.token ∉ expr_level_tokens k) : EvalsTo k (N + 1) e v e2 := by
  intro F hF
  obtain ⟨f, rfl⟩ : ∃ f, F = f + 1 := ⟨F - 1, by omega⟩
  have hf := h f (by omega)
  rw [expr_level_succ k (by omega), hf]
  cases f with
  | zero => rw [expr_level_zero] at hf; cases hf
  | succ g =>
    show expr_level_loop k (g + 1) v (unlex e2) = _
    rw [expr_level_loop_stop k (by omega) g v (unlex e2) (by rw [lex_unlex e2 hflag]; exact htok),
      lex_unlex e2 hflag]

/-- The same, across several levels. -/
theorem EvalsTo.lift_to (j : Nat) (hj : j ≤ 10) (e : expr) (v : Int) (e2 : expr)
    (hflag : e2.lexflag = 0) :
    ∀ (d N : Nat), d ≤ j → EvalsTo j N e v e2 →
      (∀ i, j - d ≤ i → i < j → e2.token ∉ expr_level_tokens i) →
      EvalsTo (j - d) (N + d) e v e2 := by
  intro d
  induction d with
  | zero => intro N _ h _; simpa using h
  | succ d ih =>
    intro N hd h htok
    have h1 := ih N (by omega) h (fun i hi1 hi2 => htok i (by omega) hi2)
    have h2 := EvalsTo.lift (j - (d + 1)) (N + d) (by omega) e v e2
      (by rw [show j - (d + 1) + 1 = j - d by omega]; exact h1) hflag
      (htok _ (le_refl _) (by omega))
    simpa [Nat.add_assoc] using h2

/-- A number or a variable is a primary expression. -/
theorem PrimTo.number (e : expr)
    (h : (lex e).token = TOK_NUMBER ∨ (lex e).token = TOK_VARIABLE) :
    PrimTo 1 e (lex e).lnumber (lex e) := by
  intro F hF
  obtain ⟨f, rfl⟩ : ∃ f, F = f + 1 := ⟨F - 1, by omega⟩
  rw [expr_primary]
  rcases h with h | h <;> simp [h, TOK_NUMBER, TOK_VARIABLE]

/-- A unary minus in front of a primary expression. -/
theorem PrimTo.neg (N : Nat) (e : expr) (v : Int) (e1 : expr) (h : (lex e).token = '-'.toNat)
    (h1 : PrimTo N (lex e) v e1) : PrimTo (N + 1) e (wrapLong (-v)) e1 := by
  intro F hF
  obtain ⟨f, rfl⟩ : ∃ f, F = f + 1 := ⟨F - 1, by omega⟩
  rw [expr_primary]
  simp [h, h1 f (by omega)]

/-- A parenthesised expression is a primary expression. -/
theorem PrimTo.paren (N : Nat) (e : expr) (v : Int) (e2 : expr) (h : (lex e).token = '('.toNat)
    (h1 : EvalsTo 0 N (lex e) v e2) (hflag : e2.lexflag = 0) (htok : e2.token = ')'.toNat) :
    PrimTo (N + 1) e v e2 := by
  intro F hF
  obtain ⟨f, rfl⟩ : ∃ f, F = f + 1 := ⟨F - 1, by omega⟩
  have hf : expr_logic_or f (lex e) = some (v, unlex e2) := h1 f (by omega)
  rw [expr_primary]
  simp [h, hf, lex_unlex e2 hflag, htok]

/-- The source's `expr_power` on a primary expression that is not followed by `**`. -/
theorem EvalsTo.of_prim (N : Nat) (e : expr) (v : Int) (e1 : expr) (h : PrimTo N e v e1)
    (htok : (lex e1).token ≠ TOK_EXP) : EvalsTo 10 (N + 1) e v (lex e1) := by
  intro F hF
  obtain ⟨f, rfl⟩ : ∃ f, F = f + 1 := ⟨F - 1, by omega⟩
  have hf : expr_primary f e = some (v, e1) := h f (by omega)
  rw [expr_level_succ 10 (le_refl _)]
  show (expr_primary f e).bind _ = _
  rw [hf]
  cases f with
  | zero => simp [expr_primary] at hf
  | succ g =>
    show expr_level_loop 10 (g + 1) v e1 = _
    rw [expr_level_loop_stop 10 (le_refl _) g v e1 (by simpa [expr_level_tokens] using htok)]

/-- The operator `**`: the right operand is parsed by `expr_power` itself. -/
theorem EvalsTo.pow (N1 N2 : Nat) (e : expr) (a b : Int) (e1 e4 : expr) (h1 : PrimTo N1 e a e1)
    (htok : (lex e1).token = TOK_EXP) (h2 : EvalsTo 10 N2 (lex e1) b e4)
    (hflag : e4.lexflag = 0) (htok4 : e4.token ≠ TOK_EXP) :
    EvalsTo 10 (max N1 N2 + 2) e (expr_power_value a b) e4 := by
  intro F hF
  obtain ⟨f, rfl⟩ : ∃ f, F = f + 2 := ⟨F - 2, by omega⟩
  have hf1 : expr_primary (f + 1) e = some (a, e1) := h1 (f + 1) (by omega)
  have hf2 := h2 f (by omega)
  rw [expr_level_succ 10 (le_refl _)]
  show (expr_primary (f + 1) e).bind _ = _
  rw [hf1]
  show expr_level_loop 10 (f + 1) a e1 = _
  rw [expr_power_loop_exp f a e1 htok, hf2]
  cases f with
  | zero => rw [expr_level_zero] at hf2; cases hf2
  | succ g =>
    show expr_level_loop 10 (g + 1) (expr_power_value a b) (unlex e4) = _
    rw [expr_level_loop_stop 10 (le_refl _) g _ (unlex e4)
      (by rw [lex_unlex e4 hflag]; simpa [expr_level_tokens] using htok4), lex_unlex e4 hflag]

/-- A binary operator of a level below `expr_power` between two operands of the
next level, when the operation is defined. -/
theorem EvalsTo.binop (op : expr_op) (hop : op.level ≤ 9) (N1 N2 : Nat) (e : expr) (a b v : Int)
    (e2 e4 : expr) (h1 : EvalsTo (op.level + 1) N1 e a e2) (hflag2 : e2.lexflag = 0)
    (htok2 : e2.token = op.token) (h2 : EvalsTo (op.level + 1) N2 e2 b e4)
    (hflag4 : e4.lexflag = 0) (htok4 : e4.token ∉ expr_level_tokens op.level)
    (hv : op.value a b = some v) :
    EvalsTo op.level (max N1 N2 + 2) e v e4 := by
  intro F hF
  obtain ⟨f, rfl⟩ : ∃ f, F = f + 2 := ⟨F - 2, by omega⟩
  have hf1 := h1 (f + 1) (by omega)
  have hf2 := h2 f (by omega)
  rw [expr_level_succ _ (by omega), hf1]
  show expr_level_loop op.level (f + 1) a (unlex e2) = _
  rw [expr_level_loop_op op hop f a (unlex e2) (by rw [lex_unlex e2 hflag2]; exact htok2),
    lex_unlex e2 hflag2, hf2]
  cases f with
  | zero => rw [expr_level_zero] at hf2; cases hf2
  | succ g =>
    simp only [Option.some_bind, hv]
    rw [expr_level_loop_stop _ (by omega) g _ (unlex e4)
      (by rw [lex_unlex e4 hflag4]; exact htok4), lex_unlex e4 hflag4]

/-- The source's `tcl_expression` on an expression whose parse ends at the end of
the string. -/
theorem tcl_expression_of_evals (t : tcl) (s : List Char) (N : Nat) (v : Int) (e2 : expr)
    (h : EvalsTo 0 N (expr_skip ⟨s, 0, 0, 0, 0, t⟩ 0) v e2) (hN : N ≤ 16 * (s.length + 2))
    (hflag : e2.lexflag = 0) (htok : e2.token = TOK_END_EXPR)
    (hpos : e2.pos.headD NUL = NUL) :
    tcl_expression t s = some (e2.error, v, e2.tcl) := by
  have hf : expr_logic_or (16 * (s.length + 2)) (expr_skip ⟨s, 0, 0, 0, 0, t⟩ 0)
      = some (v, unlex e2) := h _ hN
  have hskip : expr_skip (unlex e2) 0 = unlex e2 := by
    cases e2 with
    | mk pos token lexflag lnumber error tcl =>
      simp only [expr_skip, expr_skip_count, unlex]
      congr 1
      exact dropWhile_stop _ _ (by simp only at hpos; rw [hpos]; decide)
  unfold tcl_expression tcl_expression_fuel
  simp only [hf, Option.map_some', hskip]
  by_cases he : (unlex e2).error = eNONE
  · rw [if_pos he, lex_unlex e2 hflag, htok]
    simp [TOK_END_EXPR]
  · rw [if_neg he]
    rfl

/-! ## Expressions made of literals and operators -/

theorem lex_lit (t : tcl) (ds rest : List Char) (tok : Nat) (num : Int) (hlit : is_dec_literal ds)
    (hf : expr_follower (rest.headD NUL) = true) :
    lex (expr_at t (ds ++ rest) tok num) = expr_at t rest TOK_NUMBER (dec_value ds : Int) := by
  simp only [expr_follower, Bool.and_eq_true, Bool.not_eq_true', bne_iff_ne, ne_eq] at hf
  obtain ⟨⟨⟨⟨h1, h2⟩, h3⟩, h4⟩, h5⟩ := hf
  rw [lex_dec_literal (expr_at t (ds ++ rest) tok num) ds rest rfl rfl hlit h1 h2 h3 h4,
    dropWhile_stop _ _ h5]
  rfl

theorem lex_op (t : tcl) (op : expr_op) (rest : List Char) (tok : Nat) (num : Int)
    (hs : expr_operand_start (rest.headD NUL) = true) :
    lex (expr_at t (op.text ++ rest) tok num) = expr_at t rest op.token num := by
  simp only [expr_operand_start, Bool.and_eq_true, Bool.not_eq_true', bne_iff_ne, ne_eq] at hs
  obtain ⟨⟨⟨⟨⟨⟨h1, h2⟩, h3⟩, h4⟩, h5⟩, h6⟩, h7⟩ := hs
  rw [lex_operator (expr_at t (op.text ++ rest) tok num) op rest rfl rfl
    (by
      intro hm
      simp only [List.mem_cons, List.mem_singleton, List.not_mem_nil, or_false] at hm
      rcases hm with h | h | h | h | h | h <;> contradiction), dropWhile_stop _ _ h7]
  rfl

theorem lex_nil (t : tcl) (tok : Nat) (num : Int) :
    lex (expr_at t [] tok num) = expr_at t [] TOK_END_EXPR num :=
  lex_end _ rfl rfl

theorem lex_char (t : tcl) (c : Char) (rest : List Char) (tok : Nat) (num : Int)
    (hc : c ∈ expr_special) (hop : expr_lex_operator c rest = (c.toNat, rest))
    (hb : expr_is_blank (rest.headD NUL) = false) :
    lex (expr_at t (c :: rest) tok num) = expr_at t rest c.toNat num := by
  rw [lex_byte (expr_at t (c :: rest) tok num) c rest rfl rfl hc hop, dropWhile_stop _ _ hb]
  rfl

theorem digit_operand_start (c : Char) (h : isdigit c = true) : expr_operand_start c = true := by
  obtain ⟨-, -, hb⟩ := digit_facts_lex c h
  simp only [expr_operand_start, hb, Bool.not_false, Bool.and_true, Bool.and_eq_true, bne_iff_ne,
    ne_eq]
  refine ⟨⟨⟨⟨⟨?_, ?_⟩, ?_⟩, ?_⟩, ?_⟩, ?_⟩ <;> (intro e; subst e; revert h; decide)

theorem lit_operand_start (ds rest : List Char) (hlit : is_dec_literal ds) :
    expr_operand_start ((ds ++ rest).headD NUL) = true := by
  obtain ⟨hne, hds, -, -⟩ := hlit
  obtain ⟨c, r, rfl⟩ := List.exists_cons_of_ne_nil hne
  exact digit_operand_start c (hds c (by simp))

theorem op_text_follower (op : expr_op) (rest : List Char) :
    expr_follower ((op.text ++ rest).headD NUL) = true := by
  cases op <;> simp only [expr_op.text, List.cons_append, List.headD_cons] <;> decide

/-- The token of an operator belongs to the tokens of its own level only. -/
theorem op_token_level (op : expr_op) (i : Nat) (hi : i ≤ 10) :
    op.token ∈ expr_level_tokens i ↔ op.level = i := by
  interval_cases i <;> cases op <;> decide

theorem end_token_level (i : Nat) : TOK_END_EXPR ∉ expr_level_tokens i := by
  unfold expr_level_tokens
  split <;> decide

theorem EvalsTo.mono (k N M : Nat) (e : expr) (v : Int) (e2 : expr) (h : EvalsTo k N e v e2)
    (hNM : N ≤ M) : EvalsTo k M e v e2 :=
  fun F hF => h F (by omega)

/-- A decimal literal is a primary expression. -/
theorem PrimTo.lit (t : tcl) (ds rest : List Char) (tok : Nat) (num : Int)
    (hlit : is_dec_literal ds) (hf : expr_follower (rest.headD NUL) = true) :
    PrimTo 1 (expr_at t (ds ++ rest) tok num) (dec_value ds : Int)
      (expr_at t rest TOK_NUMBER (dec_value ds : Int)) := by
  have hl := lex_lit t ds rest tok num hlit hf
  have := PrimTo.number (expr_at t (ds ++ rest) tok num) (by rw [hl]; left; rfl)
  rw [hl] at this
  exact this

/-- A binary operator of a level below `expr_power` between two operands that
are parsed at higher levels. -/
theorem EvalsTo.binop_gen (op : expr_op) (hop : op.level ≤ 9) (jA jB NA NB : Nat) (e : expr)
    (a b v : Int) (e2 e4 : expr) (hA : EvalsTo jA NA e a e2) (hjA : op.level < jA ∧ jA ≤ 10)
    (hflag2 : e2.lexflag = 0) (htok2 : e2.token = op.token) (hB : EvalsTo jB NB e2 b e4)
    (hjB : op.level < jB ∧ jB ≤ 10) (hflag4 : e4.lexflag = 0)
    (htok4 : ∀ i, op.level ≤ i → i < jB → e4.token ∉ expr_level_tokens i)
    (hv : op.value a b = some v) :
    EvalsTo op.level (NA + NB + 12) e v e4 := by
  have hA1 := EvalsTo.lift_to jA hjA.2 e a e2 hflag2 (jA - (op.level + 1)) NA (by omega) hA
    (by
      intro i hi1 hi2
      rw [htok2, op_token_level op i (by omega)]
      omega)
  have hB1 := EvalsTo.lift_to jB hjB.2 e2 b e4 hflag4 (jB - (op.level + 1)) NB (by omega) hB
    (fun i hi1 hi2 => htok4 i (by omega) hi2)
  rw [show jA - (jA - (op.level + 1)) = op.level + 1 by omega] at hA1
  rw [show jB - (jB - (op.level + 1)) = op.level + 1 by omega] at hB1
  exact EvalsTo.mono _ _ _ _ _ _
    (EvalsTo.binop op hop _ _ e a b v e2 e4 hA1 hflag2 htok2 hB1 hflag4
      (htok4 _ (le_refl _) hjB.1) hv) (by omega)

/-- A literal followed by a token that is not `**`, as an operand. -/
theorem evals_lit (t : tcl) (ds rest : List Char) (tok : Nat) (num : Int) (L : expr)
    (hlit : is_dec_literal ds) (hf : expr_follower (rest.headD NUL) = true)
    (hL : lex (expr_at t rest TOK_NUMBER (dec_value ds : Int)) = L) (htok : L.token ≠ TOK_EXP) :
    EvalsTo 10 2 (expr_at t (ds ++ rest) tok num) (dec_value ds : Int) L := by
  have := EvalsTo.of_prim 1 _ _ _ (PrimTo.lit t ds rest tok num hlit hf) (by rw [hL]; exact htok)
  rw [hL] at this
  exact this

theorem nil_follower : expr_follower (([] : List Char).headD NUL) = true := by decide

/-- Two literals joined by a binary operator, followed by a token `L` that is not
an operator of the same or of a higher level. -/
theorem evals_binop_lits (t : tcl) (op : expr_op) (da db rest : List Char) (tok : Nat)
    (num v : Int) (L : expr) (ha : is_dec_literal da) (hb : is_dec_literal db)
    (hf : expr_follower (rest.headD NUL) = true)
    (hL : lex (expr_at t rest TOK_NUMBER (dec_value db : Int)) = L) (hLflag : L.lexflag = 0)
    (hLtok : ∀ i, op.level ≤ i → i ≤ 10 → L.token ∉ expr_level_tokens i)
    (hv : op.value (dec_value da : Int) (dec_value db : Int) = some v) :
    EvalsTo op.level 30 (expr_at t (da ++ (op.text ++ (db ++ rest))) tok num) v L := by
  have hLexp : L.token ≠ TOK_EXP := by
    have := hLtok 10 (by cases op <;> decide) (le_refl _)
    simpa [expr_level_tokens] using this
  have hlexop := lex_op t op (db ++ rest) TOK_NUMBER (dec_value da : Int)
    (lit_operand_start db rest hb)
  have hB := evals_lit t db rest op.token (dec_value da : Int) L hb hf hL hLexp
  by_cases hop : op.level ≤ 9
  · have hA := evals_lit t da (op.text ++ (db ++ rest)) tok num _ ha (op_text_follower op _)
      hlexop (by
        intro h
        have := (op_token_level op 10 (le_refl _)).mp (by
          rw [show (expr_at t (db ++ rest) op.token (dec_value da : Int)).token = op.token from rfl]
            at h
          rw [h]; simp [expr_level_tokens])
        omega)
    exact EvalsTo.mono _ _ _ _ _ _
      (EvalsTo.binop_gen op hop 10 10 2 2 _ _ _ v _ L hA ⟨by omega, le_refl _⟩ rfl rfl hB
        ⟨by omega, le_refl _⟩ hLflag (fun i hi1 hi2 => hLtok i hi1 (by omega)) hv) (by omega)
  · have hpow : op = expr_op.pow := by
      cases op <;> simp [expr_op.level] at hop
      rfl
    subst hpow
    have hP := PrimTo.lit t da (expr_op.pow.text ++ (db ++ rest)) tok num ha
      (op_text_follower _ _)
    have h := EvalsTo.pow 1 2 _ _ _ _ L hP (by rw [hlexop]; rfl) (by rw [hlexop]; exact hB)
      hLflag hLexp
    have hv2 : expr_power_value (dec_value da : Int) (dec_value db : Int) = v := by
      simpa [expr_op.value] using hv
    rw [hv2] at h
    exact EvalsTo.mono _ _ _ _ _ _ h (by simp)

theorem expr_skip_at (t : tcl) (s : List Char) (h : expr_is_blank (s.headD NUL) = false) :
    expr_skip ⟨s, 0, 0, 0, 0, t⟩ 0 = expr_at t s 0 0 := by
  simp only [expr_skip, expr_skip_count, expr_at]
  rw [dropWhile_stop _ _ h]

theorem lit_not_blank (ds rest : List Char) (hlit : is_dec_literal ds) :
    expr_is_blank ((ds ++ rest).headD NUL) = false := by
  have := lit_operand_start ds rest hlit
  simp only [expr_operand_start, Bool.and_eq_true, Bool.not_eq_true'] at this
  exact this.2

/-- The source's `tcl_expression` on an expression that begins with a literal and
whose parse ends, without error, at the end of the string. -/
theorem tcl_expression_of_evals_lit (t : tcl) (ds rest : List Char) (N : Nat) (v num : Int)
    (hlit : is_dec_literal ds)
    (h : EvalsTo 0 N (expr_at t (ds ++ rest) 0 0) v (expr_at t [] TOK_END_EXPR num))
    (hN : N ≤ 16 * ((ds ++ rest).length + 2)) :
    tcl_expression t (ds ++ rest) = some (eNONE, v, t) := by
  have := tcl_expression_of_evals t (ds ++ rest) N v (expr_at t [] TOK_END_EXPR num)
    (by rw [expr_skip_at t _ (lit_not_blank ds rest hlit)]; exact h) hN rfl rfl rfl
  exact this

theorem lit_length_pos (ds : List Char) (h : is_dec_literal ds) : 0 < ds.length :=
  List.length_pos.mpr h.1

theorem op_text_length_pos (op : expr_op) : 0 < op.text.length := by
  cases op <;> decide

theorem op_level_le (op : expr_op) : op.level ≤ 10 := by
  cases op <;> decide

/-- In `a op1 b op2 c`, the operator `op2` of the higher level is applied first. -/
theorem expr_low_high (t : tcl) (op1 op2 : expr_op) (da db dc : List Char) (v2 v : Int)
    (ha : is_dec_literal da) (hb : is_dec_literal db) (hc : is_dec_literal dc)
    (hlev : op1.level < op2.level)
    (hv2 : op2.value (dec_value db : Int) (dec_value dc : Int) = some v2)
    (hv : op1.value (dec_value da : Int) v2 = some v) :
    tcl_expression t (da ++ (op1.text ++ (db ++ (op2.text ++ dc)))) = some (eNONE, v, t) := by
  have h10 := op_level_le op2
  have hB := evals_binop_lits t op2 db dc [] op1.token (dec_value da : Int) v2
    (expr_at t [] TOK_END_EXPR (dec_value dc : Int)) hb hc nil_follower (lex_nil _ _ _) rfl
    (fun i _ _ => end_token_level i) hv2
  rw [List.append_nil] at hB
  have hA := evals_lit t da (op1.text ++ (db ++ (op2.text ++ dc))) 0 0
    (expr_at t (db ++ (op2.text ++ dc)) op1.token (dec_value da : Int)) ha
    (op_text_follower op1 _) (lex_op t op1 _ _ _ (lit_operand_start db _ hb))
    (by
      intro h
      have := (op_token_level op1 10 (le_refl _)).mp (by
        rw [show (expr_at t (db ++ (op2.text ++ dc)) op1.token (dec_value da : Int)).token
          = op1.token from rfl] at h
        rw [h]; simp [expr_level_tokens])
      omega)
  have hO := EvalsTo.binop_gen op1 (by omega) 10 op2.level 2 30 _ _ _ v _ _ hA
    ⟨by omega, le_refl _⟩ rfl rfl hB ⟨hlev, h10⟩ rfl (fun i _ _ => end_token_level i) hv
  have hT := EvalsTo.lift_to op1.level (by omega) _ v _ rfl op1.level _ (le_refl _) hO
    (fun i _ _ => end_token_level i)
  rw [Nat.sub_self] at hT
  have hla := lit_length_pos da ha
  have hlo := op_text_length_pos op1
  exact tcl_expression_of_evals_lit t da _ _ v _ ha hT
    (by simp only [List.length_append]; omega)

/-- In `a op2 b op1 c`, the operator `op2` of the higher level is applied first. -/
theorem expr_high_low (t : tcl) (op1 op2 : expr_op) (da db dc : List Char) (v1 v : Int)
    (ha : is_dec_literal da) (hb : is_dec_literal db) (hc : is_dec_literal dc)
    (hlev : op1.level < op2.level)
    (hv1 : op2.value (dec_value da : Int) (dec_value db : Int) = some v1)
    (hv : op1.value v1 (dec_value dc : Int) = some v) :
    tcl_expression t (da ++ (op2.text ++ (db ++ (op1.text ++ dc)))) = some (eNONE, v, t) := by
  have h10 := op_level_le op2
  have hA := evals_binop_lits t op2 da db (op1.text ++ dc) 0 0 v1
    (expr_at t dc op1.token (dec_value db : Int)) ha hb (op_text_follower op1 _)
    (lex_op t op1 _ _ _ (by have := lit_operand_start dc [] hc; simpa using this)) rfl
    (by
      intro i hi1 hi2
      rw [show (expr_at t dc op1.token (dec_value db : Int)).token = op1.token from rfl,
        op_token_level op1 i hi2]
      omega) hv1
  have hB := evals_lit t dc [] op1.token (dec_value db : Int)
    (expr_at t [] TOK_END_EXPR (dec_value dc : Int)) hc nil_follower (lex_nil _ _ _)
    (by show TOK_END_EXPR ≠ TOK_EXP; decide)
  rw [List.append_nil] at hB
  have hO := EvalsTo.binop_gen op1 (by omega) op2.level 10 30 2 _ _ _ v _ _ hA ⟨hlev, h10⟩ rfl rfl
    hB ⟨by omega, le_refl _⟩ rfl (fun i _ _ => end_token_level i) hv
  have hT := EvalsTo.lift_to op1.level (by omega) _ v _ rfl op1.level _ (le_refl _) hO
    (fun i _ _ => end_token_level i)
  rw [Nat.sub_self] at hT
  have hla := lit_length_pos da ha
  have hlo := op_text_length_pos op2
  exact tcl_expression_of_evals_lit t da _ _ v _ ha hT
    (by simp only [List.length_append]; omega)

/-- Two literals joined by a binary operator. -/
theorem expr_binop (t : tcl) (op : expr_op) (da db : List Char) (v : Int)
    (ha : is_dec_literal da) (hb : is_dec_literal db)
    (hv : op.value (dec_value da : Int) (dec_value db : Int) = some v) :
    tcl_expression t (da ++ (op.text ++ db)) = some (eNONE, v, t) := by
  have h10 := op_level_le op
  have hA := evals_binop_lits t op da db [] 0 0 v
    (expr_at t [] TOK_END_EXPR (dec_value db : Int)) ha hb nil_follower (lex_nil _ _ _) rfl
    (fun i _ _ => end_token_level i) hv
  rw [List.append_nil] at hA
  have hT := EvalsTo.lift_to op.level h10 _ v _ rfl op.level _ (le_refl _) hA
    (fun i _ _ => end_token_level i)
  rw [Nat.sub_self] at hT
  have hla := lit_length_pos da ha
  have hlo := op_text_length_pos op
  exact tcl_expression_of_evals_lit t da _ _ v _ ha hT
    (by simp only [List.length_append]; omega)

/-- The operator `**` is right-associative. -/
theorem expr_pow_right_assoc (t : tcl) (da db dc : List Char)
    (ha : is_dec_literal da) (hb : is_dec_literal db) (hc : is_dec_literal dc) :
    tcl_expression t (da ++ (['*', '*'] ++ (db ++ (['*', '*'] ++ dc)))) =
      some (eNONE, expr_power_value (dec_value da : Int)
        (expr_power_value (dec_value db : Int) (dec_value dc : Int)), t) := by
  have hB := evals_binop_lits t expr_op.pow db dc [] TOK_EXP (dec_value da : Int) _
    (expr_at t [] TOK_END_EXPR (dec_value dc : Int)) hb hc nil_follower (lex_nil _ _ _) rfl
    (fun i _ _ => end_token_level i) rfl
  rw [List.append_nil] at hB
  have hP := PrimTo.lit t da (expr_op.pow.text ++ (db ++ (expr_op.pow.text ++ dc))) 0 0 ha
    (op_text_follower _ _)
  have hlexop := lex_op t expr_op.pow (db ++ (expr_op.pow.text ++ dc)) TOK_NUMBER
    (dec_value da : Int) (lit_operand_start db _ hb)
  have hO := EvalsTo.pow 1 30 _ _ _ _ _ hP (by rw [hlexop]; rfl) (by rw [hlexop]; exact hB) rfl
    (by show TOK_END_EXPR ≠ TOK_EXP; decide)
  have hT := EvalsTo.lift_to 10 (le_refl _) _ _ _ rfl 10 _ (le_refl _) hO
    (fun i _ _ => end_token_level i)
  have hla := lit_length_pos da ha
  exact tcl_expression_of_evals_lit t da _ _ _ _ ha hT
    (by simp only [List.length_append, expr_op.text, List.length_cons, List.length_nil]; omega)

/-! ## Precedence and associativity -/

theorem close_token_level (i : Nat) : ')'.toNat ∉ expr_level_tokens i := by
  by_cases h : i ≤ 10
  · interval_cases i <;> decide
  · have : expr_level_tokens i = [] := by
      unfold expr_level_tokens
      split <;> first | omega | rfl
    rw [this]; exact List.not_mem_nil _

/-- In `(a op1 b) op2 c`, the parenthesised operation is applied first. -/
theorem expr_paren_first (t : tcl) (op1 op2 : expr_op) (da db dc : List Char) (v1 v : Int)
    (ha : is_dec_literal da) (hb : is_dec_literal db) (hc : is_dec_literal dc)
    (hop2 : op2.level ≤ 9)
    (hv1 : op1.value (dec_value da : Int) (dec_value db : Int) = some v1)
    (hv : op2.value v1 (dec_value dc : Int) = some v) :
    tcl_expression t ('(' :: (da ++ (op1.text ++ (db ++ (')' :: (op2.text ++ dc)))))) =
      some (eNONE, v, t) := by
  have h10 := op_level_le op1
  have hclose : lex (expr_at t (')' :: (op2.text ++ dc)) TOK_NUMBER (dec_value db : Int)) =
      expr_at t (op2.text ++ dc) ')'.toNat (dec_value db : Int) :=
    lex_char t ')' _ _ _ (by decide) (by simp [expr_lex_operator]) (by
      have := op_text_follower op2 dc
      simp only [expr_follower, Bool.and_eq_true, Bool.not_eq_true'] at this
      exact this.2)
  have hI := evals_binop_lits t op1 da db (')' :: (op2.text ++ dc)) '('.toNat 0 v1 _ ha hb
    (by show expr_follower ')' = true; decide) hclose rfl (fun i _ _ => close_token_level i) hv1
  have hI0 := EvalsTo.lift_to op1.level h10 _ v1 _ rfl op1.level _ (le_refl _) hI
    (fun i _ _ => close_token_level i)
  rw [Nat.sub_self] at hI0
  have hopen : lex (expr_at t ('(' :: (da ++ (op1.text ++ (db ++ (')' :: (op2.text ++ dc)))))) 0 0)
      = expr_at t (da ++ (op1.text ++ (db ++ (')' :: (op2.text ++ dc))))) '('.toNat 0 :=
    lex_char t '(' _ _ _ (by decide) (by simp [expr_lex_operator]) (lit_not_blank da _ ha)
  have hP := PrimTo.paren (30 + op1.level) _ v1 _ (by rw [hopen]; rfl) (by rw [hopen]; exact hI0)
    rfl rfl
  have hlexop := lex_op t op2 dc ')'.toNat (dec_value db : Int)
    (by have := lit_operand_start dc [] hc; simpa using this)
  have hA := EvalsTo.of_prim _ _ _ _ hP (by
    rw [hlexop]
    intro h
    have := (op_token_level op2 10 (le_refl _)).mp (by
      rw [show (expr_at t dc op2.token (dec_value db : Int)).token = op2.token from rfl] at h
      rw [h]; simp [expr_level_tokens])
    omega)
  rw [hlexop] at hA
  have hB := evals_lit t dc [] op2.token (dec_value db : Int)
    (expr_at t [] TOK_END_EXPR (dec_value dc : Int)) hc nil_follower (lex_nil _ _ _)
    (by show TOK_END_EXPR ≠ TOK_EXP; decide)
  rw [List.append_nil] at hB
  have hO := EvalsTo.binop_gen op2 hop2 10 10 _ 2 _ _ _ v _ _ hA ⟨by omega, le_refl _⟩ rfl rfl
    hB ⟨by omega, le_refl _⟩ rfl (fun i _ _ => end_token_level i) hv
  have hT := EvalsTo.lift_to op2.level (by omega) _ v _ rfl op2.level _ (le_refl _) hO
    (fun i _ _ => end_token_level i)
  rw [Nat.sub_self] at hT
  have hskip := expr_skip_at t ('(' :: (da ++ (op1.text ++ (db ++ (')' :: (op2.text ++ dc))))))
    (by show expr_is_blank '(' = false; decide)
  have hla := lit_length_pos da ha
  have hlb := lit_length_pos db hb
  have hlc := lit_length_pos dc hc
  have hlo := op_text_length_pos op1
  have hlo2 := op_text_length_pos op2
  exact tcl_expression_of_evals t _ _ v (expr_at t [] TOK_END_EXPR (dec_value dc : Int))
    (by rw [hskip]; exact hT)
    (by simp only [List.length_append, List.length_cons]; omega) rfl rfl rfl

theorem lit_digit (c : Char) (h : isdigit c = true) : is_dec_literal [c] := by
  refine ⟨by simp, by simpa using h, by simp, ?_⟩
  have h1 : c.toNat ≤ 57 := by
    simp only [isdigit, Bool.and_eq_true, decide_eq_true_eq] at h
    exact h.2
  simp only [dec_value, List.foldl_cons, List.foldl_nil, LONG_MAX]
  have : c.toNat - '0'.toNat ≤ 57 := by omega
  norm_num
  omega

/-- C2: `tcl_expression` evaluates with the precedence and the associativity of the
grammar.  In every interpreter context the inputs `1+2*3`, `2**3**2`, `(1|2)&3` and
`1<<3` give the error `eNONE` and the results 7, 512, 3 and 8.  In general, for decimal
literals `a`, `b`, `c` and binary operators `op1` of a lower grammar level than `op2`:
`a op1 b op2 c` is `a op1 (b op2 c)`, `a op2 b op1 c` is `(a op2 b) op1 c`, and
`a ** b ** c` is `a ** (b ** c)`. -/
theorem tcl_expression_precedence :
    (∀ t : tcl, tcl_expression t "1+2*3".toList = some (eNONE, 7, t)) ∧
    (∀ t : tcl, tcl_expression t "2**3**2".toList = some (eNONE, 512, t)) ∧
    (∀ t : tcl, tcl_expression t "(1|2)&3".toList = some (eNONE, 3, t)) ∧
    (∀ t : tcl, tcl_expression t "1<<3".toList = some (eNONE, 8, t)) ∧
    (∀ (t : tcl) (op1 op2 : expr_op) (da db dc : List Char) (v2 v : Int),
      is_dec_literal da → is_dec_literal db → is_dec_literal dc → op1.level < op2.level →
      op2.value (dec_value db : Int) (dec_value dc : Int) = some v2 →
      op1.value (dec_value da : Int) v2 = some v →
      tcl_expression t (da ++ (op1.text ++ (db ++ (op2.text ++ dc)))) = some (eNONE, v, t)) ∧
    (∀ (t : tcl) (op1 op2 : expr_op) (da db dc : List Char) (v1 v : Int),
      is_dec_literal da → is_dec_literal db → is_dec_literal dc → op1.level < op2.level →
      op2.value (dec_value da : Int) (dec_value db : Int) = some v1 →
      op1.value v1 (dec_value dc : Int) = some v →
      tcl_expression t (da ++ (op2.text ++ (db ++ (op1.text ++ dc)))) = some (eNONE, v, t)) ∧
    (∀ (t : tcl) (da db dc : List Char),
      is_dec_literal da → is_dec_literal db → is_dec_literal dc →
      tcl_expression t (da ++ (expr_op.pow.text ++ (db ++ (expr_op.pow.text ++ dc)))) =
        some (eNONE, expr_power_value (dec_value da : Int)
          (expr_power_value (dec_value db : Int) (dec_value dc : Int)), t)) := by
  have l1 := lit_digit '1' (by decide)
  have l2 := lit_digit '2' (by decide)
  have l3 := lit_digit '3' (by decide)
  refine ⟨fun t => ?_, fun t => ?_, fun t => ?_, fun t => ?_, ?_, ?_, ?_⟩
  · exact expr_low_high t expr_op.add expr_op.mul ['1'] ['2'] ['3'] 6 7 l1 l2 l3 (by decide)
      (by decide) (by decide)
  · have h := expr_pow_right_assoc t ['2'] ['3'] ['2'] l2 l3 l2
    have hv : expr_power_value (dec_value ['2'] : Int)
        (expr_power_value (dec_value ['3'] : Int) (dec_value ['2'] : Int)) = 512 := by decide
    rw [hv] at h
    exact h
  · exact expr_paren_first t expr_op.bor expr_op.band ['1'] ['2'] ['3'] 3 3 l1 l2 l3 (by decide)
      (by decide) (by decide)
  · exact expr_binop t expr_op.shl ['1'] ['3'] 8 l1 l3 (by decide)
  · intro t op1 op2 da db dc v2 v ha hb hc hlev hv2 hv
    exact expr_low_high t op1 op2 da db dc v2 v ha hb hc hlev hv2 hv
  · intro t op1 op2 da db dc v1 v ha hb hc hlev hv1 hv
    exact expr_high_low t op1 op2 da db dc v1 v ha hb hc hlev hv1 hv
  · intro t da db dc ha hb hc
    exact expr_pow_right_assoc t da db dc ha hb hc

/-! ## Counting the items of a list -/

theorem tcl_list_count_loop_done (m : Mem) (fuel count : Nat) (p : tcl_each_state)
    (h : ¬ p.start < p.end_) : tcl_list_count_loop m fuel p count = some count := by
  cases fuel <;> simp [tcl_list_count_loop, h]

/-- One iteration of the loop of `tcl_list_count` on an item of safe bytes. -/
theorem tcl_list_count_loop_word (m : Mem) (fuel count : Nat) (p : tcl_each_state)
    (sp w tl : Mem)
    (hm : m.drop p.start = sp ++ list_item_text w ++ tl)
    (hsp : ∀ c ∈ sp, tcl_is_space c = true)
    (htl : tcl_is_space (tl.headD NUL) = true ∨ tl.headD NUL = NUL)
    (hw : ∀ c ∈ w, list_safe_byte c = true)
    (hlen : sp.length + (list_item_text w).length < p.end_ - p.start)
    (hflags : p.flags = 4 ∨ (p.flags = 0 ∧ w.head? ≠ some '#')) :
    tcl_list_count_loop m (fuel + 1) p count =
      tcl_list_count_loop m fuel
        ⟨p.start + sp.length, p.start + sp.length + (list_item_text w).length,
          p.start + sp.length + (list_item_text w).length, p.end_, 4, Token.TWORD⟩
        (count + 1) := by
  have hstep := tcl_next_go_word m p.start (p.end_ - p.start) p.flags sp w tl hm hsp htl hw hlen
    hflags
  have hnext : tcl_each_next m p =
      ⟨p.start + sp.length, p.start + sp.length + (list_item_text w).length, p.start, p.end_, 4,
        Token.TWORD⟩ := by
    simp [tcl_each_next, tcl_next, hstep]
  have hlt : p.start < p.end_ := by omega
  rw [tcl_list_count_loop]
  simp only [hlt, if_true, hnext]
  rw [if_neg (by decide : ¬ Token.TWORD = Token.TERROR)]

/-- The loop of `tcl_list_count` over the items that follow the first one. -/
theorem tcl_list_count_loop_tail (m : Mem) (ws : List Mem) :
    ∀ (fuel count : Nat) (p : tcl_each_state),
      m.drop p.start = list_tail_text ws ++ [NUL] →
      (∀ w ∈ ws, ∀ c ∈ w, list_safe_byte c = true) →
      p.end_ = p.start + (list_tail_text ws).length + 1 → p.flags = 4 →
      ws.length + 1 ≤ fuel →
      tcl_list_count_loop m fuel p count = some (count + ws.length) := by
  induction ws with
  | nil =>
    intro fuel count p hm _ hend hfl hfuel
    obtain ⟨f, rfl⟩ : ∃ f, fuel = f + 1 := ⟨fuel - 1, by omega⟩
    have h0 : rd m p.start = NUL := by rw [rd_eq_headD_drop, hm]; rfl
    have hstep := tcl_next_go_end m p.start (p.end_ - p.start) p.flags h0
      (by simp [list_tail_text] at hend; omega) (Or.inl hfl)
    have hnext : tcl_each_next m p = ⟨p.start, p.start + 1, p.start, p.end_, 0, Token.TCMD⟩ := by
      simp [tcl_each_next, tcl_next, hstep]
    have hlt : p.start < p.end_ := by omega
    rw [tcl_list_count_loop]
    simp only [hlt, if_true, hnext]
    rw [if_neg (by decide), if_neg (by decide)]
    simp only [list_tail_text, List.length_nil, Nat.add_zero] at hend
    rw [tcl_list_count_loop_done]
    · simp
    · simp [hend]
  | cons w ws ih =>
    intro fuel count p hm hW hend hfl hfuel
    obtain ⟨f, rfl⟩ : ∃ f, fuel = f + 1 := ⟨fuel - 1, by omega⟩
    have hm2 : m.drop p.start = [' '] ++ list_item_text w ++ (list_tail_text ws ++ [NUL]) := by
      rw [hm]; simp [list_tail_text]
    have hlen : ([' '] : Mem).length + (list_item_text w).length < p.end_ - p.start := by
      rw [hend]; simp [list_tail_text]; omega
    rw [tcl_list_count_loop_word m f count p [' '] w (list_tail_text ws ++ [NUL]) hm2
      (by intro c hc; simp at hc; subst hc; decide) (list_tail_text_head ws)
      (hW w (by simp)) hlen (Or.inl hfl)]
    have hdrop : m.drop (p.start + ([' '] : Mem).length + (list_item_text w).length)
        = list_tail_text ws ++ [NUL] := by
      rw [Nat.add_assoc, ← List.drop_drop, hm2]
      exact List.drop_left' (by simp; omega)
    rw [ih f (count + 1) _ hdrop (fun v hv => hW v (by simp [hv]))
      (by simp [hend, list_tail_text]; omega) rfl (by simpa using hfuel)]
    simp only [List.length_cons]
    congr 1
    omega

/-- Counting the items of a list of safe words. -/
theorem tcl_list_count_list_text (W : List Mem)
    (hW : ∀ w ∈ W, ∀ c ∈ w, list_safe_byte c = true)
    (hfirst : ∀ w, W.head? = some w → w.head? ≠ some '#') :
    tcl_list_count (list_text W ++ [NUL]) = some W.length := by
  have hbytes := list_text_bytes W hW
  have hnul : NUL ∉ list_text W := fun h => (hbytes _ h).1 rfl
  have hhd : (list_text W).head? ≠ some BIN_TOKEN := by
    intro h
    cases hT : list_text W with
    | nil => simp [hT] at h
    | cons c t =>
      rw [hT] at h
      have : c ∈ list_text W := by simp [hT]
      exact (hbytes c this).2 (by simpa using h)
  obtain ⟨-, hl, hs, -, -⟩ := text_value_facts (list_text W) hnul hhd
  unfold text_encoding at hl hs
  unfold tcl_list_count
  rw [hl, hs]
  cases W with
  | nil =>
    have hstep := tcl_next_go_end [NUL] 0 1 0 rfl (by decide) (Or.inr rfl)
    simp only [list_text, List.nil_append, List.length_nil, tcl_each_init]
    rw [tcl_list_count_loop]
    simp [tcl_each_next, tcl_next, hstep, tcl_list_count_loop]
  | cons w ws =>
    simp only [list_text, tcl_each_init]
    have hlenw := list_item_text_length_pos w
    have hlent := list_tail_text_length ws
    obtain ⟨f, hf⟩ : ∃ f, (list_item_text w ++ list_tail_text ws).length + 2 = f + 1 := ⟨_, rfl⟩
    rw [hf]
    rw [tcl_list_count_loop_word _ f 0 _ [] w (list_tail_text ws ++ [NUL])
      (by simp) (by simp) (list_tail_text_head ws) (hW w (by simp))
      (by simp; omega) (Or.inr ⟨rfl, hfirst w rfl⟩)]
    rw [tcl_list_count_loop_tail _ ws f 1 _ (by simp)
      (fun v hv => hW v (by simp [hv])) (by simp) rfl
      (by simp at hf; omega)]
    simp only [List.length_cons]
    congr 1
    omega

/-! ## Division by zero and the operator `&&` -/

set_option maxRecDepth 100000 in
/-- C5: the unary operators at the operand 1 and 5, in a context without
variables.  `-5` is -5, `!5` is 0, `!0` is 1 and `~5` is -6, but `+1` evaluates to
-1: the case `+` of `expr_primary` negates its operand as the case `-` does. -/
theorem unary_plus_negates :
    tcl_expression ⟨[], [], [], [NUL], 0, 0, 0, []⟩ "+1".toList =
      some (eNONE, -1, ⟨[], [], [], [NUL], 0, 0, 0, []⟩) ∧
    tcl_expression ⟨[], [], [], [NUL], 0, 0, 0, []⟩ "-5".toList =
      some (eNONE, -5, ⟨[], [], [], [NUL], 0, 0, 0, []⟩) ∧
    tcl_expression ⟨[], [], [], [NUL], 0, 0, 0, []⟩ "!5".toList =
      some (eNONE, 0, ⟨[], [], [], [NUL], 0, 0, 0, []⟩) ∧
    tcl_expression ⟨[], [], [], [NUL], 0, 0, 0, []⟩ "!0".toList =
      some (eNONE, 1, ⟨[], [], [], [NUL], 0, 0, 0, []⟩) ∧
    tcl_expression ⟨[], [], [], [NUL], 0, 0, 0, []⟩ "~5".toList =
      some (eNONE, -6, ⟨[], [], [], [NUL], 0, 0, 0, []⟩) := by
  decide!

set_option maxRecDepth 100000 in
/-- C7: in a context whose only variable `x` holds the text `5`, the expression
`$x` evaluates to 5 without error, but `${x}` is not accepted: `expr_lex` tests
for the brace while it still looks at the `$`, so it reads the empty variable
name, evaluates it to 0, records the error kind `TCLERR_VARUNKNOWN`, and
`tcl_expression` returns the error `eEXTRA_CHARS` for the `{` that follows. -/
theorem braced_variable_rejected :
    tcl_expression ⟨[⟨['x', NUL], ['5', NUL], 0, false⟩], [], [], [NUL], 0, 0, 0, []⟩ "$x".toList =
      some (eNONE, 5, ⟨[⟨['x', NUL], ['5', NUL], 0, false⟩], [], [], [NUL], 0, 0, 0, []⟩) ∧
    (tcl_expression ⟨[⟨['x', NUL], ['5', NUL], 0, false⟩], [], [], [NUL], 0, 0, 0, []⟩
      "${x}".toList).map (fun r => (r.1, r.2.1, r.2.2.errorcode)) =
      some (eEXTRA_CHARS, 0, TCLERR_VARUNKNOWN) := by
  decide!

/-! ## The operator `**` -/

theorem wrapLong_neg_of_range (x : Int) (h0 : 0 ≤ x) (h1 : x ≤ LONG_MAX) :
    wrapLong (-x) = -x := by
  have h2 : x < 2 ^ 63 := by
    have : LONG_MAX = 2 ^ 63 - 1 := by decide
    omega
  by_cases hx : x = 0
  · subst hx; decide
  · unfold wrapLong Int.bmod
    have hm : (-x) % ((2 ^ 64 : Nat) : Int) = 2 ^ 64 - x := by
      rw [show -x = (2 ^ 64 - x) + (-1) * ((2 ^ 64 : Nat) : Int) by norm_num; omega]
      rw [Int.add_mul_emod_self]
      exact Int.emod_eq_of_lt (by omega) (by norm_num; omega)
    rw [hm]
    norm_num
    omega

/-- The loop of `expr_power` multiplies in wrapping arithmetic. -/
theorem expr_power_mul_eq (a : Int) (n : Nat) :
    ∀ v : Int, expr_power_mul a (n + 1) v = wrapLong (v * a ^ (n + 1)) := by
  induction n with
  | zero => intro v; simp [expr_power_mul]
  | succ n ih =>
    intro v
    rw [expr_power_mul, ih]
    unfold wrapLong
    rw [Int.bmod_mul_bmod]
    congr 1
    ring

theorem expr_power_value_eq (a b : Int) :
    expr_power_value a b =
      if b < 0 then 0 else if b = 0 then 1 else wrapLong (a ^ b.toNat) := by
  unfold expr_power_value
  by_cases h1 : b < 0
  · simp [h1]
  · rw [if_neg h1, if_neg h1]
    by_cases h2 : b = 0
    · subst h2; simp [expr_power_mul]
    · rw [if_neg h2]
      obtain ⟨n, hn⟩ : ∃ n, b.toNat = n + 1 := ⟨b.toNat - 1, by omega⟩
      rw [hn, expr_power_mul_eq, one_mul]

theorem PrimTo.more_fuel (N M : Nat) (e : expr) (v : Int) (e1 : expr) (h : PrimTo N e v e1)
    (hNM : N ≤ M) : PrimTo M e v e1 :=
  fun F hF => h F (by omega)

/-- A decimal literal with an optional minus sign is a primary expression. -/
theorem PrimTo.signed (t : tcl) (neg : Bool) (ds rest : List Char) (tok : Nat) (num : Int)
    (hlit : is_dec_literal ds) (hf : expr_follower (rest.headD NUL) = true) :
    PrimTo 2 (expr_at t (sign_text neg ++ (ds ++ rest)) tok num) (signed_value neg ds)
      (expr_at t rest TOK_NUMBER (dec_value ds : Int)) := by
  cases neg with
  | false => exact PrimTo.more_fuel 1 2 _ _ _ (PrimTo.lit t ds rest tok num hlit hf) (by decide)
  | true =>
    have hlex : lex (expr_at t ('-' :: (ds ++ rest)) tok num) =
        expr_at t (ds ++ rest) '-'.toNat num :=
      lex_char t '-' _ _ _ (by decide) (by simp [expr_lex_operator]) (lit_not_blank ds rest hlit)
    have h := PrimTo.neg 1 (expr_at t ('-' :: (ds ++ rest)) tok num) (dec_value ds : Int) _
      (by rw [hlex]; rfl) (by rw [hlex]; exact PrimTo.lit t ds rest _ _ hlit hf)
    rw [wrapLong_neg_of_range _ (Int.ofNat_nonneg _) hlit.2.2.2] at h
    exact h

theorem signed_operand_start (neg : Bool) (ds rest : List Char) (hlit : is_dec_literal ds) :
    expr_operand_start ((sign_text neg ++ (ds ++ rest)).headD NUL) = true ∧
    expr_is_blank ((sign_text neg ++ (ds ++ rest)).headD NUL) = false := by
  cases neg with
  | false => exact ⟨lit_operand_start ds rest hlit, lit_not_blank ds rest hlit⟩
  | true =>
    exact ⟨by show expr_operand_start '-' = true; decide,
      by show expr_is_blank '-' = false; decide⟩

/-- C6: for decimal literals with optional minus signs of values `a` and `b`, the
expression `a**b` evaluates without error to 0 when `b` is negative, to 1 when `b`
is 0, and to the product of `b` factors `a` in wrapping `long` arithmetic when `b`
is positive. -/
theorem expr_power_result (t : tcl) (na nb : Bool) (da db : List Char)
    (ha : is_dec_literal da) (hb : is_dec_literal db) :
    tcl_expression t (sign_text na ++ (da ++ ("**".toList ++ (sign_text nb ++ db)))) =
      some (eNONE,
        if signed_value nb db < 0 then 0
        else if signed_value nb db = 0 then 1
        else wrapLong (signed_value na da ^ (signed_value nb db).toNat), t) := by
  have hstart := signed_operand_start nb db [] hb
  rw [List.append_nil] at hstart
  have hP := PrimTo.signed t na da (expr_op.pow.text ++ (sign_text nb ++ db)) 0 0 ha
    (op_text_follower _ _)
  have hlexop := lex_op t expr_op.pow (sign_text nb ++ db) TOK_NUMBER (dec_value da : Int)
    hstart.1
  have hQ := PrimTo.signed t nb db [] expr_op.pow.token (dec_value da : Int) hb nil_follower
  rw [List.append_nil] at hQ
  have hB := EvalsTo.of_prim 2 _ _ _ hQ (by rw [lex_nil]; show TOK_END_EXPR ≠ TOK_EXP; decide)
  rw [lex_nil] at hB
  have hO := EvalsTo.pow 2 3 _ _ _ _ _ hP (by rw [hlexop]; rfl) (by rw [hlexop]; exact hB) rfl
    (by show TOK_END_EXPR ≠ TOK_EXP; decide)
  have hT := EvalsTo.lift_to 10 (le_refl _) _ _ _ rfl 10 _ (le_refl _) hO
    (fun i _ _ => end_token_level i)
  have hskip := expr_skip_at t
    (sign_text na ++ (da ++ (expr_op.pow.text ++ (sign_text nb ++ db))))
    (signed_operand_start na da _ ha).2
  have := tcl_expression_of_evals t _ _ _ (expr_at t [] TOK_END_EXPR (dec_value db : Int))
    (by rw [hskip]; exact hT) (by simp; omega) rfl rfl rfl
  rw [expr_power_value_eq] at this
  exact this

theorem expr_power_result_witness :
    is_dec_literal ['2'] ∧ is_dec_literal ['3'] ∧
    tcl_expression ⟨[], [], [], [NUL], 0, 0, 0, []⟩ "-2**3".toList =
      some (eNONE, -8, ⟨[], [], [], [NUL], 0, 0, 0, []⟩) :=
  ⟨lit_digit '2' (by decide), lit_digit '3' (by decide),
    (expr_power_result ⟨[], [], [], [NUL], 0, 0, 0, []⟩ true false ['2'] ['3']
      (lit_digit '2' (by decide)) (lit_digit '3' (by decide))).trans (by decide)⟩

/-! ## Flag words -/

theorem testBit_one (i : Nat) : (1 : Nat).testBit i = decide (0 = i) :=
  Nat.testBit_two_pow (n := 0) (m := i)

theorem testBit_two (i : Nat) : (2 : Nat).testBit i = decide (1 = i) :=
  Nat.testBit_two_pow (n := 1) (m := i)

theorem testBit_four (i : Nat) : (4 : Nat).testBit i = decide (2 = i) :=
  Nat.testBit_two_pow (n := 2) (m := i)

theorem and_one_cases (f : Nat) : f &&& 1 = 0 ∨ f &&& 1 = 1 := by
  rw [Nat.and_one_is_mod]; omega

theorem or4_and2 (f : Nat) : (f ||| 4) &&& 2 = f &&& 2 := by
  apply Nat.eq_of_testBit_eq
  intro i
  simp only [Nat.testBit_and, Nat.testBit_or, testBit_two, testBit_four]
  by_cases h : 1 = i
  · subst h; simp
  · simp [h]

theorem or4_and1 (f : Nat) : (f ||| 4) &&& 1 = f &&& 1 := by
  apply Nat.eq_of_testBit_eq
  intro i
  simp only [Nat.testBit_and, Nat.testBit_or, testBit_one, testBit_four]
  by_cases h : 0 = i
  · subst h; simp
  · simp [h]

theorem or2_and2 (f : Nat) : (f ||| 2) &&& 2 = 2 := by
  apply Nat.eq_of_testBit_eq
  intro i
  simp only [Nat.testBit_and, Nat.testBit_or, testBit_two]
  by_cases h : 1 = i
  · subst h; simp
  · simp [h]

theorem xor1_and1 (f : Nat) : ((f ^^^ 1) &&& 1 ≠ 0) ↔ f &&& 1 = 0 := by
  rw [Nat.and_xor_distrib_right]
  rcases and_one_cases f with h | h <;> simp [h]


/-! ## The lexer, case by case -/

/-- The result of the recursive call is used only when `LEX_VAR` is clear. -/
theorem tcl_next_token_inner (m : Mem) (a b : LexOut) (s len : Nat) (q : Bool) (fl : Nat)
    (h : fl &&& LEX_VAR ≠ 0) : tcl_next_token m a s len q fl = tcl_next_token m b s len q fl := by
  unfold tcl_next_token
  simp only [h, ne_eq, not_false_eq_true, or_true, if_true]

/-- In variable-name mode `tcl_next` makes no recursive call. -/
theorem tcl_next_go_var (m : Mem) (f s l flags : Nat) (h : flags &&& LEX_VAR ≠ 0) :
    tcl_next_go m f s l flags = tcl_next_go m 0 s l flags := by
  cases f with
  | zero => rfl
  | succ f =>
    rw [tcl_next_go, tcl_next_go]
    exact tcl_next_token_inner m _ _ _ _ _ _ (by
      simp only [LEX_NO_CMT, LEX_VAR] at h ⊢
      rw [or4_and2]; exact h)

theorem tail_flags_var (f : Nat) :
    (clearFlag (f ||| LEX_NO_CMT) LEX_QUOTE ||| LEX_VAR) &&& LEX_VAR ≠ 0 := by
  simp only [LEX_VAR]
  rw [or2_and2]; decide

/-- The source's `tcl_next` in terms of its two parts. -/
theorem tcl_next_eq (m : Mem) (string0 length0 to_ flags0 : Nat) :
    tcl_next m string0 length0 to_ flags0 =
      ((tcl_next_token m (tcl_next_tail m string0 length0 flags0)
          (tcl_next_string m string0 length0 flags0) (tcl_next_length m string0 length0 flags0)
          ((flags0 &&& LEX_QUOTE) != 0) (flags0 ||| LEX_NO_CMT)).token,
       (tcl_next_token m (tcl_next_tail m string0 length0 flags0)
          (tcl_next_string m string0 length0 flags0) (tcl_next_length m string0 length0 flags0)
          ((flags0 &&& LEX_QUOTE) != 0) (flags0 ||| LEX_NO_CMT)).from_,
       ((tcl_next_token m (tcl_next_tail m string0 length0 flags0)
          (tcl_next_string m string0 length0 flags0) (tcl_next_length m string0 length0 flags0)
          ((flags0 &&& LEX_QUOTE) != 0) (flags0 ||| LEX_NO_CMT)).to_).getD to_,
       (tcl_next_token m (tcl_next_tail m string0 length0 flags0)
          (tcl_next_string m string0 length0 flags0) (tcl_next_length m string0 length0 flags0)
          ((flags0 &&& LEX_QUOTE) != 0) (flags0 ||| LEX_NO_CMT)).flags) := by
  unfold tcl_next tcl_next_tail tcl_next_string tcl_next_length
  rw [tcl_next_go_var m 1 _ _ _ (tail_flags_var flags0)]
  rfl

/-! ## Variable tokens -/

/-- C11 as stated fails: on the unquoted text `$a$b` the token for `$a` is a PART,
not a WORD, because the name is followed by more text of the same word. -/
theorem tcl_next_variable_part_unquoted :
    tcl_next "$a$b".toList 0 5 0 0 = (Token.TPART, 0, 2, LEX_NO_CMT) ∧
    (0 : Nat) &&& LEX_QUOTE = 0 := by
  decide

/-- C11, amended: when the first byte that `tcl_next` does not skip is `$`, the
call returns ERROR if the byte after the `$` is a space, a tab or a double quote,
or if `LEX_VAR` is already set.  Otherwise the tail is lexed with quoting off and
`LEX_VAR` on, the flags of the caller (with `LEX_NO_CMT` set) are restored, the
token starts at the `$` and ends where the token of the tail ends, and its kind is
the kind of the token of the tail, except that a WORD becomes a PART when the
outer context is quoted. -/
theorem tcl_next_variable (m : Mem) (string0 length0 to_ flags0 : Nat)
    (h : rd m (tcl_next_string m string0 length0 flags0) = '$') :
    (tcl_is_space (rd m (tcl_next_string m string0 length0 flags0 + 1)) = true ∨
        rd m (tcl_next_string m string0 length0 flags0 + 1) = '"' ∨
        flags0 &&& LEX_VAR ≠ 0 →
      tcl_next m string0 length0 to_ flags0 =
        (Token.TERROR, tcl_next_string m string0 length0 flags0, to_, flags0 ||| LEX_NO_CMT)) ∧
    (¬ (tcl_is_space (rd m (tcl_next_string m string0 length0 flags0 + 1)) = true ∨
        rd m (tcl_next_string m string0 length0 flags0 + 1) = '"' ∨
        flags0 &&& LEX_VAR ≠ 0) →
      tcl_next m string0 length0 to_ flags0 =
        (if (tcl_next_tail m string0 length0 flags0).token = Token.TWORD ∧
              flags0 &&& LEX_QUOTE ≠ 0 then Token.TPART
          else (tcl_next_tail m string0 length0 flags0).token,
         tcl_next_string m string0 length0 flags0,
         (tcl_next_tail m string0 length0 flags0).to_.getD
           (tcl_next_tail m string0 length0 flags0).from_,
         flags0 ||| LEX_NO_CMT)) := by
  have hend : ¬ (((flags0 &&& LEX_QUOTE) != 0) = false ∧
      tcl_next_length m string0 length0 flags0 > 0 ∧
      tcl_is_end (rd m (tcl_next_string m string0 length0 flags0)) = true) := by
    rw [h]; rintro ⟨-, -, h3⟩; revert h3; decide
  have hvar : (flags0 ||| LEX_NO_CMT) &&& LEX_VAR = flags0 &&& LEX_VAR := or4_and2 flags0
  refine ⟨fun hc => ?_, fun hc => ?_⟩
  · rw [tcl_next_eq]
    unfold tcl_next_token
    rw [if_neg hend, if_pos h, if_pos (by rw [hvar]; exact hc)]
    rfl
  · rw [tcl_next_eq]
    unfold tcl_next_token
    rw [if_neg hend, if_pos h, if_neg (by rw [hvar]; exact hc)]
    simp

theorem tcl_next_variable_witness :
    rd "$a b".toList (tcl_next_string "$a b".toList 0 5 0) = '$' ∧
    tcl_next "$a b".toList 0 5 0 0 = (Token.TWORD, 0, 2, LEX_NO_CMT) :=
  ⟨by decide,
    ((tcl_next_variable "$a b".toList 0 5 0 0 (by decide)).2 (by decide)).trans (by decide)⟩

/-! ## Double quotes -/

/-- C12 as stated fails: in quote mode, on the slice that holds only the closing
quote, `tcl_next` returns ERROR although the byte after the quote is NUL. -/
theorem tcl_next_quote_at_slice_end :
    tcl_next ['"', NUL] 0 1 0 (LEX_QUOTE ||| LEX_NO_CMT) = (Token.TERROR, 1, 1, LEX_NO_CMT) ∧
    rd ['"', NUL] 1 = NUL := by
  decide

/-- C12, amended: when the first byte that `tcl_next` does not skip is a double
quote, the call toggles `LEX_QUOTE` and returns the empty range just after the
quote.  When this enters quote mode the token is a PART.  When it leaves quote
mode the token is a WORD if and only if the slice holds at least one byte after
the quote and that byte is a space, a tab, CR, LF, `;` or NUL; it is ERROR
otherwise, in particular when the quote is the last byte of the slice. -/
theorem tcl_next_quote (m : Mem) (string0 length0 to_ flags0 : Nat)
    (h : rd m (tcl_next_string m string0 length0 flags0) = '"') :
    tcl_next m string0 length0 to_ flags0 =
      (if flags0 &&& LEX_QUOTE = 0 then Token.TPART
        else if 2 ≤ tcl_next_length m string0 length0 flags0 ∧
          (tcl_is_space (rd m (tcl_next_string m string0 length0 flags0 + 1)) = true ∨
            tcl_is_end (rd m (tcl_next_string m string0 length0 flags0 + 1)) = true)
        then Token.TWORD else Token.TERROR,
       tcl_next_string m string0 length0 flags0 + 1,
       tcl_next_string m string0 length0 flags0 + 1,
       (flags0 ||| LEX_NO_CMT) ^^^ LEX_QUOTE) ∧
    (((flags0 ||| LEX_NO_CMT) ^^^ LEX_QUOTE) &&& LEX_QUOTE ≠ 0 ↔ flags0 &&& LEX_QUOTE = 0) := by
  have hend : ¬ (((flags0 &&& LEX_QUOTE) != 0) = false ∧
      tcl_next_length m string0 length0 flags0 > 0 ∧
      tcl_is_end (rd m (tcl_next_string m string0 length0 flags0)) = true) := by
    rw [h]; rintro ⟨-, -, h3⟩; revert h3; decide
  have htog : (((flags0 ||| LEX_NO_CMT) ^^^ LEX_QUOTE) &&& LEX_QUOTE ≠ 0 ↔
      flags0 &&& LEX_QUOTE = 0) := by
    have := xor1_and1 (flags0 ||| 4)
    rw [or4_and1] at this
    exact this
  refine ⟨?_, htog⟩
  rw [tcl_next_eq]
  unfold tcl_next_token
  rw [if_neg hend, if_neg (by rw [h]; decide),
    if_neg (by rw [h]; rintro (h1 | ⟨-, h1⟩) <;> exact absurd h1 (by decide)), if_pos h]
  by_cases hq : flags0 &&& LEX_QUOTE = 0
  · rw [if_pos (htog.mpr hq), if_pos hq]
    rfl
  · rw [if_neg (fun e => hq (htog.mp e)), if_neg hq]
    by_cases hw : 2 ≤ tcl_next_length m string0 length0 flags0 ∧
        (tcl_is_space (rd m (tcl_next_string m string0 length0 flags0 + 1)) = true ∨
          tcl_is_end (rd m (tcl_next_string m string0 length0 flags0 + 1)) = true)
    · rw [if_pos hw, if_neg]
      · rfl
      · rintro (h1 | ⟨h1, h2⟩)
        · omega
        · rcases hw.2 with h3 | h3
          · rw [h1] at h3; cases h3
          · rw [h2] at h3; cases h3
    · rw [if_neg hw, if_pos]
      · rfl
      · by_cases h2 : 2 ≤ tcl_next_length m string0 length0 flags0
        · right
          have h3 : ¬ (tcl_is_space (rd m (tcl_next_string m string0 length0 flags0 + 1)) = true ∨
              tcl_is_end (rd m (tcl_next_string m string0 length0 flags0 + 1)) = true) :=
            fun x => hw ⟨h2, x⟩
          simpa [not_or] using h3
        · left; omega

theorem tcl_next_quote_witness :
    rd "\" x".toList (tcl_next_string "\" x".toList 0 4 (LEX_QUOTE ||| LEX_NO_CMT)) = '"' ∧
    tcl_next "\" x".toList 0 4 0 (LEX_QUOTE ||| LEX_NO_CMT) = (Token.TWORD, 1, 1, LEX_NO_CMT) :=
  ⟨by decide,
    (tcl_next_quote "\" x".toList 0 4 0 (LEX_QUOTE ||| LEX_NO_CMT) (by decide)).1.trans
      (by decide)⟩

/-! ## Bare text -/

/-- The loop over the bytes of a bare token stops at the first stop byte, or at
the end of the slice. -/
theorem bare_loop_spec (m : Mem) (s : Nat) (q v : Bool) :
    ∀ (remaining i : Nat),
      i ≤ bare_loop m s q v remaining i ∧ bare_loop m s q v remaining i ≤ i + remaining ∧
      (∀ k, i ≤ k → k < bare_loop m s q v remaining i → bare_stop q v (rd m (s + k)) = false) ∧
      (bare_loop m s q v remaining i < i + remaining →
        bare_stop q v (rd m (s + bare_loop m s q v remaining i)) = true) := by
  intro remaining
  induction remaining with
  | zero =>
    intro i
    simp only [bare_loop, Nat.add_zero, le_refl, true_and]
    exact ⟨fun k h1 h2 => absurd h2 (by omega), fun h => absurd h (by omega)⟩
  | succ n ih =>
    intro i
    rw [bare_loop]
    by_cases hc : bare_stop q v (rd m (s + i)) = true
    · have hcond : ((q || !tcl_is_space (rd m (s + i))) &&
          !(v && tcl_is_operator (rd m (s + i))) && !tcl_is_special (rd m (s + i)) q) = false := by
        revert hc
        simp only [bare_stop]
        cases q <;> cases v <;> cases tcl_is_space (rd m (s + i)) <;>
          cases tcl_is_operator (rd m (s + i)) <;> cases tcl_is_special (rd m (s + i)) _ <;> simp
      rw [hcond]
      simp only [Bool.false_eq_true, if_false, le_refl, true_and]
      exact ⟨by omega, fun k h1 h2 => absurd h2 (by omega), fun _ => hc⟩
    · have hc2 : bare_stop q v (rd m (s + i)) = false := by simpa using hc
      have hcond : ((q || !tcl_is_space (rd m (s + i))) &&
          !(v && tcl_is_operator (rd m (s + i))) && !tcl_is_special (rd m (s + i)) q) = true := by
        revert hc2
        simp only [bare_stop]
        cases q <;> cases v <;> cases tcl_is_space (rd m (s + i)) <;>
          cases tcl_is_operator (rd m (s + i)) <;> cases tcl_is_special (rd m (s + i)) _ <;> simp
      rw [hcond]
      simp only [if_true]
      obtain ⟨h1, h2, h3, h4⟩ := ih (i + 1)
      refine ⟨by omega, by omega, fun k hk1 hk2 => ?_, fun h => h4 (by omega)⟩
      by_cases hk : k = i
      · subst hk; exact hc2
      · exact h3 k (by omega) hk2

/-- C14: a bare-text token.  When the first byte that `tcl_next` does not skip is
none of `$`, `[`, `{`, `"`, `]`, `}`, the binary sentinel or a command terminator,
the token starts there and runs up to the first byte that is white space (when
not quoted), an expression operator (when `LEX_VAR` is set) or a special byte, or
up to the end of the slice when it holds no such byte.  The token is a PART in
quote mode; outside quote mode it is a WORD if the byte that ends it is a space,
a tab, CR, LF, `;` or NUL, and a PART otherwise. -/
theorem tcl_next_bare (m : Mem) (string0 length0 to_ flags0 : Nat)
    (h : rd m (tcl_next_string m string0 length0 flags0) ∉
      ['$', '[', '{', '"', ']', '}', BIN_TOKEN])
    (hend : tcl_is_end (rd m (tcl_next_string m string0 length0 flags0)) = false) :
    ∃ i, i ≤ tcl_next_length m string0 length0 flags0 ∧
      (∀ k, k < i →
        bare_stop ((flags0 &&& LEX_QUOTE) != 0) ((flags0 &&& LEX_VAR) != 0)
          (rd m (tcl_next_string m string0 length0 flags0 + k)) = false) ∧
      (i < tcl_next_length m string0 length0 flags0 →
        bare_stop ((flags0 &&& LEX_QUOTE) != 0) ((flags0 &&& LEX_VAR) != 0)
          (rd m (tcl_next_string m string0 length0 flags0 + i)) = true) ∧
      tcl_next m string0 length0 to_ flags0 =
        (if flags0 &&& LEX_QUOTE ≠ 0 then Token.TPART
          else if tcl_is_space (rd m (tcl_next_string m string0 length0 flags0 + i)) = true ∨
              tcl_is_end (rd m (tcl_next_string m string0 length0 flags0 + i)) = true
            then Token.TWORD
          else Token.TPART,
         tcl_next_string m string0 length0 flags0,
         tcl_next_string m string0 length0 flags0 + i,
         flags0 ||| LEX_NO_CMT) := by
  simp only [List.mem_cons, List.mem_singleton, List.not_mem_nil, or_false, not_or] at h
  obtain ⟨h1, h2, h3, h4, h5, h6, h7⟩ := h
  have hvar : (flags0 ||| LEX_NO_CMT) &&& LEX_VAR = flags0 &&& LEX_VAR := or4_and2 flags0
  obtain ⟨-, hb2, hb3, hb4⟩ := bare_loop_spec m (tcl_next_string m string0 length0 flags0)
    ((flags0 &&& LEX_QUOTE) != 0) ((flags0 &&& LEX_VAR) != 0)
    (tcl_next_length m string0 length0 flags0) 0
  rw [Nat.zero_add] at hb2 hb4
  refine ⟨_, hb2, fun k hk => hb3 k (Nat.zero_le _) hk, hb4, ?_⟩
  rw [tcl_next_eq]
  unfold tcl_next_token
  rw [if_neg (by rw [hend]; simp), if_neg h1, if_neg (by
      rintro (e | ⟨-, e⟩)
      · exact h2 e
      · exact h3 e), if_neg h4, if_neg (by
      rintro (e | e)
      · exact h5 e
      · exact h6 e), if_neg h7]
  simp only [hvar]
  unfold tcl_next_finish
  rw [if_neg (by omega)]
  by_cases hq : flags0 &&& LEX_QUOTE = 0
  · simp only [hq, bne_self_eq_false, Bool.false_eq_true, if_false, ne_eq, not_true_eq_false,
      Bool.or_eq_true]
    split_ifs <;> rfl
  · have hq2 : ((flags0 &&& LEX_QUOTE) != 0) = true := by simpa using hq
    simp only [hq2, if_true, ne_eq, hq, not_false_eq_true]
    rfl

theorem tcl_next_bare_witness :
    ∃ i, i ≤ tcl_next_length "ab;".toList 0 4 0 ∧
      (∀ k, k < i →
        bare_stop (((0 : Nat) &&& LEX_QUOTE) != 0) (((0 : Nat) &&& LEX_VAR) != 0)
          (rd "ab;".toList (tcl_next_string "ab;".toList 0 4 0 + k)) = false) ∧
      (i < tcl_next_length "ab;".toList 0 4 0 →
        bare_stop (((0 : Nat) &&& LEX_QUOTE) != 0) (((0 : Nat) &&& LEX_VAR) != 0)
          (rd "ab;".toList (tcl_next_string "ab;".toList 0 4 0 + i)) = true) ∧
      tcl_next "ab;".toList 0 4 0 0 =
        (if (0 : Nat) &&& LEX_QUOTE ≠ 0 then Token.TPART
          else if tcl_is_space (rd "ab;".toList (tcl_next_string "ab;".toList 0 4 0 + i)) = true ∨
              tcl_is_end (rd "ab;".toList (tcl_next_string "ab;".toList 0 4 0 + i)) = true
            then Token.TWORD
          else Token.TPART,
         tcl_next_string "ab;".toList 0 4 0,
         tcl_next_string "ab;".toList 0 4 0 + i,
         0 ||| LEX_NO_CMT) :=
  tcl_next_bare "ab;".toList 0 4 0 0 (by decide) (by decide)

/-! ## Comments and the flag `LEX_NO_CMT` -/

theorem or4_and4 (f : Nat) : (f ||| 4) &&& 4 = 4 := by
  apply Nat.eq_of_testBit_eq
  intro i
  simp only [Nat.testBit_and, Nat.testBit_or, testBit_four]
  by_cases h : 2 = i
  · subst h; simp
  · simp [h]

theorem clear4_and4 (f : Nat) : clearFlag (f ||| 4) 4 &&& 4 = 0 := by
  unfold clearFlag
  rw [Nat.and_xor_distrib_right, Nat.and_assoc, Nat.and_self, Nat.xor_self]

theorem xor1_and4 (f : Nat) : ((f ||| 4) ^^^ 1) &&& 4 = 4 := by
  rw [Nat.and_xor_distrib_right, or4_and4]
  decide

theorem tcl_next_finish_flags (m : Mem) (s len i depth : Nat) (q : Bool) (fr fl : Nat) :
    (tcl_next_finish m s len i depth q fr fl).token ≠ Token.TCMD ∧
    (tcl_next_finish m s len i depth q fr fl).flags = fl := by
  unfold tcl_next_finish
  split_ifs <;> exact ⟨fun e => Token.noConfusion e, rfl⟩

/-- The flag `LEX_NO_CMT` after a call of `tcl_next` whose first byte is not `$`:
it is clear after a CMD token and set after every other result. -/
theorem tcl_next_no_cmt (m : Mem) (string0 length0 to_ flags0 : Nat)
    (h : rd m (tcl_next_string m string0 length0 flags0) ≠ '$') :
    ((tcl_next m string0 length0 to_ flags0).1 = Token.TCMD →
      (tcl_next m string0 length0 to_ flags0).2.2.2 &&& LEX_NO_CMT = 0) ∧
    ((tcl_next m string0 length0 to_ flags0).1 ≠ Token.TCMD →
      (tcl_next m string0 length0 to_ flags0).2.2.2 &&& LEX_NO_CMT ≠ 0) := by
  have h4 : (flags0 ||| LEX_NO_CMT) &&& LEX_NO_CMT ≠ 0 := by
    simp only [LEX_NO_CMT]; rw [or4_and4]; decide
  have hx : ((flags0 ||| LEX_NO_CMT) ^^^ LEX_QUOTE) &&& LEX_NO_CMT ≠ 0 := by
    simp only [LEX_NO_CMT, LEX_QUOTE]; rw [xor1_and4]; decide
  have hc : clearFlag (flags0 ||| LEX_NO_CMT) LEX_NO_CMT &&& LEX_NO_CMT = 0 := clear4_and4 flags0
  rw [tcl_next_eq]
  simp only
  unfold tcl_next_token
  split_ifs
  all_goals first
    | exact ⟨fun _ => hc, fun e => absurd rfl e⟩
    | exact ⟨fun e => absurd e (by decide), fun _ => h4⟩
    | exact ⟨fun e => absurd e (by decide), fun _ => hx⟩
    | (refine ⟨fun e => absurd e (tcl_next_finish_flags _ _ _ _ _ _ _ _).1, fun _ => ?_⟩
       rw [(tcl_next_finish_flags _ _ _ _ _ _ _ _).2]; exact h4)

/-- The loop `for (; length > 0 && pred(*string); string++, length--)` skips the
bytes that satisfy `pred`, up to the first one that does not or to the end of the
slice. -/
theorem run_length_spec (m : Mem) (pred : Char → Bool) :
    ∀ (length string : Nat),
      run_length m pred length string ≤ length ∧
      (∀ k, k < run_length m pred length string → pred (rd m (string + k)) = true) ∧
      (run_length m pred length string < length →
        pred (rd m (string + run_length m pred length string)) = false) := by
  intro length
  induction length with
  | zero => intro string; simp [run_length]
  | succ n ih =>
    intro string
    rw [run_length]
    by_cases hp : pred (rd m string) = true
    · rw [if_pos hp]
      obtain ⟨h1, h2, h3⟩ := ih (string + 1)
      refine ⟨by omega, fun k hk => ?_, fun h => ?_⟩
      · cases k with
        | zero => exact hp
        | succ k =>
          have := h2 k (by omega)
          rw [Nat.add_assoc, Nat.add_comm 1 k] at this
          exact this
      · have := h3 (by omega)
        rw [Nat.add_assoc, Nat.add_comm 1] at this
        exact this
    · rw [if_neg hp]
      exact ⟨by omega, fun k hk => absurd hk (by omega), fun _ => by simpa using hp⟩

theorem tcl_next_finish_from (m : Mem) (s len i depth : Nat) (q : Bool) (fr fl : Nat) :
    (tcl_next_finish m s len i depth q fr fl).from_ = fr := by
  unfold tcl_next_finish
  split_ifs <;> rfl

/-- The token that `tcl_next` returns starts at the first byte that is not
skipped, or one byte further. -/
theorem tcl_next_from (m : Mem) (string0 length0 to_ flags0 : Nat) :
    tcl_next_string m string0 length0 flags0 ≤ (tcl_next m string0 length0 to_ flags0).2.1 := by
  rw [tcl_next_eq]
  simp only
  unfold tcl_next_token
  split_ifs
  all_goals first
    | exact le_refl _
    | exact Nat.le_succ _
    | rw [tcl_next_finish_from]

/-- A comment at the start of a command: with `LEX_QUOTE` and `LEX_NO_CMT` clear
and `#` as the first byte after the leading spaces, `tcl_next` skips every byte
up to the next CR or LF (or to the end of the slice); the token it returns starts
at or after that position, and it is the CMD token of the line break when the
slice holds one. -/
theorem tcl_next_comment (m : Mem) (string0 length0 to_ flags0 : Nat)
    (hq : flags0 &&& LEX_QUOTE = 0) (hc : flags0 &&& LEX_NO_CMT = 0)
    (h : rd m (string0 + run_length m tcl_is_space length0 string0) = '#') :
    ∃ n, run_length m tcl_is_space length0 string0 + n ≤ length0 ∧
      (∀ k, k < n →
        rd m (string0 + run_length m tcl_is_space length0 string0 + k) ≠ '\n' ∧
        rd m (string0 + run_length m tcl_is_space length0 string0 + k) ≠ '\r') ∧
      tcl_next_string m string0 length0 flags0 =
        string0 + run_length m tcl_is_space length0 string0 + n ∧
      tcl_next_string m string0 length0 flags0 ≤ (tcl_next m string0 length0 to_ flags0).2.1 ∧
      (run_length m tcl_is_space length0 string0 + n < length0 →
        (rd m (tcl_next_string m string0 length0 flags0) = '\n' ∨
          rd m (tcl_next_string m string0 length0 flags0) = '\r') ∧
        tcl_next m string0 length0 to_ flags0 =
          (Token.TCMD, tcl_next_string m string0 length0 flags0,
            tcl_next_string m string0 length0 flags0 + 1,
            clearFlag (flags0 ||| LEX_NO_CMT) LEX_NO_CMT)) := by
  obtain ⟨ha, -, -⟩ := run_length_spec m tcl_is_space length0 string0
  generalize ha_eq : run_length m tcl_is_space length0 string0 = a at h ha ⊢
  obtain ⟨h1, h2, h3⟩ := run_length_spec m (fun c => c != '\n' && c != '\r') (length0 - a)
    (string0 + a)
  generalize hn : run_length m (fun c => c != '\n' && c != '\r') (length0 - a) (string0 + a) = n
    at h1 h2 h3
  have hk2 : run_length m tcl_is_space (length0 - a - n) (string0 + a + n) = 0 := by
    by_cases hlt : n < length0 - a
    · have hb := h3 hlt
      obtain ⟨l, hl⟩ : ∃ l, length0 - a - n = l + 1 := ⟨length0 - a - n - 1, by omega⟩
      rw [hl, run_length, if_neg]
      intro hs
      have : rd m (string0 + a + n) = ' ' ∨ rd m (string0 + a + n) = '\t' := by
        simpa [tcl_is_space] using hs
      rcases this with e | e <;> (rw [e] at hb; revert hb; decide)
    · have : length0 - a - n = 0 := by omega
      rw [this]; rfl
  have hskip : tcl_next_skip m string0 length0 flags0 = (string0 + a + n, length0 - a - n) := by
    unfold tcl_next_skip
    simp only [hq, bne_self_eq_false, Bool.false_eq_true, if_false, ha_eq]
    rw [if_pos ⟨h, hc⟩]
    simp only [hn, hk2, Nat.add_zero, Nat.sub_zero]
  have hs : tcl_next_string m string0 length0 flags0 = string0 + a + n := by
    unfold tcl_next_string; rw [hskip]
  have hl : tcl_next_length m string0 length0 flags0 = length0 - a - n := by
    unfold tcl_next_length; rw [hskip]
  refine ⟨n, by omega, fun k hk => ?_, hs, tcl_next_from m string0 length0 to_ flags0,
    fun hlt => ?_⟩
  · have := h2 k hk
    simp only [Bool.and_eq_true, bne_iff_ne, ne_eq] at this
    exact this
  · have hb := h3 (by omega)
    have hnl : rd m (string0 + a + n) = '\n' ∨ rd m (string0 + a + n) = '\r' := by
      by_contra hcon
      simp only [not_or] at hcon
      have : (rd m (string0 + a + n) != '\n' && rd m (string0 + a + n) != '\r') = true := by
        simp only [Bool.and_eq_true, bne_iff_ne, ne_eq]
        exact hcon
      rw [this] at hb
      cases hb
    rw [hs]
    refine ⟨hnl, ?_⟩
    rw [tcl_next_eq]
    unfold tcl_next_token
    rw [hs, hl, if_pos ⟨by simp [hq], by omega, by rcases hnl with e | e <;> (rw [e]; decide)⟩]
    rfl

set_option maxRecDepth 100000 in
/-- C15: on the text `$;#c`, a line break and `x`, `tcl_next` returns a CMD token
for `$;` and leaves `LEX_NO_CMT` set, so the next call lexes `#c` as a WORD
instead of skipping it as a comment.  On the same text without the `$`, the CMD
token for `;` clears `LEX_NO_CMT` and the next call skips the comment. -/
theorem tcl_next_cmd_keeps_no_cmt :
    tcl_next "$;#c\nx".toList 0 7 0 0 = (Token.TCMD, 0, 2, LEX_NO_CMT) ∧
    tcl_next "$;#c\nx".toList 2 5 2 LEX_NO_CMT = (Token.TWORD, 2, 4, LEX_NO_CMT) ∧
    tcl_next ";#c\nx".toList 0 6 0 0 = (Token.TCMD, 0, 1, 0) ∧
    tcl_next ";#c\nx".toList 1 5 1 0 = (Token.TCMD, 3, 4, 0) := by
  decide

/-! ## Balanced spans -/

theorem span_close_skip (opn cls : Char) :
    ∀ (bs : List Char) (depth skip : Nat),
      span_close opn cls bs depth skip =
        if skip ≤ bs.length then (span_close opn cls (bs.drop skip) depth 0).map (· + skip)
        else none := by
  intro bs
  induction bs with
  | nil =>
    intro depth skip
    cases skip with
    | zero => simp [span_close]
    | succ k => simp [span_close]
  | cons c rest ih =>
    intro depth skip
    cases skip with
    | zero => simp
    | succ k =>
      rw [span_close, ih]
      by_cases hk : k ≤ rest.length
      · rw [if_pos hk, if_pos (by simpa using hk)]
        simp only [List.drop_succ_cons, Option.map_map]
        rfl
      · rw [if_neg hk, if_neg (by simpa using hk)]
        rfl

/-- What the loop of `tcl_next` returns, given what the specification's scan of
the rest of the slice returns. -/
theorem brace_loop_step (m : Mem) (s len : Nat) (opn cls : Char) (bs bs2 : List Char)
    (i j depth depth2 fuel : Nat) (r : Option Nat)
    (hspec : span_close opn cls bs depth 0 = r.map (· + j))
    (hcode : brace_loop m s len opn cls (fuel + 1) i depth =
      brace_loop m s len opn cls fuel (i + j) depth2)
    (hj : 1 ≤ j) (hlen : bs2.length + j ≤ bs.length)
    (ih : (∀ k, r = some k →
        brace_loop m s len opn cls fuel (i + j) depth2 = (i + j + k, 0) ∧ 1 ≤ k ∧ k ≤ bs2.length) ∧
      (r = none → (brace_loop m s len opn cls fuel (i + j) depth2).1 = len ∧
        (brace_loop m s len opn cls fuel (i + j) depth2).2 ≠ 0)) :
    (∀ k, span_close opn cls bs depth 0 = some k →
        brace_loop m s len opn cls (fuel + 1) i depth = (i + k, 0) ∧ 1 ≤ k ∧ k ≤ bs.length) ∧
      (span_close opn cls bs depth 0 = none →
        (brace_loop m s len opn cls (fuel + 1) i depth).1 = len ∧
        (brace_loop m s len opn cls (fuel + 1) i depth).2 ≠ 0) := by
  rw [hspec, hcode]
  refine ⟨fun k hk => ?_, fun hn => ?_⟩
  · cases r with
    | none => simp at hk
    | some k2 =>
      simp only [Option.map_some', Option.some.injEq] at hk
      obtain ⟨h1, h2, h3⟩ := ih.1 k2 rfl
      rw [h1]
      exact ⟨by rw [← hk, Nat.add_assoc, Nat.add_comm j k2], by omega, by omega⟩
  · cases r with
    | none => exact ih.2 rfl
    | some k2 => simp at hn

theorem rd_of_drop_append (m : Mem) (a : Nat) (bs post : Mem) (k : Nat)
    (h : m.drop a = bs ++ post) (hk : k < bs.length) : rd m (a + k) = bs.getD k NUL := by
  rw [← rd_drop, h, rd_append_left _ _ _ hk]
  rfl

theorem drop_of_drop_append (m : Mem) (a : Nat) (bs post : Mem) (j : Nat)
    (h : m.drop a = bs ++ post) (hj : j ≤ bs.length) : m.drop (a + j) = bs.drop j ++ post := by
  have : m.drop (a + j) = (m.drop a).drop j := by rw [List.drop_drop, Nat.add_comm]
  rw [this, h, List.drop_append_of_le_length hj]

theorem brace_loop_done (m : Mem) (s len : Nat) (opn cls : Char) (fuel i depth : Nat)
    (h : ¬ (i < len ∧ depth ≠ 0)) : brace_loop m s len opn cls fuel i depth = (i, depth) := by
  cases fuel with
  | zero => rfl
  | succ f => rw [brace_loop, if_neg h]

/-- The loop of `tcl_next` over a balanced span finds the closing byte that the
specification's scan finds, and runs to the end of the slice with a non-zero
depth when the scan finds none. -/
theorem brace_loop_span (m : Mem) (s len : Nat) (opn cls : Char) (post : List Char) :
    ∀ (n : Nat) (bs : List Char) (i depth fuel : Nat),
      bs.length ≤ n → m.drop (s + i) = bs ++ post → len = i + bs.length → 1 ≤ depth →
      bs.length ≤ fuel →
      (∀ k, span_close opn cls bs depth 0 = some k →
        brace_loop m s len opn cls fuel i depth = (i + k, 0) ∧ 1 ≤ k ∧ k ≤ bs.length) ∧
      (span_close opn cls bs depth 0 = none →
        (brace_loop m s len opn cls fuel i depth).1 = len ∧
        (brace_loop m s len opn cls fuel i depth).2 ≠ 0) := by
  intro n
  induction n with
  | zero =>
    intro bs i depth fuel hn hm hlen hd hfuel
    have hbs : bs = [] := List.length_eq_zero.mp (by omega)
    subst hbs
    rw [brace_loop_done m s len opn cls fuel i depth (by simp at hlen; omega)]
    simp only [span_close, List.length_nil]
    exact ⟨fun k hk => by simp at hk, fun _ => ⟨by simp at hlen; omega, by omega⟩⟩
  | succ n ih =>
    intro bs i depth fuel hn hm hlen hd hfuel
    cases bs with
    | nil =>
      rw [brace_loop_done m s len opn cls fuel i depth (by simp at hlen; omega)]
      simp only [span_close, List.length_nil]
      exact ⟨fun k hk => by simp at hk, fun _ => ⟨by simp at hlen; omega, by omega⟩⟩
    | cons c rest =>
      simp only [List.length_cons] at hn hlen hfuel
      obtain ⟨f, rfl⟩ : ∃ f, fuel = f + 1 := ⟨fuel - 1, by omega⟩
      have hc : rd m (s + i) = c := (rd_of_drop_eq m (s + i) c (rest ++ post) hm).1
      have hm1 : m.drop (s + i) = (c :: rest) ++ post := hm
      have hrest : ∀ j, j ≤ rest.length → m.drop (s + (i + (j + 1))) = rest.drop j ++ post := by
        intro j hj
        have := drop_of_drop_append m (s + i) (c :: rest) post (j + 1) hm1 (by simpa using hj)
        rw [show s + (i + (j + 1)) = s + i + (j + 1) by omega, this]
        rfl
      have hlt : i < len ∧ depth ≠ 0 := ⟨by omega, by omega⟩
      have hnext : rest ≠ [] → rd m (s + (i + 1)) = rest.headD NUL := by
        intro hne
        have := rd_of_drop_append m (s + i) (c :: rest) post 1 hm1
          (by simp; exact List.length_pos.mpr hne)
        rw [show s + (i + 1) = s + i + 1 by omega, this]
        cases rest with
        | nil => exact absurd rfl hne
        | cons c2 r2 => rfl
      -- the escape
      by_cases hesc : c = '\\' ∧ (rest.head? = some opn ∨ rest.head? = some cls)
      · obtain ⟨c2, rest2, hr⟩ : ∃ c2 rest2, rest = c2 :: rest2 := by
          cases rest with
          | nil => simp at hesc
          | cons c2 r2 => exact ⟨c2, r2, rfl⟩
        subst hr
        have hn2 := hnext (by simp)
        simp only [List.headD_cons] at hn2
        have hcode : brace_loop m s len opn cls (f + 1) i depth =
            brace_loop m s len opn cls f (i + 2) depth := by
          rw [brace_loop, if_pos hlt, if_pos ⟨by rw [hc]; exact hesc.1, by simp at hlen; omega, by
            rw [hn2]; simpa using hesc.2⟩]
        have hspec : span_close opn cls (c :: c2 :: rest2) depth 0 =
            (span_close opn cls rest2 depth 0).map (· + 2) := by
          rw [span_close, if_pos hesc, span_close_skip]
          simp [Option.map_map]
        exact brace_loop_step m s len opn cls _ rest2 i 2 depth depth f _ hspec hcode (by omega)
          (by simp) (ih rest2 (i + 2) depth f (by simp at hn; omega)
            (by have := hrest 1 (by simp); simpa using this) (by simp at hlen; omega) hd
            (by simp at hfuel; omega))
      · have hesc2 : ¬ (rd m (s + i) = '\\' ∧ i + 1 < len ∧
            (rd m (s + (i + 1)) = opn ∨ rd m (s + (i + 1)) = cls)) := by
          rintro ⟨h1, h2, h3⟩
          have hne : rest ≠ [] := by
            intro e; subst e; simp at hlen; omega
          rw [hnext hne] at h3
          apply hesc
          refine ⟨by rw [← hc]; exact h1, ?_⟩
          cases rest with
          | nil => exact absurd rfl hne
          | cons c2 r2 => simpa using h3
        have hplain : ∀ d2, 1 ≤ d2 →
            span_close opn cls (c :: rest) depth 0 =
              (span_close opn cls rest d2 0).map (· + 1) →
            brace_loop m s len opn cls (f + 1) i depth =
              brace_loop m s len opn cls f (i + 1) d2 →
            (∀ k, span_close opn cls (c :: rest) depth 0 = some k →
              brace_loop m s len opn cls (f + 1) i depth = (i + k, 0) ∧ 1 ≤ k ∧
                k ≤ (c :: rest).length) ∧
            (span_close opn cls (c :: rest) depth 0 = none →
              (brace_loop m s len opn cls (f + 1) i depth).1 = len ∧
              (brace_loop m s len opn cls (f + 1) i depth).2 ≠ 0) := by
          intro d2 hd2 hspec hcode
          exact brace_loop_step m s len opn cls _ rest i 1 depth d2 f _ hspec hcode (by omega)
            (by simp) (ih rest (i + 1) d2 f (by omega)
              (by have := hrest 0 (by simp); simpa using this) (by omega) hd2 (by omega))
        by_cases hopn : c = opn
        · exact hplain (depth + 1) (by omega)
            (by rw [span_close, if_neg hesc, if_pos hopn])
            (by rw [brace_loop, if_pos hlt, if_neg hesc2, if_pos (by rw [hc]; exact hopn)])
        · by_cases hcls : c = cls
          · by_cases hd1 : depth ≤ 1
            · have hd0 : depth - 1 = 0 := by omega
              have hcode : brace_loop m s len opn cls (f + 1) i depth = (i + 1, 0) := by
                rw [brace_loop, if_pos hlt, if_neg hesc2, if_neg (by rw [hc]; exact hopn),
                  if_pos (by rw [hc]; exact hcls), hd0,
                  brace_loop_done _ _ _ _ _ _ _ _ (by simp)]
              have hspec : span_close opn cls (c :: rest) depth 0 = some 1 := by
                rw [span_close, if_neg hesc, if_neg hopn, if_pos hcls, if_pos hd1]
              rw [hspec, hcode]
              exact ⟨fun k hk => by
                simp only [Option.some.injEq] at hk
                subst hk
                exact ⟨rfl, le_refl _, by simp⟩, fun h => by simp at h⟩
            · exact hplain (depth - 1) (by omega)
                (by rw [span_close, if_neg hesc, if_neg hopn, if_pos hcls, if_neg hd1])
                (by rw [brace_loop, if_pos hlt, if_neg hesc2, if_neg (by rw [hc]; exact hopn),
                  if_pos (by rw [hc]; exact hcls)])
          · by_cases hbin : c = BIN_TOKEN ∧ 3 ≤ rest.length ∧ span_blob_size rest + 2 ≤ rest.length
            · have hsz : BIN_SIZE m (s + i) = span_blob_size rest := by
                unfold BIN_SIZE span_blob_size
                have h1 := rd_of_drop_append m (s + i) (c :: rest) post 1 hm1 (by simp; omega)
                have h2 := rd_of_drop_append m (s + i) (c :: rest) post 2 hm1 (by simp; omega)
                rw [h1, h2]
                simp
              have hcode : brace_loop m s len opn cls (f + 1) i depth =
                  brace_loop m s len opn cls f (i + (span_blob_size rest + 3)) depth := by
                rw [brace_loop, if_pos hlt, if_neg hesc2, if_neg (by rw [hc]; exact hopn),
                  if_neg (by rw [hc]; exact hcls),
                  if_pos ⟨by rw [hc]; exact hbin.1, by omega⟩, hsz, if_pos (by omega)]
                rfl
              have hspec : span_close opn cls (c :: rest) depth 0 =
                  (span_close opn cls (rest.drop (span_blob_size rest + 2)) depth 0).map
                    (· + (span_blob_size rest + 3)) := by
                rw [span_close, if_neg hesc, if_neg hopn, if_neg hcls, if_pos hbin,
                  span_close_skip, if_pos hbin.2.2]
                simp [Option.map_map]
              exact brace_loop_step m s len opn cls _ (rest.drop (span_blob_size rest + 2)) i
                (span_blob_size rest + 3) depth depth f _ hspec hcode (by omega)
                (by simp; omega)
                (ih _ (i + (span_blob_size rest + 3)) depth f (by simp; omega)
                  (by
                    have := hrest (span_blob_size rest + 2) hbin.2.2
                    rw [show i + (span_blob_size rest + 3) = i + (span_blob_size rest + 2 + 1)
                      by omega]
                    exact this)
                  (by simp; omega) hd (by simp; omega))
            · have hcode : brace_loop m s len opn cls (f + 1) i depth =
                  brace_loop m s len opn cls f (i + 1) depth := by
                rw [brace_loop, if_pos hlt, if_neg hesc2, if_neg (by rw [hc]; exact hopn),
                  if_neg (by rw [hc]; exact hcls)]
                by_cases hb1 : rd m (s + i) = BIN_TOKEN ∧ i + 3 < len
                · rw [if_pos hb1, if_neg]
                  intro hfit
                  apply hbin
                  have h3 : 3 ≤ rest.length := by omega
                  have hsz : BIN_SIZE m (s + i) = span_blob_size rest := by
                    unfold BIN_SIZE span_blob_size
                    have h1 := rd_of_drop_append m (s + i) (c :: rest) post 1 hm1
                      (by simp; omega)
                    have h2 := rd_of_drop_append m (s + i) (c :: rest) post 2 hm1
                      (by simp; omega)
                    rw [h1, h2]
                    simp
                  rw [hsz] at hfit
                  exact ⟨by rw [← hc]; exact hb1.1, h3, by omega⟩
                · rw [if_neg hb1]
              exact hplain depth hd
                (by rw [span_close, if_neg hesc, if_neg hopn, if_neg hcls, if_neg hbin])
                hcode

/-! ## The token of a balanced span -/

/-- Nothing is skipped when the first byte is neither a space nor `#`. -/
theorem tcl_next_skip_none (m : Mem) (string0 length0 flags0 : Nat)
    (hs : tcl_is_space (rd m string0) = false) (hc : rd m string0 ≠ '#') :
    tcl_next_skip m string0 length0 flags0 = (string0, length0) := by
  have hk : run_length m tcl_is_space length0 string0 = 0 := by
    cases length0 with
    | zero => rfl
    | succ l => simp [run_length, hs]
  unfold tcl_next_skip
  simp only [hk, ite_self, Nat.add_zero, Nat.sub_zero]
  rw [if_neg (fun h => hc h.1)]

/-- The result of `tcl_next` on a slice that starts a balanced span, from what
the specification's scan of the rest of the slice finds. -/
theorem tcl_next_span_eq (m : Mem) (string0 length0 to_ flags0 : Nat) (body post : List Char)
    (hopen : rd m (tcl_next_string m string0 length0 flags0) = '[' ∨
      (flags0 &&& LEX_QUOTE = 0 ∧ rd m (tcl_next_string m string0 length0 flags0) = '{'))
    (hm : m.drop (tcl_next_string m string0 length0 flags0 + 1) = body ++ post)
    (hlen : tcl_next_length m string0 length0 flags0 = body.length + 1) :
    tcl_next m string0 length0 to_ flags0 =
      match span_close (rd m (tcl_next_string m string0 length0 flags0))
          (if rd m (tcl_next_string m string0 length0 flags0) = '[' then ']' else '}')
          body 1 0 with
      | some k =>
        (if flags0 &&& LEX_QUOTE ≠ 0 then Token.TPART
          else if tcl_is_space (rd m (tcl_next_string m string0 length0 flags0 + (1 + k))) = true ∨
              tcl_is_end (rd m (tcl_next_string m string0 length0 flags0 + (1 + k))) = true
            then Token.TWORD
          else Token.TPART,
         tcl_next_string m string0 length0 flags0,
         tcl_next_string m string0 length0 flags0 + (1 + k),
         flags0 ||| LEX_NO_CMT)
      | none =>
        (Token.TERROR, tcl_next_string m string0 length0 flags0,
         tcl_next_string m string0 length0 flags0 + tcl_next_length m string0 length0 flags0,
         flags0 ||| LEX_NO_CMT) := by
  have hend : ¬ (((flags0 &&& LEX_QUOTE) != 0) = false ∧
      tcl_next_length m string0 length0 flags0 > 0 ∧
      tcl_is_end (rd m (tcl_next_string m string0 length0 flags0)) = true) := by
    rintro ⟨-, -, h3⟩
    rcases hopen with e | ⟨-, e⟩ <;> (rw [e] at h3; revert h3; decide)
  have hdollar : ¬ rd m (tcl_next_string m string0 length0 flags0) = '$' := by
    intro h
    rcases hopen with e | ⟨-, e⟩ <;> (rw [e] at h; revert h; decide)
  have hbr : rd m (tcl_next_string m string0 length0 flags0) = '[' ∨
      (((flags0 &&& LEX_QUOTE) != 0) = false ∧
        rd m (tcl_next_string m string0 length0 flags0) = '{') := by
    rcases hopen with e | ⟨hq, e⟩
    · exact Or.inl e
    · exact Or.inr ⟨by simp [hq], e⟩
  obtain ⟨hsome, hnone⟩ := brace_loop_span m (tcl_next_string m string0 length0 flags0)
    (tcl_next_length m string0 length0 flags0)
    (rd m (tcl_next_string m string0 length0 flags0))
    (if rd m (tcl_next_string m string0 length0 flags0) = '[' then ']' else '}')
    post body.length body 1 1 (tcl_next_length m string0 length0 flags0) (le_refl _) hm
    (by omega) (le_refl _) (by omega)
  rw [tcl_next_eq]
  unfold tcl_next_token
  rw [if_neg hend, if_neg hdollar, if_pos hbr]
  simp only
  cases hr : span_close (rd m (tcl_next_string m string0 length0 flags0))
      (if rd m (tcl_next_string m string0 length0 flags0) = '[' then ']' else '}') body 1 0 with
  | none =>
    obtain ⟨h1, h2⟩ := hnone hr
    unfold tcl_next_finish
    rw [if_pos (Or.inr ⟨h1, h2⟩), h1]
    rfl
  | some k =>
    obtain ⟨h1, h2, h3⟩ := hsome k hr
    rw [h1]
    unfold tcl_next_finish
    simp only
    rw [if_neg (by
      rintro (h | ⟨-, h⟩)
      · omega
      · exact h rfl)]
    by_cases hq : flags0 &&& LEX_QUOTE = 0
    · simp only [hq, bne_self_eq_false, Bool.false_eq_true, if_false, ne_eq, not_true_eq_false,
        Bool.or_eq_true]
      split_ifs <;> rfl
    · have hq2 : ((flags0 &&& LEX_QUOTE) != 0) = true := by simpa using hq
      simp only [hq2, if_true, ne_eq, hq, not_false_eq_true]
      rfl

/-- C13: a slice that starts with `[`, or with `{` outside quote mode.  The rest
of the slice is scanned with a nesting depth that starts at 1: the opening byte
adds one, the closing byte takes one off, a backslash right before an opening or
closing byte takes that byte out of the count (and a binary blob is passed over).
When the depth returns to zero, `tcl_next` returns the token that runs from the
opening byte through that closing byte; when the slice ends before, it returns
ERROR. -/
theorem tcl_next_span (m : Mem) (string0 length0 to_ flags0 : Nat) (body post : List Char)
    (hopen : rd m (tcl_next_string m string0 length0 flags0) = '[' ∨
      (flags0 &&& LEX_QUOTE = 0 ∧ rd m (tcl_next_string m string0 length0 flags0) = '{'))
    (hm : m.drop (tcl_next_string m string0 length0 flags0 + 1) = body ++ post)
    (hlen : tcl_next_length m string0 length0 flags0 = body.length + 1) :
    (∀ k, span_close (rd m (tcl_next_string m string0 length0 flags0))
          (if rd m (tcl_next_string m string0 length0 flags0) = '[' then ']' else '}')
          body 1 0 = some k →
      tcl_next m string0 length0 to_ flags0 =
        (if flags0 &&& LEX_QUOTE ≠ 0 then Token.TPART
          else if tcl_is_space (rd m (tcl_next_string m string0 length0 flags0 + (1 + k))) = true ∨
              tcl_is_end (rd m (tcl_next_string m string0 length0 flags0 + (1 + k))) = true
            then Token.TWORD
          else Token.TPART,
         tcl_next_string m string0 length0 flags0,
         tcl_next_string m string0 length0 flags0 + (1 + k),
         flags0 ||| LEX_NO_CMT)) ∧
    (span_close (rd m (tcl_next_string m string0 length0 flags0))
          (if rd m (tcl_next_string m string0 length0 flags0) = '[' then ']' else '}')
          body 1 0 = none →
      tcl_next m string0 length0 to_ flags0 =
        (Token.TERROR, tcl_next_string m string0 length0 flags0,
         tcl_next_string m string0 length0 flags0 + tcl_next_length m string0 length0 flags0,
         flags0 ||| LEX_NO_CMT)) := by
  have h := tcl_next_span_eq m string0 length0 to_ flags0 body post hopen hm hlen
  refine ⟨fun k hk => ?_, fun hn => ?_⟩
  · rw [hk] at h; exact h
  · rw [hn] at h; exact h

theorem tcl_next_span_witness :
    span_close '{' '}' ['a', '{', 'b', '}', '\\', '}', 'c', '}'] 1 0 = some 8 ∧
    tcl_next ['{', 'a', '{', 'b', '}', '\\', '}', 'c', '}', ' ', 'x'] 0 11 0 0 =
      (Token.TWORD, 0, 9, LEX_NO_CMT) :=
  ⟨by decide,
    ((tcl_next_span ['{', 'a', '{', 'b', '}', '\\', '}', 'c', '}', ' ', 'x'] 0 11 0 0
      ['a', '{', 'b', '}', '\\', '}', 'c', '}', ' ', 'x'] []
      (by decide) (by decide) (by decide)).1 8 (by decide)).trans (by decide)⟩

/-! ## Binary blobs inside a balanced span -/

theorem span_close_pos (opn cls : Char) :
    ∀ (bs : List Char) (depth skip k : Nat),
      span_close opn cls bs depth skip = some k → skip + 1 ≤ k := by
  intro bs
  induction bs with
  | nil => intro depth skip k h; simp [span_close] at h
  | cons c rest ih =>
    intro depth skip k h
    have hmap : ∀ (d sk : Nat), (span_close opn cls rest d sk).map (· + 1) = some k →
        sk + 1 ≤ k - 1 ∧ 1 ≤ k := by
      intro d sk hm
      cases hr : span_close opn cls rest d sk with
      | none => rw [hr] at hm; simp at hm
      | some k2 =>
        rw [hr] at hm
        simp only [Option.map_some', Option.some.injEq] at hm
        have := ih d sk k2 hr
        omega
    cases skip with
    | succ sk =>
      rw [span_close] at h
      have := hmap depth sk h
      omega
    | zero =>
      rw [span_close] at h
      split_ifs at h
      · have := hmap _ _ h; omega
      · have := hmap _ _ h; omega
      · simp only [Option.some.injEq] at h; omega
      · have := hmap _ _ h; omega
      · have := hmap _ _ h; omega
      · have := hmap _ _ h; omega

theorem span_blob_size_header (n : Nat) (hn : n ≤ 65535) (tl : List Char) :
    span_blob_size (Char.ofNat (n % 256) :: Char.ofNat (n / 256 % 256) :: tl) = n := by
  unfold span_blob_size
  simp only [List.getD_cons_zero, List.getD_cons_succ]
  rw [toNat_ofNat_byte _ (Nat.mod_lt _ (by decide)), toNat_ofNat_byte _ (Nat.mod_lt _ (by decide))]
  omega

/-- The scan of a span does not look at the payload of a binary blob that lies in
the slice: the result does not depend on the payload bytes, and the closing byte
it finds lies before the blob or after it. -/
theorem span_close_blob (opn cls : Char) (hopn : opn ≠ BIN_TOKEN) (hcls : cls ≠ BIN_TOKEN)
    (p p2 post : List Char) (hlen : p2.length = p.length) (hn : p.length ≤ 65535)
    (hpost : post ≠ []) :
    ∀ (n : Nat) (pre : List Char) (depth : Nat), pre.length ≤ n → BIN_TOKEN ∉ pre →
      span_close opn cls (pre ++ (blob_header p.length ++ (p ++ post))) depth 0 =
        span_close opn cls (pre ++ (blob_header p.length ++ (p2 ++ post))) depth 0 ∧
      ∀ k, span_close opn cls (pre ++ (blob_header p.length ++ (p ++ post))) depth 0 = some k →
        k ≤ pre.length ∨ pre.length + 3 + p.length < k := by
  have hpl : 0 < post.length := List.length_pos.mpr hpost
  have hblob : ∀ (q : List Char) (depth : Nat), q.length = p.length →
      span_close opn cls (blob_header p.length ++ (q ++ post)) depth 0 =
        (span_close opn cls post depth 0).map (· + (p.length + 3)) := by
    intro q depth hq
    have hsz := span_blob_size_header p.length hn (q ++ post)
    simp only [blob_header, List.cons_append, List.nil_append]
    rw [span_close, if_neg (by rintro ⟨h, -⟩; revert h; decide), if_neg (fun h => hopn h.symm),
      if_neg (fun h => hcls h.symm),
      if_pos ⟨rfl, by simp; omega, by rw [hsz]; simp; omega⟩, hsz, span_close_skip,
      if_pos (by simp; omega)]
    have hdrop : (Char.ofNat (p.length % 256) :: Char.ofNat (p.length / 256 % 256) ::
        (q ++ post)).drop (p.length + 2) = post := by
      rw [show p.length + 2 = (p.length + 1) + 1 by omega, List.drop_succ_cons,
        List.drop_succ_cons, ← hq, List.drop_left]
    rw [hdrop]
    simp [Option.map_map]
  intro n
  induction n with
  | zero =>
    intro pre depth hle _
    have hpre : pre = [] := List.length_eq_zero.mp (by omega)
    subst hpre
    simp only [List.nil_append, List.length_nil, Nat.zero_add]
    rw [hblob p depth rfl, hblob p2 depth hlen]
    refine ⟨rfl, fun k hk => ?_⟩
    cases hr : span_close opn cls post depth 0 with
    | none => rw [hr] at hk; simp at hk
    | some k2 =>
      rw [hr] at hk
      simp only [Option.map_some', Option.some.injEq] at hk
      have := span_close_pos opn cls post depth 0 k2 hr
      right; omega
  | succ n ih =>
    intro pre depth hle hbin
    cases pre with
    | nil =>
      simp only [List.nil_append, List.length_nil, Nat.zero_add]
      rw [hblob p depth rfl, hblob p2 depth hlen]
      refine ⟨rfl, fun k hk => ?_⟩
      cases hr : span_close opn cls post depth 0 with
      | none => rw [hr] at hk; simp at hk
      | some k2 =>
        rw [hr] at hk
        simp only [Option.map_some', Option.some.injEq] at hk
        have := span_close_pos opn cls post depth 0 k2 hr
        right; omega
    | cons c pre1 =>
      have hc : c ≠ BIN_TOKEN := fun e => hbin (by simp [e])
      have hb1 : BIN_TOKEN ∉ pre1 := fun e => hbin (by simp [e])
      simp only [List.length_cons] at hle
      have hhead : ∀ q : List Char,
          (pre1 ++ (blob_header p.length ++ (q ++ post))).head? =
            (pre1 ++ [BIN_TOKEN]).head? := by
        intro q
        cases pre1 with
        | nil => rfl
        | cons c2 r => rfl
      have hstep : ∀ (d2 : Nat),
          (span_close opn cls (pre1 ++ (blob_header p.length ++ (p ++ post))) d2 0).map (· + 1) =
            (span_close opn cls (pre1 ++ (blob_header p.length ++ (p2 ++ post))) d2 0).map (· + 1) ∧
          ∀ k, (span_close opn cls (pre1 ++ (blob_header p.length ++ (p ++ post))) d2 0).map
              (· + 1) = some k →
            k ≤ (c :: pre1).length ∨ (c :: pre1).length + 3 + p.length < k := by
        intro d2
        obtain ⟨h1, h2⟩ := ih pre1 d2 (by omega) hb1
        refine ⟨by rw [h1], fun k hk => ?_⟩
        cases hr : span_close opn cls (pre1 ++ (blob_header p.length ++ (p ++ post))) d2 0 with
        | none => rw [hr] at hk; simp at hk
        | some k2 =>
          rw [hr] at hk
          simp only [Option.map_some', Option.some.injEq] at hk
          have := h2 k2 hr
          simp only [List.length_cons]
          omega
      simp only [List.cons_append]
      rw [span_close, span_close]
      rw [hhead p, hhead p2]
      by_cases hesc : c = '\\' ∧ ((pre1 ++ [BIN_TOKEN]).head? = some opn ∨
          (pre1 ++ [BIN_TOKEN]).head? = some cls)
      · rw [if_pos hesc, if_pos hesc]
        cases pre1 with
        | nil =>
          exfalso
          rcases hesc.2 with h | h
          · simp at h; exact hopn h.symm
          · simp at h; exact hcls h.symm
        | cons c2 pre2 =>
          have hb2 : BIN_TOKEN ∉ pre2 := fun e => hb1 (by simp [e])
          simp only [List.cons_append]
          rw [span_close, span_close]
          simp only [List.length_cons] at hle
          obtain ⟨h1, h2⟩ := ih pre2 depth (by omega) hb2
          refine ⟨by rw [h1], fun k hk => ?_⟩
          cases hr : span_close opn cls (pre2 ++ (blob_header p.length ++ (p ++ post))) depth 0 with
          | none => rw [hr] at hk; simp at hk
          | some k2 =>
            rw [hr] at hk
            simp only [Option.map_some', Option.some.injEq] at hk
            have := h2 k2 hr
            simp only [List.length_cons]
            omega
      · rw [if_neg hesc, if_neg hesc]
        by_cases ho : c = opn
        · rw [if_pos ho, if_pos ho]
          exact hstep (depth + 1)
        · rw [if_neg ho, if_neg ho]
          by_cases hcl : c = cls
          · rw [if_pos hcl, if_pos hcl]
            by_cases hd : depth ≤ 1
            · rw [if_pos hd, if_pos hd]
              refine ⟨rfl, fun k hk => ?_⟩
              simp only [Option.some.injEq] at hk
              left; simp only [List.length_cons]; omega
            · rw [if_neg hd, if_neg hd]
              exact hstep (depth - 1)
          · rw [if_neg hcl, if_neg hcl, if_neg (fun h => hc h.1), if_neg (fun h => hc h.1)]
            exact hstep depth

theorem rd_payload_congr (a p p2 b : List Char) (hlen : p2.length = p.length) (k : Nat)
    (hk : k < a.length ∨ a.length + p.length ≤ k) :
    rd (a ++ (p ++ b)) k = rd (a ++ (p2 ++ b)) k := by
  rcases hk with hk | hk
  · rw [rd_append_left _ _ _ hk, rd_append_left _ _ _ hk]
  · obtain ⟨j, rfl⟩ : ∃ j, k = a.length + (p.length + j) := ⟨k - a.length - p.length, by omega⟩
    rw [rd_append_right, rd_append_right, rd_append_right]
    rw [← hlen, rd_append_right]

/-- C16: a brace span that holds a binary blob (the sentinel, the 16-bit length
`n` and `n` payload bytes, with at least one byte of the slice after them) behind
text `pre` without a sentinel byte.  The lexer does not interpret the payload:
`tcl_next` returns the same token, with the same end, for every other payload
`p2` of the same length, whatever braces or backslashes the payload `p` holds. -/
theorem tcl_next_blob_opaque (pre p p2 post rest : List Char) (to_ flags0 : Nat)
    (hq : flags0 &&& LEX_QUOTE = 0) (hpre : BIN_TOKEN ∉ pre) (hlen : p2.length = p.length)
    (hn : p.length ≤ 65535) (hpost : post ≠ []) :
    tcl_next ('{' :: (pre ++ (blob_header p.length ++ (p ++ post))) ++ rest) 0
        (pre.length + p.length + post.length + 4) to_ flags0 =
      tcl_next ('{' :: (pre ++ (blob_header p.length ++ (p2 ++ post))) ++ rest) 0
        (pre.length + p.length + post.length + 4) to_ flags0 := by
  have hside : ∀ q : List Char, q.length = p.length →
      tcl_next ('{' :: (pre ++ (blob_header p.length ++ (q ++ post))) ++ rest) 0
          (pre.length + p.length + post.length + 4) to_ flags0 =
        match span_close '{' '}' (pre ++ (blob_header p.length ++ (q ++ post))) 1 0 with
        | some k =>
          (if flags0 &&& LEX_QUOTE ≠ 0 then Token.TPART
            else if tcl_is_space
                (rd ((pre ++ blob_header p.length) ++ (q ++ (post ++ rest))) k) = true ∨
                tcl_is_end (rd ((pre ++ blob_header p.length) ++ (q ++ (post ++ rest))) k) = true
              then Token.TWORD
            else Token.TPART,
           0, 0 + (1 + k), flags0 ||| LEX_NO_CMT)
        | none =>
          (Token.TERROR, 0, 0 + (pre.length + p.length + post.length + 4),
            flags0 ||| LEX_NO_CMT) := by
    intro q hql
    have hskip := tcl_next_skip_none
      ('{' :: (pre ++ (blob_header p.length ++ (q ++ post))) ++ rest) 0
      (pre.length + p.length + post.length + 4) flags0
      (by show tcl_is_space '{' = false; decide) (by show '{' ≠ '#'; decide)
    have hs : tcl_next_string ('{' :: (pre ++ (blob_header p.length ++ (q ++ post))) ++ rest) 0
        (pre.length + p.length + post.length + 4) flags0 = 0 := by
      unfold tcl_next_string; rw [hskip]
    have hl : tcl_next_length ('{' :: (pre ++ (blob_header p.length ++ (q ++ post))) ++ rest) 0
        (pre.length + p.length + post.length + 4) flags0 =
          pre.length + p.length + post.length + 4 := by
      unfold tcl_next_length; rw [hskip]
    have h0 : rd ('{' :: (pre ++ (blob_header p.length ++ (q ++ post))) ++ rest) 0 = '{' := rfl
    have h := tcl_next_span_eq ('{' :: (pre ++ (blob_header p.length ++ (q ++ post))) ++ rest)
      0 (pre.length + p.length + post.length + 4) to_ flags0
      (pre ++ (blob_header p.length ++ (q ++ post))) rest
      (Or.inr ⟨hq, by rw [hs]; exact h0⟩) (by rw [hs]; rfl)
      (by rw [hl]; simp [blob_header, hql]; omega)
    rw [h, hs, hl, h0, if_neg (by decide)]
    have hrd : ∀ k, rd ('{' :: (pre ++ (blob_header p.length ++ (q ++ post))) ++ rest)
        (0 + (1 + k)) = rd ((pre ++ blob_header p.length) ++ (q ++ (post ++ rest))) k := by
      intro k
      rw [Nat.zero_add, Nat.add_comm 1 k]
      simp only [List.cons_append, rd_cons_succ, List.append_assoc]
    cases span_close '{' '}' (pre ++ (blob_header p.length ++ (q ++ post))) 1 0 with
    | none => rfl
    | some k => simp only [hrd]
  obtain ⟨heq, hk⟩ := span_close_blob '{' '}' (by decide) (by decide) p p2 post hlen hn hpost
    pre.length pre 1 (le_refl _) hpre
  rw [hside p rfl, hside p2 hlen, ← heq]
  cases hr : span_close '{' '}' (pre ++ (blob_header p.length ++ (p ++ post))) 1 0 with
  | none => rfl
  | some k =>
    have hb := hk k hr
    have := rd_payload_congr (pre ++ blob_header p.length) p p2 (post ++ rest) hlen k
      (by simp [blob_header]; omega)
    simp only [this]

theorem tcl_next_blob_opaque_witness :
    tcl_next ('{' :: (['a'] ++ (blob_header 2 ++ (['}', '\\'] ++ ['}']))) ++ [' ', 'x'])
        0 8 0 0 = (Token.TWORD, 0, 8, LEX_NO_CMT) ∧
    tcl_next ('{' :: (['a'] ++ (blob_header 2 ++ (['}', '\\'] ++ ['}']))) ++ [' ', 'x'])
        0 8 0 0 =
      tcl_next ('{' :: (['a'] ++ (blob_header 2 ++ (['z', 'z'] ++ ['}']))) ++ [' ', 'x'])
        0 8 0 0 :=
  ⟨by decide,
    tcl_next_blob_opaque ['a'] ['}', '\\'] ['z', 'z'] ['}'] [' ', 'x'] 0 0
      (by decide) (by decide) (by decide) (by decide) (by decide)⟩

/-! ## Appending an item to a list -/

/-- The condition for braces, as a list of bytes. -/
theorem needs_brace_iff (w : Mem) (hn : NUL ∉ w) :
    needs_brace w = true ↔
      (w = [] ∨ ∃ c ∈ w, c ∈ [' ', '\t', '$', '[', ']', '"', '{', '}', ';', '\r', '\n']) := by
  unfold needs_brace
  simp only [Bool.or_eq_true, List.isEmpty_iff, List.any_eq_true]
  constructor
  · rintro (h | ⟨c, hc, h⟩)
    · exact Or.inl h
    · refine Or.inr ⟨c, hc, ?_⟩
      simp only [tcl_is_space, tcl_is_special, Bool.or_eq_true, beq_iff_eq, Bool.not_false,
        Bool.true_and] at h
      simp only [List.mem_cons, List.mem_singleton, List.not_mem_nil, or_false]
      have hc0 : c ≠ NUL := fun e => hn (e ▸ hc)
      tauto
  · rintro (h | ⟨c, hc, h⟩)
    · exact Or.inl h
    · refine Or.inr ⟨c, hc, ?_⟩
      simp only [List.mem_cons, List.mem_singleton, List.not_mem_nil, or_false] at h
      simp only [tcl_is_space, tcl_is_special, Bool.or_eq_true, beq_iff_eq, Bool.not_false,
        Bool.true_and]
      tauto

/-- C17 as stated fails: a binary blob is not wrapped in braces.  Appending the
binary value of the one byte `a` to the empty list gives the blob itself, with
its header and without braces. -/
theorem tcl_list_append_blob_bare :
    tcl_list_append tcl_list_alloc (tcl_value ['a'] 0 1 true) =
      [BIN_TOKEN, Char.ofNat 1, Char.ofNat 0, 'a', NUL] ∧
    is_binary_encoded (tcl_value ['a'] 0 1 true) = true := by
  decide

/-- C17, amended: `tcl_list_append(list, item)` produces the old list text (the
`tcl_list_size(list)` first bytes of `list`), then a single space if that text is
not empty, then the item.  A text item is wrapped in `{` `}` if and only if it is
empty or holds a space, a tab, `$`, `[`, `]`, `"`, `{`, `}`, `;`, CR or LF, and is
copied bare otherwise.  A binary blob is not wrapped: it is copied bare with its
three-byte header, except that the empty blob is written as `{}`. -/
theorem tcl_list_append_item (list : Mem) :
    (∀ w : Mem, NUL ∉ w → w.head? ≠ some BIN_TOKEN →
      tcl_list_append list (text_encoding w) =
        slice list 0 (tcl_list_size (some list)) ++
          (if tcl_list_size (some list) > 0 then [' '] else []) ++
          (if w = [] ∨ ∃ c ∈ w,
              c ∈ [' ', '\t', '$', '[', ']', '"', '{', '}', ';', '\r', '\n']
            then '{' :: (w ++ ['}']) else w) ++ [NUL]) ∧
    (∀ p : Mem, p.length ≤ 65535 →
      tcl_list_append list (blob_encoding p) =
        slice list 0 (tcl_list_size (some list)) ++
          (if tcl_list_size (some list) > 0 then [' '] else []) ++
          (if p = [] then ['{', '}'] else blob_header p.length ++ p) ++ [NUL]) := by
  refine ⟨fun w h1 h3 => ?_, fun p hp => ?_⟩
  · obtain ⟨h0, hl, hs, -, hb⟩ := text_value_facts w h1 h3
    have hc : cstr (text_encoding w) 0 = w := cstr_of_parts w [NUL] h1 rfl
    have e2 : slice (text_encoding w) 0 w.length = w := by simp [slice, text_encoding]
    have hnb := needs_brace_iff w h1
    unfold tcl_list_append
    simp only [hl, hb, hs, hc, Bool.false_eq_true, if_false, Nat.add_zero, e2]
    by_cases hw : w = []
    · subst hw
      simp
    · have hpos : w.length > 0 := List.length_pos.mpr hw
      simp only [hpos, if_true, gt_iff_lt]
      by_cases hq : needs_brace w = true
      · have hq2 := hnb.mp hq
        have hany : w.any (fun c => tcl_is_space c || tcl_is_special c false) = true := by
          simpa [needs_brace, hw] using hq
        rw [if_pos hq2]
        simp [hany]
      · have hq2 : ¬ (w = [] ∨ ∃ c ∈ w,
            c ∈ [' ', '\t', '$', '[', ']', '"', '{', '}', ';', '\r', '\n']) :=
          fun h => hq (hnb.mpr h)
        have hany : w.any (fun c => tcl_is_space c || tcl_is_special c false) = false := by
          have : needs_brace w = false := by simpa using hq
          simpa [needs_brace, hw] using this
        rw [if_neg hq2]
        simp [hany]
  · obtain ⟨h0, hl, hs, -, hb⟩ := blob_value_facts p hp
    unfold tcl_list_append
    simp only [hl, hb, hs]
    by_cases hw : p = []
    · subst hw
      simp
    · have hpos : p.length > 0 := List.length_pos.mpr hw
      have e2 : slice (blob_encoding p) 0 (p.length + 3) = blob_header p.length ++ p := by
        simp [slice, blob_encoding, blob_header]
      simp only [hpos, if_true, gt_iff_lt, hw, decide_True, decide_not, e2, if_false,
        not_false_eq_true, decide_False, Bool.not_false]
      simp

/-! ## A binary item in a list -/

/-- C18: the list of the single word `x`, and the binary value of the one byte
`a`.  After `tcl_list_append` the list holds the blob with its header, whose third
byte is NUL, so the length that `tcl_list_at` and `tcl_list_count` take for the
list text ends inside the header: `tcl_list_at(list, 1)` returns NULL and
`tcl_list_count` still returns 1. -/
theorem binary_item_lost :
    tcl_list_append (list_build [['x']]) (tcl_value ['a'] 0 1 true) =
      ['x', ' ', BIN_TOKEN, Char.ofNat 1, NUL, 'a', NUL] ∧
    tcl_list_at (tcl_list_append (list_build [['x']]) (tcl_value ['a'] 0 1 true)) 1 = some none ∧
    tcl_list_count (list_build [['x']]) = some 1 ∧
    tcl_list_count (tcl_list_append (list_build [['x']]) (tcl_value ['a'] 0 1 true)) = some 1 ∧
    tcl_length (some (tcl_list_append (list_build [['x']]) (tcl_value ['a'] 0 1 true))) = 4 := by
  decide

/-! ## Substitution of a brace span -/

/-- C19: a span that starts with `{`.  With length 1, `tcl_subst` returns the
flow ERROR and records the kind `TCLERR_SYNTAX` in a context that holds no earlier
error.  With a length of at least 2, it returns NORMAL and the result is exactly
the bytes `B` between the first and the last byte of the span, whatever they are:
in the binary encoding when `B` holds a NUL or starts with the sentinel, and as
the text `B` otherwise. -/
theorem tcl_subst_brace (ev : tcl → Mem → Nat → Nat → Option (tcl × Nat)) (t : tcl) (m : Mem)
    (s : Nat) (h : rd m s = '{') :
    tcl_subst ev t m s 1 =
      some ({ t with result := [NUL],
                     errorcode := if t.errorcode = 0 then TCLERR_SYNTAX else t.errorcode },
        FERROR) ∧
    ∀ (B post : Mem), m.drop (s + 1) = B ++ post →
      tcl_subst ev t m s (B.length + 2) =
        some ({ t with result :=
                  if NUL ∈ B ∨ B.head? = some BIN_TOKEN then blob_encoding B
                  else text_encoding B },
          FNORMAL) := by
  have hv : tcl_value [] 0 0 false = [NUL] := by decide
  have hF : FLOW (MARKFLOW FERROR TCLERR_SYNTAX) = FERROR := by decide
  have hS : MARKFLOW FERROR TCLERR_SYNTAX >>> 8 = TCLERR_SYNTAX := by decide
  have hN : FLOW FNORMAL = FNORMAL := by decide
  refine ⟨?_, fun B post hm => ?_⟩
  · unfold tcl_subst
    rw [if_neg (by decide), if_pos h, if_pos (le_refl _)]
    simp only [tcl_error_result, tcl_result, hv, hF, hS, true_and]
  · have hb : tcl_binary m (s + 1) B.length = true ↔ (NUL ∈ B ∨ B.head? = some BIN_TOKEN) := by
      rw [tcl_binary_drop, hm]; exact tcl_binary_front B post
    unfold tcl_subst
    rw [if_neg (by omega), if_pos h, if_neg (by omega)]
    simp only [Nat.add_sub_cancel, tcl_result, hN]
    rw [tcl_value_at m (s + 1) B post _ hm]
    have hne : ¬ (FNORMAL = FERROR ∧ t.errorcode = 0) := fun e => absurd e.1 (by decide)
    rw [if_neg hne]
    by_cases hc : NUL ∈ B ∨ B.head? = some BIN_TOKEN
    · rw [if_pos hc, if_pos (Or.inr hc)]
    · rw [if_neg hc, if_neg]
      rintro (e | e)
      · exact hc (hb.mp e)
      · exact hc e

theorem tcl_subst_brace_witness :
    rd "{a $b}".toList 0 = '{' ∧
    tcl_subst (fun _ _ _ _ => none) ⟨[], [], [], [NUL], 0, 0, 0, []⟩ "{a $b}".toList 0 6 =
      some (⟨[], [], [], "a $b".toList ++ [NUL], 0, 0, 0, []⟩, FNORMAL) :=
  ⟨rfl,
    ((tcl_subst_brace (fun _ _ _ _ => none) ⟨[], [], [], [NUL], 0, 0, 0, []⟩ "{a $b}".toList 0
      rfl).2 "a $b".toList ['}'] rfl).trans (by decide)⟩

/-! ## Reading a variable -/

/-- The copy `tcl_dup` makes of a well-formed value holds the same C string. -/
theorem tcl_dup_cstr (v : Mem) (hv : is_value v) :
    cstr (tcl_dup v) (tcl_string (tcl_dup v)) = cstr v (tcl_string v) := by
  rcases hv with ⟨p, rfl, hn, hh⟩ | ⟨p, rfl, hp⟩
  · obtain ⟨-, hl, hs, -, hb⟩ := text_value_facts p hn hh
    have : tcl_dup (text_encoding p) = text_encoding p := by
      unfold tcl_dup
      simp only [hl, hs, hb]
      rw [tcl_value_at (text_encoding p) 0 p [NUL] false rfl, if_neg]
      rintro (e | e | e)
      · cases e
      · exact hn e
      · exact hh e
    rw [this]
  · obtain ⟨-, hl, hs, -, hb⟩ := blob_value_facts p hp
    have hd : (blob_encoding p).drop 3 = p ++ [NUL] := rfl
    unfold tcl_dup
    simp only [hl, hs, hb]
    rw [tcl_value_at (blob_encoding p) 3 p [NUL] _ hd]
    by_cases hne : p = []
    · subst hne
      decide
    · rw [if_pos (Or.inl (by simpa using hne)), hs]

/-- C20: `tcl_var(name, NULL)`.  When the current frame has no binding of the
name, the call records the kind `TCLERR_VARUNKNOWN` (in a context that holds no
earlier error; the result of the interpreter becomes the empty value), puts a new
binding of the name with the empty value at the head of the current frame (where
a lookup of a well-formed name finds it), and returns the empty value.  When the
frame binds the name and that binding is not a global alias, the call returns the
value bound and leaves the context as it is. -/
theorem tcl_var_read (t : tcl) (name : Mem) :
    (tcl_findvar t.env name = none →
      tcl_var t name none =
        ({ t with result := [NUL],
                  errorcode := if t.errorcode = 0 then TCLERR_VARUNKNOWN else t.errorcode,
                  env := ⟨tcl_dup name, [NUL], 0, false⟩ :: t.env },
          [NUL])) ∧
    (is_value name →
      tcl_findvar (⟨tcl_dup name, [NUL], 0, false⟩ :: t.env) name = some 0) ∧
    (∀ k, tcl_findvar t.env name = some k → (t.env.getD k ⟨[], [], 0, false⟩).global = false →
      tcl_var t name none = (t, (t.env.getD k ⟨[], [], 0, false⟩).value)) := by
  have hv : tcl_value [] 0 0 false = [NUL] := by decide
  have hF : FLOW (MARKFLOW FERROR TCLERR_VARUNKNOWN) = FERROR := by decide
  have hS : MARKFLOW FERROR TCLERR_VARUNKNOWN >>> 8 = TCLERR_VARUNKNOWN := by decide
  refine ⟨fun h => ?_, fun hn => ?_, fun k h hg => ?_⟩
  · unfold tcl_var
    simp only [h, Option.map_none', Option.isNone_none, if_true, tcl_error_result, tcl_result,
      tcl_env_var, hv, hF, hS, true_and, Option.getD_none, tcl_frame, List.getD_cons_zero]
  · unfold tcl_findvar
    simp [List.findIdx?_cons, tcl_dup_cstr name hn]
  · unfold tcl_var
    simp only [h, Option.map_some', hg, Bool.false_eq_true, if_false, Option.getD_some,
      tcl_frame, List.getD_cons_zero]

/-! ## The built-in `global` -/

theorem tcl_var_create (t : tcl) (name v : Mem) (h : tcl_findvar t.env name = none) :
    tcl_var t name (some v) =
      ({ t with env := ⟨tcl_dup name, tcl_dup v, 0, false⟩ :: t.env }, tcl_dup v) := by
  unfold tcl_var
  simp [h, tcl_env_var, tcl_set_frame, tcl_frame, List.modify]

theorem tcl_findvar_head (env : tcl_env) (name value : Mem) (e : Nat) (g : Bool)
    (hn : is_value name) : tcl_findvar (⟨tcl_dup name, value, e, g⟩ :: env) name = some 0 := by
  unfold tcl_findvar
  simp [List.findIdx?_cons, tcl_dup_cstr name hn]

/-- C21: the body of the loop of `tcl_cmd_global` for one name.  If the current
frame binds the name, the result is ERROR, the kind `TCLERR_VARNAME` is recorded
(in a context that holds no earlier error) and no binding is added.  Else, if the
root frame does not bind the name, the result is ERROR, the kind
`TCLERR_VARUNKNOWN` is recorded and no binding is added.  Otherwise one binding of
the name, with the empty value and the global flag set, is put at the head of the
current frame, every other frame (the root frame among them) stays as it is, and
`r` keeps its value. -/
theorem tcl_cmd_global_name_cases (t : tcl) (r : Nat) (name : Mem) :
    ((tcl_findvar t.env name).isSome →
      tcl_cmd_global_name t r name =
        ({ t with result := [NUL],
                  errorcode := if t.errorcode = 0 then TCLERR_VARNAME else t.errorcode },
          FERROR)) ∧
    (tcl_findvar t.env name = none → tcl_findvar (tcl_frame t t.parents.length) name = none →
      tcl_cmd_global_name t r name =
        ({ t with result := [NUL],
                  errorcode := if t.errorcode = 0 then TCLERR_VARUNKNOWN else t.errorcode },
          FERROR)) ∧
    (is_value name → tcl_findvar t.env name = none →
      (tcl_findvar (tcl_frame t t.parents.length) name).isSome →
      t.parents ≠ [] ∧
      tcl_cmd_global_name t r name =
        ({ t with env := ⟨tcl_dup name, [NUL], 0, true⟩ :: t.env }, r)) := by
  have hv : tcl_value [] 0 0 false = [NUL] := by decide
  have hd : tcl_dup [NUL] = [NUL] := by decide
  refine ⟨fun h => ?_, fun h1 h2 => ?_, fun hn h1 h2 => ⟨?_, ?_⟩⟩
  · have hF : FLOW (MARKFLOW FERROR TCLERR_VARNAME) = FERROR := by decide
    have hS : MARKFLOW FERROR TCLERR_VARNAME >>> 8 = TCLERR_VARNAME := by decide
    unfold tcl_cmd_global_name
    rw [if_pos h]
    simp only [tcl_error_result, tcl_result, hv, hF, hS, true_and]
  · have hF : FLOW (MARKFLOW FERROR TCLERR_VARUNKNOWN) = FERROR := by decide
    have hS : MARKFLOW FERROR TCLERR_VARUNKNOWN >>> 8 = TCLERR_VARUNKNOWN := by decide
    unfold tcl_cmd_global_name
    rw [if_neg (by simp [h1]), if_pos (by simp [h2])]
    simp only [tcl_error_result, tcl_result, hv, hF, hS, true_and]
  · intro hp
    rw [hp] at h2
    simp [tcl_frame, h1] at h2
  · unfold tcl_cmd_global_name
    rw [if_neg (by simp [h1]), if_neg (by simpa using Option.isSome_iff_ne_none.mp h2)]
    simp only [hv, tcl_var_create t name [NUL] h1, hd, tcl_findvar_head t.env name [NUL] 0 false hn]
    simp [List.modify]

/-- The context and the value of `r` after the loop of `tcl_cmd_global` on the
names `names`, in order. -/
theorem tcl_cmd_global_loop_eq (W : List Mem) (hW : ∀ w ∈ W, ∀ c ∈ w, list_safe_byte c = true)
    (hfirst : ∀ w, W.head? = some w → w.head? ≠ some '#') :
    ∀ (k i : Nat) (t : tcl) (r : Nat), i + k = W.length →
      tcl_cmd_global_loop (list_text W ++ [NUL]) k i t r =
        some ((W.drop i).foldl
          (fun s nm => tcl_cmd_global_name s.1 s.2 (text_encoding nm)) (t, r)) := by
  intro k
  induction k with
  | zero =>
    intro i t r h
    have : W.drop i = [] := List.drop_eq_nil_of_le (by omega)
    simp [tcl_cmd_global_loop, this]
  | succ k ih =>
    intro i t r h
    have hi : i < W.length := by omega
    have hd : W.drop i = W[i] :: W.drop (i + 1) := (List.drop_eq_getElem_cons hi)
    rw [tcl_cmd_global_loop, tcl_list_at_list_text W i hW hfirst]
    simp only [List.getElem?_eq_getElem hi, Option.map_some']
    rw [ih (i + 1) _ _ (by omega), hd, List.foldl_cons]

/-- The built-in `global` on a list of words of plain bytes: with at least one
name, the loop body runs once for each name, in order. -/
theorem tcl_cmd_global_eq (t : tcl) (w0 : Mem) (names : List Mem) (hne : names ≠ [])
    (hW : ∀ w ∈ w0 :: names, ∀ c ∈ w, list_safe_byte c = true)
    (hfirst : w0.head? ≠ some '#') :
    tcl_cmd_global t (list_text (w0 :: names) ++ [NUL]) =
      some (names.foldl (fun s nm => tcl_cmd_global_name s.1 s.2 (text_encoding nm))
        (t, FNORMAL)) := by
  have hf : ∀ w, (w0 :: names).head? = some w → w.head? ≠ some '#' := by
    intro w hw
    simp at hw
    subst hw
    exact hfirst
  have hlen : 2 ≤ (w0 :: names).length := by
    cases names with
    | nil => exact absurd rfl hne
    | cons a l => simp
  unfold tcl_cmd_global tcl_expect_args_ok
  rw [tcl_list_count_list_text _ hW hf]
  have : (decide (2 ≤ (w0 :: names).length) && (decide ((w0 :: names).length ≤ 0) || (0 : Nat) == 0))
      = true := by
    simp only [List.length_cons] at hlen ⊢
    simp
    omega
  simp only [Option.map_some', this]
  rw [tcl_cmd_global_loop_eq _ hW hf _ 1 t FNORMAL (by simp; omega)]
  simp

/-! ## Global aliases -/

theorem tcl_findvar_modify (f : tcl_var_t → tcl_var_t) (hf : ∀ v, (f v).name = v.name)
    (x : Mem) : ∀ (env : tcl_env) (j : Nat), tcl_findvar (env.modify f j) x = tcl_findvar env x := by
  intro env
  induction env with
  | nil => intro j; cases j <;> rfl
  | cons a l ih =>
    intro j
    cases j with
    | zero => simp [tcl_findvar, List.modify, List.findIdx?_cons, hf]
    | succ j =>
      have := ih j
      simp only [tcl_findvar, List.modify_succ_cons, List.findIdx?_cons, List.findIdx?_succ]
        at this ⊢
      rw [this]

theorem tcl_findvar_lt (env : tcl_env) (x : Mem) (j : Nat) (h : tcl_findvar env x = some j) :
    j < env.length := by
  unfold tcl_findvar at h
  rw [List.findIdx?_eq_some_iff_findIdx_eq] at h
  exact h.1

theorem getD_modify_self (f : tcl_var_t → tcl_var_t) (d : tcl_var_t) :
    ∀ (env : tcl_env) (j : Nat), j < env.length →
      (env.modify f j).getD j d = f (env.getD j d) := by
  intro env
  induction env with
  | nil => intro j h; simp at h
  | cons a l ih =>
    intro j h
    cases j with
    | zero => simp [List.modify]
    | succ j => simpa [List.modify] using ih j (by simpa using h)

theorem getD_length_getLast (e : tcl_env) (ps : List tcl_env) (hp : ps ≠ []) :
    (e :: ps).getD ps.length [] = ps.getLast hp := by
  cases ps with
  | nil => exact absurd rfl hp
  | cons a l =>
    simp only [List.length_cons, List.getD_cons_succ]
    rw [List.getD_eq_getElem _ _ (by simp), List.getLast_eq_getElem]
    simp

theorem getD_set_last (e r : tcl_env) (ps : List tcl_env) (hp : ps ≠ []) :
    (e :: ps.set (ps.length - 1) r).getD ps.length [] = r := by
  cases ps with
  | nil => exact absurd rfl hp
  | cons a l =>
    simp only [List.length_cons, List.getD_cons_succ, Nat.add_sub_cancel]
    rw [List.getD_eq_getElem _ _ (by simp)]
    simp

theorem tcl_frame_root (t : tcl) (hp : t.parents ≠ []) :
    tcl_frame t t.parents.length = t.parents.getLast hp :=
  getD_length_getLast t.env t.parents hp

theorem tcl_set_frame_root (t : tcl) (env : tcl_env) (hp : t.parents ≠ []) :
    tcl_set_frame t t.parents.length env =
      { t with parents := t.parents.set (t.parents.length - 1) env } := by
  obtain ⟨n, hn⟩ : ∃ n, t.parents.length = n + 1 :=
    ⟨t.parents.length - 1, by have := List.length_pos.mpr hp; omega⟩
  rw [hn]
  rfl

theorem tcl_dup_text (v : Mem) (hv : is_text_value v) : tcl_dup v = v := by
  obtain ⟨p, rfl, hn, hh⟩ := hv
  obtain ⟨-, hl, hs, -, hb⟩ := text_value_facts p hn hh
  unfold tcl_dup
  simp only [hl, hs, hb]
  rw [tcl_value_at (text_encoding p) 0 p [NUL] false rfl, if_neg]
  rintro (e | e | e)
  · exact absurd e (by decide)
  · exact hn e
  · exact hh e

/-- C22: a global alias.  In a child frame (`t.parents ≠ []`) whose binding `k` of
the name `x` has the global flag, with the root frame binding `x` at position `j`,
the call `tcl_var(x, v)` replaces the value of the root binding by a copy of `v`
and changes nothing else: the current frame, with the alias binding and its own
value, stays as it is (the history variable `written` records the name).  A later
read of `x` with the root frame as current frame,
or in any child frame over that root frame that holds an alias of `x`, returns
that copy and leaves the context as it is.  The copy of a text value is the value
itself. -/
theorem tcl_var_global_alias (t : tcl) (x v : Mem) (k j : Nat) (hp : t.parents ≠ [])
    (hk : tcl_findvar t.env x = some k)
    (hg : (t.env.getD k ⟨[], [], 0, false⟩).global = true)
    (hj : tcl_findvar (t.parents.getLast hp) x = some j) :
    tcl_var t x (some v) =
      ({ t with
          parents := t.parents.set (t.parents.length - 1)
            ((t.parents.getLast hp).modify (fun var => { var with value := tcl_dup v }) j),
          written := cstr x (tcl_string x) :: t.written },
        tcl_dup v) ∧
    (∀ t2 : tcl, t2.parents = [] →
      t2.env = (t.parents.getLast hp).modify (fun var => { var with value := tcl_dup v }) j →
      tcl_var t2 x none = (t2, tcl_dup v)) ∧
    (∀ (t2 : tcl) (k2 : Nat) (h2 : t2.parents ≠ []),
      t2.parents.getLast h2 =
        (t.parents.getLast hp).modify (fun var => { var with value := tcl_dup v }) j →
      tcl_findvar t2.env x = some k2 → (t2.env.getD k2 ⟨[], [], 0, false⟩).global = true →
      tcl_var t2 x none = (t2, tcl_dup v)) ∧
    (is_text_value v → tcl_dup v = v) := by
  have hjl := tcl_findvar_lt _ _ _ hj
  have hfm : tcl_findvar ((t.parents.getLast hp).modify
      (fun var => { var with value := tcl_dup v }) j) x = some j := by
    rw [tcl_findvar_modify (fun var => { var with value := tcl_dup v }) (fun _ => rfl)]
    exact hj
  have hval : (((t.parents.getLast hp).modify
      (fun var => { var with value := tcl_dup v }) j).getD j ⟨[], [], 0, false⟩).value
      = tcl_dup v := by
    rw [getD_modify_self _ _ _ _ hjl]
  refine ⟨?_, ?_, ?_, tcl_dup_text v⟩
  · unfold tcl_var
    simp only [hk, Option.map_some', hg, if_true, tcl_frame_root t hp, hj, Option.getD_some,
      tcl_set_frame_root t _ hp, Option.isSome_some, Bool.and_self]
    refine Prod.ext rfl ?_
    show (((t.env :: t.parents.set (t.parents.length - 1) _).getD t.parents.length []).getD j
      ⟨[], [], 0, false⟩).value = tcl_dup v
    rw [getD_set_last _ _ _ hp]
    exact hval
  · intro t2 hp2 he2
    have hk2 : tcl_findvar t2.env x = some j := by rw [he2]; exact hfm
    have hv2 : (t2.env.getD j ⟨[], [], 0, false⟩).value = tcl_dup v := by rw [he2]; exact hval
    unfold tcl_var
    simp only [hp2, List.length_nil, tcl_frame, List.getD_cons_zero, hk2, Option.map_some']
    by_cases hgl : (t2.env.getD j ⟨[], [], 0, false⟩).global = true
    · simp only [hgl, if_true, Option.getD_some, List.getD_cons_zero, hv2]
    · simp only [hgl, if_false, Option.getD_some, List.getD_cons_zero, hv2, Bool.false_eq_true]
  · intro t2 k2 h2 hr hk2 hg2
    unfold tcl_var
    simp only [hk2, Option.map_some', hg2, if_true, tcl_frame_root t2 h2, hr, hfm,
      Option.getD_some, hval]

/-- C22, at an instance: the root frame binds `x` to `1`, the current frame holds an
alias of `x` with the empty value, and `5` is written to `x`. -/
theorem tcl_var_global_alias_witness :
    tcl_var ⟨[⟨c_string "x", [NUL], 0, true⟩], [[⟨c_string "x", c_string "1", 0, false⟩]], [],
        [NUL], 0, 0, 0, []⟩ (c_string "x") (some (c_string "5")) =
      (⟨[⟨c_string "x", [NUL], 0, true⟩], [[⟨c_string "x", c_string "5", 0, false⟩]], [],
        [NUL], 0, 0, 0, [['x']]⟩, c_string "5") :=
  (tcl_var_global_alias ⟨[⟨c_string "x", [NUL], 0, true⟩],
      [[⟨c_string "x", c_string "1", 0, false⟩]], [], [NUL], 0, 0, 0, []⟩ (c_string "x")
      (c_string "5") 0 0 (by decide) (by decide) (by decide) (by decide)).1

/-! ## Command dispatch -/

theorem tcl_exec_cmd_loop_find (call : tcl_cmd → tcl → Mem → Option (tcl × Nat)) (t : tcl)
    (list cmdname : Mem) (n : Nat) (hn : tcl_list_count list = some n) :
    ∀ cmds : List tcl_cmd,
      tcl_exec_cmd_loop call t list cmdname cmds =
        match cmds.find? (fun c =>
            (cstr c.name (tcl_string c.name) == cstr cmdname (tcl_string cmdname)) &&
              (c.arity == 0 || c.arity == n)) with
        | some c => call c t list
        | none => some (t, MARKFLOW FERROR TCLERR_CMDUNKNOWN) := by
  intro cmds
  induction cmds with
  | nil => rfl
  | cons c cs ih =>
    rw [tcl_exec_cmd_loop]
    by_cases h1 : cstr cmdname (tcl_string cmdname) = cstr c.name (tcl_string c.name)
    · rw [if_pos h1]
      by_cases h2 : c.arity = 0
      · rw [if_pos h2, List.find?_cons_of_pos _ (by simp [h1, h2])]
      · rw [if_neg h2, hn]
        by_cases h3 : c.arity = n
        · rw [List.find?_cons_of_pos _ (by simp [h1, h3])]
          simp only [h3, if_true]
        · rw [List.find?_cons_of_neg _ (by simp [h1, h2, h3])]
          simp only [h3, if_false, ih]
    · rw [if_neg h1, ih, List.find?_cons_of_neg _ (by simpa using fun e => absurd e.symm h1)]

/-- C26: command dispatch.  `tcl_register` puts the new record in front of the
registry.  For a list with first word `cmdname` and `n` words, `tcl_exec_cmd`
calls the handler of the first record, from the front, whose name equals the first
word and whose arity is 0 or `n`, and returns what the handler returns; records of
that name with another arity are passed over.  When no record fits, it returns
ERROR with the kind `TCLERR_CMDUNKNOWN` in the high byte and leaves the context as
it is: no handler is called. -/
theorem tcl_exec_cmd_dispatch (fuel : Nat) (ev : tcl → Mem → Nat → Nat → Option (tcl × Nat))
    (t : tcl) (list cmdname : Mem) (n : Nat)
    (h0 : tcl_list_at list 0 = some (some cmdname)) (hn : tcl_list_count list = some n) :
    (∀ (name : Mem) (off arity : Nat) (fn : tcl_cmd_fn) (user : Option Mem),
      (tcl_register t name off fn arity user).cmds =
        ⟨tcl_value name off (strlen name off) false, arity, fn, user, 0⟩ :: t.cmds) ∧
    tcl_exec_cmd fuel ev t list =
      match t.cmds.find? (fun c =>
          (cstr c.name (tcl_string c.name) == cstr cmdname (tcl_string cmdname)) &&
            (c.arity == 0 || c.arity == n)) with
      | some c => tcl_cmd_call fuel ev c t list
      | none => some (t, MARKFLOW FERROR TCLERR_CMDUNKNOWN) := by
  refine ⟨fun _ _ _ _ _ => rfl, ?_⟩
  unfold tcl_exec_cmd
  rw [h0]
  exact tcl_exec_cmd_loop_find _ t list cmdname n hn t.cmds

/-- C26, at an instance: the words `f x 5` with a registry that holds `f` twice. -/
theorem tcl_exec_cmd_dispatch_witness :
    tcl_exec_cmd 0 (fun _ _ _ _ => none)
        ⟨[], [], [⟨c_string "f", 2, tcl_cmd_fn.tcl_cmd_puts, none, 0⟩,
                 ⟨c_string "f", 0, tcl_cmd_fn.tcl_cmd_set, none, 0⟩], [NUL], 0, 0, 0, []⟩
        (c_string "f x 5") =
      tcl_cmd_set
        ⟨[], [], [⟨c_string "f", 2, tcl_cmd_fn.tcl_cmd_puts, none, 0⟩,
                 ⟨c_string "f", 0, tcl_cmd_fn.tcl_cmd_set, none, 0⟩], [NUL], 0, 0, 0, []⟩
        (c_string "f x 5") :=
  (tcl_exec_cmd_dispatch 0 (fun _ _ _ _ => none)
    ⟨[], [], [⟨c_string "f", 2, tcl_cmd_fn.tcl_cmd_puts, none, 0⟩,
             ⟨c_string "f", 0, tcl_cmd_fn.tcl_cmd_set, none, 0⟩], [NUL], 0, 0, 0, []⟩
    (c_string "f x 5") (c_string "f") 3 (by decide) (by decide)).2

set_option maxRecDepth 100000 in
/-- C26, a case in which the claim fails: the registry holds the name `f` twice,
the newer record with arity 2 and the handler of `puts`, the older one with arity
0 and the handler of `set`.  The dispatch of the three words `f x 5` does not stop
at the newer record: it calls the older one, which binds `x` to `5` and returns
NORMAL. -/
theorem tcl_exec_cmd_calls_older_record :
    tcl_exec_cmd 0 (fun _ _ _ _ => none)
        ⟨[], [], [⟨c_string "f", 2, tcl_cmd_fn.tcl_cmd_puts, none, 0⟩,
                 ⟨c_string "f", 0, tcl_cmd_fn.tcl_cmd_set, none, 0⟩], [NUL], 0, 0, 0, []⟩
        (c_string "f x 5") =
      some (⟨[⟨c_string "x", c_string "5", 0, false⟩], [],
              [⟨c_string "f", 2, tcl_cmd_fn.tcl_cmd_puts, none, 0⟩,
               ⟨c_string "f", 0, tcl_cmd_fn.tcl_cmd_set, none, 0⟩], c_string "5", 0, 0, 0, []⟩,
            FNORMAL) := by
  decide!

/-! ## Evaluation of scripts -/

set_option maxRecDepth 100000 in
/-- C24: `return` does not end the evaluation of a proc body.  The loop of
`tcl_eval` leaves only on the ERROR flow, so the commands after a `return` are run.
The call of `proc f {} { return 1 ; return 2 }` has the result `2`, not `1`.
With the `return` in the body of an `if`, the call `f 1` of
`proc f {n} { if {$n <= 1} { return 1 } ; return 7 }` has the result `7`; with the
`return` in the body of a `while`, the call of
`proc f {} { while {1} { return 1 } ; return 3 }` has the result `3`.  The flow of
each evaluation is RETURN and no error is recorded. -/
theorem return_does_not_end_proc :
    (tcl_eval_text 30 tcl_init "proc f {} { return 1 ; return 2 } ; f".toList).map
      (fun r => (r.1.result, r.2, r.1.errorcode)) = some (some (c_string "2"), FRETURN, 0) ∧
    (tcl_eval_text 30 tcl_init
        "proc f {n} { if {$n <= 1} { return 1 } ; return 7 } ; f 1".toList).map
      (fun r => (r.1.result, r.2, r.1.errorcode)) = some (some (c_string "7"), FRETURN, 0) ∧
    (tcl_eval_text 30 tcl_init
        "proc f {} { while {1} { return 1 } ; return 3 } ; f".toList).map
      (fun r => (r.1.result, r.2, r.1.errorcode)) = some (some (c_string "3"), FRETURN, 0) := by
  decide!

set_option maxRecDepth 100000 in
/-- C25: `tcl_user_proc` hands the flow RETURN back to its caller.  The call of
the proc declared by `proc f {} { return 5 }` returns RETURN with the result `5`,
and the top-level evaluation of the declaration followed by the call `f` returns
RETURN as well.  In a caller the flow acts as a `return` of the caller's own loop:
`set i 0 ; while {$i < 3} { incr i ; f } ; set i` gives `1` with that proc, and `3`
with the proc `proc f {} { set y 5 }`, whose body ends without `return`. -/
theorem tcl_user_proc_returns_return :
    (tcl_user_proc (tcl_eval 10) tcl_init (c_string "f")
        (c_string "proc f {} { return 5 }")).map
      (fun r => (r.1.result, r.2)) = some (some (c_string "5"), FRETURN) ∧
    (tcl_eval_text 30 tcl_init "proc f {} { return 5 } ; f".toList).map
      (fun r => (r.1.result, r.2)) = some (some (c_string "5"), FRETURN) ∧
    (tcl_eval_text 40 tcl_init
        "proc f {} { return 5 } ; set i 0 ; while {$i < 3} { incr i ; f } ; set i".toList).map
      (fun r => (r.1.result, r.2)) = some (some (c_string "1"), FNORMAL) ∧
    (tcl_eval_text 40 tcl_init
        "proc f {} { set y 5 } ; set i 0 ; while {$i < 3} { incr i ; f } ; set i".toList).map
      (fun r => (r.1.result, r.2)) = some (some (c_string "3"), FNORMAL) := by
  decide!

set_option maxRecDepth 100000 in
/-- C27: an unknown command at the end of the script.  `tcl_eval` on the three
bytes `foo` of a freshly initialised context returns 0 and the nesting level is
back to 0, but no error is recorded: the error code is still 0.  The command is
run by the call of `tcl_exec_cmd` after the loop, whose result is not passed to
`tcl_error_result`.  When the slice includes the terminator (four bytes), the
command is run inside the loop and the kind `TCLERR_CMDUNKNOWN` is recorded. -/
theorem tcl_eval_unknown_command_not_recorded :
    (tcl_eval 30 tcl_init (c_string "foo") 0 3).map
      (fun r => (r.2, r.1.errorcode, r.1.nestlevel)) = some (0, 0, 0) ∧
    (tcl_eval 30 tcl_init (c_string "foo") 0 4).map
      (fun r => (r.2, r.1.errorcode, r.1.nestlevel)) = some (0, TCLERR_CMDUNKNOWN, 0) := by
  decide!

set_option maxRecDepth 100000 in
/-- C30: `scan` counts a conversion that finds no digits.  For the words
`scan abc %d a` the result is `1` and the variable `a` is set to `0`; for an empty
string and the format `%d%d` the result is `2` and both variables are set to `0`.
For the string `42 7` and the format `%d %d` the result is `2`, `a` is `42` and `b`
is `7`. -/
theorem tcl_cmd_scan_counts_failed_conversion :
    (tcl_cmd_scan tcl_init (c_string "scan abc %d a")).map
      (fun r => (r.1.env, r.1.result, r.2)) =
      some ([⟨c_string "a", c_string "0", 0, false⟩], some (c_string "1"), FNORMAL) ∧
    (tcl_cmd_scan tcl_init (c_string "scan {} {%d%d} a b")).map
      (fun r => (r.1.env, r.1.result, r.2)) =
      some ([⟨c_string "b", c_string "0", 0, false⟩, ⟨c_string "a", c_string "0", 0, false⟩],
        some (c_string "2"), FNORMAL) ∧
    (tcl_cmd_scan tcl_init (c_string "scan {42 7} {%d %d} a b")).map
      (fun r => (r.1.env, r.1.result, r.2)) =
      some ([⟨c_string "b", c_string "7", 0, false⟩, ⟨c_string "a", c_string "42", 0, false⟩],
        some (c_string "2"), FNORMAL) := by
  decide!

/-! ## The built-in `while` -/

/-- The C string of a text value made of plain bytes. -/
theorem cstr_text_encoding (w : Mem) (hw : ∀ c ∈ w, list_safe_byte c = true) :
    cstr (text_encoding w) (tcl_string (text_encoding w)) = w := by
  have hn : NUL ∉ w := fun h => by simpa [list_safe_byte] using hw NUL h
  have hh : w.head? ≠ some BIN_TOKEN := by
    intro h
    cases w with
    | nil => simp at h
    | cons c r =>
      have hc : c = BIN_TOKEN := by simpa using h
      have := hw c (by simp)
      rw [hc] at this
      exact absurd this (by decide)
  obtain ⟨-, -, hs, -, -⟩ := text_value_facts w hn hh
  rw [hs]
  exact cstr_of_parts w [NUL] hn rfl

/-- C29: the loop of `tcl_cmd_while`, for every evaluator `ev` in the place of
`tcl_eval`.  Each iteration first evaluates the condition.  When that yields a
flow other than NORMAL (RETURN or ERROR, for instance) the loop returns that flow;
when it yields NORMAL and the result is zero the loop returns NORMAL; in both
cases the body is not evaluated.  Otherwise the body is evaluated: on NORMAL or
AGAIN the loop goes on with the next iteration, on BREAK it returns NORMAL, on
RETURN or ERROR it returns that flow.  `tcl_cmd_while` runs this loop on the
condition list of its first argument and on its second argument.  From the
freshly initialised context, `while {1} { break }` returns NORMAL, and
`set n 0 ; while {1} { incr n ; break } ; set n` gives `1`: the body is evaluated
once. -/
theorem tcl_cmd_while_loop_cases :
    (∀ (ev : tcl → Mem → Nat → Nat → Option (tcl × Nat)) (cond body : Mem) (fuel : Nat)
        (t t1 : tcl) (r1 : Nat),
      ev t cond (tcl_string cond) (tcl_length (some cond) + 1) = some (t1, r1) →
      (FLOW r1 ≠ FNORMAL →
        tcl_cmd_while_loop ev cond body (fuel + 1) t = some (t1, FLOW r1)) ∧
      (FLOW r1 = FNORMAL → tcl_int t1.result = 0 →
        tcl_cmd_while_loop ev cond body (fuel + 1) t = some (t1, FNORMAL)) ∧
      (∀ (t2 : tcl) (r2 : Nat), FLOW r1 = FNORMAL → tcl_int t1.result ≠ 0 →
        ev t1 body (tcl_string body) (tcl_length (some body) + 1) = some (t2, r2) →
        ((FLOW r2 = FNORMAL ∨ FLOW r2 = FAGAIN) →
          tcl_cmd_while_loop ev cond body (fuel + 1) t =
            tcl_cmd_while_loop ev cond body fuel t2) ∧
        (FLOW r2 = FBREAK →
          tcl_cmd_while_loop ev cond body (fuel + 1) t = some (t2, FNORMAL)) ∧
        ((FLOW r2 = FRETURN ∨ FLOW r2 = FERROR) →
          tcl_cmd_while_loop ev cond body (fuel + 1) t = some (t2, FLOW r2)))) ∧
    (∀ (ev : tcl → Mem → Nat → Nat → Option (tcl × Nat)) (fuel : Nat) (t : tcl) (w c b : Mem),
      (∀ x ∈ [w, c, b], ∀ y ∈ x, list_safe_byte y = true) → w.head? ≠ some '#' →
      tcl_cmd_while fuel ev t (list_text [w, c, b] ++ [NUL]) =
        tcl_cmd_while_loop ev (tcl_make_condition_list (text_encoding c)) (text_encoding b)
          fuel t) ∧
    (tcl_eval_text 30 tcl_init "while {1} { break }".toList).map
      (fun r => (r.2, r.1.errorcode)) = some (FNORMAL, 0) ∧
    (tcl_eval_text 30 tcl_init "set n 0 ; while {1} { incr n ; break } ; set n".toList).map
      (fun r => (r.1.result, r.2, r.1.errorcode)) = some (some (c_string "1"), FNORMAL, 0) := by
  refine ⟨?_, ?_, ?_, ?_⟩
  · intro ev cond body fuel t t1 r1 hc
    refine ⟨fun h => ?_, fun h hz => ?_, fun t2 r2 h hz hb => ⟨fun h2 => ?_, fun h2 => ?_, fun h2 => ?_⟩⟩
    · rw [tcl_cmd_while_loop, hc]
      simp only [if_pos h]
    · rw [tcl_cmd_while_loop, hc]
      simp only [h, ne_eq, not_true_eq_false, if_false, hz, if_true]
    · rw [tcl_cmd_while_loop, hc]
      simp only [h, ne_eq, not_true_eq_false, if_false, hz, hb]
      rcases h2 with h2 | h2
      · rw [if_neg (by simp [h2])]
      · rw [if_neg (by simp [h2])]
    · rw [tcl_cmd_while_loop, hc]
      simp only [h, ne_eq, not_true_eq_false, if_false, hz, hb]
      rw [if_pos (by rw [h2]; decide), if_pos h2]
    · rw [tcl_cmd_while_loop, hc]
      simp only [h, ne_eq, not_true_eq_false, if_false, hz, hb]
      rcases h2 with h2 | h2
      · rw [if_pos (by rw [h2]; decide), if_neg (by rw [h2]; decide)]
      · rw [if_pos (by rw [h2]; decide), if_neg (by rw [h2]; decide)]
  · intro ev fuel t w c b hW hf
    have hfirst : ∀ x, [w, c, b].head? = some x → x.head? ≠ some '#' := by
      intro x hx
      simp at hx
      subst hx
      exact hf
    unfold tcl_cmd_while
    rw [tcl_list_at_list_text _ 1 hW hfirst, tcl_list_at_list_text _ 2 hW hfirst]
    rfl
  · decide!
  · decide!

/-! ## The built-in `if` -/

theorem drop_cons_facts (W : List Mem) (i : Nat) (x : Mem) (l : List Mem)
    (h : W.drop i = x :: l) : W[i]? = some x ∧ i < W.length ∧ W.drop (i + 1) = l ∧ x ∈ W := by
  have hi : i < W.length := by
    by_contra hc
    rw [List.drop_eq_nil_of_le (by omega)] at h
    exact absurd h (by simp)
  have h2 := List.drop_eq_getElem_cons hi
  rw [h] at h2
  injection h2 with h3 h4
  refine ⟨by rw [List.getElem?_eq_getElem hi, h3], hi, h4.symm, ?_⟩
  rw [h3]
  exact List.getElem_mem hi

theorem if_list_at (W : List Mem) (hW : ∀ w ∈ W, ∀ c ∈ w, list_safe_byte c = true)
    (hfirst : ∀ w, W.head? = some w → w.head? ≠ some '#') (i : Nat) (x : Mem) (l : List Mem)
    (h : W.drop i = x :: l) :
    tcl_list_at (list_text W ++ [NUL]) i = some (some (text_encoding x)) := by
  rw [tcl_list_at_list_text W i hW hfirst, (drop_cons_facts W i x l h).1]
  rfl

theorem if_arg_at (W : List Mem) (hW : ∀ w ∈ W, ∀ c ∈ w, list_safe_byte c = true)
    (hfirst : ∀ w, W.head? = some w → w.head? ≠ some '#') (i : Nat) (x : Mem) (l : List Mem)
    (h : W.drop i = x :: l) :
    tcl_cmd_if_arg (list_text W ++ [NUL]) i W.length = some (some (text_encoding x), i + 1) := by
  unfold tcl_cmd_if_arg
  rw [if_pos (drop_cons_facts W i x l h).2.1, if_list_at W hW hfirst i x l h]
  rfl

theorem tcl_cmd_if_loop_done (ev : tcl → Mem → Nat → Nat → Option (tcl × Nat)) (args : Mem)
    (n fuel i : Nat) (t : tcl) (r : Nat) (h : n ≤ i) :
    tcl_cmd_if_loop ev args n fuel i t r = some (t, FLOW r) := by
  unfold tcl_cmd_if_loop
  rw [if_neg (by omega)]

/-- One iteration of the loop of `tcl_cmd_if` at a `cond body` pair: the condition
is evaluated, then the body if the result is not zero; `i3` is the position after
the body. -/
theorem tcl_cmd_if_loop_pair (ev : tcl → Mem → Nat → Nat → Option (tcl × Nat)) (W : List Mem)
    (hW : ∀ w ∈ W, ∀ c ∈ w, list_safe_byte c = true)
    (hfirst : ∀ w, W.head? = some w → w.head? ≠ some '#')
    (fuel i : Nat) (t : tcl) (r : Nat) (c b : Mem) (th : Bool) (l : List Mem)
    (h : W.drop i = c :: ((if th then ["then".toList] else []) ++ b :: l))
    (hb : th = false → b ≠ "then".toList) :
    W.drop (i + 2 + (if th then 1 else 0)) = l ∧
    tcl_cmd_if_loop ev (list_text W ++ [NUL]) W.length (fuel + 1) i t r =
      match ev t (tcl_make_condition_list (text_encoding c))
          (tcl_string (tcl_make_condition_list (text_encoding c)))
          (tcl_length (some (tcl_make_condition_list (text_encoding c))) + 1) with
      | none => none
      | some (t1, r1) =>
        if FLOW r1 ≠ FNORMAL then some (t1, FLOW r1)
        else if tcl_int t1.result ≠ 0 then
          (ev t1 (text_encoding b) (tcl_string (text_encoding b))
            (tcl_length (some (text_encoding b)) + 1)).map (fun x => (x.1, FLOW x.2))
        else if i + 2 + (if th then 1 else 0) < W.length then
          match tcl_list_at (list_text W ++ [NUL]) (i + 2 + (if th then 1 else 0)) with
          | some (some b) =>
            if cstr b (tcl_string b) = "elseif".toList then
              tcl_cmd_if_loop ev (list_text W ++ [NUL]) W.length fuel
                (i + 2 + (if th then 1 else 0) + 1) t1 r1
            else if cstr b (tcl_string b) = "else".toList then
              if i + 2 + (if th then 1 else 0) + 1 < W.length then
                match tcl_list_at (list_text W ++ [NUL]) (i + 2 + (if th then 1 else 0) + 1) with
                | some (some b2) =>
                  (ev t1 b2 (tcl_string b2) (tcl_length (some b2) + 1)).map
                    (fun x => (x.1, FLOW x.2))
                | _ => none
              else some (tcl_error_result t1 (MARKFLOW FERROR TCLERR_PARAM))
            else if i + 2 + (if th then 1 else 0) + 1 < W.length then
              tcl_cmd_if_loop ev (list_text W ++ [NUL]) W.length fuel
                (i + 2 + (if th then 1 else 0)) t1 r1
            else
              match ev t1 b (tcl_string b) (tcl_length (some b) + 1) with
              | none => none
              | some (t2, r2) =>
                tcl_cmd_if_loop ev (list_text W ++ [NUL]) W.length fuel
                  (i + 2 + (if th then 1 else 0) + 1) t2 r2
          | _ => none
        else tcl_cmd_if_loop ev (list_text W ++ [NUL]) W.length fuel
          (i + 2 + (if th then 1 else 0)) t1 r1 := by
  obtain ⟨-, hi, hd1, -⟩ := drop_cons_facts W i c _ h
  have hc := if_list_at W hW hfirst i c _ h
  cases th with
  | true =>
    simp only [if_true, List.singleton_append] at h hd1 ⊢
    obtain ⟨-, -, hd2, hmem⟩ := drop_cons_facts W (i + 1) _ _ hd1
    have ha1 := if_arg_at W hW hfirst (i + 1) _ _ hd1
    have ha2 := if_arg_at W hW hfirst (i + 2) _ _ hd2
    obtain ⟨-, -, hd3, -⟩ := drop_cons_facts W (i + 2) _ _ hd2
    refine ⟨hd3, ?_⟩
    rw [tcl_cmd_if_loop, if_pos hi]
    simp only [hc, ha1, cstr_text_encoding _ (hW _ hmem), if_true, ha2]
  | false =>
    simp only [Bool.false_eq_true, if_false, List.nil_append, Nat.add_zero] at h hd1 ⊢
    obtain ⟨-, -, hd2, hmem⟩ := drop_cons_facts W (i + 1) _ _ hd1
    have ha1 := if_arg_at W hW hfirst (i + 1) _ _ hd1
    refine ⟨hd2, ?_⟩
    rw [tcl_cmd_if_loop, if_pos hi]
    simp only [hc, ha1, cstr_text_encoding _ (hW _ hmem), if_neg (hb rfl)]

theorem if_spec_words_length (els : Option Mem) :
    ∀ cls : List if_spec_clause, 2 * cls.length ≤ (if_spec_words cls els).length := by
  intro cls
  induction cls with
  | nil => simp
  | cons cl rest ih =>
    simp only [if_spec_words, List.length_cons, List.length_append]
    omega

/-- The loop of `tcl_cmd_if` from the position `i` at which the words of the pairs
`cls` and of the else body start. -/
theorem tcl_cmd_if_loop_chain (ev : tcl → Mem → Nat → Nat → Option (tcl × Nat)) (W : List Mem)
    (hW : ∀ w ∈ W, ∀ c ∈ w, list_safe_byte c = true)
    (hfirst : ∀ w, W.head? = some w → w.head? ≠ some '#') (els : Option Mem) :
    ∀ (cls : List if_spec_clause) (fuel i : Nat) (t : tcl) (r : Nat),
      W.drop i = if_spec_words cls els → cls ≠ [] → cls.length ≤ fuel → if_spec_wf cls els →
      tcl_cmd_if_loop ev (list_text W ++ [NUL]) W.length fuel i t r =
        if_spec_eval ev cls els t r := by
  intro cls
  induction cls with
  | nil => intro fuel i t r _ h; exact absurd rfl h
  | cons cl rest ih =>
    intro fuel i t r h _ hfuel hwf
    obtain ⟨f, rfl⟩ : ∃ f, fuel = f + 1 := ⟨fuel - 1, by simp at hfuel; omega⟩
    have hfr : rest.length ≤ f := by simpa using hfuel
    obtain ⟨hwb, hwk, hwn, hwr⟩ := hwf
    rw [if_spec_words] at h
    obtain ⟨hd3, heq⟩ :=
      tcl_cmd_if_loop_pair ev W hW hfirst f i t r cl.cond cl.body cl.then_kw _ h hwb
    rw [heq, if_spec_eval]
    cases hev : ev t (tcl_make_condition_list (text_encoding cl.cond))
        (tcl_string (tcl_make_condition_list (text_encoding cl.cond)))
        (tcl_length (some (tcl_make_condition_list (text_encoding cl.cond))) + 1) with
    | none => rfl
    | some x =>
      obtain ⟨t1, r1⟩ := x
      simp only []
      by_cases h1 : FLOW r1 ≠ FNORMAL
      · rw [if_pos h1, if_pos h1]
      rw [if_neg h1, if_neg h1]
      by_cases h2 : tcl_int t1.result ≠ 0
      · rw [if_pos h2, if_pos h2]
      rw [if_neg h2, if_neg h2]
      generalize i + 2 + (if cl.then_kw = true then 1 else 0) = i3 at hd3 ⊢
      have hkw1 : ("else".toList = "elseif".toList) = False := eq_false (by decide)
      cases hk : cl.link_kw with
      | true =>
        rw [hk] at hd3
        simp only [if_true, List.singleton_append] at hd3
        obtain ⟨-, hi3, hd4, hmem⟩ := drop_cons_facts W i3 _ _ hd3
        rw [if_pos hi3, if_list_at W hW hfirst i3 _ _ hd3]
        simp only [cstr_text_encoding _ (hW _ hmem)]
        cases rest with
        | nil =>
          cases els with
          | none => exact absurd rfl (hwk hk rfl)
          | some e =>
            simp only [List.isEmpty_nil, if_true, if_spec_words, Option.toList] at hd3 hd4
            obtain ⟨-, hi4, -, -⟩ := drop_cons_facts W (i3 + 1) _ _ hd4
            simp only [List.isEmpty_nil, if_true, hkw1, if_false, hi4,
              if_list_at W hW hfirst (i3 + 1) _ _ hd4, if_spec_eval]
        | cons c2 rs =>
          simp only [List.isEmpty_cons, Bool.false_eq_true, if_false] at hd3 hd4
          simp only [List.isEmpty_cons, Bool.false_eq_true, if_false, if_true]
          exact ih f (i3 + 1) t1 r1 hd4 (by simp) hfr hwr
      | false =>
        rw [hk] at hd3
        simp only [Bool.false_eq_true, if_false, List.nil_append] at hd3
        obtain ⟨hn1, hn2⟩ := hwn hk
        cases rest with
        | nil =>
          cases els with
          | none =>
            simp only [if_spec_words, Option.toList] at hd3
            have hle : W.length ≤ i3 := List.drop_eq_nil_iff.mp hd3
            rw [if_neg (by omega), tcl_cmd_if_loop_done _ _ _ _ _ _ _ hle]
            simp only [if_spec_eval]
          | some e =>
            simp only [if_spec_words, Option.toList] at hd3 hn1 hn2
            obtain ⟨-, hi3, hd4, hmem⟩ := drop_cons_facts W i3 _ _ hd3
            have hle : W.length ≤ i3 + 1 := List.drop_eq_nil_iff.mp hd4
            rw [if_pos hi3, if_list_at W hW hfirst i3 _ _ hd3]
            simp only [cstr_text_encoding _ (hW _ hmem)]
            rw [if_neg (by simpa using hn1), if_neg (by simpa using hn2), if_neg (by omega)]
            simp only [if_spec_eval]
            cases ev t1 (text_encoding e) (tcl_string (text_encoding e))
                (tcl_length (some (text_encoding e)) + 1) with
            | none => rfl
            | some y =>
              obtain ⟨t2, r2⟩ := y
              simp only [tcl_cmd_if_loop_done _ _ _ _ _ _ _ hle, Option.map_some']
        | cons c2 rs =>
          have hd3b := hd3
          rw [if_spec_words] at hd3 hn1 hn2
          obtain ⟨-, hi3, hd4, hmem⟩ := drop_cons_facts W i3 _ _ hd3
          have hi4 : i3 + 1 < W.length := by
            by_contra hc
            rw [List.drop_eq_nil_of_le (by omega)] at hd4
            cases c2.then_kw <;> simp at hd4
          rw [if_pos hi3, if_list_at W hW hfirst i3 _ _ hd3]
          simp only [cstr_text_encoding _ (hW _ hmem)]
          rw [if_neg (by simpa using hn1), if_neg (by simpa using hn2), if_pos hi4]
          exact ih f i3 t1 r1 hd3b (by simp) hfr hwr

set_option maxRecDepth 100000 in
/-- C28: `tcl_cmd_if` on a chain of `cond body` pairs, for every evaluator `ev` in
the place of `tcl_eval`.  The words after `if` are the pairs, each with or without
`then` between condition and body, joined by `elseif` or by no keyword, and an
optional final else body after `else` or after no keyword; the words are made of
plain bytes and can be read in one way only (`if_spec_wf`).  Then `tcl_cmd_if`
is the evaluation `if_spec_eval`: the conditions are evaluated in order, the
body of the first condition whose result is not zero is evaluated and nothing
after it, and the else body is evaluated when every condition is zero.  From the
freshly initialised context the script
`if {1 == 2} { set x A } elseif {2 == 2} { set x B } else { set x C } ; set x`
gives `B`. -/
theorem tcl_cmd_if_chain :
    (∀ (ev : tcl → Mem → Nat → Nat → Option (tcl × Nat)) (t : tcl)
        (cls : List if_spec_clause) (els : Option Mem),
      cls ≠ [] → if_spec_wf cls els →
      (∀ w ∈ if_spec_words cls els, ∀ c ∈ w, list_safe_byte c = true) →
      tcl_cmd_if ev t (list_text ("if".toList :: if_spec_words cls els) ++ [NUL]) =
        if_spec_eval ev cls els t FNORMAL) ∧
    (tcl_eval_text 30 tcl_init
        "if {1 == 2} { set x A } elseif {2 == 2} { set x B } else { set x C } ; set x".toList).map
      (fun r => (r.1.result, r.2, r.1.errorcode)) = some (some (c_string "B"), FNORMAL, 0) := by
  refine ⟨?_, by decide!⟩
  intro ev t cls els hne hwf hsafe
  have hW : ∀ w ∈ "if".toList :: if_spec_words cls els, ∀ c ∈ w, list_safe_byte c = true := by
    intro w hw
    rcases List.mem_cons.mp hw with rfl | hw
    · decide
    · exact hsafe w hw
  have hfirst : ∀ w, ("if".toList :: if_spec_words cls els).head? = some w →
      w.head? ≠ some '#' := by
    intro w hw
    simp only [List.head?_cons, Option.some.injEq] at hw
    subst hw
    decide
  have hlen := if_spec_words_length els cls
  have hcl : 1 ≤ cls.length := List.length_pos.mpr hne
  unfold tcl_cmd_if tcl_expect_args_ok
  rw [tcl_list_count_list_text _ hW hfirst]
  have hok : (decide (3 ≤ ("if".toList :: if_spec_words cls els).length) &&
      (decide (("if".toList :: if_spec_words cls els).length ≤ 0) || (0 : Nat) == 0)) = true := by
    simp only [List.length_cons]
    simp
    omega
  simp only [Option.map_some', hok]
  exact tcl_cmd_if_loop_chain ev _ hW hfirst els cls _ 1 t FNORMAL rfl hne
    (by simp only [List.length_cons]; omega) hwf

/-- C28, at an instance: the words `if 0 a elseif 1 then b c`, with two pairs and
an else body that follows without keyword. -/
theorem tcl_cmd_if_chain_witness :
    tcl_cmd_if (tcl_eval 5) tcl_init (c_string "if 0 a elseif 1 then b c") =
      if_spec_eval (tcl_eval 5)
        [⟨"0".toList, false, "a".toList, true⟩, ⟨"1".toList, true, "b".toList, false⟩]
        (some "c".toList) tcl_init FNORMAL :=
  tcl_cmd_if_chain.1 (tcl_eval 5) tcl_init
    [⟨"0".toList, false, "a".toList, true⟩, ⟨"1".toList, true, "b".toList, false⟩]
    (some "c".toList) (by simp)
    (by simp [if_spec_wf, if_spec_words]) (by decide)

/-! ## Relations that every step of the interpreter keeps -/

theorem expr_lex_keeps {R : tcl → tcl → Prop} (hR : tcl_step_rel R) (e : expr) :
    R e.tcl (expr_lex e).tcl := by
  unfold expr_lex
  simp only []
  split_ifs
  all_goals first
    | exact hR.refl _
    | exact hR.var e.tcl _ none

theorem lex_keeps {R : tcl → tcl → Prop} (hR : tcl_step_rel R) (e : expr) :
    R e.tcl (lex e).tcl := by
  unfold lex
  split_ifs
  · exact hR.refl _
  · exact expr_lex_keeps hR e

theorem expr_parser_keeps {R : tcl → tcl → Prop} (hR : tcl_step_rel R) :
    ∀ fuel : Nat,
      (∀ e v e2, expr_primary fuel e = some (v, e2) → R e.tcl e2.tcl) ∧
      (∀ e v e2, expr_power fuel e = some (v, e2) → R e.tcl e2.tcl) ∧
      (∀ e v e2, expr_product fuel e = some (v, e2) → R e.tcl e2.tcl) ∧
      (∀ e v e2, expr_sum fuel e = some (v, e2) → R e.tcl e2.tcl) ∧
      (∀ e v e2, expr_shift fuel e = some (v, e2) → R e.tcl e2.tcl) ∧
      (∀ e v e2, expr_relational fuel e = some (v, e2) → R e.tcl e2.tcl) ∧
      (∀ e v e2, expr_equality fuel e = some (v, e2) → R e.tcl e2.tcl) ∧
      (∀ e v e2, expr_binary_and fuel e = some (v, e2) → R e.tcl e2.tcl) ∧
      (∀ e v e2, expr_binary_xor fuel e = some (v, e2) → R e.tcl e2.tcl) ∧
      (∀ e v e2, expr_binary_or fuel e = some (v, e2) → R e.tcl e2.tcl) ∧
      (∀ e v e2, expr_logic_and fuel e = some (v, e2) → R e.tcl e2.tcl) ∧
      (∀ e v e2, expr_logic_or fuel e = some (v, e2) → R e.tcl e2.tcl) ∧
      (∀ v1 e v e2, expr_power_loop fuel v1 e = some (v, e2) → R e.tcl e2.tcl) ∧
      (∀ v1 e v e2, expr_product_loop fuel v1 e = some (v, e2) → R e.tcl e2.tcl) ∧
      (∀ v1 e v e2, expr_sum_loop fuel v1 e = some (v, e2) → R e.tcl e2.tcl) ∧
      (∀ v1 e v e2, expr_shift_loop fuel v1 e = some (v, e2) → R e.tcl e2.tcl) ∧
      (∀ v1 e v e2, expr_relational_loop fuel v1 e = some (v, e2) → R e.tcl e2.tcl) ∧
      (∀ v1 e v e2, expr_equality_loop fuel v1 e = some (v, e2) → R e.tcl e2.tcl) ∧
      (∀ v1 e v e2, expr_binary_and_loop fuel v1 e = some (v, e2) → R e.tcl e2.tcl) ∧
      (∀ v1 e v e2, expr_binary_xor_loop fuel v1 e = some (v, e2) → R e.tcl e2.tcl) ∧
      (∀ v1 e v e2, expr_binary_or_loop fuel v1 e = some (v, e2) → R e.tcl e2.tcl) ∧
      (∀ v1 e v e2, expr_logic_and_loop fuel v1 e = some (v, e2) → R e.tcl e2.tcl) ∧
      (∀ v1 e v e2, expr_logic_or_loop fuel v1 e = some (v, e2) → R e.tcl e2.tcl) := by
  intro fuel
  induction fuel with
  | zero =>
    refine ⟨?_, ?_, ?_, ?_, ?_, ?_, ?_, ?_, ?_, ?_, ?_, ?_, ?_, ?_, ?_, ?_, ?_, ?_, ?_, ?_, ?_,
      ?_, ?_⟩
    all_goals
      intros
      rename_i h
      simp [expr_primary, expr_power, expr_product, expr_sum, expr_shift, expr_relational,
        expr_equality, expr_binary_and, expr_binary_xor, expr_binary_or, expr_logic_and,
        expr_logic_or, expr_power_loop, expr_product_loop, expr_sum_loop, expr_shift_loop,
        expr_relational_loop, expr_equality_loop, expr_binary_and_loop, expr_binary_xor_loop,
        expr_binary_or_loop, expr_logic_and_loop, expr_logic_or_loop] at h
  | succ f ih =>
    obtain ⟨a0, a1, a2, a3, a4, a5, a6, a7, a8, a9, a10, a11, b1, b2, b3, b4, b5, b6, b7, b8, b9,
      b10, b11⟩ := ih
    have hlevel : ∀ (F : expr → Option (Int × expr)) (L : Int → expr → Option (Int × expr)),
        (∀ e v e2, F e = some (v, e2) → R e.tcl e2.tcl) →
        (∀ v1 e v e2, L v1 e = some (v, e2) → R e.tcl e2.tcl) →
        ∀ e v e2, (F e).bind (fun r => L r.1 r.2) = some (v, e2) → R e.tcl e2.tcl := by
      intro F L hF hL e v e2 h
      rcases Option.bind_eq_some.mp h with ⟨a, h1, h2⟩
      exact hR.trans _ _ _ (hF _ _ _ h1) (hL _ _ _ _ h2)
    have hloop : ∀ (c : Prop) [Decidable c] (F : expr → Option (Int × expr))
        (K : Int × expr → Option (Int × expr)) (v1 : Int) (e0 : expr),
        (∀ e v e2, F e = some (v, e2) → R e.tcl e2.tcl) →
        (∀ r v e2, K r = some (v, e2) → R r.2.tcl e2.tcl) →
        ∀ v e2, (if c then (F (lex e0)).bind K else some (v1, unlex (lex e0))) = some (v, e2) →
          R e0.tcl e2.tcl := by
      intro c _ F K v1 e0 hF hK v e2 h
      split_ifs at h
      · rcases Option.bind_eq_some.mp h with ⟨a, h1, h2⟩
        exact hR.trans _ _ _ (lex_keeps hR e0) (hR.trans _ _ _ (hF _ _ _ h1) (hK _ _ _ h2))
      · injection h with h
        injection h with _ h
        subst h
        exact lex_keeps hR e0
    refine ⟨?_, hlevel _ _ a0 b1, hlevel _ _ a1 b2, hlevel _ _ a2 b3, hlevel _ _ a3 b4,
      hlevel _ _ a4 b5, hlevel _ _ a5 b6, hlevel _ _ a6 b7, hlevel _ _ a7 b8, hlevel _ _ a8 b9,
      hlevel _ _ a9 b10, hlevel _ _ a10 b11, ?_, ?_, ?_, ?_, ?_, ?_, ?_, ?_, ?_, ?_, ?_⟩
    · intro e v e2 h
      rw [expr_primary] at h
      simp only [] at h
      have hl := lex_keeps hR e
      split_ifs at h
      all_goals first
        | (rcases Option.map_eq_some'.mp h with ⟨a, h1, h2⟩
           injection h2 with _ h2
           subst h2
           first
             | exact hR.trans _ _ _ hl (a0 _ _ _ h1)
             | (have hk := hR.trans _ _ _ hl (a11 _ _ _ h1)
                split_ifs
                · exact hR.trans _ _ _ hk (lex_keeps hR _)
                · exact hR.trans _ _ _ hk (lex_keeps hR _)))
        | (injection h with h
           injection h with _ h
           subst h
           exact hl)
    all_goals
      intro v1 e0 v e2 h
      refine hloop _ _ _ v1 e0 ?_ ?_ v e2 h
      · first | exact a0 | exact a1 | exact a2 | exact a3 | exact a4 | exact a5 | exact a6
              | exact a7 | exact a8 | exact a9 | exact a10
      · intro r v e2 h
        simp only [] at h
        try split_ifs at h
        all_goals first
          | exact b2 _ (expr_error r.2 eDIV0) _ _ h
          | exact b1 _ _ _ _ h | exact b2 _ _ _ _ h | exact b3 _ _ _ _ h | exact b4 _ _ _ _ h
          | exact b5 _ _ _ _ h | exact b6 _ _ _ _ h | exact b7 _ _ _ _ h | exact b8 _ _ _ _ h
          | exact b9 _ _ _ _ h | exact b10 _ _ _ _ h | exact b11 _ _ _ _ h

theorem tcl_expression_keeps {R : tcl → tcl → Prop} (hR : tcl_step_rel R) (t : tcl)
    (x : List Char) (err : Nat) (v : Int) (t2 : tcl)
    (h : tcl_expression t x = some (err, v, t2)) : R t t2 := by
  unfold tcl_expression tcl_expression_fuel at h
  rcases Option.map_eq_some'.mp h with ⟨a, h1, h2⟩
  have k1 := (expr_parser_keeps hR _).2.2.2.2.2.2.2.2.2.2.2.1 _ _ _ h1
  injection h2 with _ h2
  injection h2 with _ h2
  subst h2
  simp only []
  split_ifs
  all_goals first
    | exact k1
    | exact hR.trans _ _ _ k1 (lex_keeps hR (expr_skip a.2 0))

theorem tcl_cmd_expr_keeps {R : tcl → tcl → Prop} (hR : tcl_step_rel R) (t : tcl) (args : Mem)
    (t2 : tcl) (r : Nat) (h : tcl_cmd_expr t args = some (t2, r)) : R t t2 := by
  unfold tcl_cmd_expr at h
  split at h
  · exact absurd h (by simp)
  · split at h
    · exact absurd h (by simp)
    · split at h
      · exact absurd h (by simp)
      · rename_i err result t1 he
        have k1 := tcl_expression_keeps hR _ _ _ _ _ he
        split_ifs at h
        all_goals
          injection h with h
          injection h with h _
          subst h
          exact hR.trans _ _ _ k1 (hR.result _ _ _)

theorem tcl_subst_keeps {R : tcl → tcl → Prop} (hR : tcl_step_rel R)
    (ev : tcl → Mem → Nat → Nat → Option (tcl × Nat))
    (hev : ∀ t m s l t2 r, ev t m s l = some (t2, r) → R t t2)
    (t : tcl) (m : Mem) (s len : Nat) (t2 : tcl) (r : Nat)
    (h : tcl_subst ev t m s len = some (t2, r)) : R t t2 := by
  unfold tcl_subst at h
  split_ifs at h
  all_goals first
    | (injection h with h
       injection h with h _
       subst h
       first
         | exact hR.result _ _ _
         | exact hR.trans _ _ _ (hR.var _ _ _) (hR.result _ _ _))
    | (rcases Option.map_eq_some'.mp h with ⟨a, h1, h2⟩
       injection h2 with h2 _
       subst h2
       exact hev _ _ _ _ _ _ h1)

theorem tcl_cmd_set_keeps {R : tcl → tcl → Prop} (hR : tcl_step_rel R) (t : tcl) (args : Mem)
    (t2 : tcl) (r : Nat) (h : tcl_cmd_set t args = some (t2, r)) : R t t2 := by
  unfold tcl_cmd_set at h
  split at h
  · exact absurd h (by simp)
  · injection h with h
    injection h with h _
    subst h
    exact hR.result _ _ _
  · split at h
    · injection h with h
      injection h with h _
      subst h
      exact hR.trans _ _ _ (hR.var _ _ _) (hR.result _ _ _)
    · exact absurd h (by simp)

theorem tcl_cmd_global_name_keeps {R : tcl → tcl → Prop} (hR : tcl_step_rel R) (t : tcl)
    (r : Nat) (name : Mem) : R t (tcl_cmd_global_name t r name).1 := by
  unfold tcl_cmd_global_name
  split_ifs
  · exact hR.result _ _ _
  · exact hR.result _ _ _
  · simp only []
    split
    · exact hR.trans _ _ _ (hR.var _ _ _) (hR.env_flag _ _)
    · exact hR.var t name (some (tcl_value [] 0 0 false))

theorem tcl_cmd_global_loop_keeps {R : tcl → tcl → Prop} (hR : tcl_step_rel R) (args : Mem) :
    ∀ (k i : Nat) (t : tcl) (r : Nat) (t2 : tcl) (r2 : Nat),
      tcl_cmd_global_loop args k i t r = some (t2, r2) → R t t2 := by
  intro k
  induction k with
  | zero =>
    intro i t r t2 r2 h
    rw [tcl_cmd_global_loop] at h
    injection h with h
    injection h with h _
    subst h
    exact hR.refl _
  | succ k ih =>
    intro i t r t2 r2 h
    rw [tcl_cmd_global_loop] at h
    split at h
    · exact hR.trans _ _ _ (tcl_cmd_global_name_keeps hR t r _) (ih _ _ _ _ _ h)
    · exact absurd h (by simp)

theorem tcl_cmd_global_keeps {R : tcl → tcl → Prop} (hR : tcl_step_rel R) (t : tcl) (args : Mem)
    (t2 : tcl) (r : Nat) (h : tcl_cmd_global t args = some (t2, r)) : R t t2 := by
  unfold tcl_cmd_global at h
  split at h
  · exact absurd h (by simp)
  · injection h with h
    injection h with h _
    subst h
    exact hR.result _ _ _
  · split at h
    · exact absurd h (by simp)
    · exact tcl_cmd_global_loop_keeps hR args _ _ _ _ _ _ h

theorem tcl_cmd_subst_keeps {R : tcl → tcl → Prop} (hR : tcl_step_rel R)
    (ev : tcl → Mem → Nat → Nat → Option (tcl × Nat))
    (hev : ∀ t m s l t2 r, ev t m s l = some (t2, r) → R t t2)
    (t : tcl) (args : Mem) (t2 : tcl) (r : Nat)
    (h : tcl_cmd_subst ev t args = some (t2, r)) : R t t2 := by
  unfold tcl_cmd_subst at h
  split at h
  · exact tcl_subst_keeps hR ev hev _ _ _ _ _ _ h
  · exact absurd h (by simp)

theorem tcl_cmd_puts_keeps {R : tcl → tcl → Prop} (hR : tcl_step_rel R) (t : tcl) (args : Mem)
    (t2 : tcl) (r : Nat) (h : tcl_cmd_puts t args = some (t2, r)) : R t t2 := by
  unfold tcl_cmd_puts at h
  split at h
  · injection h with h
    injection h with h _
    subst h
    exact hR.result _ _ _
  · exact absurd h (by simp)

theorem tcl_cmd_flow_keeps {R : tcl → tcl → Prop} (hR : tcl_step_rel R) (t : tcl) (args : Mem)
    (t2 : tcl) (r : Nat) (h : tcl_cmd_flow t args = some (t2, r)) : R t t2 := by
  unfold tcl_cmd_flow at h
  split at h
  · simp only [] at h
    split_ifs at h
    · injection h with h
      injection h with h _
      subst h
      exact hR.refl _
    · injection h with h
      injection h with h _
      subst h
      exact hR.refl _
    · split at h
      · injection h with h
        injection h with h _
        subst h
        exact hR.result _ _ _
      · exact absurd h (by simp)
    · injection h with h
      injection h with h _
      subst h
      exact hR.refl _
  · exact absurd h (by simp)

theorem tcl_cmd_proc_keeps {R : tcl → tcl → Prop} (hR : tcl_step_rel R) (t : tcl) (args : Mem)
    (t2 : tcl) (r : Nat) (h : tcl_cmd_proc t args = some (t2, r)) : R t t2 := by
  unfold tcl_cmd_proc at h
  split at h
  · injection h with h
    injection h with h _
    subst h
    refine hR.trans _ _ _ ?_ (hR.result _ _ _)
    exact hR.cmds t _
  · exact absurd h (by simp)

theorem tcl_cmd_incr_keeps {R : tcl → tcl → Prop} (hR : tcl_step_rel R) (t : tcl) (args : Mem)
    (t2 : tcl) (r : Nat) (h : tcl_cmd_incr t args = some (t2, r)) : R t t2 := by
  unfold tcl_cmd_incr at h
  split at h
  · exact absurd h (by simp)
  · injection h with h
    injection h with h _
    subst h
    exact hR.result _ _ _
  · split at h
    · exact absurd h (by simp)
    · split at h
      · injection h with h
        injection h with h _
        subst h
        exact hR.trans _ _ _ (hR.var _ _ _) (hR.trans _ _ _ (hR.var _ _ _) (hR.result _ _ _))
      · exact absurd h (by simp)

theorem tcl_cmd_scan_conv_keeps {R : tcl → tcl → Prop} (hR : tcl_step_rel R) (t : tcl)
    (args sm fm : Mem) (sp fp mt : Nat) (t2 : tcl) (x : Nat × Nat × Nat)
    (h : tcl_cmd_scan_conv t args sm fm sp fp mt = some (t2, x)) : R t t2 := by
  unfold tcl_cmd_scan_conv at h
  simp only [] at h
  split at h
  · exact absurd h (by simp)
  · injection h with h
    injection h with h _
    subst h
    exact hR.refl _
  · injection h with h
    injection h with h _
    subst h
    exact hR.var _ _ _

theorem tcl_cmd_scan_loop_keeps {R : tcl → tcl → Prop} (hR : tcl_step_rel R)
    (args sm fm : Mem) :
    ∀ (fuel : Nat) (t : tcl) (sp fp mt : Nat) (t2 : tcl) (r : Nat),
      tcl_cmd_scan_loop args sm fm fuel t sp fp mt = some (t2, r) → R t t2 := by
  intro fuel
  induction fuel with
  | zero =>
    intro t sp fp mt t2 r h
    rw [tcl_cmd_scan_loop] at h
    split_ifs at h
    injection h with h
    injection h with h _
    subst h
    exact hR.refl _
  | succ f ih =>
    intro t sp fp mt t2 r h
    rw [tcl_cmd_scan_loop] at h
    split_ifs at h
    · injection h with h
      injection h with h _
      subst h
      exact hR.refl _
    · split at h
      · exact absurd h (by simp)
      · rename_i t1 sp1 fp1 mt1 hc
        exact hR.trans _ _ _ (tcl_cmd_scan_conv_keeps hR _ _ _ _ _ _ _ _ _ hc) (ih _ _ _ _ _ _ h)
    · exact ih _ _ _ _ _ _ h
    · injection h with h
      injection h with h _
      subst h
      exact hR.refl _

theorem tcl_cmd_scan_keeps {R : tcl → tcl → Prop} (hR : tcl_step_rel R) (t : tcl) (args : Mem)
    (t2 : tcl) (r : Nat) (h : tcl_cmd_scan t args = some (t2, r)) : R t t2 := by
  unfold tcl_cmd_scan at h
  split at h
  · exact absurd h (by simp)
  · injection h with h
    injection h with h _
    subst h
    exact hR.result _ _ _
  · split at h
    · split at h
      · exact absurd h (by simp)
      · rename_i t1 mt hl
        injection h with h
        injection h with h _
        subst h
        exact hR.trans _ _ _ (tcl_cmd_scan_loop_keeps hR _ _ _ _ _ _ _ _ _ _ hl) (hR.result _ _ _)
    · exact absurd h (by simp)

theorem tcl_cmd_while_loop_keeps {R : tcl → tcl → Prop} (hR : tcl_step_rel R)
    (ev : tcl → Mem → Nat → Nat → Option (tcl × Nat))
    (hev : ∀ t m s l t2 r, ev t m s l = some (t2, r) → R t t2) (cond body : Mem) :
    ∀ (fuel : Nat) (t t2 : tcl) (r : Nat),
      tcl_cmd_while_loop ev cond body fuel t = some (t2, r) → R t t2 := by
  intro fuel
  induction fuel with
  | zero =>
    intro t t2 r h
    rw [tcl_cmd_while_loop] at h
    exact absurd h (by simp)
  | succ f ih =>
    intro t t2 r h
    rw [tcl_cmd_while_loop] at h
    split at h
    · exact absurd h (by simp)
    · rename_i t1 r1 hc
      have k1 := hev _ _ _ _ _ _ hc
      split_ifs at h
      · injection h with h
        injection h with h _
        subst h
        exact k1
      · injection h with h
        injection h with h _
        subst h
        exact k1
      · split at h
        · exact absurd h (by simp)
        · rename_i t3 r3 hb
          have k2 := hev _ _ _ _ _ _ hb
          split_ifs at h
          · injection h with h
            injection h with h _
            subst h
            exact hR.trans _ _ _ k1 k2
          · injection h with h
            injection h with h _
            subst h
            exact hR.trans _ _ _ k1 k2
          · exact hR.trans _ _ _ k1 (hR.trans _ _ _ k2 (ih _ _ _ h))

theorem tcl_cmd_while_keeps {R : tcl → tcl → Prop} (hR : tcl_step_rel R) (fuel : Nat)
    (ev : tcl → Mem → Nat → Nat → Option (tcl × Nat))
    (hev : ∀ t m s l t2 r, ev t m s l = some (t2, r) → R t t2)
    (t : tcl) (args : Mem) (t2 : tcl) (r : Nat)
    (h : tcl_cmd_while fuel ev t args = some (t2, r)) : R t t2 := by
  unfold tcl_cmd_while at h
  split at h
  · exact tcl_cmd_while_loop_keeps hR ev hev _ _ _ _ _ _ h
  · exact absurd h (by simp)

theorem tcl_user_proc_loop_keeps {R : tcl → tcl → Prop} (hR : tcl_step_rel R)
    (params args : Mem) :
    ∀ (k i : Nat) (t t2 : tcl), tcl_user_proc_loop params args k i t = some t2 → R t t2 := by
  intro k
  induction k with
  | zero =>
    intro i t t2 h
    rw [tcl_user_proc_loop] at h
    injection h with h
    subst h
    exact hR.refl _
  | succ k ih =>
    intro i t t2 h
    rw [tcl_user_proc_loop] at h
    split at h
    · exact hR.trans _ _ _ (hR.var _ _ _) (ih _ _ _ h)
    · exact absurd h (by simp)

/-- The context in which `tcl_user_proc` evaluates the body, and the context it
returns: the step relation holds from the context with the new frame to the
context before the frame is removed. -/
theorem tcl_user_proc_inner {R : tcl → tcl → Prop} (hR : tcl_step_rel R)
    (ev : tcl → Mem → Nat → Nat → Option (tcl × Nat))
    (hev : ∀ t m s l t2 r, ev t m s l = some (t2, r) → R t t2)
    (t : tcl) (args code : Mem) (t2 : tcl) (r : Nat)
    (h : tcl_user_proc ev t args code = some (t2, r)) :
    ∃ t3 : tcl, R { t with env := [], parents := t.env :: t.parents } t3 ∧
      t2 = { t3 with env := t3.parents.headD [], parents := t3.parents.tail } := by
  unfold tcl_user_proc at h
  split at h
  · split at h
    · exact absurd h (by simp)
    · split at h
      · exact absurd h (by simp)
      · rename_i tb hl
        split at h
        · exact absurd h (by simp)
        · rename_i t3 r3 hb
          injection h with h
          injection h with h _
          subst h
          exact ⟨t3, hR.trans _ _ _ (tcl_user_proc_loop_keeps hR _ _ _ _ _ _ hl)
            (hev _ _ _ _ _ _ hb), rfl⟩
  · exact absurd h (by simp)

theorem tcl_user_proc_keeps {R : tcl → tcl → Prop} (hR : tcl_step_rel R)
    (ev : tcl → Mem → Nat → Nat → Option (tcl × Nat))
    (hev : ∀ t m s l t2 r, ev t m s l = some (t2, r) → R t t2)
    (t : tcl) (args code : Mem) (t2 : tcl) (r : Nat)
    (h : tcl_user_proc ev t args code = some (t2, r)) : R t t2 := by
  obtain ⟨t3, h1, rfl⟩ := tcl_user_proc_inner hR ev hev t args code t2 r h
  exact hR.frame t t3 h1

theorem tcl_cmd_if_loop_keeps {R : tcl → tcl → Prop} (hR : tcl_step_rel R)
    (ev : tcl → Mem → Nat → Nat → Option (tcl × Nat))
    (hev : ∀ t m s l t2 r, ev t m s l = some (t2, r) → R t t2) (args : Mem) (n : Nat) :
    ∀ (fuel i : Nat) (t : tcl) (r : Nat) (t2 : tcl) (r2 : Nat),
      tcl_cmd_if_loop ev args n fuel i t r = some (t2, r2) → R t t2 := by
  intro fuel
  induction fuel with
  | zero =>
    intro i t r t2 r2 h
    rw [tcl_cmd_if_loop] at h
    split_ifs at h
    injection h with h
    injection h with h _
    subst h
    exact hR.refl _
  | succ f ih =>
    intro i t r t2 r2 h
    rw [tcl_cmd_if_loop] at h
    split at h
    · simp only [] at h
      split at h
      · split at h
        · exact absurd h (by simp)
        · split at h
          · exact absurd h (by simp)
          · rename_i t1 r1 hc
            have k1 := hev _ _ _ _ _ _ hc
            split at h
            · injection h with h
              injection h with h _
              subst h
              exact k1
            · split at h
              · injection h with h
                injection h with h _
                subst h
                exact hR.trans _ _ _ k1 (hR.result _ _ _)
              · split at h
                · rcases Option.map_eq_some'.mp h with ⟨a, h1, h2⟩
                  injection h2 with h2 _
                  subst h2
                  exact hR.trans _ _ _ k1 (hev _ _ _ _ _ _ h1)
                · split at h
                  · split at h
                    · split at h
                      · exact hR.trans _ _ _ k1 (ih _ _ _ _ _ h)
                      · split at h
                        · split at h
                          · split at h
                            · rcases Option.map_eq_some'.mp h with ⟨a, h1, h2⟩
                              injection h2 with h2 _
                              subst h2
                              exact hR.trans _ _ _ k1 (hev _ _ _ _ _ _ h1)
                            · exact absurd h (by simp)
                          · injection h with h
                            injection h with h _
                            subst h
                            exact hR.trans _ _ _ k1 (hR.result _ _ _)
                        · split at h
                          · exact hR.trans _ _ _ k1 (ih _ _ _ _ _ h)
                          · split at h
                            · exact absurd h (by simp)
                            · rename_i t3 r3 hb
                              exact hR.trans _ _ _ k1
                                (hR.trans _ _ _ (hev _ _ _ _ _ _ hb) (ih _ _ _ _ _ h))
                    · exact absurd h (by simp)
                  · exact hR.trans _ _ _ k1 (ih _ _ _ _ _ h)
      · exact absurd h (by simp)
    · injection h with h
      injection h with h _
      subst h
      exact hR.refl _

theorem tcl_cmd_if_keeps {R : tcl → tcl → Prop} (hR : tcl_step_rel R)
    (ev : tcl → Mem → Nat → Nat → Option (tcl × Nat))
    (hev : ∀ t m s l t2 r, ev t m s l = some (t2, r) → R t t2)
    (t : tcl) (args : Mem) (t2 : tcl) (r : Nat)
    (h : tcl_cmd_if ev t args = some (t2, r)) : R t t2 := by
  unfold tcl_cmd_if at h
  split at h
  · exact absurd h (by simp)
  · injection h with h
    injection h with h _
    subst h
    exact hR.result _ _ _
  · split at h
    · exact absurd h (by simp)
    · exact tcl_cmd_if_loop_keeps hR ev hev args _ _ _ _ _ _ _ h

theorem tcl_cmd_call_keeps {R : tcl → tcl → Prop} (hR : tcl_step_rel R) (fuel : Nat)
    (ev : tcl → Mem → Nat → Nat → Option (tcl × Nat))
    (hev : ∀ t m s l t2 r, ev t m s l = some (t2, r) → R t t2)
    (cmd : tcl_cmd) (t : tcl) (list : Mem) (t2 : tcl) (r : Nat)
    (h : tcl_cmd_call fuel ev cmd t list = some (t2, r)) : R t t2 := by
  unfold tcl_cmd_call at h
  split at h
  · exact tcl_cmd_set_keeps hR _ _ _ _ h
  · exact tcl_cmd_global_keeps hR _ _ _ _ h
  · exact tcl_cmd_subst_keeps hR ev hev _ _ _ _ h
  · exact tcl_cmd_proc_keeps hR _ _ _ _ h
  · exact tcl_cmd_if_keeps hR ev hev _ _ _ _ h
  · exact tcl_cmd_while_keeps hR fuel ev hev _ _ _ _ h
  · exact tcl_cmd_flow_keeps hR _ _ _ _ h
  · exact tcl_cmd_expr_keeps hR _ _ _ _ h
  · exact tcl_cmd_incr_keeps hR _ _ _ _ h
  · exact tcl_cmd_scan_keeps hR _ _ _ _ h
  · exact tcl_cmd_puts_keeps hR _ _ _ _ h
  · split at h
    · exact tcl_user_proc_keeps hR ev hev _ _ _ _ _ h
    · exact absurd h (by simp)

theorem tcl_exec_cmd_loop_keeps {R : tcl → tcl → Prop} (hR : tcl_step_rel R)
    (call : tcl_cmd → tcl → Mem → Option (tcl × Nat))
    (hcall : ∀ cmd t list t2 r, call cmd t list = some (t2, r) → R t t2)
    (t : tcl) (list cmdname : Mem) :
    ∀ (cmds : List tcl_cmd) (t2 : tcl) (r : Nat),
      tcl_exec_cmd_loop call t list cmdname cmds = some (t2, r) → R t t2 := by
  intro cmds
  induction cmds with
  | nil =>
    intro t2 r h
    rw [tcl_exec_cmd_loop] at h
    injection h with h
    injection h with h _
    subst h
    exact hR.refl _
  | cons c cs ih =>
    intro t2 r h
    rw [tcl_exec_cmd_loop] at h
    split at h
    · split at h
      · exact hcall _ _ _ _ _ h
      · split at h
        · exact absurd h (by simp)
        · split at h
          · exact hcall _ _ _ _ _ h
          · exact ih _ _ h
    · exact ih _ _ h

theorem tcl_exec_cmd_keeps {R : tcl → tcl → Prop} (hR : tcl_step_rel R) (fuel : Nat)
    (ev : tcl → Mem → Nat → Nat → Option (tcl × Nat))
    (hev : ∀ t m s l t2 r, ev t m s l = some (t2, r) → R t t2)
    (t : tcl) (list : Mem) (t2 : tcl) (r : Nat)
    (h : tcl_exec_cmd fuel ev t list = some (t2, r)) : R t t2 := by
  unfold tcl_exec_cmd at h
  split at h
  · exact tcl_exec_cmd_loop_keeps hR _ (tcl_cmd_call_keeps hR fuel ev hev) _ _ _ _ _ _ h
  · exact absurd h (by simp)

theorem tcl_eval_token_keeps {R : tcl → tcl → Prop} (hR : tcl_step_rel R) (fuel : Nat)
    (ev : tcl → Mem → Nat → Nat → Option (tcl × Nat))
    (hev : ∀ t m s l t2 r, ev t m s l = some (t2, r) → R t t2)
    (m : Mem) (p : tcl_each_state) (t : tcl) (list : Mem) (cur : Option Mem) (t2 : tcl)
    (x : Mem × Option Mem × Nat)
    (h : tcl_eval_token fuel ev m p t list cur = some (t2, x)) : R t t2 := by
  unfold tcl_eval_token at h
  have k0 := hR.pos t p.from_
  simp only [] at h
  split at h
  · injection h with h
    injection h with h _
    subst h
    exact hR.trans _ _ _ k0 (hR.result _ _ _)
  · split at h
    · exact absurd h (by simp)
    · rename_i t1 r1 hs
      split at h
      · exact absurd h (by simp)
      · injection h with h
        injection h with h _
        subst h
        exact hR.trans _ _ _ k0 (tcl_subst_keeps hR ev hev _ _ _ _ _ _ hs)
  · split at h
    · exact absurd h (by simp)
    · rename_i t1 r1 hs
      split at h
      · exact absurd h (by simp)
      · injection h with h
        injection h with h _
        subst h
        exact hR.trans _ _ _ k0 (tcl_subst_keeps hR ev hev _ _ _ _ _ _ hs)
  · split at h
    · exact absurd h (by simp)
    · split at h
      · split at h
        · exact absurd h (by simp)
        · rename_i t1 r1 hx
          injection h with h
          injection h with h _
          subst h
          exact hR.trans _ _ _ k0 (tcl_exec_cmd_keeps hR fuel ev hev _ _ _ _ hx)
      · injection h with h
        injection h with h _
        subst h
        exact k0

theorem tcl_eval_loop_keeps {R : tcl → tcl → Prop} (hR : tcl_step_rel R) (fuel : Nat)
    (ev : tcl → Mem → Nat → Nat → Option (tcl × Nat))
    (hev : ∀ t m s l t2 r, ev t m s l = some (t2, r) → R t t2) (m : Mem) :
    ∀ (n : Nat) (p : tcl_each_state) (t : tcl) (list : Mem) (cur : Option Mem) (result : Nat)
      (t2 : tcl) (x : Mem × Nat),
      tcl_eval_loop fuel ev m n p t list cur result = some (t2, x) → R t t2 := by
  intro n
  induction n with
  | zero =>
    intro p t list cur result t2 x h
    rw [tcl_eval_loop] at h
    split_ifs at h
    injection h with h
    injection h with h _
    subst h
    exact hR.refl _
  | succ n ih =>
    intro p t list cur result t2 x h
    rw [tcl_eval_loop] at h
    split at h
    · simp only [] at h
      split at h
      · exact absurd h (by simp)
      · rename_i t1 list1 cur1 r1 hk
        have k1 := tcl_eval_token_keeps hR fuel ev hev _ _ _ _ _ _ _ hk
        split at h
        · injection h with h
          injection h with h _
          subst h
          exact hR.trans _ _ _ k1 (hR.result _ _ _)
        · exact hR.trans _ _ _ k1 (ih _ _ _ _ _ _ _ h)
    · injection h with h
      injection h with h _
      subst h
      exact hR.refl _

theorem tcl_eval_body_keeps {R : tcl → tcl → Prop} (hR : tcl_step_rel R) (fuel : Nat)
    (ev : tcl → Mem → Nat → Nat → Option (tcl × Nat))
    (hev : ∀ t m s l t2 r, ev t m s l = some (t2, r) → R t t2)
    (t : tcl) (m : Mem) (s length : Nat) (t2 : tcl) (r : Nat)
    (h : tcl_eval_body fuel ev t m s length = some (t2, r)) : R t t2 := by
  unfold tcl_eval_body at h
  split at h
  · exact absurd h (by simp)
  · rename_i t1 list result hl
    have k1 := tcl_eval_loop_keeps hR fuel ev hev m _ _ _ _ _ _ _ _ hl
    simp only [] at h
    split at h
    · exact absurd h (by simp)
    · rename_i tl rl hlast
      injection h with h
      injection h with h _
      subst h
      refine hR.nest t tl (hR.trans _ _ _ k1 ?_)
      split at hlast
      · split at hlast
        · exact absurd hlast (by simp)
        · split at hlast
          · exact tcl_exec_cmd_keeps hR fuel ev hev _ _ _ _ hlast
          · injection hlast with hlast
            injection hlast with hlast _
            subst hlast
            exact hR.refl _
      · injection hlast with hlast
        injection hlast with hlast _
        subst hlast
        exact hR.refl _

/-- Every relation that the steps of the interpreter keep holds between the
context before and the context after an evaluation. -/
theorem tcl_eval_keeps {R : tcl → tcl → Prop} (hR : tcl_step_rel R) :
    ∀ (fuel : Nat) (t : tcl) (m : Mem) (s length : Nat) (t2 : tcl) (r : Nat),
      tcl_eval fuel t m s length = some (t2, r) → R t t2 := by
  intro fuel
  induction fuel with
  | zero =>
    intro t m s length t2 r h
    rw [tcl_eval] at h
    exact absurd h (by simp)
  | succ f ih =>
    intro t m s length t2 r h
    rw [tcl_eval] at h
    exact tcl_eval_body_keeps hR f (tcl_eval f) ih _ _ _ _ _ _ h

/-! ## Frames across the call of a proc -/

theorem same_bindings_refl (a : tcl_env) : same_bindings a a := rfl

theorem same_bindings_trans (a b c : tcl_env) (h1 : same_bindings a b) (h2 : same_bindings b c) :
    same_bindings a c := h1.trans h2

theorem same_bindings_modify (w : Mem) :
    ∀ (a : tcl_env) (j : Nat),
      same_bindings a (a.modify (fun var => { var with value := w }) j) := by
  intro a
  induction a with
  | nil => intro j; cases j <;> rfl
  | cons v l ih =>
    intro j
    cases j with
    | zero => simp [same_bindings, List.modify]
    | succ j =>
      have := ih j
      simp only [same_bindings] at this ⊢
      rw [List.modify_succ_cons, List.map_cons, List.map_cons, ← this]

theorem same_bindings_findvar (x : Mem) :
    ∀ (a b : tcl_env), same_bindings a b → tcl_findvar a x = tcl_findvar b x := by
  intro a
  induction a with
  | nil =>
    intro b h
    cases b with
    | nil => rfl
    | cons v l => simp [same_bindings] at h
  | cons u k ih =>
    intro b h
    cases b with
    | nil => simp [same_bindings] at h
    | cons v l =>
      simp only [same_bindings, List.map_cons, List.cons.injEq, Prod.mk.injEq] at h
      have := ih l h.2
      simp only [tcl_findvar, List.findIdx?_cons, List.findIdx?_succ] at this ⊢
      rw [h.1.1, this]

theorem frames_kept_refl (ps : List tcl_env) : frames_kept ps ps := ⟨rfl, rfl, rfl⟩

theorem frames_kept_trans (a b c : List tcl_env) (h1 : frames_kept a b) (h2 : frames_kept b c) :
    frames_kept a c :=
  ⟨h2.1.trans h1.1, h2.2.1.trans h1.2.1, h1.2.2.trans h2.2.2⟩

theorem frames_kept_set_last (ps : List tcl_env) (hp : ps ≠ []) (root : tcl_env)
    (h : same_bindings (ps.getLastD []) root) :
    frames_kept ps (ps.set (ps.length - 1) root) := by
  obtain ⟨init, last, rfl⟩ : ∃ init last, ps = init ++ [last] :=
    ⟨ps.dropLast, ps.getLast hp, (List.dropLast_append_getLast hp).symm⟩
  have hset : (init ++ [last]).set ((init ++ [last]).length - 1) root = init ++ [root] := by
    simp [List.set_append]
  rw [hset]
  refine ⟨by simp, by simp, ?_⟩
  simpa using h

theorem frames_kept_cons (e : tcl_env) (ps qs : List tcl_env) (h : frames_kept (e :: ps) qs) :
    frames_kept ps qs.tail ∧ (ps = [] → same_bindings e (qs.headD [])) ∧
      (ps ≠ [] → qs.headD [] = e) := by
  obtain ⟨hl, hd, hb⟩ := h
  cases qs with
  | nil => simp at hl
  | cons e2 qs2 =>
    cases ps with
    | nil =>
      have : qs2 = [] := by
        cases qs2 with
        | nil => rfl
        | cons a l => simp at hl
      subst this
      refine ⟨frames_kept_refl [], fun _ => ?_, fun hne => absurd rfl hne⟩
      simpa using hb
    | cons p ps0 =>
      cases qs2 with
      | nil => simp at hl
      | cons q qs0 =>
        simp only [List.dropLast_cons₂, List.cons.injEq] at hd
        refine ⟨⟨by simpa using hl, hd.2, ?_⟩, fun hne => absurd hne (by simp), fun _ => hd.1⟩
        simpa using hb

/-- The frames below the current one after `tcl_var`: they are the same, or the
binding found in the current frame is a global alias and the value of a binding
of the root frame has been replaced. -/
theorem tcl_var_parents (t : tcl) (n : Mem) (v : Option Mem) :
    (tcl_var t n v).1.parents = t.parents ∨
    (t.parents ≠ [] ∧ ∃ k j w, tcl_findvar t.env n = some k ∧
      (t.env.getD k ⟨[], [], 0, false⟩).global = true ∧
      (tcl_var t n v).1.parents = t.parents.set (t.parents.length - 1)
        ((t.parents.getLastD []).modify (fun var => { var with value := w }) j)) := by
  unfold tcl_var
  cases hf : tcl_findvar t.env n with
  | none =>
    left
    simp only [Option.map_none', Option.getD_none]
    cases v with
    | none => rfl
    | some w => rfl
  | some k =>
    by_cases hg : (t.env.getD k ⟨[], [], 0, false⟩).global = true
    · simp only [Option.map_some', hg, if_true]
      cases hr : tcl_findvar (tcl_frame t t.parents.length) n with
      | none =>
        left
        simp only [Option.map_none', Option.getD_none]
        cases v with
        | none => rfl
        | some w => rfl
      | some j =>
        simp only [Option.map_some', Option.getD_some, Option.isSome_some, Bool.and_self, if_true]
        cases v with
        | none => left; rfl
        | some w =>
          by_cases hp : t.parents = []
          · left
            simp only [hp, List.length_nil, tcl_set_frame]
          · right
            refine ⟨hp, k, j, tcl_dup w, rfl, hg, ?_⟩
            simp only [tcl_set_frame_root t _ hp, tcl_frame_root t hp]
            rw [List.getLastD_eq_getLast?, List.getLast?_eq_getLast _ hp]
            rfl
    · left
      simp only [Option.map_some', hg, if_false, Option.getD_some, Bool.false_eq_true]
      cases v with
      | none => rfl
      | some w => rfl

theorem tcl_markposition_parents (t : tcl) (p : Nat) :
    (tcl_markposition t p).parents = t.parents := by
  unfold tcl_markposition
  split_ifs <;> rfl

/-- The relation `frames_kept` between the frames below the current one is kept
by every step of the interpreter. -/
theorem frames_kept_step_rel :
    tcl_step_rel (fun t t2 => frames_kept t.parents t2.parents) where
  refl t := frames_kept_refl _
  trans a b c h1 h2 := frames_kept_trans _ _ _ h1 h2
  result t flow v := frames_kept_refl _
  var t n v := by
    rcases tcl_var_parents t n v with h | ⟨hp, k, j, w, -, -, h⟩
    · rw [h]; exact frames_kept_refl _
    · rw [h]; exact frames_kept_set_last _ hp _ (same_bindings_modify w _ j)
  env_flag t k := frames_kept_refl _
  cmds t cs := frames_kept_refl _
  pos t p := by
    show frames_kept t.parents (tcl_markposition t p).parents
    rw [tcl_markposition_parents]
    exact frames_kept_refl _
  nest t t2 h := h
  frame t t3 h := (frames_kept_cons t.env t.parents t3.parents h).1

/-! ## The nesting level -/

theorem tcl_set_frame_nestlevel (t : tcl) (f : Nat) (env : tcl_env) :
    (tcl_set_frame t f env).nestlevel = t.nestlevel := by
  cases f <;> rfl

theorem tcl_var_nestlevel (t : tcl) (n : Mem) (v : Option Mem) :
    (tcl_var t n v).1.nestlevel = t.nestlevel := by
  unfold tcl_var
  simp only []
  cases v with
  | none =>
    simp only [Option.isNone_none, if_true]
    split <;> rfl
  | some w =>
    simp only [Option.isNone_some, Bool.false_eq_true, if_false]
    split <;> split <;> simp only [tcl_set_frame_nestlevel]

theorem tcl_markposition_nestlevel (t : tcl) (p : Nat) :
    (tcl_markposition t p).nestlevel = t.nestlevel := by
  unfold tcl_markposition
  split_ifs <;> rfl

/-- The nesting level is kept by every step of the interpreter. -/
theorem nestlevel_step_rel : tcl_step_rel (fun t t2 => t2.nestlevel = t.nestlevel) where
  refl t := rfl
  trans a b c h1 h2 := h2.trans h1
  result t flow v := rfl
  var t n v := tcl_var_nestlevel t n v
  env_flag t k := rfl
  cmds t cs := rfl
  pos t p := tcl_markposition_nestlevel t p
  nest t t2 h := by
    show t2.nestlevel - 1 = t.nestlevel
    have : t2.nestlevel = t.nestlevel + 1 := h
    omega
  frame t t3 h := h

/-- A call of `tcl_eval` that returns leaves the nesting level as it was; a call
at nesting level 0 returns 0 when an error code is recorded at the end, and the low
byte of the result of its last command otherwise. -/
theorem tcl_eval_top_level (fuel : Nat) (t : tcl) (m : Mem) (s length : Nat) (t2 : tcl) (r : Nat)
    (h : tcl_eval fuel t m s length = some (t2, r)) :
    t2.nestlevel = t.nestlevel ∧ (t.nestlevel = 0 → 0 < t2.errorcode → r = FERROR) := by
  have hn := tcl_eval_keeps nestlevel_step_rel fuel t m s length t2 r h
  refine ⟨hn, fun h0 he => ?_⟩
  cases fuel with
  | zero => rw [tcl_eval] at h; exact absurd h (by simp)
  | succ f =>
    rw [tcl_eval, tcl_eval_body] at h
    split at h
    · exact absurd h (by simp)
    · simp only [] at h
      split at h
      · exact absurd h (by simp)
      · injection h with h
        injection h with h1 h2
        subst h1
        rw [h0] at hn
        simp only [] at hn he
        rw [if_pos hn, if_pos he] at h2
        exact h2.symm

/-! ## The error position and COBS -/

/-- The byte right after a block `xs` in `xs ++ [g]` is `g`. -/
theorem rd_append_length (xs : Mem) (g : Char) (n : Nat) (h : xs.length = n) :
    rd (xs ++ [g]) n = g := by
  subst h
  unfold rd
  rw [List.getD_append_right _ _ _ _ (le_refl _)]
  simp

/-- C31: an error latched at the first byte after a CRLF is reported by
`tcl_errorpos` in column 2, not column 1: on `a\r\nb` with the error at offset 3
(the `b`) the result is line 2, column 2, because the line base is set to the
byte after the CR before the LF is skipped.  After a lone LF or a lone CR the
same byte is in column 1, and so is the first byte of the script. -/
theorem tcl_errorpos_crlf_column :
    tcl_errorpos { tcl_init with errorcode := 4, errorpos := 3 } (c_string "a\r\nb") = (2, 2) ∧
    tcl_errorpos { tcl_init with errorcode := 4, errorpos := 2 } (c_string "a\nb") = (2, 1) ∧
    tcl_errorpos { tcl_init with errorcode := 4, errorpos := 2 } (c_string "a\rb") = (2, 1) ∧
    tcl_errorpos { tcl_init with errorcode := 4, errorpos := 0 } (c_string "a\r\nb") = (1, 1) := by
  refine ⟨?_, ?_, ?_, ?_⟩ <;> rfl

/-- C32: the round trip fails on 255 zero bytes.  `tcl_cobs_encode` writes 257
bytes (256 bytes of value 1 and the terminator) and reports 258, so
`tcl_cobs_decode` with the reported length reads the byte after the terminator,
which the encoder never wrote: when that byte is not zero the decoder reports
256 bytes instead of 255, and when it is zero it reports 255 but writes 256.
The encoded bytes before the terminator are all non-zero. -/
theorem tcl_cobs_round_trip_zero_run :
    (tcl_cobs_encode (List.replicate 255 NUL) 255).1 =
        List.replicate 256 (Char.ofNat 1) ++ [NUL] ∧
      (tcl_cobs_encode (List.replicate 255 NUL) 255).2 = 258 ∧
      (∀ g : Char, g ≠ NUL →
        (tcl_cobs_decode ((tcl_cobs_encode (List.replicate 255 NUL) 255).1 ++ [g])
          (tcl_cobs_encode (List.replicate 255 NUL) 255).2).2 = 256) ∧
      (tcl_cobs_decode (tcl_cobs_encode (List.replicate 255 NUL) 255).1
          (tcl_cobs_encode (List.replicate 255 NUL) 255).2).2 = 255 ∧
      (tcl_cobs_decode (tcl_cobs_encode (List.replicate 255 NUL) 255).1
          (tcl_cobs_encode (List.replicate 255 NUL) 255).2).1 = List.replicate 256 NUL := by
  have he : tcl_cobs_encode (List.replicate 255 NUL) 255 =
      (List.replicate 256 (Char.ofNat 1) ++ [NUL], 258) := by
    set_option maxRecDepth 100000 in decide!
  rw [he]
  refine ⟨rfl, rfl, ?_, ?_, ?_⟩
  · intro g hg
    have hr : rd (List.replicate 256 (Char.ofNat 1) ++ [NUL] ++ [g]) 257 = g := by
      exact rd_append_length _ g 257 (by
        simp only [List.length_append, List.length_replicate, List.length_singleton])
    simp only [tcl_cobs_decode]
    have h1 : (258 : Nat) - 1 = 257 := rfl
    rw [h1, hr]
    simp [hg]
  · set_option maxRecDepth 100000 in decide!
  · set_option maxRecDepth 100000 in decide!

/-- C33: the length `tcl_cobs_encode` reports is not always the number of bytes
it wrote.  For the empty buffer it writes two bytes (the code byte 1 and the
terminator, so `strlen` plus 1 is 2) and reports 1; for 255 zero bytes it writes
257 bytes and reports 258; for the one byte `a` the two agree on 3. -/
theorem tcl_cobs_encode_length_empty :
    tcl_cobs_encode [] 0 = ([Char.ofNat 1, NUL], 1) ∧
      strlen (tcl_cobs_encode [] 0).1 0 + 1 = 2 ∧
      strlen (tcl_cobs_encode (List.replicate 255 NUL) 255).1 0 + 1 = 257 ∧
      (tcl_cobs_encode (List.replicate 255 NUL) 255).2 = 258 ∧
      tcl_cobs_encode ['a'] 1 = ([Char.ofNat 2, 'a', NUL], 3) := by
  have he : tcl_cobs_encode (List.replicate 255 NUL) 255 =
      (List.replicate 256 (Char.ofNat 1) ++ [NUL], 258) := by
    set_option maxRecDepth 100000 in decide!
  rw [he]
  refine ⟨by decide, by decide, ?_, rfl, by decide⟩
  set_option maxRecDepth 100000 in decide!

/-! ## An `if` command without a body after its last condition -/

set_option maxRecDepth 100000 in
/-- C34: an `if` command whose last condition stands alone after `elseif` is not
rejected: the source reads through the missing body.  For every evaluator `ev` in
the place of `tcl_eval` under which the first condition `0` yields NORMAL with a
zero result, `tcl_cmd_if` on `if 0 a elseif 1` has no result: the second
iteration fetches the condition `1`, finds no word left, and compares the text of
the NULL body with `then`.  `tcl_eval` is such an evaluator, and `tcl_eval` on that
script has no result either, while the same script with a body after the last
condition sets `x`.  A condition
followed only by `then` is rejected with ERROR and the kind PARAM. -/
theorem tcl_cmd_if_missing_body :
    (∀ (ev : tcl → Mem → Nat → Nat → Option (tcl × Nat)) (t t1 : tcl) (r1 : Nat),
      ev t (tcl_make_condition_list (c_string "0"))
          (tcl_string (tcl_make_condition_list (c_string "0")))
          (tcl_length (some (tcl_make_condition_list (c_string "0"))) + 1) = some (t1, r1) →
      FLOW r1 = FNORMAL → tcl_int t1.result = 0 →
      tcl_cmd_if ev t (c_string "if 0 a elseif 1") = none) ∧
    (∀ (ev : tcl → Mem → Nat → Nat → Option (tcl × Nat)) (t t1 : tcl) (r1 : Nat),
      ev t (tcl_make_condition_list (c_string "1"))
          (tcl_string (tcl_make_condition_list (c_string "1")))
          (tcl_length (some (tcl_make_condition_list (c_string "1"))) + 1) = some (t1, r1) →
      FLOW r1 = FNORMAL →
      tcl_cmd_if ev t (c_string "if 1 then") =
        some (tcl_error_result t1 (MARKFLOW FERROR TCLERR_PARAM))) ∧
    (tcl_eval 20 tcl_init (tcl_make_condition_list (c_string "0"))
        (tcl_string (tcl_make_condition_list (c_string "0")))
        (tcl_length (some (tcl_make_condition_list (c_string "0"))) + 1)).map
      (fun r => (FLOW r.2, tcl_int r.1.result)) = some (FNORMAL, 0) ∧
    tcl_eval_text 30 tcl_init "if 0 a elseif 1".toList = none ∧
    (tcl_eval_text 30 tcl_init "if 0 a elseif 1 {set x 5}".toList).map
      (fun r => (r.1.result, r.2, r.1.errorcode)) = some (some (c_string "5"), FNORMAL, 0) ∧
    (tcl_eval_text 30 tcl_init "if 1 then".toList).map
      (fun r => (r.2, r.1.errorcode)) = some (FERROR, TCLERR_PARAM) := by
  refine ⟨?_, ?_, by decide!, by decide!, by decide!, by decide!⟩
  · intro ev t t1 r1 hev hflow hzero
    have a0 : tcl_expect_args_ok (c_string "if 0 a elseif 1") 3 0 = some true := by decide
    have a1 : tcl_list_count (c_string "if 0 a elseif 1") = some 5 := by decide
    have a2 : tcl_list_at (c_string "if 0 a elseif 1") 1 = some (some (c_string "0")) := by decide
    have a3 : tcl_cmd_if_arg (c_string "if 0 a elseif 1") 2 5 = some (some (c_string "a"), 3) := by
      decide
    have a4 : tcl_list_at (c_string "if 0 a elseif 1") 3 = some (some (c_string "elseif")) := by
      decide
    have a5 : tcl_list_at (c_string "if 0 a elseif 1") 4 = some (some (c_string "1")) := by decide
    have a6 : tcl_cmd_if_arg (c_string "if 0 a elseif 1") 5 5 = some (none, 5) := by decide
    have b1 : (cstr (c_string "a") (tcl_string (c_string "a")) = "then".toList) = False :=
      eq_false (by decide)
    have b2 : (cstr (c_string "elseif") (tcl_string (c_string "elseif")) = "elseif".toList) = True :=
      eq_true (by decide)
    unfold tcl_cmd_if
    rw [a0, a1]
    simp only []
    rw [tcl_cmd_if_loop]
    simp only [a2, a3, b1, if_false, hev, hflow, hzero, a4, b2, if_true]
    simp only [ne_eq, not_true_eq_false, if_false]
    rw [if_pos (by decide), if_pos (by decide), tcl_cmd_if_loop]
    simp only [Nat.reduceAdd, a5, a6]
    rw [if_pos (by decide)]
  · intro ev t t1 r1 hev hflow
    have a0 : tcl_expect_args_ok (c_string "if 1 then") 3 0 = some true := by decide
    have a1 : tcl_list_count (c_string "if 1 then") = some 3 := by decide
    have a2 : tcl_list_at (c_string "if 1 then") 1 = some (some (c_string "1")) := by decide
    have a3 : tcl_cmd_if_arg (c_string "if 1 then") 2 3 = some (some (c_string "then"), 3) := by
      decide
    have a4 : tcl_cmd_if_arg (c_string "if 1 then") 3 3 = some (none, 3) := by decide
    have b1 : (cstr (c_string "then") (tcl_string (c_string "then")) = "then".toList) = True :=
      eq_true (by decide)
    unfold tcl_cmd_if
    rw [a0, a1]
    simp only []
    rw [tcl_cmd_if_loop]
    simp only [a2, a3, b1, if_true, a4, hev, hflow]
    simp only [ne_eq, not_true_eq_false, if_false]
    rw [if_pos (by decide)]

/-! ## Progress of the lexer -/

/-- A state of a `tcl_each` loop that `tcl_next` leaves where it is: the loop
assigns `to` to `start` and finds the same state again. -/
theorem tcl_each_stuck_next (m : Mem) (q : tcl_each_state) (hq : tcl_each_next m q = q)
    (hto : q.to_ = q.start) :
    { tcl_each_next m q with start := (tcl_each_next m q).to_ } = q := by
  rw [hq]
  cases q
  simp only [] at hto
  subst hto
  rfl

/-- The loop of `tcl_list_count` never ends in a state that `tcl_next` leaves
where it is. -/
theorem tcl_list_count_loop_stuck (m : Mem) (q : tcl_each_state)
    (hq : tcl_each_next m q = q) (hto : q.to_ = q.start) (hlt : q.start < q.end_)
    (htok : q.token ≠ Token.TERROR) :
    ∀ fuel count, tcl_list_count_loop m fuel q count = none := by
  intro fuel
  induction fuel with
  | zero =>
    intro count
    rw [tcl_list_count_loop, if_pos hlt]
  | succ f ih =>
    intro count
    rw [tcl_list_count_loop, if_pos hlt]
    simp only []
    rw [tcl_each_stuck_next m q hq hto, hq, if_neg htok]
    exact ih _

/-- The loop of `tcl_list_at` never ends in a state that `tcl_next` leaves where
it is with a token that is part of a word. -/
theorem tcl_list_at_loop_stuck (m : Mem) (index : Nat) (q : tcl_each_state)
    (hq : tcl_each_next m q = q) (hto : q.to_ = q.start) (hlt : q.start < q.end_)
    (htok : q.token = Token.TPART) :
    ∀ fuel i, tcl_list_at_loop m index fuel q i = none := by
  intro fuel
  induction fuel with
  | zero =>
    intro i
    rw [tcl_list_at_loop, if_pos hlt]
  | succ f ih =>
    intro i
    rw [tcl_list_at_loop, if_pos hlt]
    simp only []
    rw [tcl_each_stuck_next m q hq hto, hq, htok, if_neg (by decide), if_neg (by decide)]
    exact ih _

/-- The loop of `tcl_eval` never ends in a state that `tcl_next` leaves where it
is with an empty part of a word: the empty part is substituted without an error
and the loop goes on. -/
theorem tcl_eval_loop_stuck (fuel : Nat) (ev : tcl → Mem → Nat → Nat → Option (tcl × Nat))
    (m : Mem) (q : tcl_each_state)
    (hq : tcl_each_next m q = q) (hto : q.to_ = q.start) (hlt : q.start < q.end_)
    (htok : q.token = Token.TPART) (hlen : q.to_ - q.from_ = 0) :
    ∀ n t list cur result, tcl_eval_loop fuel ev m n q t list cur result = none := by
  intro n
  induction n with
  | zero =>
    intro t list cur result
    rw [tcl_eval_loop, if_pos hlt]
  | succ k ih =>
    intro t list cur result
    rw [tcl_eval_loop, if_pos hlt]
    simp only []
    rw [tcl_each_stuck_next m q hq hto, hq]
    have htoken : tcl_eval_token fuel ev m q t list cur =
        some ((tcl_result (tcl_markposition t q.from_) FNORMAL (tcl_value [] 0 0 false)).1, list,
          some (tcl_append cur (tcl_dup (tcl_value [] 0 0 false))), FNORMAL) := by
      unfold tcl_eval_token
      rw [htok, hlen]
      rfl
    rw [htoken]
    simp only []
    rw [if_neg (by decide)]
    exact ih _ _ _ _

/-- C35: the lexer does not always make progress.  On the one-byte slice that
holds a NUL, in quote mode, `tcl_next` returns the token PART with `to` at the
start of the slice and the flags as they were.  That state is reached on the
five bytes of the unterminated `"abc` with its terminator, after the opening
quote and `abc`; from there every iteration of a `tcl_each` loop finds the same
state again, so the loops of `tcl_list_count`, `tcl_list_at` and `tcl_eval` on
these five bytes do not end, whatever the number of iterations allowed. -/
theorem tcl_next_quote_nul_no_progress :
    tcl_next [NUL] 0 1 0 (LEX_QUOTE ||| LEX_NO_CMT) =
        (Token.TPART, 0, 0, LEX_QUOTE ||| LEX_NO_CMT) ∧
      tcl_next (c_string "\"abc") 4 1 4 (LEX_QUOTE ||| LEX_NO_CMT) =
        (Token.TPART, 4, 4, LEX_QUOTE ||| LEX_NO_CMT) ∧
      (∀ fuel, tcl_list_count_loop (c_string "\"abc") fuel
        (tcl_each_init 0 5 Token.TERROR) 0 = none) ∧
      (∀ fuel index, tcl_list_at_loop (c_string "\"abc") index fuel
        (tcl_each_init 0 5 Token.TERROR) 0 = none) ∧
      (∀ fuel t, tcl_eval fuel t (c_string "\"abc") 0 5 = none) := by
  have h1 : tcl_each_next (c_string "\"abc") (tcl_each_init 0 5 Token.TERROR) =
      ⟨1, 1, 0, 5, 5, Token.TPART⟩ := by decide
  have h2 : tcl_each_next (c_string "\"abc") ⟨1, 1, 1, 5, 5, Token.TPART⟩ =
      ⟨1, 4, 1, 5, 5, Token.TPART⟩ := by decide
  have h3 : tcl_each_next (c_string "\"abc") ⟨1, 4, 4, 5, 5, Token.TPART⟩ =
      ⟨4, 4, 4, 5, 5, Token.TPART⟩ := by decide
  have h4 : tcl_each_next (c_string "\"abc") ⟨4, 4, 4, 5, 5, Token.TPART⟩ =
      ⟨4, 4, 4, 5, 5, Token.TPART⟩ := by decide
  have e1 : ({ (⟨1, 1, 0, 5, 5, Token.TPART⟩ : tcl_each_state) with start := 1 }) =
      ⟨1, 1, 1, 5, 5, Token.TPART⟩ := rfl
  have e2 : ({ (⟨1, 4, 1, 5, 5, Token.TPART⟩ : tcl_each_state) with start := 4 }) =
      ⟨1, 4, 4, 5, 5, Token.TPART⟩ := rfl
  have e3 : ({ (⟨4, 4, 4, 5, 5, Token.TPART⟩ : tcl_each_state) with start := 4 }) =
      ⟨4, 4, 4, 5, 5, Token.TPART⟩ := rfl
  refine ⟨by decide, by decide, ?_, ?_, ?_⟩
  · intro fuel
    have hs := tcl_list_count_loop_stuck (c_string "\"abc") ⟨4, 4, 4, 5, 5, Token.TPART⟩ h4 rfl
      (by decide) (by decide)
    cases fuel with
    | zero => rfl
    | succ f =>
      rw [tcl_list_count_loop, if_pos (by decide)]
      simp only []
      rw [h1, if_neg (by decide), if_neg (by decide)]
      cases f with
      | zero => rfl
      | succ f =>
        rw [tcl_list_count_loop, if_pos (by decide)]
        simp only []
        rw [h2, if_neg (by decide), if_neg (by decide)]
        cases f with
        | zero => rfl
        | succ f =>
          rw [tcl_list_count_loop, if_pos (by decide)]
          simp only []
          rw [h3, if_neg (by decide), if_neg (by decide)]
          exact hs f 0
  · intro fuel index
    have hs := tcl_list_at_loop_stuck (c_string "\"abc") index ⟨4, 4, 4, 5, 5, Token.TPART⟩ h4 rfl
      (by decide) rfl
    cases fuel with
    | zero => rfl
    | succ f =>
      rw [tcl_list_at_loop, if_pos (by decide)]
      simp only []
      rw [h1, if_neg (by decide), if_neg (by decide)]
      cases f with
      | zero => rfl
      | succ f =>
        rw [tcl_list_at_loop, if_pos (by decide)]
        simp only []
        rw [h2, if_neg (by decide), if_neg (by decide)]
        cases f with
        | zero => rfl
        | succ f =>
          rw [tcl_list_at_loop, if_pos (by decide)]
          simp only []
          rw [h3, if_neg (by decide), if_neg (by decide)]
          exact hs f 0
  · intro fuel t
    cases fuel with
    | zero => rfl
    | succ f =>
      have hs := tcl_eval_loop_stuck f (tcl_eval f) (c_string "\"abc")
        ⟨4, 4, 4, 5, 5, Token.TPART⟩ h4 rfl (by decide) rfl rfl
      have hloop : ∀ n t0 list cur result, tcl_eval_loop f (tcl_eval f) (c_string "\"abc") n
          (tcl_each_init 0 5 Token.TERROR) t0 list cur result = none := by
        intro n t0 list cur result
        cases n with
        | zero => rfl
        | succ n =>
          rw [tcl_eval_loop, if_pos (by decide)]
          simp only []
          rw [h1]
          have k1 : tcl_eval_token f (tcl_eval f) (c_string "\"abc") ⟨1, 1, 0, 5, 5, Token.TPART⟩
              t0 list cur =
              some ((tcl_result (tcl_markposition t0 1) FNORMAL (tcl_value [] 0 0 false)).1, list,
                some (tcl_append cur (tcl_dup (tcl_value [] 0 0 false))), FNORMAL) := rfl
          rw [k1]
          simp only []
          rw [if_neg (by decide)]
          cases n with
          | zero => rfl
          | succ n =>
            rw [tcl_eval_loop, if_pos (by decide)]
            simp only []
            rw [e1, h2]
            generalize (tcl_result (tcl_markposition t0 1) FNORMAL (tcl_value [] 0 0 false)).1 = ta
            generalize some (tcl_append cur (tcl_dup (tcl_value [] 0 0 false))) = cb
            have k2 : tcl_eval_token f (tcl_eval f) (c_string "\"abc")
                ⟨1, 4, 1, 5, 5, Token.TPART⟩ ta list cb =
                some ((tcl_result (tcl_markposition ta 1) FNORMAL
                    (tcl_value (c_string "\"abc") 1 3 (tcl_binary (c_string "\"abc") 1 3))).1, list,
                  some (tcl_append cb
                    (tcl_dup (tcl_value (c_string "\"abc") 1 3
                      (tcl_binary (c_string "\"abc") 1 3)))), FNORMAL) := rfl
            rw [k2]
            simp only []
            rw [if_neg (by decide), e2]
            cases n with
            | zero => rfl
            | succ n =>
              rw [tcl_eval_loop, if_pos (by decide)]
              simp only []
              rw [h3]
              generalize (tcl_result (tcl_markposition ta 1) FNORMAL
                (tcl_value (c_string "\"abc") 1 3 (tcl_binary (c_string "\"abc") 1 3))).1 = tb
              generalize some (tcl_append cb (tcl_dup (tcl_value (c_string "\"abc") 1 3
                (tcl_binary (c_string "\"abc") 1 3)))) = cc
              have k3 : tcl_eval_token f (tcl_eval f) (c_string "\"abc")
                  ⟨4, 4, 4, 5, 5, Token.TPART⟩ tb list cc =
                  some ((tcl_result (tcl_markposition tb 4) FNORMAL (tcl_value [] 0 0 false)).1,
                    list,
                    some (tcl_append cc (tcl_dup (tcl_value [] 0 0 false))), FNORMAL) := rfl
              rw [k3]
              simp only []
              rw [if_neg (by decide), e3]
              exact hs _ _ _ _ _
      rw [tcl_eval, tcl_eval_body, hloop]

/-! ## The latched error -/

theorem tcl_set_frame_error (t : tcl) (f : Nat) (env : tcl_env) :
    (tcl_set_frame t f env).errorcode = t.errorcode ∧
      (tcl_set_frame t f env).errorpos = t.errorpos := by
  cases f <;> exact ⟨rfl, rfl⟩

theorem tcl_result_error (t : tcl) (flow : Nat) (v : Option Mem) (h : t.errorcode ≠ 0) :
    (tcl_result t flow v).1.errorcode = t.errorcode ∧
      (tcl_result t flow v).1.errorpos = t.errorpos := by
  unfold tcl_result
  refine ⟨?_, rfl⟩
  show (if FLOW flow = FERROR ∧ t.errorcode = 0 then flow >>> 8 else t.errorcode) = t.errorcode
  rw [if_neg (fun hc => h hc.2)]

theorem tcl_var_error (t : tcl) (n : Mem) (v : Option Mem) (h : t.errorcode ≠ 0) :
    (tcl_var t n v).1.errorcode = t.errorcode ∧ (tcl_var t n v).1.errorpos = t.errorpos := by
  unfold tcl_var
  simp only []
  cases v with
  | none =>
    simp only [Option.isNone_none, if_true]
    split
    · exact ⟨rfl, rfl⟩
    · exact tcl_result_error t (MARKFLOW FERROR TCLERR_VARUNKNOWN)
        (some (tcl_value [] 0 0 false)) h
  | some w =>
    simp only [Option.isNone_some, Bool.false_eq_true, if_false]
    split <;> split <;> simp only [tcl_set_frame_error, and_self]

theorem tcl_markposition_error (t : tcl) (p : Nat) (h : t.errorcode ≠ 0) :
    (tcl_markposition t p).errorcode = t.errorcode ∧
      (tcl_markposition t p).errorpos = t.errorpos := by
  unfold tcl_markposition
  rw [if_neg (fun hc => h hc.2.2)]
  exact ⟨rfl, rfl⟩

/-- A recorded error code and its position are kept by every step of the
interpreter. -/
theorem error_latch_step_rel :
    tcl_step_rel (fun t t2 =>
      t.errorcode ≠ 0 → t2.errorcode = t.errorcode ∧ t2.errorpos = t.errorpos) where
  refl t _ := ⟨rfl, rfl⟩
  trans a b c h1 h2 ha := by
    obtain ⟨e1, p1⟩ := h1 ha
    obtain ⟨e2, p2⟩ := h2 (by rw [e1]; exact ha)
    exact ⟨e2.trans e1, p2.trans p1⟩
  result t flow v h := tcl_result_error t flow v h
  var t n v h := tcl_var_error t n v h
  env_flag t k _ := ⟨rfl, rfl⟩
  cmds t cs _ := ⟨rfl, rfl⟩
  pos t p h := tcl_markposition_error t p h
  nest t t2 h := h
  frame t t3 h := h

/-! ## More fuel gives the same result -/

theorem option_map_mono {α β : Type} (f : α → β) (a b : Option α)
    (hab : ∀ y, a = some y → b = some y) (x : β) (h : a.map f = some x) : b.map f = some x := by
  cases a with
  | none => exact absurd h (by simp)
  | some y => rw [hab y rfl]; exact h

theorem tcl_subst_mono (ev ev2 : tcl → Mem → Nat → Nat → Option (tcl × Nat))
    (hev : ∀ t m s l x, ev t m s l = some x → ev2 t m s l = some x)
    (t : tcl) (m : Mem) (s len : Nat) (x : tcl × Nat)
    (h : tcl_subst ev t m s len = some x) : tcl_subst ev2 t m s len = some x := by
  unfold tcl_subst at h ⊢
  split_ifs at h ⊢
  all_goals first
    | exact h
    | skip
  simp only [] at h ⊢
  cases he : ev t (tcl_value m (s + 1) (size_sub2 len) (tcl_binary m (s + 1) (size_sub2 len)))
      (tcl_string (tcl_value m (s + 1) (size_sub2 len) (tcl_binary m (s + 1) (size_sub2 len))))
      (tcl_length (some (tcl_value m (s + 1) (size_sub2 len)
        (tcl_binary m (s + 1) (size_sub2 len)))) + 1) with
  | none => rw [he] at h; exact absurd h (by simp)
  | some y => rw [he] at h; rw [hev _ _ _ _ _ he]; exact h

theorem tcl_cmd_subst_mono (ev ev2 : tcl → Mem → Nat → Nat → Option (tcl × Nat))
    (hev : ∀ t m s l x, ev t m s l = some x → ev2 t m s l = some x)
    (t : tcl) (args : Mem) (x : tcl × Nat)
    (h : tcl_cmd_subst ev t args = some x) : tcl_cmd_subst ev2 t args = some x := by
  unfold tcl_cmd_subst at h ⊢
  split at h
  · exact tcl_subst_mono ev ev2 hev _ _ _ _ _ h
  · exact absurd h (by simp)

theorem tcl_user_proc_mono (ev ev2 : tcl → Mem → Nat → Nat → Option (tcl × Nat))
    (hev : ∀ t m s l x, ev t m s l = some x → ev2 t m s l = some x)
    (t : tcl) (args code : Mem) (x : tcl × Nat)
    (h : tcl_user_proc ev t args code = some x) : tcl_user_proc ev2 t args code = some x := by
  unfold tcl_user_proc at h ⊢
  split at h
  · split at h
    · exact absurd h (by simp)
    · split at h
      · exact absurd h (by simp)
      · split at h
        · exact absurd h (by simp)
        · rename_i t3 r he
          rw [hev _ _ _ _ _ he]
          exact h
  · exact absurd h (by simp)

theorem tcl_cmd_while_loop_mono (ev ev2 : tcl → Mem → Nat → Nat → Option (tcl × Nat))
    (hev : ∀ t m s l x, ev t m s l = some x → ev2 t m s l = some x) (cond body : Mem) :
    ∀ (fuel fuel2 : Nat) (t : tcl) (x : tcl × Nat), fuel ≤ fuel2 →
      tcl_cmd_while_loop ev cond body fuel t = some x →
      tcl_cmd_while_loop ev2 cond body fuel2 t = some x := by
  intro fuel
  induction fuel with
  | zero => intro fuel2 t x _ h; rw [tcl_cmd_while_loop] at h; exact absurd h (by simp)
  | succ f ih =>
    intro fuel2 t x hle h
    obtain ⟨g, rfl⟩ : ∃ g, fuel2 = g + 1 := ⟨fuel2 - 1, by omega⟩
    rw [tcl_cmd_while_loop] at h ⊢
    split at h
    · exact absurd h (by simp)
    · rename_i t1 r1 he1
      rw [hev _ _ _ _ _ he1]
      simp only [] at h ⊢
      split_ifs at h ⊢
      · exact h
      · exact h
      · split at h
        · exact absurd h (by simp)
        · rename_i t2 r2 he2
          rw [hev _ _ _ _ _ he2]
          simp only [] at h ⊢
          split_ifs at h ⊢
          all_goals first
            | exact h
            | exact ih g t2 x (by omega) h

theorem tcl_cmd_while_mono (ev ev2 : tcl → Mem → Nat → Nat → Option (tcl × Nat))
    (hev : ∀ t m s l x, ev t m s l = some x → ev2 t m s l = some x) (fuel fuel2 : Nat)
    (hle : fuel ≤ fuel2) (t : tcl) (args : Mem) (x : tcl × Nat)
    (h : tcl_cmd_while fuel ev t args = some x) : tcl_cmd_while fuel2 ev2 t args = some x := by
  unfold tcl_cmd_while at h ⊢
  split at h
  · exact tcl_cmd_while_loop_mono ev ev2 hev _ _ fuel fuel2 t x hle h
  · exact absurd h (by simp)

theorem tcl_cmd_if_loop_mono (ev ev2 : tcl → Mem → Nat → Nat → Option (tcl × Nat))
    (hev : ∀ t m s l x, ev t m s l = some x → ev2 t m s l = some x) (args : Mem) (n : Nat) :
    ∀ (fuel i : Nat) (t : tcl) (r : Nat) (x : tcl × Nat),
      tcl_cmd_if_loop ev args n fuel i t r = some x →
      tcl_cmd_if_loop ev2 args n fuel i t r = some x := by
  intro fuel
  induction fuel with
  | zero =>
    intro i t r x h
    rw [tcl_cmd_if_loop] at h ⊢
    exact h
  | succ f ih =>
    intro i t r x h
    rw [tcl_cmd_if_loop] at h ⊢
    split at h
    · rename_i hlt
      rw [if_pos hlt]
      simp only [] at h ⊢
      split at h
      · split at h
        · exact absurd h (by simp)
        · split at h
          · exact absurd h (by simp)
          · rename_i t1 r1 he1
            rw [hev _ _ _ _ _ he1]
            simp only [] at h ⊢
            by_cases hfl : FLOW r1 ≠ FNORMAL
            · rw [if_pos hfl] at h ⊢
              exact h
            · rw [if_neg hfl] at h ⊢
              split at h
              · exact h
              · rename_i br
                by_cases hnz : tcl_int t1.result ≠ 0
                · rw [if_pos hnz] at h ⊢
                  exact option_map_mono _ _ _ (hev _ _ _ _) _ h
                · rw [if_neg hnz] at h ⊢
                  split at h
                  · rw [if_pos (by assumption)]
                    split at h
                    · split at h
                      · rw [if_pos (by assumption)]
                        exact ih _ _ _ _ h
                      · rw [if_neg (by assumption)]
                        split at h
                        · rw [if_pos (by assumption)]
                          split at h
                          · rw [if_pos (by assumption)]
                            split at h
                            · exact option_map_mono _ _ _ (hev _ _ _ _) _ h
                            · exact absurd h (by simp)
                          · rw [if_neg (by assumption)]
                            exact h
                        · rw [if_neg (by assumption)]
                          split at h
                          · rw [if_pos (by assumption)]
                            exact ih _ _ _ _ h
                          · rw [if_neg (by assumption)]
                            split at h
                            · exact absurd h (by simp)
                            · rename_i t2 r2 he2
                              rw [hev _ _ _ _ _ he2]
                              exact ih _ _ _ _ h
                    · exact absurd h (by simp)
                  · rw [if_neg (by assumption)]
                    exact ih _ _ _ _ h
      · exact absurd h (by simp)
    · rename_i hlt
      rw [if_neg hlt]
      exact h

theorem tcl_cmd_if_mono (ev ev2 : tcl → Mem → Nat → Nat → Option (tcl × Nat))
    (hev : ∀ t m s l x, ev t m s l = some x → ev2 t m s l = some x)
    (t : tcl) (args : Mem) (x : tcl × Nat)
    (h : tcl_cmd_if ev t args = some x) : tcl_cmd_if ev2 t args = some x := by
  unfold tcl_cmd_if at h ⊢
  split at h
  · exact absurd h (by simp)
  · exact h
  · split at h
    · exact absurd h (by simp)
    · exact tcl_cmd_if_loop_mono ev ev2 hev _ _ _ _ _ _ _ h

theorem tcl_cmd_call_mono (ev ev2 : tcl → Mem → Nat → Nat → Option (tcl × Nat))
    (hev : ∀ t m s l x, ev t m s l = some x → ev2 t m s l = some x) (fuel fuel2 : Nat)
    (hle : fuel ≤ fuel2) (cmd : tcl_cmd) (t : tcl) (list : Mem) (x : tcl × Nat)
    (h : tcl_cmd_call fuel ev cmd t list = some x) : tcl_cmd_call fuel2 ev2 cmd t list = some x := by
  unfold tcl_cmd_call at h ⊢
  split at h
  · exact h
  · exact h
  · exact tcl_cmd_subst_mono ev ev2 hev _ _ _ h
  · exact h
  · exact tcl_cmd_if_mono ev ev2 hev _ _ _ h
  · exact tcl_cmd_while_mono ev ev2 hev fuel fuel2 hle _ _ _ h
  · exact h
  · exact h
  · exact h
  · exact h
  · exact h
  · split at h
    · exact tcl_user_proc_mono ev ev2 hev _ _ _ _ h
    · exact absurd h (by simp)

theorem tcl_exec_cmd_loop_mono (call call2 : tcl_cmd → tcl → Mem → Option (tcl × Nat))
    (hc : ∀ cmd t list x, call cmd t list = some x → call2 cmd t list = some x)
    (t : tcl) (list cmdname : Mem) (x : tcl × Nat) :
    ∀ cmds : List tcl_cmd, tcl_exec_cmd_loop call t list cmdname cmds = some x →
      tcl_exec_cmd_loop call2 t list cmdname cmds = some x := by
  intro cmds
  induction cmds with
  | nil => intro h; exact h
  | cons cmd cs ih =>
    intro h
    rw [tcl_exec_cmd_loop] at h ⊢
    split at h
    · rw [if_pos (by assumption)]
      split at h
      · rw [if_pos (by assumption)]
        exact hc _ _ _ _ h
      · rw [if_neg (by assumption)]
        split at h
        · exact absurd h (by simp)
        · split at h
          · rw [if_pos (by assumption)]
            exact hc _ _ _ _ h
          · rw [if_neg (by assumption)]
            exact ih h
    · rw [if_neg (by assumption)]
      exact ih h

theorem tcl_exec_cmd_mono (ev ev2 : tcl → Mem → Nat → Nat → Option (tcl × Nat))
    (hev : ∀ t m s l x, ev t m s l = some x → ev2 t m s l = some x) (fuel fuel2 : Nat)
    (hle : fuel ≤ fuel2) (t : tcl) (list : Mem) (x : tcl × Nat)
    (h : tcl_exec_cmd fuel ev t list = some x) : tcl_exec_cmd fuel2 ev2 t list = some x := by
  unfold tcl_exec_cmd at h ⊢
  split at h
  · exact tcl_exec_cmd_loop_mono _ _ (tcl_cmd_call_mono ev ev2 hev fuel fuel2 hle) _ _ _ _ _ h
  · exact absurd h (by simp)

theorem tcl_eval_token_mono (ev ev2 : tcl → Mem → Nat → Nat → Option (tcl × Nat))
    (hev : ∀ t m s l x, ev t m s l = some x → ev2 t m s l = some x) (fuel fuel2 : Nat)
    (hle : fuel ≤ fuel2) (m : Mem) (p : tcl_each_state) (t : tcl) (list : Mem) (cur : Option Mem)
    (x : tcl × Mem × Option Mem × Nat)
    (h : tcl_eval_token fuel ev m p t list cur = some x) :
    tcl_eval_token fuel2 ev2 m p t list cur = some x := by
  unfold tcl_eval_token at h ⊢
  simp only [] at h ⊢
  split at h
  · exact h
  · split at h
    · exact absurd h (by simp)
    · rename_i t1 r1 hs
      rw [tcl_subst_mono ev ev2 hev _ _ _ _ _ hs]
      exact h
  · split at h
    · exact absurd h (by simp)
    · rename_i t1 r1 hs
      rw [tcl_subst_mono ev ev2 hev _ _ _ _ _ hs]
      exact h
  · split at h
    · exact absurd h (by simp)
    · split at h
      · rw [if_pos (by assumption)]
        split at h
        · exact absurd h (by simp)
        · rename_i t1 r1 hs
          rw [tcl_exec_cmd_mono ev ev2 hev fuel fuel2 hle _ _ _ hs]
          exact h
      · rw [if_neg (by assumption)]
        exact h

theorem tcl_eval_loop_mono (ev ev2 : tcl → Mem → Nat → Nat → Option (tcl × Nat))
    (hev : ∀ t m s l x, ev t m s l = some x → ev2 t m s l = some x) (fuel fuel2 : Nat)
    (hle : fuel ≤ fuel2) (m : Mem) :
    ∀ (n n2 : Nat) (p : tcl_each_state) (t : tcl) (list : Mem) (cur : Option Mem) (result : Nat)
      (x : tcl × Mem × Nat), n ≤ n2 →
      tcl_eval_loop fuel ev m n p t list cur result = some x →
      tcl_eval_loop fuel2 ev2 m n2 p t list cur result = some x := by
  intro n
  induction n with
  | zero =>
    intro n2 p t list cur result x _ h
    rw [tcl_eval_loop] at h
    split at h
    · exact absurd h (by simp)
    · cases n2 with
      | zero => rw [tcl_eval_loop, if_neg (by assumption)]; exact h
      | succ k2 => rw [tcl_eval_loop, if_neg (by assumption)]; exact h
  | succ k ih =>
    intro n2 p t list cur result x hn h
    obtain ⟨k2, rfl⟩ : ∃ k2, n2 = k2 + 1 := ⟨n2 - 1, by omega⟩
    rw [tcl_eval_loop] at h ⊢
    split at h
    · rw [if_pos (by assumption)]
      simp only [] at h ⊢
      split at h
      · exact absurd h (by simp)
      · rename_i t1 list1 cur1 r1 hs
        rw [tcl_eval_token_mono ev ev2 hev fuel fuel2 hle _ _ _ _ _ _ hs]
        simp only [] at h ⊢
        split at h
        · rw [if_pos (by assumption)]
          exact h
        · rw [if_neg (by assumption)]
          exact ih _ _ _ _ _ _ _ (by omega) h
    · rw [if_neg (by assumption)]
      exact h

theorem tcl_eval_body_mono (ev ev2 : tcl → Mem → Nat → Nat → Option (tcl × Nat))
    (hev : ∀ t m s l x, ev t m s l = some x → ev2 t m s l = some x) (fuel fuel2 : Nat)
    (hle : fuel ≤ fuel2) (t : tcl) (m : Mem) (s length : Nat) (x : tcl × Nat)
    (h : tcl_eval_body fuel ev t m s length = some x) :
    tcl_eval_body fuel2 ev2 t m s length = some x := by
  unfold tcl_eval_body at h ⊢
  split at h
  · exact absurd h (by simp)
  · rename_i t1 list result hs
    rw [tcl_eval_loop_mono ev ev2 hev fuel fuel2 hle m _ _ _ _ _ _ _ _ (by omega) hs]
    simp only [] at h ⊢
    split at h
    · exact absurd h (by simp)
    · rename_i t2 result2 hlast
      split at hlast
      · rename_i hfl
        simp only [if_pos hfl]
        split at hlast
        · exact absurd hlast (by simp)
        · rename_i cnt hcnt
          split at hlast
          · rw [if_pos (by assumption),
              tcl_exec_cmd_mono ev ev2 hev fuel fuel2 hle _ _ _ hlast]
            exact h
          · rw [if_neg (by assumption)]
            injection hlast with hlast
            injection hlast with h1 h2
            subst h1 h2
            exact h
      · rename_i hfl
        simp only [if_neg hfl]
        injection hlast with hlast
        injection hlast with h1 h2
        subst h1 h2
        exact h

theorem tcl_eval_mono :
    ∀ (fuel fuel2 : Nat) (t : tcl) (m : Mem) (s length : Nat) (x : tcl × Nat), fuel ≤ fuel2 →
      tcl_eval fuel t m s length = some x → tcl_eval fuel2 t m s length = some x := by
  intro fuel
  induction fuel with
  | zero => intro fuel2 t m s length x _ h; rw [tcl_eval] at h; exact absurd h (by simp)
  | succ f ih =>
    intro fuel2 t m s length x hle h
    obtain ⟨g, rfl⟩ : ∃ g, fuel2 = g + 1 := ⟨fuel2 - 1, by omega⟩
    rw [tcl_eval] at h ⊢
    exact tcl_eval_body_mono (tcl_eval f) (tcl_eval g)
      (fun t m s l x hx => ih g t m s l x (by omega) hx) f g (by omega) t m s length x h

/-! ## Runs on a context with a latched error -/

/-- A loop of `tcl_cmd_while` does not end when the condition and the body, each
time they return, leave the context `t` as it is with the flow NORMAL and the
result is not zero. -/
theorem tcl_cmd_while_loop_diverges (ev : tcl → Mem → Nat → Nat → Option (tcl × Nat))
    (cond body : Mem) (t : tcl)
    (hc : ∀ x, ev t cond (tcl_string cond) (tcl_length (some cond) + 1) = some x → x = (t, FNORMAL))
    (hb : ∀ x, ev t body (tcl_string body) (tcl_length (some body) + 1) = some x → x = (t, FNORMAL))
    (hnz : tcl_int t.result ≠ 0) :
    ∀ fuel, tcl_cmd_while_loop ev cond body fuel t = none := by
  intro fuel
  induction fuel with
  | zero => rfl
  | succ f ih =>
    rw [tcl_cmd_while_loop]
    cases h1 : ev t cond (tcl_string cond) (tcl_length (some cond) + 1) with
    | none => rfl
    | some x =>
      have hx := hc x h1
      subst hx
      simp only []
      rw [if_neg (by decide), if_neg hnz]
      cases h2 : ev t body (tcl_string body) (tcl_length (some body) + 1) with
      | none => rfl
      | some y =>
        have hy := hb y h2
        subst hy
        simp only []
        rw [if_neg (by decide)]
        exact ih

/-- The substitution of a part that does not start with `{`, `$` or `[`: the
result is the text of the part. -/
theorem tcl_subst_plain (ev : tcl → Mem → Nat → Nat → Option (tcl × Nat)) (t : tcl) (m : Mem)
    (s len : Nat) (h0 : len ≠ 0) (h1 : rd m s ≠ '{') (h2 : rd m s ≠ '$') (h3 : rd m s ≠ '[') :
    tcl_subst ev t m s len =
      some (tcl_result t FNORMAL (some (tcl_value m s len (tcl_binary m s len)))) := by
  unfold tcl_subst
  rw [if_neg h0, if_neg h1, if_neg h2, if_neg h3]

/-- The substitution of a part in braces of two bytes or more: the result is the
text between the braces. -/
theorem tcl_subst_braced (ev : tcl → Mem → Nat → Nat → Option (tcl × Nat)) (t : tcl) (m : Mem)
    (s len : Nat) (h0 : 2 ≤ len) (h1 : rd m s = '{') :
    tcl_subst ev t m s len =
      some (tcl_result t FNORMAL
        (some (tcl_value m (s + 1) (len - 2) (tcl_binary m (s + 1) (len - 2))))) := by
  unfold tcl_subst
  rw [if_neg (by omega), if_pos h1, if_neg (by omega)]

/-- One iteration of the loop of `tcl_eval` that does not end in an error. -/
theorem tcl_eval_loop_step (fuel : Nat) (ev : tcl → Mem → Nat → Nat → Option (tcl × Nat))
    (m : Mem) (n : Nat) (p : tcl_each_state) (t : tcl) (list : Mem) (cur : Option Mem)
    (result : Nat) (t1 : tcl) (list1 : Mem) (cur1 : Option Mem) (r1 : Nat)
    (hlt : p.start < p.end_)
    (hx : tcl_eval_token fuel ev m (tcl_each_next m p) t list cur = some (t1, list1, cur1, r1))
    (hr : FLOW r1 ≠ FERROR) :
    tcl_eval_loop fuel ev m (n + 1) p t list cur result =
      tcl_eval_loop fuel ev m n { tcl_each_next m p with start := (tcl_each_next m p).to_ }
        t1 list1 cur1 r1 := by
  rw [tcl_eval_loop, if_pos hlt]
  simp only []
  rw [hx]
  simp only []
  rw [if_neg hr]

/-- The loop of `tcl_eval` at the end of the slice. -/
theorem tcl_eval_loop_end (fuel : Nat) (ev : tcl → Mem → Nat → Nat → Option (tcl × Nat))
    (m : Mem) (n : Nat) (p : tcl_each_state) (t : tcl) (list : Mem) (cur : Option Mem)
    (result : Nat) (h : ¬ p.start < p.end_) :
    tcl_eval_loop fuel ev m n p t list cur result = some (t, list, result) := by
  cases n with
  | zero => rw [tcl_eval_loop, if_neg h]
  | succ k => rw [tcl_eval_loop, if_neg h]

/-- What `tcl_eval` returns with some amount of fuel, when it returns, is what it
returns with a given amount of fuel. -/
theorem tcl_eval_result_unique (fuel0 : Nat) (t : tcl) (m : Mem) (s length : Nat)
    (x0 : tcl × Nat) (h0 : tcl_eval fuel0 t m s length = some x0) (fuel : Nat) (x : tcl × Nat)
    (h : tcl_eval fuel t m s length = some x) : x = x0 := by
  rcases Nat.le_total fuel fuel0 with hle | hle
  · have := tcl_eval_mono fuel fuel0 t m s length x hle h
    rw [h0] at this
    injection this with this
    exact this.symm
  · have := tcl_eval_mono fuel0 fuel t m s length x0 hle h0
    rw [h] at this
    injection this with this

set_option maxHeartbeats 1000000 in
set_option maxRecDepth 100000 in
/-- C36 as stated fails.  The script `expr 1/0` run on a fresh interpreter
returns 0 and latches the error code `TCLERR_EXPR` at offset 5.  On the context it
leaves, `tcl_eval` on the script `while 1 {}` does not return 0: it does not return
at all, whatever the number of steps allowed (the condition and the empty body
leave the context as it is, so the loop of `tcl_cmd_while` goes on for ever).  On
`while 0 {}` the same context returns 0 with the code kept. -/
theorem tcl_eval_latched_no_return :
    tcl_eval_text 30 tcl_init "expr 1/0".toList =
      some ({ tcl_init with errorcode := TCLERR_EXPR, errorpos := 5 }, FERROR) ∧
    (∀ fuel, tcl_eval_text fuel { tcl_init with errorcode := TCLERR_EXPR, errorpos := 5 }
      "while 1 {}".toList = none) ∧
    (tcl_eval_text 30 { tcl_init with errorcode := TCLERR_EXPR, errorpos := 5 }
      "while 0 {}".toList).map (fun r => (r.2, r.1.errorcode, r.1.errorpos)) =
      some (FERROR, TCLERR_EXPR, 5) := by
  refine ⟨by decide!, ?_, by decide!⟩
  intro fuel
  cases fuel with
  | zero => rfl
  | succ f =>
    cases f with
    | zero => decide!
    | succ f =>
      cases f with
      | zero => decide!
      | succ g =>
        have h1 : tcl_each_next (c_string "while 1 {}") (tcl_each_init 0 10 Token.TERROR) =
            ⟨0, 5, 0, 10, 4, Token.TWORD⟩ := by decide
        have h2 : tcl_each_next (c_string "while 1 {}") ⟨0, 5, 5, 10, 4, Token.TWORD⟩ =
            ⟨6, 7, 5, 10, 4, Token.TWORD⟩ := by decide
        have h3 : tcl_each_next (c_string "while 1 {}") ⟨6, 7, 7, 10, 4, Token.TWORD⟩ =
            ⟨8, 10, 7, 10, 4, Token.TWORD⟩ := by decide
        have k1 : ∀ ev, tcl_eval_token (g + 2) ev (c_string "while 1 {}")
            ⟨0, 5, 0, 10, 4, Token.TWORD⟩
            { tcl_init with nestlevel := 1, errorcode := TCLERR_EXPR, errorpos := 5 } tcl_list_alloc none =
            some ({ tcl_init with nestlevel := 1, errorcode := TCLERR_EXPR, errorpos := 5,
                                  result := some (c_string "while") },
              c_string "while", none, FNORMAL) := by
          intro ev
          unfold tcl_eval_token
          simp only []
          rw [tcl_subst_plain ev _ _ _ _ (by decide) (by decide) (by decide) (by decide)]
          decide!
        have k2 : ∀ ev, tcl_eval_token (g + 2) ev (c_string "while 1 {}")
            ⟨6, 7, 5, 10, 4, Token.TWORD⟩
            { tcl_init with nestlevel := 1, errorcode := TCLERR_EXPR, errorpos := 5,
                            result := some (c_string "while") } (c_string "while") none =
            some ({ tcl_init with nestlevel := 1, errorcode := TCLERR_EXPR, errorpos := 5,
                                  result := some (c_string "1") },
              c_string "while 1", none, FNORMAL) := by
          intro ev
          unfold tcl_eval_token
          simp only []
          rw [tcl_subst_plain ev _ _ _ _ (by decide) (by decide) (by decide) (by decide)]
          decide!
        have k3 : ∀ ev, tcl_eval_token (g + 2) ev (c_string "while 1 {}")
            ⟨8, 10, 7, 10, 4, Token.TWORD⟩
            { tcl_init with nestlevel := 1, errorcode := TCLERR_EXPR, errorpos := 5,
                            result := some (c_string "1") } (c_string "while 1") none =
            some ({ tcl_init with nestlevel := 1, errorcode := TCLERR_EXPR, errorpos := 5,
                                  result := some [NUL] },
              c_string "while 1 {}", none, FNORMAL) := by
          intro ev
          unfold tcl_eval_token
          simp only []
          rw [tcl_subst_braced ev _ _ _ _ (by decide) (by decide)]
          decide!
        have hloop : tcl_eval_loop (g + 2) (tcl_eval (g + 2)) (c_string "while 1 {}") (g + 1 + 1 + 1)
            (tcl_each_init 0 10 Token.TERROR)
            { tcl_init with nestlevel := 1, errorcode := TCLERR_EXPR, errorpos := 5 } tcl_list_alloc none
            FNORMAL =
            some ({ tcl_init with nestlevel := 1, errorcode := TCLERR_EXPR, errorpos := 5,
                                  result := some [NUL] }, c_string "while 1 {}", FNORMAL) := by
          rw [tcl_eval_loop_step _ _ _ (g + 1 + 1) _ _ _ _ _ _ _ _ _ (by decide)
            (by rw [h1]; exact k1 _) (by decide), h1]
          rw [tcl_eval_loop_step _ _ _ (g + 1) _ _ _ _ _ _ _ _ _ (by decide)
            (by rw [h2]; exact k2 _) (by decide), h2]
          rw [tcl_eval_loop_step _ _ _ g _ _ _ _ _ _ _ _ _ (by decide)
            (by rw [h3]; exact k3 _) (by decide), h3]
          rw [tcl_eval_loop_end _ _ _ _ _ _ _ _ _ (by decide)]
        have hcnt : tcl_list_count (c_string "while 1 {}") = some 3 := by decide
        have hname : tcl_list_at (c_string "while 1 {}") 0 = some (some (c_string "while")) := by
          decide
        have hcond : tcl_list_at (c_string "while 1 {}") 1 = some (some (c_string "1")) := by
          decide
        have hbody : tcl_list_at (c_string "while 1 {}") 2 = some (some [NUL]) := by decide
        have hfind : ({ tcl_init with nestlevel := 1, errorcode := TCLERR_EXPR, errorpos := 5,
                                      result := some [NUL] } : tcl).cmds.find? (fun c =>
            (cstr c.name (tcl_string c.name) ==
                cstr (c_string "while") (tcl_string (c_string "while"))) &&
              (c.arity == 0 || c.arity == 3)) =
            some ⟨c_string "while", 3, tcl_cmd_fn.tcl_cmd_while, none, 0⟩ := by decide
        have e1 : tcl_eval 20 { tcl_init with nestlevel := 1, errorcode := TCLERR_EXPR, errorpos := 5,
                                              result := some [NUL] }
            (tcl_make_condition_list (c_string "1"))
            (tcl_string (tcl_make_condition_list (c_string "1")))
            (tcl_length (some (tcl_make_condition_list (c_string "1"))) + 1) =
            some ({ tcl_init with nestlevel := 1, errorcode := TCLERR_EXPR, errorpos := 5,
                                  result := some (c_string "1") }, FNORMAL) := by decide!
        have e2 : tcl_eval 20 { tcl_init with nestlevel := 1, errorcode := TCLERR_EXPR, errorpos := 5,
                                              result := some (c_string "1") }
            (tcl_make_condition_list (c_string "1"))
            (tcl_string (tcl_make_condition_list (c_string "1")))
            (tcl_length (some (tcl_make_condition_list (c_string "1"))) + 1) =
            some ({ tcl_init with nestlevel := 1, errorcode := TCLERR_EXPR, errorpos := 5,
                                  result := some (c_string "1") }, FNORMAL) := by decide!
        have e3 : tcl_eval 20 { tcl_init with nestlevel := 1, errorcode := TCLERR_EXPR, errorpos := 5,
                                              result := some (c_string "1") }
            [NUL] (tcl_string [NUL]) (tcl_length (some [NUL]) + 1) =
            some ({ tcl_init with nestlevel := 1, errorcode := TCLERR_EXPR, errorpos := 5,
                                  result := some (c_string "1") }, FNORMAL) := by decide!
        have hdiv := tcl_cmd_while_loop_diverges (tcl_eval (g + 2))
          (tcl_make_condition_list (c_string "1")) [NUL]
          { tcl_init with nestlevel := 1, errorcode := TCLERR_EXPR, errorpos := 5,
                          result := some (c_string "1") }
          (fun x h => tcl_eval_result_unique 20 _ _ _ _ _ e2 (g + 2) x h)
          (fun x h => tcl_eval_result_unique 20 _ _ _ _ _ e3 (g + 2) x h) (by decide)
        have hwhile : tcl_cmd_while_loop (tcl_eval (g + 2))
            (tcl_make_condition_list (c_string "1")) [NUL] (g + 1 + 1)
            { tcl_init with nestlevel := 1, errorcode := TCLERR_EXPR, errorpos := 5,
                            result := some [NUL] } = none := by
          rw [tcl_cmd_while_loop]
          cases h1 : tcl_eval (g + 2)
              ({ tcl_init with nestlevel := 1, errorcode := TCLERR_EXPR, errorpos := 5,
                               result := some [NUL] } : tcl)
              (tcl_make_condition_list (c_string "1"))
              (tcl_string (tcl_make_condition_list (c_string "1")))
              (tcl_length (some (tcl_make_condition_list (c_string "1"))) + 1) with
          | none => rfl
          | some x =>
            have hx := tcl_eval_result_unique 20 _ _ _ _ _ e1 (g + 2) x h1
            subst hx
            simp only []
            rw [if_neg (by decide), if_neg (by decide)]
            cases h2 : tcl_eval (g + 2)
                ({ tcl_init with nestlevel := 1, errorcode := TCLERR_EXPR, errorpos := 5,
                                 result := some (c_string "1") } : tcl)
                [NUL] (tcl_string [NUL]) (tcl_length (some [NUL]) + 1) with
            | none => rfl
            | some y =>
              have hy := tcl_eval_result_unique 20 _ _ _ _ _ e3 (g + 2) y h2
              subst hy
              simp only []
              rw [if_neg (by decide)]
              exact hdiv (g + 1)
        have hexec : tcl_exec_cmd (g + 2) (tcl_eval (g + 2))
            { tcl_init with nestlevel := 1, errorcode := TCLERR_EXPR, errorpos := 5, result := some [NUL] }
            (c_string "while 1 {}") = none := by
          unfold tcl_exec_cmd
          rw [hname]
          simp only []
          rw [tcl_exec_cmd_loop_find _ _ _ _ 3 hcnt, hfind]
          simp only []
          unfold tcl_cmd_call
          simp only []
          unfold tcl_cmd_while
          rw [hcond, hbody]
          exact hwhile
        have hb : ∀ t0 : tcl, t0 = { tcl_init with errorcode := TCLERR_EXPR, errorpos := 5 } →
            tcl_eval_body (g + 2) (tcl_eval (g + 2)) t0 (c_string "while 1 {}") 0 10 = none := by
          intro t0 ht0
          have hs : ({ t0 with nestlevel := t0.nestlevel + 1 } : tcl) =
              { tcl_init with nestlevel := 1, errorcode := TCLERR_EXPR, errorpos := 5 } := by
            subst ht0
            decide!
          rw [tcl_eval_body, hs, Nat.zero_add, hloop]
          simp only []
          rw [if_pos (by decide), hcnt]
          simp only []
          rw [if_pos (by decide), hexec]
        exact hb _ rfl

/-- C36, for the calls that return: the latched error is never cleared by
evaluation.  When the context holds a non-zero error code, every call of
`tcl_eval` at the top level (nesting level 0) that returns, returns 0 (`FERROR`),
whatever the script does, and leaves the error code and the error position as
they were; and the call returns the same context and the same value with any
larger number of steps allowed, so what it returns does not depend on the bound
of the model. -/
theorem tcl_eval_error_latched (fuel : Nat) (t : tcl) (m : Mem) (s length : Nat) (t2 : tcl)
    (r : Nat) (he : t.errorcode ≠ 0) (h0 : t.nestlevel = 0)
    (h : tcl_eval fuel t m s length = some (t2, r)) :
    (∀ fuel2, fuel ≤ fuel2 → tcl_eval fuel2 t m s length = some (t2, r)) ∧
      r = FERROR ∧ t2.errorcode = t.errorcode ∧ t2.errorpos = t.errorpos := by
  obtain ⟨e1, p1⟩ := tcl_eval_keeps error_latch_step_rel fuel t m s length t2 r h he
  refine ⟨fun fuel2 hf => tcl_eval_mono fuel fuel2 t m s length (t2, r) hf h,
    (tcl_eval_top_level fuel t m s length t2 r h).2 h0 ?_, e1, p1⟩
  rw [e1]
  exact Nat.pos_of_ne_zero he

set_option maxRecDepth 100000 in
/-- C36, at an instance: the context holds the error code 4 of an unknown
command, recorded at offset 3; the script `proc p {} {return}; p` declares a
procedure whose body is a `return` without a value and calls it, all without an
error; the call leaves a NULL result, and `tcl_eval` still returns 0 with the
code 4 and the offset 3 in place. -/
theorem tcl_eval_error_latched_witness :
    tcl_eval 20
        ⟨[], [], [⟨c_string "proc", 4, tcl_cmd_fn.tcl_cmd_proc, none, 0⟩,
            ⟨c_string "return", 0, tcl_cmd_fn.tcl_cmd_flow, none, 0⟩], some [NUL], 0, 4, 3, []⟩
        (c_string "proc p {} {return}; p") 0 21 =
      some (⟨[], [],
          [⟨c_string "p", 0, tcl_cmd_fn.tcl_user_proc, some (c_string "proc p {} return"), 3⟩,
            ⟨c_string "proc", 4, tcl_cmd_fn.tcl_cmd_proc, none, 0⟩,
            ⟨c_string "return", 0, tcl_cmd_fn.tcl_cmd_flow, none, 0⟩],
          none, 0, 4, 3, []⟩, 0) ∧
    ((∀ fuel2, 20 ≤ fuel2 →
        tcl_eval fuel2
          ⟨[], [], [⟨c_string "proc", 4, tcl_cmd_fn.tcl_cmd_proc, none, 0⟩,
              ⟨c_string "return", 0, tcl_cmd_fn.tcl_cmd_flow, none, 0⟩], some [NUL], 0, 4, 3, []⟩
          (c_string "proc p {} {return}; p") 0 21 =
        some (⟨[], [],
            [⟨c_string "p", 0, tcl_cmd_fn.tcl_user_proc, some (c_string "proc p {} return"), 3⟩,
              ⟨c_string "proc", 4, tcl_cmd_fn.tcl_cmd_proc, none, 0⟩,
              ⟨c_string "return", 0, tcl_cmd_fn.tcl_cmd_flow, none, 0⟩],
            none, 0, 4, 3, []⟩, 0)) ∧
      (0 : Nat) = FERROR ∧ (4 : Nat) = 4 ∧ (3 : Nat) = 3) :=
  ⟨by decide!,
    tcl_eval_error_latched 20
      ⟨[], [], [⟨c_string "proc", 4, tcl_cmd_fn.tcl_cmd_proc, none, 0⟩,
          ⟨c_string "return", 0, tcl_cmd_fn.tcl_cmd_flow, none, 0⟩], some [NUL], 0, 4, 3, []⟩
      (c_string "proc p {} {return}; p") 0 21
      ⟨[], [],
        [⟨c_string "p", 0, tcl_cmd_fn.tcl_user_proc, some (c_string "proc p {} return"), 3⟩,
          ⟨c_string "proc", 4, tcl_cmd_fn.tcl_cmd_proc, none, 0⟩,
          ⟨c_string "return", 0, tcl_cmd_fn.tcl_cmd_flow, none, 0⟩],
        none, 0, 4, 3, []⟩ 0
      (by decide) rfl (by decide!)⟩

/-! ## Values across the call of a proc -/

theorem values_kept_refl (L : List Mem) : ∀ a : tcl_env, values_kept L a a := by
  intro a
  induction a with
  | nil => exact List.Forall₂.nil
  | cons u l ih => exact List.Forall₂.cons ⟨rfl, rfl, rfl, fun _ => rfl⟩ ih

theorem values_kept_trans (L1 L2 : List Mem) :
    ∀ a b c : tcl_env, values_kept L1 a b → values_kept L2 b c → values_kept (L2 ++ L1) a c := by
  intro a b c h1
  induction h1 generalizing c with
  | nil =>
    intro h2
    cases h2
    exact List.Forall₂.nil
  | cons hu _ ih =>
    intro h2
    cases h2 with
    | cons hv h3 =>
      refine List.Forall₂.cons ⟨hv.1.trans hu.1, hv.2.1.trans hu.2.1, hv.2.2.1.trans hu.2.2.1,
        fun hn => ?_⟩ (ih _ h3)
      rw [List.mem_append, not_or] at hn
      rw [hv.2.2.2 (by rw [hu.1]; exact hn.1), hu.2.2.2 hn.2]

theorem values_kept_same (L : List Mem) :
    ∀ a b : tcl_env, values_kept L a b → same_bindings a b := by
  intro a b h
  induction h with
  | nil => rfl
  | cons hu _ ih =>
    simp only [same_bindings, List.map_cons, List.cons.injEq, Prod.mk.injEq] at ih ⊢
    exact ⟨⟨hu.1.symm, hu.2.1.symm, hu.2.2.1.symm⟩, ih⟩

theorem values_kept_frames (L : List Mem) (ps qs : List tcl_env)
    (h : frames_kept_except L ps qs) : frames_kept ps qs :=
  ⟨h.1, h.2.1, values_kept_same L _ _ h.2.2⟩

/-- A write to the binding that `tcl_findvar` finds for `n` keeps every value but
the one of the name `n`. -/
theorem values_kept_modify (n w : Mem) :
    ∀ (a : tcl_env) (j : Nat), tcl_findvar a n = some j →
      values_kept [cstr n (tcl_string n)] a (a.modify (fun var => { var with value := w }) j) := by
  intro a
  induction a with
  | nil => intro j h; exact absurd h (by simp [tcl_findvar])
  | cons u l ih =>
    intro j h
    simp only [tcl_findvar, List.findIdx?_cons] at h
    split at h
    · rename_i hp
      injection h with h
      subst h
      refine List.Forall₂.cons ⟨rfl, rfl, rfl, fun hn => ?_⟩ (values_kept_refl _ l)
      exact absurd (List.mem_singleton.mpr (eq_of_beq hp)) hn
    · rw [List.findIdx?_succ] at h
      cases hl : List.findIdx? (fun v => cstr v.name (tcl_string v.name) ==
          cstr n (tcl_string n)) l with
      | none => rw [hl] at h; exact absurd h (by simp)
      | some k =>
        rw [hl] at h
        simp only [Option.map_some'] at h
        injection h with h
        subst h
        rw [List.modify_succ_cons]
        exact List.Forall₂.cons ⟨rfl, rfl, rfl, fun _ => rfl⟩ (ih k hl)

theorem frames_kept_except_refl (L : List Mem) (ps : List tcl_env) :
    frames_kept_except L ps ps := ⟨rfl, rfl, values_kept_refl L _⟩

theorem frames_kept_except_trans (L1 L2 : List Mem) (a b c : List tcl_env)
    (h1 : frames_kept_except L1 a b) (h2 : frames_kept_except L2 b c) :
    frames_kept_except (L2 ++ L1) a c :=
  ⟨h2.1.trans h1.1, h2.2.1.trans h1.2.1, values_kept_trans L1 L2 _ _ _ h1.2.2 h2.2.2⟩

theorem frames_kept_except_set_last (L : List Mem) (ps : List tcl_env) (hp : ps ≠ [])
    (root : tcl_env) (h : values_kept L (ps.getLastD []) root) :
    frames_kept_except L ps (ps.set (ps.length - 1) root) := by
  obtain ⟨init, last, rfl⟩ : ∃ init last, ps = init ++ [last] :=
    ⟨ps.dropLast, ps.getLast hp, (List.dropLast_append_getLast hp).symm⟩
  have hset : (init ++ [last]).set ((init ++ [last]).length - 1) root = init ++ [root] := by
    simp [List.set_append]
  rw [hset]
  refine ⟨by simp, by simp, ?_⟩
  simpa using h

theorem frames_kept_except_cons (L : List Mem) (e : tcl_env) (ps qs : List tcl_env)
    (h : frames_kept_except L (e :: ps) qs) :
    frames_kept_except L ps qs.tail ∧ (ps = [] → values_kept L e (qs.headD [])) ∧
      (ps ≠ [] → qs.headD [] = e) := by
  obtain ⟨hl, hd, hb⟩ := h
  cases qs with
  | nil => simp at hl
  | cons e2 qs2 =>
    cases ps with
    | nil =>
      have : qs2 = [] := by
        cases qs2 with
        | nil => rfl
        | cons a l => simp at hl
      subst this
      refine ⟨frames_kept_except_refl L [], fun _ => ?_, fun hne => absurd rfl hne⟩
      simpa using hb
    | cons p ps0 =>
      cases qs2 with
      | nil => simp at hl
      | cons q qs0 =>
        simp only [List.dropLast_cons₂, List.cons.injEq] at hd
        refine ⟨⟨by simpa using hl, hd.2, ?_⟩, fun hne => absurd hne (by simp), fun _ => hd.1⟩
        simpa using hb

/-- The frames below the current one and the history variable after `tcl_var`:
the frames are the same and the history has gained at most the name, or the
binding that `tcl_findvar` finds for the name in the root frame has a new value
and the history has gained the name. -/
theorem tcl_var_written (t : tcl) (n : Mem) (v : Option Mem) :
    ((tcl_var t n v).1.parents = t.parents ∧
      ∃ L, (tcl_var t n v).1.written = L ++ t.written) ∨
    (t.parents ≠ [] ∧ ∃ j w, tcl_findvar (t.parents.getLastD []) n = some j ∧
      (tcl_var t n v).1.parents = t.parents.set (t.parents.length - 1)
        ((t.parents.getLastD []).modify (fun var => { var with value := w }) j) ∧
      (tcl_var t n v).1.written = cstr n (tcl_string n) :: t.written) := by
  unfold tcl_var
  cases hf : tcl_findvar t.env n with
  | none =>
    left
    simp only [Option.map_none', Option.getD_none]
    cases v with
    | none => exact ⟨rfl, [], rfl⟩
    | some w => exact ⟨rfl, [], rfl⟩
  | some k =>
    by_cases hg : (t.env.getD k ⟨[], [], 0, false⟩).global = true
    · simp only [Option.map_some', hg, if_true]
      cases hr : tcl_findvar (tcl_frame t t.parents.length) n with
      | none =>
        left
        simp only [Option.map_none', Option.getD_none]
        cases v with
        | none => exact ⟨rfl, [], rfl⟩
        | some w => exact ⟨rfl, [], rfl⟩
      | some j =>
        simp only [Option.map_some', Option.getD_some, Option.isSome_some, Bool.and_self, if_true]
        cases v with
        | none => left; exact ⟨rfl, [], rfl⟩
        | some w =>
          by_cases hp : t.parents = []
          · left
            simp only [hp, List.length_nil, tcl_set_frame]
            exact ⟨trivial, [cstr n (tcl_string n)], rfl⟩
          · right
            refine ⟨hp, j, tcl_dup w, ?_, ?_, ?_⟩
            · rw [tcl_frame_root t hp] at hr
              rw [List.getLastD_eq_getLast?, List.getLast?_eq_getLast _ hp]
              exact hr
            · simp only [tcl_set_frame_root t _ hp, tcl_frame_root t hp]
              rw [List.getLastD_eq_getLast?, List.getLast?_eq_getLast _ hp]
              rfl
            · simp only [tcl_set_frame_root t _ hp]
    · left
      simp only [Option.map_some', hg, if_false, Option.getD_some, Bool.false_eq_true]
      cases v with
      | none => exact ⟨rfl, [], rfl⟩
      | some w => exact ⟨rfl, [], rfl⟩

theorem tcl_markposition_written (t : tcl) (p : Nat) :
    (tcl_markposition t p).written = t.written := by
  unfold tcl_markposition
  split_ifs <;> rfl

/-- The history variable is only written: `tcl_var` run on a context with another
history gives the same context but for the history, and the same value. -/
theorem tcl_var_history (t : tcl) (n : Mem) (v : Option Mem) (w : List Mem) :
    { (tcl_var { t with written := w } n v).1 with written := [] } =
        { (tcl_var t n v).1 with written := [] } ∧
      (tcl_var { t with written := w } n v).2 = (tcl_var t n v).2 := by
  cases t with
  | mk env parents cmds result nestlevel errorcode errorpos written =>
    unfold tcl_var
    simp only []
    cases hf : tcl_findvar env n with
    | none =>
      cases v with
      | none => exact ⟨rfl, rfl⟩
      | some x => exact ⟨rfl, rfl⟩
    | some k =>
      simp only [Option.map_some']
      by_cases hg : (env.getD k ⟨[], [], 0, false⟩).global = true
      · simp only [hg, if_true]
        have hfr : ∀ w2 : List Mem, tcl_frame ⟨env, parents, cmds, result, nestlevel, errorcode,
            errorpos, w2⟩ parents.length = (env :: parents).getD parents.length [] := fun _ => rfl
        simp only [hfr]
        cases hr : tcl_findvar ((env :: parents).getD parents.length []) n with
        | none =>
          cases v with
          | none => exact ⟨rfl, rfl⟩
          | some x => exact ⟨rfl, rfl⟩
        | some j =>
          cases v with
          | none => exact ⟨rfl, rfl⟩
          | some x =>
            simp only [Option.map_some', Option.getD_some, Option.isSome_some, Bool.and_self,
              if_true]
            cases hp : parents.length with
            | zero => exact ⟨rfl, rfl⟩
            | succ q => exact ⟨rfl, rfl⟩
      · simp only [hg, if_false, Bool.false_eq_true, Option.getD_some, Bool.false_and]
        cases v with
        | none => exact ⟨rfl, rfl⟩
        | some x => exact ⟨rfl, rfl⟩

/-- Every step of the interpreter keeps the frames below the current one but for
the values of the names that the history variable has gained. -/
theorem values_kept_step_rel :
    tcl_step_rel (fun t t2 =>
      ∃ L, t2.written = L ++ t.written ∧ frames_kept_except L t.parents t2.parents) where
  refl t := ⟨[], rfl, frames_kept_except_refl _ _⟩
  trans a b c h1 h2 := by
    obtain ⟨L1, w1, k1⟩ := h1
    obtain ⟨L2, w2, k2⟩ := h2
    exact ⟨L2 ++ L1, by rw [w2, w1, List.append_assoc],
      frames_kept_except_trans L1 L2 _ _ _ k1 k2⟩
  result t flow v := ⟨[], rfl, frames_kept_except_refl _ _⟩
  var t n v := by
    rcases tcl_var_written t n v with ⟨h, L, hw⟩ | ⟨hp, j, w, hj, h, hw⟩
    · exact ⟨L, hw, by rw [h]; exact frames_kept_except_refl _ _⟩
    · refine ⟨[cstr n (tcl_string n)], hw, ?_⟩
      rw [h]
      exact frames_kept_except_set_last _ _ hp _ (values_kept_modify n w _ j hj)
  env_flag t k := ⟨[], rfl, frames_kept_except_refl _ _⟩
  cmds t cs := ⟨[], rfl, frames_kept_except_refl _ _⟩
  pos t p := by
    refine ⟨[], ?_, ?_⟩
    · rw [tcl_markposition_written]; rfl
    · rw [tcl_markposition_parents]; exact frames_kept_except_refl _ _
  nest t t2 h := h
  frame t t3 h := by
    obtain ⟨L, hw, hk⟩ := h
    exact ⟨L, hw, (frames_kept_except_cons L t.env t.parents t3.parents hk).1⟩

/-- C23: the frames after the call of a user-defined proc.  When `tcl_user_proc`
returns, with any flow code, let `L` be the names that were written through a
global alias during the call (`written_since`, what the history variable has
gained).  The chain of frames below the current frame is kept but for the values
of the names in `L` in the root frame (`frames_kept_except`).  If the caller's
frame is not the root frame, the current frame is the caller's frame as it was
before the call, values included; if it is the root frame, the current frame
holds the same bindings as before the call (the same names with the same flags
in the same order) and every binding whose name is not in `L` has the value it
had before the call (`values_kept`).  In both cases a lookup of a name in the
current frame finds what it found before the call: a variable first set in the
body is not bound in the caller's frame.  The call returns the same context and
the same flow with any larger number of steps allowed. -/
theorem tcl_user_proc_frames (fuel : Nat) (t : tcl) (args code : Mem) (t2 : tcl) (r : Nat)
    (h : tcl_user_proc (tcl_eval fuel) t args code = some (t2, r)) :
    (∀ fuel2, fuel ≤ fuel2 → tcl_user_proc (tcl_eval fuel2) t args code = some (t2, r)) ∧
    t2.written = written_since t t2 ++ t.written ∧
    frames_kept_except (written_since t t2) t.parents t2.parents ∧
    (t.parents ≠ [] → t2.env = t.env) ∧
    (t.parents = [] → values_kept (written_since t t2) t.env t2.env) ∧
    (∀ x, tcl_findvar t2.env x = tcl_findvar t.env x) := by
  refine ⟨fun fuel2 hf => tcl_user_proc_mono (tcl_eval fuel) (tcl_eval fuel2)
    (fun t m s l x hx => tcl_eval_mono fuel fuel2 t m s l x hf hx) t args code (t2, r) h, ?_⟩
  obtain ⟨t3, ⟨L, hw, h1⟩, rfl⟩ := tcl_user_proc_inner values_kept_step_rel (tcl_eval fuel)
    (tcl_eval_keeps values_kept_step_rel fuel) t args code t2 r h
  obtain ⟨k1, k2, k3⟩ := frames_kept_except_cons L t.env t.parents t3.parents h1
  have hL : written_since t
      { t3 with env := t3.parents.headD [], parents := t3.parents.tail } = L := by
    show List.take (t3.written.length - t.written.length) t3.written = L
    have hw2 : t3.written = L ++ t.written := hw
    rw [hw2]
    simp
  rw [hL]
  refine ⟨hw, k1, k3, k2, fun x => ?_⟩
  by_cases hp : t.parents = []
  · exact (same_bindings_findvar x _ _ (values_kept_same L _ _ (k2 hp))).symm
  · show tcl_findvar (t3.parents.headD []) x = tcl_findvar t.env x
    rw [k3 hp]

set_option maxRecDepth 100000 in
/-- C23, at an instance: the root frame binds `z` to `3` and `x` to `1` and is the
caller's frame; the body of the proc is `global x; set x 7; set z 5; return`.  The
call returns with the flow of the `return`; the only name written through a global
alias is `x`, the current frame binds `z` and `x` as before, `x` has the value `7`
written through the alias and `z` has kept the value `3`: the `z` set in the body
was a variable of the frame of the proc. -/
theorem tcl_user_proc_frames_witness :
    tcl_user_proc (tcl_eval 20)
        ⟨[⟨c_string "z", c_string "3", 0, false⟩, ⟨c_string "x", c_string "1", 0, false⟩], [],
          [⟨c_string "set", 0, tcl_cmd_fn.tcl_cmd_set, none, 0⟩,
           ⟨c_string "global", 0, tcl_cmd_fn.tcl_cmd_global, none, 0⟩,
           ⟨c_string "return", 0, tcl_cmd_fn.tcl_cmd_flow, none, 0⟩], some [NUL], 0, 0, 0, []⟩
        (c_string "p") (c_string "proc p {} {global x; set x 7; set z 5; return}") =
      some (⟨[⟨c_string "z", c_string "3", 0, false⟩, ⟨c_string "x", c_string "7", 0, false⟩], [],
          [⟨c_string "set", 0, tcl_cmd_fn.tcl_cmd_set, none, 0⟩,
           ⟨c_string "global", 0, tcl_cmd_fn.tcl_cmd_global, none, 0⟩,
           ⟨c_string "return", 0, tcl_cmd_fn.tcl_cmd_flow, none, 0⟩], none, 0, 0, 0, [['x']]⟩,
        FRETURN) ∧
    ((∀ fuel2, 20 ≤ fuel2 →
      tcl_user_proc (tcl_eval fuel2)
          ⟨[⟨c_string "z", c_string "3", 0, false⟩, ⟨c_string "x", c_string "1", 0, false⟩], [],
            [⟨c_string "set", 0, tcl_cmd_fn.tcl_cmd_set, none, 0⟩,
             ⟨c_string "global", 0, tcl_cmd_fn.tcl_cmd_global, none, 0⟩,
             ⟨c_string "return", 0, tcl_cmd_fn.tcl_cmd_flow, none, 0⟩], some [NUL], 0, 0, 0, []⟩
          (c_string "p") (c_string "proc p {} {global x; set x 7; set z 5; return}") =
        some (⟨[⟨c_string "z", c_string "3", 0, false⟩, ⟨c_string "x", c_string "7", 0, false⟩],
            [], [⟨c_string "set", 0, tcl_cmd_fn.tcl_cmd_set, none, 0⟩,
             ⟨c_string "global", 0, tcl_cmd_fn.tcl_cmd_global, none, 0⟩,
             ⟨c_string "return", 0, tcl_cmd_fn.tcl_cmd_flow, none, 0⟩], none, 0, 0, 0,
            [['x']]⟩, 2)) ∧
    [['x']] = [['x']] ++ ([] : List Mem) ∧
    frames_kept_except [['x']] ([] : List tcl_env) [] ∧
    (([] : List tcl_env) ≠ [] →
      [(⟨c_string "z", c_string "3", 0, false⟩ : tcl_var_t), ⟨c_string "x", c_string "7", 0, false⟩] =
        [⟨c_string "z", c_string "3", 0, false⟩, ⟨c_string "x", c_string "1", 0, false⟩]) ∧
    (([] : List tcl_env) = [] →
      values_kept [['x']]
        [⟨c_string "z", c_string "3", 0, false⟩, ⟨c_string "x", c_string "1", 0, false⟩]
        [⟨c_string "z", c_string "3", 0, false⟩, ⟨c_string "x", c_string "7", 0, false⟩]) ∧
    (∀ x, tcl_findvar
        [⟨c_string "z", c_string "3", 0, false⟩, ⟨c_string "x", c_string "7", 0, false⟩] x =
      tcl_findvar
        [⟨c_string "z", c_string "3", 0, false⟩, ⟨c_string "x", c_string "1", 0, false⟩] x)) :=
  ⟨by decide!,
    tcl_user_proc_frames 20
      ⟨[⟨c_string "z", c_string "3", 0, false⟩, ⟨c_string "x", c_string "1", 0, false⟩], [],
        [⟨c_string "set", 0, tcl_cmd_fn.tcl_cmd_set, none, 0⟩,
         ⟨c_string "global", 0, tcl_cmd_fn.tcl_cmd_global, none, 0⟩,
         ⟨c_string "return", 0, tcl_cmd_fn.tcl_cmd_flow, none, 0⟩], some [NUL], 0, 0, 0, []⟩
      (c_string "p") (c_string "proc p {} {global x; set x 7; set z 5; return}")
      ⟨[⟨c_string "z", c_string "3", 0, false⟩, ⟨c_string "x", c_string "7", 0, false⟩], [],
        [⟨c_string "set", 0, tcl_cmd_fn.tcl_cmd_set, none, 0⟩,
         ⟨c_string "global", 0, tcl_cmd_fn.tcl_cmd_global, none, 0⟩,
         ⟨c_string "return", 0, tcl_cmd_fn.tcl_cmd_flow, none, 0⟩], none, 0, 0, 0, [['x']]⟩
      2 (by decide!)⟩

/-! ## Words with balanced braces in a list -/

theorem list_word_facts (w : Mem) (hw : list_word w = true) :
    (∀ c ∈ w, c ≠ NUL ∧ c ≠ BIN_TOKEN) ∧ NUL ∉ w ∧ BIN_TOKEN ∉ w ∧
      w.head? ≠ some BIN_TOKEN ∧
      (needs_brace w = true → span_close '{' '}' (w ++ ['}']) 1 0 = some (w.length + 1)) := by
  simp only [list_word, Bool.and_eq_true, List.all_eq_true, bne_iff_ne, ne_eq, Bool.or_eq_true,
    Bool.not_eq_true', beq_iff_eq] at hw
  obtain ⟨hall, hbr⟩ := hw
  have h1 : NUL ∉ w := fun h => (hall _ h).1 rfl
  have h2 : BIN_TOKEN ∉ w := fun h => (hall _ h).2 rfl
  refine ⟨hall, h1, h2, ?_, ?_⟩
  · intro h
    apply h2
    cases w with
    | nil => simp at h
    | cons c t => simp at h; simp [h]
  · intro hb
    rcases hbr with h | h
    · rw [hb] at h; exact absurd h (by simp)
    · exact h

/-- The loop of `tcl_next` over bytes without a binary sentinel on which the
specification's scan finds the closing brace: it stops right after that brace. -/
theorem brace_loop_word (m : Mem) (s len : Nat) (post : Mem) :
    ∀ (n : Nat) (bs : List Char) (i depth fuel k : Nat),
      bs.length ≤ n → BIN_TOKEN ∉ bs → m.drop (s + i) = bs ++ post → i + bs.length ≤ len →
      1 ≤ depth → bs.length ≤ fuel → span_close '{' '}' bs depth 0 = some k →
      brace_loop m s len '{' '}' fuel i depth = (i + k, 0) := by
  intro n
  induction n with
  | zero =>
    intro bs i depth fuel k hn _ _ _ _ _ hk
    have hbs : bs = [] := List.length_eq_zero.mp (by omega)
    subst hbs
    simp [span_close] at hk
  | succ n ih =>
    intro bs i depth fuel k hn hbin hm hlen hd hfuel hk
    cases bs with
    | nil => simp [span_close] at hk
    | cons c rest =>
      simp only [List.length_cons] at hn hlen hfuel
      obtain ⟨f, rfl⟩ : ∃ f, fuel = f + 1 := ⟨fuel - 1, by omega⟩
      have hc : rd m (s + i) = c := (rd_of_drop_eq m (s + i) c (rest ++ post) hm).1
      have hm1 : m.drop (s + i) = (c :: rest) ++ post := hm
      have hcb : c ≠ BIN_TOKEN := fun e => hbin (by simp [e])
      have hrb : BIN_TOKEN ∉ rest := fun e => hbin (by simp [e])
      have hrest : ∀ j, j ≤ rest.length → m.drop (s + (i + (j + 1))) = rest.drop j ++ post := by
        intro j hj
        have := drop_of_drop_append m (s + i) (c :: rest) post (j + 1) hm1 (by simpa using hj)
        rw [show s + (i + (j + 1)) = s + i + (j + 1) by omega, this]
        rfl
      have hlt : i < len ∧ depth ≠ 0 := ⟨by omega, by omega⟩
      by_cases hesc : c = '\\' ∧ (rest.head? = some '{' ∨ rest.head? = some '}')
      · obtain ⟨c2, rest2, hr⟩ : ∃ c2 rest2, rest = c2 :: rest2 := by
          cases rest with
          | nil => simp at hesc
          | cons c2 r2 => exact ⟨c2, r2, rfl⟩
        subst hr
        have hn2 : rd m (s + (i + 1)) = c2 := by
          have := rd_of_drop_append m (s + i) (c :: c2 :: rest2) post 1 hm1 (by simp)
          rw [show s + (i + 1) = s + i + 1 by omega, this]
          rfl
        have hcode : brace_loop m s len '{' '}' (f + 1) i depth =
            brace_loop m s len '{' '}' f (i + 2) depth := by
          rw [brace_loop, if_pos hlt, if_pos ⟨by rw [hc]; exact hesc.1, by simp at hlen; omega, by
            rw [hn2]; simpa using hesc.2⟩]
        have hspec : span_close '{' '}' (c :: c2 :: rest2) depth 0 =
            (span_close '{' '}' rest2 depth 0).map (· + 2) := by
          rw [span_close, if_pos hesc, span_close_skip]
          simp [Option.map_map]
        rw [hspec] at hk
        cases hk2 : span_close '{' '}' rest2 depth 0 with
        | none => rw [hk2] at hk; simp at hk
        | some k2 =>
          rw [hk2] at hk
          simp only [Option.map_some', Option.some.injEq] at hk
          rw [hcode, ih rest2 (i + 2) depth f k2 (by simp at hn; omega)
            (fun e => hrb (by simp [e]))
            (by have := hrest 1 (by simp); simpa using this) (by simp at hlen; omega) hd
            (by simp at hfuel; omega) hk2]
          rw [← hk]
          congr 1
          omega
      · have hesc2 : ¬ (rd m (s + i) = '\\' ∧ i + 1 < len ∧
            (rd m (s + (i + 1)) = '{' ∨ rd m (s + (i + 1)) = '}')) := by
          rintro ⟨h1, -, h3⟩
          cases rest with
          | nil =>
            have hcs : c = '\\' := by rw [← hc]; exact h1
            subst hcs
            simp [span_close] at hk
          | cons c2 r2 =>
            have hn2 : rd m (s + (i + 1)) = c2 := by
              have := rd_of_drop_append m (s + i) (c :: c2 :: r2) post 1 hm1 (by simp)
              rw [show s + (i + 1) = s + i + 1 by omega, this]
              rfl
            rw [hn2] at h3
            exact hesc ⟨by rw [← hc]; exact h1, by simpa using h3⟩
        have hplain : ∀ d2, 1 ≤ d2 →
            span_close '{' '}' (c :: rest) depth 0 =
              (span_close '{' '}' rest d2 0).map (· + 1) →
            brace_loop m s len '{' '}' (f + 1) i depth =
              brace_loop m s len '{' '}' f (i + 1) d2 →
            brace_loop m s len '{' '}' (f + 1) i depth = (i + k, 0) := by
          intro d2 hd2 hspec hcode
          rw [hspec] at hk
          cases hk2 : span_close '{' '}' rest d2 0 with
          | none => rw [hk2] at hk; simp at hk
          | some k2 =>
            rw [hk2] at hk
            simp only [Option.map_some', Option.some.injEq] at hk
            rw [hcode, ih rest (i + 1) d2 f k2 (by omega) hrb
              (by have := hrest 0 (by simp); simpa using this) (by omega) hd2 (by omega) hk2]
            rw [← hk]
            congr 1
            omega
        by_cases hopn : c = '{'
        · exact hplain (depth + 1) (by omega)
            (by rw [span_close, if_neg hesc, if_pos hopn])
            (by rw [brace_loop, if_pos hlt, if_neg hesc2, if_pos (by rw [hc]; exact hopn)])
        · by_cases hcls : c = '}'
          · by_cases hd1 : depth ≤ 1
            · have hd0 : depth - 1 = 0 := by omega
              have hcode : brace_loop m s len '{' '}' (f + 1) i depth = (i + 1, 0) := by
                rw [brace_loop, if_pos hlt, if_neg hesc2, if_neg (by rw [hc]; exact hopn),
                  if_pos (by rw [hc]; exact hcls), hd0,
                  brace_loop_done _ _ _ _ _ _ _ _ (by simp)]
              have hspec : span_close '{' '}' (c :: rest) depth 0 = some 1 := by
                rw [span_close, if_neg hesc, if_neg hopn, if_pos hcls, if_pos hd1]
              rw [hspec] at hk
              simp only [Option.some.injEq] at hk
              rw [hcode, ← hk]
            · exact hplain (depth - 1) (by omega)
                (by rw [span_close, if_neg hesc, if_neg hopn, if_pos hcls, if_neg hd1])
                (by rw [brace_loop, if_pos hlt, if_neg hesc2, if_neg (by rw [hc]; exact hopn),
                  if_pos (by rw [hc]; exact hcls)])
          · exact hplain depth hd
              (by rw [span_close, if_neg hesc, if_neg hopn, if_neg hcls,
                if_neg (fun h => hcb h.1)])
              (by rw [brace_loop, if_pos hlt, if_neg hesc2, if_neg (by rw [hc]; exact hopn),
                if_neg (by rw [hc]; exact hcls), if_neg (fun h => hcb (by rw [← hc]; exact h.1))])

theorem tcl_next_token_item (m : Mem) (inner : LexOut) (string length : Nat) (w tl : Mem)
    (hm : m.drop string = list_item_text w ++ tl)
    (htl : tcl_is_space (tl.headD NUL) = true ∨ tl.headD NUL = NUL)
    (hw : list_word w = true)
    (hlen : (list_item_text w).length < length) :
    tcl_next_token m inner string length false 4 =
      ⟨Token.TWORD, string, some (string + (list_item_text w).length), 4⟩ := by
  obtain ⟨ht1, ht2⟩ := tail_head_facts _ htl
  obtain ⟨-, -, hwb, -, hspan⟩ := list_word_facts w hw
  have hend : rd m (string + (list_item_text w).length) = tl.headD NUL :=
    rd_drop_append m string _ _ hm
  by_cases hb : needs_brace w = true
  · -- a braced item
    have hitem : list_item_text w = '{' :: (w ++ ['}']) := by simp [list_item_text, hb]
    rw [hitem] at hm hlen hend ⊢
    obtain ⟨h0, h1⟩ := rd_of_drop_eq m string '{' (w ++ '}' :: tl) (by simpa using hm)
    have hloop := brace_loop_word m string length tl (w ++ ['}']).length (w ++ ['}']) 1 1 length
      (w.length + 1) (le_refl _)
      (by
        intro h
        simp only [List.mem_append, List.mem_singleton] at h
        rcases h with h | h
        · exact hwb h
        · revert h; decide)
      (by rw [h1]; simp) (by simp at hlen ⊢; omega) (le_refl _) (by simp at hlen ⊢; omega)
      (hspan hb)
    unfold tcl_next_token
    have hne : tcl_is_end '{' = false := by decide
    rw [if_neg (by rw [h0, hne]; simp), if_neg (by rw [h0]; decide),
      if_pos (Or.inr ⟨rfl, h0⟩)]
    simp only [h0]
    rw [if_neg (by decide), hloop]
    have hlen2 : (1 + (w.length + 1)) = ('{' :: (w ++ ['}'])).length := by simp; omega
    simp only [hlen2]
    unfold tcl_next_finish
    rw [if_neg (by simp at hlen ⊢; omega), if_neg (by simp), hend, ht2]
    simp
  · -- a bare item
    have hb2 : needs_brace w = false := by simpa using hb
    have hitem : list_item_text w = w := by simp [list_item_text, hb2]
    rw [hitem] at hm hlen hend ⊢
    have hall : ∀ c ∈ w, (tcl_is_space c || tcl_is_special c false) = false := by
      intro c hc
      simp only [needs_brace, Bool.or_eq_false_iff, List.any_eq_false] at hb2
      simpa using hb2.2 c hc
    cases hwc : w with
    | nil => simp [needs_brace, hwc] at hb2
    | cons c r =>
      have hc := hall c (by simp [hwc])
      simp only [Bool.or_eq_false_iff] at hc
      obtain ⟨n1, n2, n3, n4, n5, n6, n7⟩ := special_facts c hc.2
      have hsafe : c ≠ BIN_TOKEN := fun e => hwb (by simp [hwc, e])
      obtain ⟨h0, -⟩ := rd_of_drop_eq m string c (r ++ tl) (by simpa [hwc] using hm)
      have hloop := bare_loop_run m string w tl hall ht1 0 length (by simpa using hm) hlen
      unfold tcl_next_token
      rw [if_neg (by rw [h0, n7]; simp), if_neg (by rw [h0]; exact n1),
        if_neg (by rw [h0]; rintro (h | ⟨-, h⟩); exact n2 h; exact n5 h),
        if_neg (by rw [h0]; exact n4),
        if_neg (by rw [h0]; rintro (h | h); exact n3 h; exact n6 h),
        if_neg (by rw [h0]; exact hsafe)]
      have hv : ((4 &&& LEX_VAR) != 0) = false := by decide
      simp only [hv, hloop, Nat.zero_add]
      unfold tcl_next_finish
      rw [← hwc, if_neg (by omega), if_neg (by simp), hend, ht2]
      simp

theorem tcl_next_go_item (m : Mem) (s length flags : Nat) (sp w tl : Mem)
    (hm : m.drop s = sp ++ list_item_text w ++ tl)
    (hsp : ∀ c ∈ sp, tcl_is_space c = true)
    (htl : tcl_is_space (tl.headD NUL) = true ∨ tl.headD NUL = NUL)
    (hw : list_word w = true)
    (hlen : sp.length + (list_item_text w).length < length)
    (hflags : flags = 4 ∨ (flags = 0 ∧ (needs_brace w = false → w.head? ≠ some '#'))) :
    tcl_next_go m 1 s length flags =
      ⟨Token.TWORD, s + sp.length, some (s + sp.length + (list_item_text w).length), 4⟩ := by
  obtain ⟨hq, hnc, hv⟩ := flags_cases flags
    (by rcases hflags with h | h; exact Or.inl h; exact Or.inr h.1)
  obtain ⟨c, r, hcr, hcs, hcb, hcw⟩ := list_item_text_head w
  have hhead : (list_item_text w ++ tl).headD NUL = c := by rw [hcr]; rfl
  have hskip := tcl_next_skip_word m s length flags sp (list_item_text w) tl hm hsp
    (by rw [hhead]; exact hcs) (by omega)
    ⟨hq, by
      rcases hflags with h | ⟨h, hh⟩
      · left; subst h; decide
      · right
        rw [hhead]
        intro hc
        by_cases hb : needs_brace w = true
        · have := hcb hb; rw [this] at hc; revert hc; decide
        · have hb2 : needs_brace w = false := by simpa using hb
          have := hcw hb2
          apply hh hb2
          rw [this, hc]
          rfl⟩
  rw [tcl_next_go, hskip, hq, hnc]
  have hm2 : m.drop (s + sp.length) = list_item_text w ++ tl := by
    rw [← List.drop_drop, hm, List.append_assoc, List.drop_left]
  exact tcl_next_token_item m _ (s + sp.length) (length - sp.length) w tl hm2 htl hw (by omega)

/-- The word `tcl_list_at` extracts from an item without NUL and sentinel. -/
theorem tcl_value_at_word (m : Mem) (s : Nat) (w post : Mem) (h : m.drop s = w ++ post)
    (h1 : NUL ∉ w) (h3 : w.head? ≠ some BIN_TOKEN) :
    tcl_value m s w.length (tcl_binary m s w.length) = text_encoding w := by
  have hb : tcl_binary m s w.length = false := by
    have : ¬ tcl_binary m s w.length = true := by
      rw [tcl_binary_drop, h, tcl_binary_front]
      rintro (h | h)
      · exact h1 h
      · exact h3 h
    simpa using this
  rw [tcl_value_at m s w post _ h, hb]
  simp [h1, h3]

theorem list_item_bytes (w : Mem) (hw : list_word w = true) :
    ∀ c ∈ list_item_text w, c ≠ NUL ∧ c ≠ BIN_TOKEN := by
  intro c hc
  obtain ⟨hsafe, -⟩ := list_word_facts w hw
  unfold list_item_text at hc
  split at hc
  · simp only [List.mem_cons, List.mem_append, List.mem_singleton, List.not_mem_nil,
      or_false] at hc
    rcases hc with rfl | hc | rfl
    · exact ⟨by decide, by decide⟩
    · exact hsafe c hc
    · exact ⟨by decide, by decide⟩
  · exact hsafe c hc

theorem list_tail_bytes (W : List Mem) (hW : ∀ w ∈ W, list_word w = true) :
    ∀ c ∈ list_tail_text W, c ≠ NUL ∧ c ≠ BIN_TOKEN := by
  induction W with
  | nil => intro c hc; simp [list_tail_text] at hc
  | cons w ws ih =>
    intro c hc
    simp only [list_tail_text, List.mem_cons, List.mem_append] at hc
    rcases hc with rfl | hc | hc
    · exact ⟨by decide, by decide⟩
    · exact list_item_bytes w (hW w (by simp)) c hc
    · exact ih (fun v hv => hW v (by simp [hv])) c hc

theorem list_bytes (W : List Mem) (hW : ∀ w ∈ W, list_word w = true) :
    ∀ c ∈ list_text W, c ≠ NUL ∧ c ≠ BIN_TOKEN := by
  cases W with
  | nil => intro c hc; simp [list_text] at hc
  | cons w ws =>
    intro c hc
    simp only [list_text, List.mem_append] at hc
    rcases hc with hc | hc
    · exact list_item_bytes w (hW w (by simp)) c hc
    · exact list_tail_bytes ws (fun v hv => hW v (by simp [hv])) c hc

/-- What `tcl_list_append` builds from a list text without NUL and sentinel and a
text item without NUL and sentinel. -/
theorem tcl_list_append_word (T w : Mem) (hT : ∀ c ∈ T, c ≠ NUL ∧ c ≠ BIN_TOKEN)
    (h1 : NUL ∉ w) (h3 : w.head? ≠ some BIN_TOKEN) :
    tcl_list_append (T ++ [NUL]) (text_encoding w) =
      T ++ (if T.length > 0 then [' '] else []) ++ list_item_text w ++ [NUL] := by
  obtain ⟨h0, hl, hs, -, hb⟩ := text_value_facts w h1 h3
  have hsz := tcl_list_size_text T hT
  have hc : cstr (text_encoding w) 0 = w := cstr_of_parts w [NUL] h1 rfl
  unfold tcl_list_append
  simp only [hsz, hl, hb, hs, hc, Bool.false_eq_true, if_false, Nat.add_zero]
  have e1 : slice (T ++ [NUL]) 0 T.length = T := by simp [slice]
  have e2 : slice (text_encoding w) 0 w.length = w := by simp [slice, text_encoding]
  rw [e1, e2]
  cases w with
  | nil => simp [list_item_text, needs_brace]
  | cons c r =>
    by_cases hq : (c :: r).any (fun c => tcl_is_space c || tcl_is_special c false) = true
    · have : needs_brace (c :: r) = true := by simp only [needs_brace, hq]; simp
      simp [list_item_text, this, hq]
    · have hq2 : (c :: r).any (fun c => tcl_is_space c || tcl_is_special c false) = false := by
        simpa using hq
      have : needs_brace (c :: r) = false := by simp only [needs_brace, hq2]; simp
      simp only [list_item_text, this]
      simp [hq2]

theorem list_build_foldl_word (W : List Mem) :
    ∀ P : List Mem, (∀ w ∈ P, list_word w = true) → (∀ w ∈ W, list_word w = true) →
      W.foldl (fun list w => tcl_list_append list (tcl_value w 0 w.length false))
        (list_text P ++ [NUL]) = list_text (P ++ W) ++ [NUL] := by
  induction W with
  | nil => intro P _ _; simp
  | cons w ws ih =>
    intro P hP hW
    have hw := hW w (by simp)
    obtain ⟨-, h1, -, h3, -⟩ := list_word_facts w hw
    have hv : tcl_value w 0 w.length false = text_encoding w := by
      rw [tcl_value_eq]; simp [h1, h3]
    simp only [List.foldl_cons, hv]
    rw [tcl_list_append_word _ w (list_bytes P hP) h1 h3, ← list_text_snoc]
    have := ih (P ++ [w]) (by
      intro v hv; simp only [List.mem_append, List.mem_singleton] at hv
      rcases hv with hv | rfl
      · exact hP v hv
      · exact hw) (fun v hv => hW v (by simp [hv]))
    simpa using this

/-- The block built by `list_build` from words that the list code carries through. -/
theorem list_build_word (W : List Mem) (hW : ∀ w ∈ W, list_word w = true) :
    list_build W = list_text W ++ [NUL] := by
  have := list_build_foldl_word W [] (by simp) hW
  simpa [list_build, list_text, tcl_list_alloc, tcl_value_eq [] false, text_encoding] using this

/-- One iteration of the loop of `tcl_list_at` on an item. -/
theorem tcl_list_at_loop_item (m : Mem) (index fuel i : Nat) (p : tcl_each_state) (sp w tl : Mem)
    (hm : m.drop p.start = sp ++ list_item_text w ++ tl)
    (hsp : ∀ c ∈ sp, tcl_is_space c = true)
    (htl : tcl_is_space (tl.headD NUL) = true ∨ tl.headD NUL = NUL)
    (hw : list_word w = true)
    (hlen : sp.length + (list_item_text w).length < p.end_ - p.start)
    (hflags : p.flags = 4 ∨ (p.flags = 0 ∧ (needs_brace w = false → w.head? ≠ some '#'))) :
    tcl_list_at_loop m index (fuel + 1) p i =
      if i = index then some (some (text_encoding w))
      else
        tcl_list_at_loop m index fuel
          ⟨p.start + sp.length, p.start + sp.length + (list_item_text w).length,
            p.start + sp.length + (list_item_text w).length, p.end_, 4, Token.TWORD⟩ (i + 1) := by
  have hstep := tcl_next_go_item m p.start (p.end_ - p.start) p.flags sp w tl hm hsp htl hw hlen
    hflags
  obtain ⟨-, hw1, -, hw3, -⟩ := list_word_facts w hw
  have hnext : tcl_each_next m p =
      ⟨p.start + sp.length, p.start + sp.length + (list_item_text w).length, p.start, p.end_, 4,
        Token.TWORD⟩ := by
    simp [tcl_each_next, tcl_next, hstep]
  have hlt : p.start < p.end_ := by omega
  rw [tcl_list_at_loop]
  simp only [hlt, if_true, hnext]
  rw [if_neg (by decide : ¬ Token.TWORD = Token.TERROR)]
  have hm2 : m.drop (p.start + sp.length) = list_item_text w ++ tl := by
    rw [← List.drop_drop, hm, List.append_assoc, List.drop_left]
  by_cases hi : i = index
  · rw [if_pos hi, if_pos hi]
    by_cases hb : needs_brace w = true
    · have hitem : list_item_text w = '{' :: (w ++ ['}']) := by simp [list_item_text, hb]
      rw [hitem] at hm2 ⊢
      obtain ⟨h0, h1⟩ := rd_of_drop_eq m _ '{' (w ++ '}' :: tl) (by simpa using hm2)
      rw [if_pos h0]
      have hsz : p.start + sp.length + ('{' :: (w ++ ['}'])).length - (p.start + sp.length) - 2
          = w.length := by simp
      rw [hsz, tcl_value_at_word m _ w ('}' :: tl) h1 hw1 hw3]
    · have hb2 : needs_brace w = false := by simpa using hb
      have hitem : list_item_text w = w := by simp [list_item_text, hb2]
      rw [hitem] at hm2 ⊢
      have h0 : rd m (p.start + sp.length) ≠ '{' := by
        cases hwc : w with
        | nil => simp [needs_brace, hwc] at hb2
        | cons c r =>
          obtain ⟨h0, -⟩ := rd_of_drop_eq m _ c (r ++ tl) (by simpa [hwc] using hm2)
          rw [h0]
          simp only [needs_brace, hwc, List.isEmpty_cons, Bool.false_or, List.any_cons,
            Bool.or_eq_false_iff] at hb2
          exact (special_facts c hb2.1.2).2.2.2.2.1
      rw [if_neg h0]
      have hsz : p.start + sp.length + w.length - (p.start + sp.length) = w.length := by omega
      rw [hsz, tcl_value_at_word m _ w tl hm2 hw1 hw3]
  · rw [if_neg hi, if_neg hi]

/-- The loop of `tcl_list_at` over the items that follow the first one. -/
theorem tcl_list_at_loop_items (m : Mem) (index : Nat) (ws : List Mem) :
    ∀ (fuel i : Nat) (p : tcl_each_state),
      m.drop p.start = list_tail_text ws ++ [NUL] →
      (∀ w ∈ ws, list_word w = true) →
      p.end_ = p.start + (list_tail_text ws).length + 1 → p.flags = 4 →
      ws.length + 1 ≤ fuel → i ≤ index →
      tcl_list_at_loop m index fuel p i = some ((ws[index - i]?).map text_encoding) := by
  induction ws with
  | nil =>
    intro fuel i p hm _ hend hfl hfuel _
    obtain ⟨f, rfl⟩ : ∃ f, fuel = f + 1 := ⟨fuel - 1, by omega⟩
    have h0 : rd m p.start = NUL := by rw [rd_eq_headD_drop, hm]; rfl
    have hstep := tcl_next_go_end m p.start (p.end_ - p.start) p.flags h0
      (by simp [list_tail_text] at hend; omega) (Or.inl hfl)
    have hnext : tcl_each_next m p = ⟨p.start, p.start + 1, p.start, p.end_, 0, Token.TCMD⟩ := by
      simp [tcl_each_next, tcl_next, hstep]
    have hlt : p.start < p.end_ := by omega
    rw [tcl_list_at_loop]
    simp only [hlt, if_true, hnext]
    rw [if_neg (by decide), if_neg (by decide)]
    simp only [list_tail_text, List.length_nil, Nat.add_zero] at hend
    rw [tcl_list_at_loop_done]
    · simp
    · simp [hend]
  | cons w ws ih =>
    intro fuel i p hm hW hend hfl hfuel hi
    obtain ⟨f, rfl⟩ : ∃ f, fuel = f + 1 := ⟨fuel - 1, by omega⟩
    have hm2 : m.drop p.start = [' '] ++ list_item_text w ++ (list_tail_text ws ++ [NUL]) := by
      rw [hm]; simp [list_tail_text]
    have hlen : ([' '] : Mem).length + (list_item_text w).length < p.end_ - p.start := by
      rw [hend]; simp [list_tail_text]; omega
    rw [tcl_list_at_loop_item m index f i p [' '] w (list_tail_text ws ++ [NUL]) hm2
      (by intro c hc; simp at hc; subst hc; decide) (list_tail_text_head ws)
      (hW w (by simp)) hlen (Or.inl hfl)]
    by_cases hidx : i = index
    · rw [if_pos hidx, hidx]; simp
    · rw [if_neg hidx]
      have hdrop : m.drop (p.start + ([' '] : Mem).length + (list_item_text w).length)
          = list_tail_text ws ++ [NUL] := by
        rw [Nat.add_assoc, ← List.drop_drop, hm2]
        exact List.drop_left' (by simp; omega)
      rw [ih f (i + 1) _ hdrop (fun v hv => hW v (by simp [hv]))
        (by simp [hend, list_tail_text]; omega) rfl (by simpa using hfuel) (by omega)]
      have : index - i = (index - (i + 1)) + 1 := by omega
      rw [this]; simp

/-- Reading a list back, at every index. -/
theorem tcl_list_at_items (W : List Mem) (index : Nat)
    (hW : ∀ w ∈ W, list_word w = true) (hfirst : list_first_word W = true) :
    tcl_list_at (list_text W ++ [NUL]) index = some ((W[index]?).map text_encoding) := by
  have hbytes := list_bytes W hW
  have hnul : NUL ∉ list_text W := fun h => (hbytes _ h).1 rfl
  have hhd : (list_text W).head? ≠ some BIN_TOKEN := by
    intro h
    cases hT : list_text W with
    | nil => simp [hT] at h
    | cons c t =>
      rw [hT] at h
      have : c ∈ list_text W := by simp [hT]
      exact (hbytes c this).2 (by simpa using h)
  obtain ⟨-, hl, hs, -, -⟩ := text_value_facts (list_text W) hnul hhd
  unfold text_encoding at hl hs
  unfold tcl_list_at
  rw [hl, hs]
  cases W with
  | nil =>
    have hstep := tcl_next_go_end [NUL] 0 1 0 rfl (by decide) (Or.inr rfl)
    simp only [list_text, List.nil_append, List.length_nil, tcl_each_init]
    rw [tcl_list_at_loop]
    simp [tcl_each_next, tcl_next, hstep, tcl_list_at_loop]
  | cons w ws =>
    simp only [list_text, tcl_each_init]
    have hlenw := list_item_text_length_pos w
    have hlent := list_tail_text_length ws
    have hf1 : needs_brace w = false → w.head? ≠ some '#' := by
      intro hb h
      simp only [list_first_word, hb, Bool.false_or, h, bne_self_eq_false] at hfirst
      exact absurd hfirst (by simp)
    obtain ⟨f, hf⟩ : ∃ f, (list_item_text w ++ list_tail_text ws).length + 2 = f + 1 := ⟨_, rfl⟩
    rw [hf]
    rw [tcl_list_at_loop_item _ index f 0 _ [] w (list_tail_text ws ++ [NUL])
      (by simp) (by simp) (list_tail_text_head ws) (hW w (by simp))
      (by simp; omega) (Or.inr ⟨rfl, hf1⟩)]
    by_cases hidx : 0 = index
    · rw [if_pos hidx, ← hidx]; simp
    · rw [if_neg hidx]
      rw [tcl_list_at_loop_items _ index ws f 1 _ (by simp)
        (fun v hv => hW v (by simp [hv])) (by simp) rfl
        (by simp at hf; omega) (by omega)]
      have : index = (index - 1) + 1 := by omega
      rw [this]; simp

set_option maxRecDepth 1000000 in
/-- C1 as stated fails, for words of four kinds.  (1) The list built from the
single word `}` is the text `{}}`, which the lexer rejects, so
`tcl_list_at(list, 0)` returns NULL.  (2) The word `a b` followed by a backslash
is wrapped in braces; the backslash makes the scan of `tcl_next` pass over the
closing brace, and `tcl_list_at(list, 0)` returns NULL.  (3) The first word `#a`
is left bare and the list starts with a comment that runs up to the line break
inside the second word: `tcl_list_at(list, 0)` returns NULL.  (4) A word whose
braces are balanced but which holds the sentinel 0x01 followed by two bytes that
give the length 257: the scan passes over the opening brace as part of a binary
block, ends at the brace of the word, and `tcl_list_at(list, 0)` returns NULL.
In the four cases the words are NUL-free, `tcl_binary` does not take them for
binary blocks, and no byte outside the list is read. -/
theorem list_roundtrip_fails :
    (list_build [['}']] = ['{', '}', '}', NUL] ∧
      tcl_binary ['}'] 0 1 = false ∧
      tcl_list_at (list_build [['}']]) 0 = some none) ∧
    (list_build [['a', ' ', 'b', '\\']] = ['{', 'a', ' ', 'b', '\\', '}', NUL] ∧
      tcl_binary ['a', ' ', 'b', '\\'] 0 4 = false ∧
      tcl_list_at (list_build [['a', ' ', 'b', '\\']]) 0 = some none) ∧
    (list_build [['#', 'a'], ['b', '\n', 'c']] =
        ['#', 'a', ' ', '{', 'b', '\n', 'c', '}', NUL] ∧
      tcl_binary ['#', 'a'] 0 2 = false ∧ tcl_binary ['b', '\n', 'c'] 0 3 = false ∧
      tcl_list_at (list_build [['#', 'a'], ['b', '\n', 'c']]) 0 = some none) ∧
    (list_build [[' ', BIN_TOKEN, BIN_TOKEN, BIN_TOKEN, '{'] ++ List.replicate 260 'x' ++ ['}']] =
        ['{', ' ', BIN_TOKEN, BIN_TOKEN, BIN_TOKEN, '{'] ++ List.replicate 260 'x' ++
          ['}', '}', NUL] ∧
      tcl_binary ([' ', BIN_TOKEN, BIN_TOKEN, BIN_TOKEN, '{'] ++ List.replicate 260 'x' ++ ['}'])
        0 266 = false ∧
      tcl_list_at
        (list_build [[' ', BIN_TOKEN, BIN_TOKEN, BIN_TOKEN, '{'] ++ List.replicate 260 'x' ++ ['}']])
        0 = some none) := by
  refine ⟨by decide, by decide, by decide, ?_, ?_, ?_⟩
  · decide!
  · decide!
  · decide!

/-- C1, amended: for every finite sequence of words `W`, each word without NUL
and without the binary sentinel 0x01, in which every word that `tcl_list_append`
wraps in braces (the empty word and the words with a space, a tab or a special
byte) has braces that balance as `tcl_next` counts them (`list_word`), and whose
first word, if `tcl_list_append` leaves it bare, does not begin with `#`
(`list_first_word`), the list built from `tcl_list_alloc()` by one
`tcl_list_append` per word returns, through `tcl_list_at(list, i)` for every
`i < |W|`, the value `tcl_value(W[i], |W[i]|, false)`, whose payload is exactly
`W[i]`, and `tcl_list_at(list, |W|)` returns NULL.  Words with a backslash and
words with braces, nested or escaped, are among them. -/
theorem list_roundtrip (W : List Mem) (hW : ∀ w ∈ W, list_word w = true)
    (hfirst : list_first_word W = true) :
    (∀ (i : Nat) (h : i < W.length),
      tcl_list_at (list_build W) i = some (some (tcl_value W[i] 0 W[i].length false)) ∧
      payload (tcl_value W[i] 0 W[i].length false) = W[i]) ∧
    tcl_list_at (list_build W) W.length = some none := by
  rw [list_build_word W hW]
  refine ⟨fun i h => ?_, ?_⟩
  · obtain ⟨-, h1, -, h3, -⟩ := list_word_facts W[i] (hW _ (List.getElem_mem h))
    have hv : tcl_value W[i] 0 W[i].length false = text_encoding W[i] := by
      rw [tcl_value_eq]; simp [h1, h3]
    rw [tcl_list_at_items W i hW hfirst, hv]
    refine ⟨by simp [h], (text_value_facts _ h1 h3).2.2.2.1⟩
  · rw [tcl_list_at_items W W.length hW hfirst]
    simp

set_option maxRecDepth 100000 in
/-- The amended round trip at the six words `#a b`, `a{b}c`, `if {1} {y}`, `x\y`,
`a\{b` and the empty word: the first word begins with `#` but is wrapped in
braces; the second and the third hold balanced braces; the fourth holds a
backslash and is left bare; the fifth holds an escaped brace. -/
theorem list_roundtrip_witness :
    (∀ w ∈ [['#', 'a', ' ', 'b'], ['a', '{', 'b', '}', 'c'],
        ['i', 'f', ' ', '{', '1', '}', ' ', '{', 'y', '}'], ['x', '\\', 'y'],
        ['a', '\\', '{', 'b'], []], list_word w = true) ∧
    list_first_word [['#', 'a', ' ', 'b'], ['a', '{', 'b', '}', 'c'],
        ['i', 'f', ' ', '{', '1', '}', ' ', '{', 'y', '}'], ['x', '\\', 'y'],
        ['a', '\\', '{', 'b'], []] = true ∧
    list_build [['#', 'a', ' ', 'b'], ['a', '{', 'b', '}', 'c'],
        ['i', 'f', ' ', '{', '1', '}', ' ', '{', 'y', '}'], ['x', '\\', 'y'],
        ['a', '\\', '{', 'b'], []] =
      ['{', '#', 'a', ' ', 'b', '}', ' ', '{', 'a', '{', 'b', '}', 'c', '}', ' ',
        '{', 'i', 'f', ' ', '{', '1', '}', ' ', '{', 'y', '}', '}', ' ', 'x', '\\', 'y', ' ',
        '{', 'a', '\\', '{', 'b', '}', ' ', '{', '}', NUL] ∧
    tcl_list_at (list_build [['#', 'a', ' ', 'b'], ['a', '{', 'b', '}', 'c'],
        ['i', 'f', ' ', '{', '1', '}', ' ', '{', 'y', '}'], ['x', '\\', 'y'],
        ['a', '\\', '{', 'b'], []]) 2 =
      some (some (tcl_value ['i', 'f', ' ', '{', '1', '}', ' ', '{', 'y', '}'] 0 10 false)) ∧
    payload (tcl_value ['a', '\\', '{', 'b'] 0 4 false) = ['a', '\\', '{', 'b'] ∧
    tcl_list_at (list_build [['#', 'a', ' ', 'b'], ['a', '{', 'b', '}', 'c'],
        ['i', 'f', ' ', '{', '1', '}', ' ', '{', 'y', '}'], ['x', '\\', 'y'],
        ['a', '\\', '{', 'b'], []]) 4 =
      some (some (tcl_value ['a', '\\', '{', 'b'] 0 4 false)) ∧
    tcl_list_at (list_build [['#', 'a', ' ', 'b'], ['a', '{', 'b', '}', 'c'],
        ['i', 'f', ' ', '{', '1', '}', ' ', '{', 'y', '}'], ['x', '\\', 'y'],
        ['a', '\\', '{', 'b'], []]) 6 = some none :=
  ⟨by decide, by decide, by decide,
    ((list_roundtrip [['#', 'a', ' ', 'b'], ['a', '{', 'b', '}', 'c'],
        ['i', 'f', ' ', '{', '1', '}', ' ', '{', 'y', '}'], ['x', '\\', 'y'],
        ['a', '\\', '{', 'b'], []] (by decide) (by decide)).1 2 (by decide)).1,
    ((list_roundtrip [['#', 'a', ' ', 'b'], ['a', '{', 'b', '}', 'c'],
        ['i', 'f', ' ', '{', '1', '}', ' ', '{', 'y', '}'], ['x', '\\', 'y'],
        ['a', '\\', '{', 'b'], []] (by decide) (by decide)).1 4 (by decide)).2,
    ((list_roundtrip [['#', 'a', ' ', 'b'], ['a', '{', 'b', '}', 'c'],
        ['i', 'f', ' ', '{', '1', '}', ' ', '{', 'y', '}'], ['x', '\\', 'y'],
        ['a', '\\', '{', 'b'], []] (by decide) (by decide)).1 4 (by decide)).1,
    (list_roundtrip [['#', 'a', ' ', 'b'], ['a', '{', 'b', '}', 'c'],
        ['i', 'f', ' ', '{', '1', '}', ' ', '{', 'y', '}'], ['x', '\\', 'y'],
        ['a', '\\', '{', 'b'], []] (by decide) (by decide)).2⟩

end Partcl
